import Mathlib

/-!
# unsafely: a verification development

A shallow embedding of the encoder of `github.com/outriggerlabs/unsafely`
(`jsonEncoder.go`, `pointerValue.go`, `complexValue.go`, `interfaceValue.go`,
`copyCommon.go`, `encodedTypeFor.go`, `util.go`, `marshalJSON.go`), of the
decoding functions of the boxes (`decodeFromPointerValue`,
`decodeFromComplexValue`, `decodeFromInterfaceValue`) and of the resolvers of
`typeutil` (`staticResolver.go`, `chainResolver.go`).

Modelling conventions.

* A `reflect.Value` is a pair of a `GoType` and a `Val`; the memory that
  pointers refer to is a `Heap`.  A pointer value carries its machine address
  (`addr`, what `UnsafePointer()` returns and what the encoder uses as map key)
  and the variable it designates (`obj`, what `Elem()` returns).
* A `json.RawMessage` is kept as the JSON document it holds (`Json`), that is
  up to insignificant white space; `Json.compact` and `Json.indentAt` print it.
* `encoding/json` is outside the repository.  Its behaviour on the wire values
  is modelled by `jsonMarshal`; the decimal text of a finite floating point
  number is left to a parameter `ff : FloatFormat`.
* Recursion through the heap is bounded by a fuel argument; running out of
  fuel is the outcome `Err.outOfFuel`, which no Go execution produces.  A call
  whose outcome is `Err.outOfFuel` for every fuel is a call that does not
  return in Go.
* The cache of the mirror (`typeCache`) is left out of `createEncodedTypeFor`;
  `createEncodedTypeForCached` has it as explicit state, and
  `typeCache_transparent` shows that it does not change a result.
* A value (`Val`) is a finite tree; sharing and cycles go through pointers and
  the heap.  A slice or a map that contains itself is given by its unrollings
  (`selfSlice`, `selfMap`).
* The counter `pointerIndex` of the encoder is a mathematical integer, the
  number of ids given so far; `EncodeWrapping` has it as the Go `int` it is
  (`incrementInt`), and `Encode_agreesBelow` shows that nothing differs as
  long as at most `maxInt bits` ids have been given.
* A Go panic is the outcome `Err.panic`.
-/

namespace Unsafely

/-! ## Types (`reflect.Type`) -/

/-- The kinds of `reflect.Kind`. -/
inductive Kind where
  | invalid | bool | int | int8 | int16 | int32 | int64
  | uint | uint8 | uint16 | uint32 | uint64 | uintptr
  | float32 | float64 | complex64 | complex128
  | array | chan | func | interface | map | pointer | slice | string | struct
  | unsafePointer
  deriving DecidableEq

/-- The text of `reflect.Kind.String()`. -/
def Kind.toString : Kind → String
  | .invalid => "invalid" | .bool => "bool" | .int => "int" | .int8 => "int8"
  | .int16 => "int16" | .int32 => "int32" | .int64 => "int64"
  | .uint => "uint" | .uint8 => "uint8" | .uint16 => "uint16"
  | .uint32 => "uint32" | .uint64 => "uint64" | .uintptr => "uintptr"
  | .float32 => "float32" | .float64 => "float64"
  | .complex64 => "complex64" | .complex128 => "complex128"
  | .array => "array" | .chan => "chan" | .func => "func"
  | .interface => "interface" | .map => "map" | .pointer => "ptr"
  | .slice => "slice" | .string => "string" | .struct => "struct"
  | .unsafePointer => "unsafe.Pointer"

/-- Source: `isSimplePrimitive` in `util.go`. -/
def isSimplePrimitive (kind : Kind) : Bool :=
  match kind with
  | .bool | .int | .int8 | .int16 | .int32 | .int64
  | .uint | .uint8 | .uint16 | .uint32 | .uint64 | .uintptr
  | .float32 | .float64 | .string => true
  | _ => false

/-- Source: `isComplexNumber` in `util.go`. -/
def isComplexNumber (kind : Kind) : Bool :=
  kind == Kind.complex64 || kind == Kind.complex128

/-- The name of a defined (declared) type: package path, package name and
type name. -/
structure TypeName where
  pkgPath : String
  pkg : String
  name : String
  deriving DecidableEq

/-- What the code reads of a `reflect.StructField` of an original struct:
the declared name, whether the field is embedded, and the two tags the
mirror looks at (`Tag.Get` yields the empty string for an absent tag). -/
structure FieldInfo where
  name : String
  unsafelyJson : String := ""
  json : String := ""
  embedded : Bool := false
  deriving DecidableEq

mutual
/-- A runtime type.  `basic k` is the predeclared or literal type of a kind
without components the code looks at (booleans, numbers, strings, channels,
functions, `unsafe.Pointer`, interfaces); `named n` is a defined type, whose
underlying type the type environment gives. -/
inductive GoType where
  | basic (k : Kind)
  | named (n : TypeName)
  | pointer (elem : GoType)
  | slice (elem : GoType)
  | array (len : Nat) (elem : GoType)
  | map (key : GoType) (elem : GoType)
  | struct (fields : FieldList)
  deriving DecidableEq
/-- The fields of a struct type, in declaration order. -/
inductive FieldList where
  | nil
  | cons (info : FieldInfo) (type : GoType) (rest : FieldList)
  deriving DecidableEq
end

/-- The fields as a list. -/
def FieldList.toList : FieldList → List (FieldInfo × GoType)
  | .nil => []
  | .cons info t rest => (info, t) :: rest.toList

/-- Builds the field list of a struct type from a list. -/
def FieldList.ofList : List (FieldInfo × GoType) → FieldList
  | [] => .nil
  | (info, t) :: rest => .cons info t (FieldList.ofList rest)

/-! ## JSON documents -/

/-- A JSON document.  A number keeps its literal text. -/
inductive Json where
  | null
  | bool (b : Bool)
  | num (lit : String)
  | str (s : String)
  | arr (items : List Json)
  | obj (members : List (String × Json))

/-- The decimal text of a finite floating point number given by its IEEE-754
bit pattern and its width (32 or 64), as `encoding/json` prints it. -/
abbrev FloatFormat := Nat → Nat → String

/-! ## Values -/

/-- A non-nil pointer: `addr` is the machine address, the key of the pointer
tables; `obj` names the variable the pointer designates. -/
structure Pointer where
  addr : Nat
  obj : Nat
  deriving DecidableEq

/-- The data of a value of primitive kind: a boolean, an integer of any
integer kind, a floating point number (IEEE-754 bit pattern) or a string. -/
inductive Prim where
  | bool (b : Bool)
  | int (i : Int)
  | float (bits : Nat)
  | str (s : String)
  deriving DecidableEq

/-- The data of a Go value; its type travels next to it.  The parts of a
complex number are IEEE-754 bit patterns of width 64.  A map lists its entries
in the order in which `MapRange` visits them. -/
inductive Val where
  | prim (p : Prim)
  | complex (re : Nat) (im : Nat)
  | ptr (p : Option Pointer)
  | slice (items : Option (List Val))
  | array (items : List Val)
  | map (entries : Option (List (Val × Val)))
  | struct (fields : List (String × Val))
  | iface (dyn : Option (GoType × Val))
  | other

/-- The memory pointers refer to: the value of each variable. -/
abbrev Heap := Nat → Option Val

/-- The outcome of a failed call: a Go `error` with its message, a panic, or
the exhaustion of the fuel of the model. -/
inductive Err where
  | msg (s : String)
  | panic (s : String)
  | outOfFuel
  deriving DecidableEq

/-- Wrapping as in `fmt.Errorf(pre + "%w", err)`: the message is prefixed. -/
def Err.wrap (pre : String) : Err → Err
  | .msg s => .msg (pre ++ s)
  | e => e

/-- The type environment: the underlying type of every defined type, and for
every type that implements `json.Marshaler` the result of marshalling a value
of it with `encoding/json` (the output of its `MarshalJSON`, or its error). -/
structure TypeEnv where
  underlying : TypeName → Option GoType
  marshaler : GoType → Option (Val → Except String Json)

/-- The type with a defined type replaced by its underlying type. -/
def TypeEnv.expand (env : TypeEnv) : GoType → GoType
  | .named n => (env.underlying n).getD (.basic .invalid)
  | t => t

/-- Source: `reflect.Type.Kind()`. -/
def TypeEnv.kind (env : TypeEnv) (t : GoType) : Kind :=
  match env.expand t with
  | .basic k => k
  | .named _ => .invalid
  | .pointer _ => .pointer
  | .slice _ => .slice
  | .array _ _ => .array
  | .map _ _ => .map
  | .struct _ => .struct

/-- Source: `reflect.Type.Elem()` for pointers, slices, arrays and maps. -/
def TypeEnv.elem (env : TypeEnv) (t : GoType) : GoType :=
  match env.expand t with
  | .pointer e => e
  | .slice e => e
  | .array _ e => e
  | .map _ e => e
  | _ => .basic .invalid

/-- Source: `reflect.Type.Key()` for maps. -/
def TypeEnv.key (env : TypeEnv) (t : GoType) : GoType :=
  match env.expand t with
  | .map k _ => k
  | _ => .basic .invalid

/-- Source: `reflect.Type.Len()` for arrays. -/
def TypeEnv.len (env : TypeEnv) (t : GoType) : Nat :=
  match env.expand t with
  | .array n _ => n
  | _ => 0

/-- The fields of a struct type (`NumField`, `Field(i)`). -/
def TypeEnv.fields (env : TypeEnv) (t : GoType) : List (FieldInfo × GoType) :=
  match env.expand t with
  | .struct fs => fs.toList
  | _ => []

/-- Source: `reflect.Type.Implements(jsonMarshalerType)`. -/
def TypeEnv.implementsMarshaler (env : TypeEnv) (t : GoType) : Bool :=
  (env.marshaler t).isSome

mutual
/-- The text of `reflect.Type.String()`, as far as the model knows the
type: struct tags and the signatures of channels and functions are not
printed. -/
def typeString : GoType → String
  | .basic .interface => "interface \x7b\x7d"
  | .basic k => k.toString
  | .named n => if n.pkg = "" then n.name else n.pkg ++ "." ++ n.name
  | .pointer e => "*" ++ typeString e
  | .slice e => "[]" ++ typeString e
  | .array n e => "[" ++ toString n ++ "]" ++ typeString e
  | .map k e => "map[" ++ typeString k ++ "]" ++ typeString e
  | .struct fs => "struct \x7b" ++ fieldsString fs ++ "\x7d"
/-- The fields of a struct type, as `String()` lists them. -/
def fieldsString : FieldList → String
  | .nil => ""
  | .cons info t .nil => " " ++ info.name ++ " " ++ typeString t ++ " "
  | .cons info t rest => " " ++ info.name ++ " " ++ typeString t ++ ";" ++ fieldsString rest
end

/-! ## Wire types and wire values -/

/-- What the mirror sets on a field of a wire struct: the name `F<i>`, the
struct tag, and the embedded flag copied from the original field. -/
structure WFieldInfo where
  name : String
  tag : String
  embedded : Bool := false
  deriving DecidableEq

/-- The wire ("encoded") types that `createEncodedTypeFor` builds. -/
inductive WType where
  | rawMessage
  | interfaceValue
  | pointerValue
  | complexValue
  | prim (t : GoType)
  | slice (elem : WType)
  | array (len : Nat) (elem : WType)
  | map (key : WType) (elem : WType)
  | struct (fields : List (WFieldInfo × WType))

/-- Source: `pointerValue` in `pointerValue.go`. -/
structure PointerValue where
  pointer : Int
  value : Json

/-- Source: `interfaceValue` in `interfaceValue.go`. -/
structure InterfaceValue where
  ptrDepth : Int
  pkgPath : String
  typeName : String
  typeString : String
  value : Json

/-- Source: `complexValue` in `complexValue.go`. -/
structure ComplexValue where
  real : Nat
  imag : Nat
  deriving DecidableEq

/-- A value of a wire type.  A copied primitive keeps its type, a slice the
wire type of its elements; a `*interfaceValue` is `none` when nil. -/
inductive Wire where
  | prim (t : GoType) (p : Prim)
  | rawMessage (j : Json)
  | pointerValue (pv : PointerValue)
  | interfaceValue (iv : Option InterfaceValue)
  | complexValue (cv : ComplexValue)
  | slice (elem : WType) (items : Option (List Wire))
  | array (items : List Wire)
  | map (entries : Option (List (Wire × Wire)))
  | struct (fields : List (WFieldInfo × Wire))

/-- Source: `reflect.Type.Kind()` of a wire type: `json.RawMessage` is a
slice, `*interfaceValue` a pointer, the other two boxes are structs. -/
def WType.kind (env : TypeEnv) : WType → Kind
  | .rawMessage => .slice
  | .interfaceValue => .pointer
  | .pointerValue => .struct
  | .complexValue => .struct
  | .prim t => env.kind t
  | .slice _ => .slice
  | .array _ _ => .array
  | .map _ _ => .map
  | .struct _ => .struct

/-- Source: `stringType` in `encodedTypeFor.go`. -/
def stringType : WType := .prim (.basic .string)

/-- Source: `isPointerValueType` in `pointerValue.go`. -/
def isPointerValueType : WType → Bool
  | .pointerValue => true
  | _ => false

/-- Source: `isInterfaceValueType` in `interfaceValue.go`. -/
def isInterfaceValueType : WType → Bool
  | .interfaceValue => true
  | _ => false

/-- Source: `isComplexValueType` in `complexValue.go`. -/
def isComplexValueType : WType → Bool
  | .complexValue => true
  | _ => false

/-! ## Struct tags (`reflect.StructTag`) and `strings.Cut` -/

/-- The double quote character. -/
def dquote : Char := Char.ofNat 34

/-- The backslash character. -/
def backslash : Char := Char.ofNat 92

/-- Source: `strings.Cut(s, ",")` on the characters of `s`. -/
def cutComma : List Char → List Char × List Char × Bool
  | [] => ([], [], false)
  | c :: cs =>
    if c = ',' then ([], cs, true)
    else
      let r := cutComma cs
      (c :: r.1, r.2.1, r.2.2)

/-- The quoted value at the head of a tag, after its opening quote: the text
up to the closing quote (a backslash protects the next character) and what
follows the closing quote.  Part of `reflect.StructTag.Lookup`. -/
def scanQuoted : List Char → Option (List Char × List Char)
  | [] => none
  | c :: rest =>
    if c = dquote then some ([], rest)
    else if c = backslash then
      match rest with
      | [] => none
      | d :: rest2 => (scanQuoted rest2).map (fun r => (c :: d :: r.1, r.2))
    else (scanQuoted rest).map (fun r => (c :: r.1, r.2))

/-- The text a double-quoted Go string literal denotes (`strconv.Unquote`),
for the one-character escapes; a line break or another escape is a syntax
error (the numeric escapes are not modelled). -/
def unquoteBody : List Char → Option (List Char)
  | [] => some []
  | c :: rest =>
    if c = '\n' then none
    else if c = dquote then none
    else if c = backslash then
      match rest with
      | [] => none
      | d :: rest2 =>
        let out : Option Char :=
          if d = 'a' then some (Char.ofNat 7) else if d = 'b' then some (Char.ofNat 8)
          else if d = 'f' then some (Char.ofNat 12) else if d = 'n' then some '\n'
          else if d = 'r' then some '\r' else if d = 't' then some '\t'
          else if d = 'v' then some (Char.ofNat 11) else if d = backslash then some backslash
          else if d = dquote then some dquote else none
        match out, unquoteBody rest2 with
        | some o, some r => some (o :: r)
        | _, _ => none
    else (unquoteBody rest).map (fun r => c :: r)

/-- Whether a character may stand in the key of a struct tag. -/
def isTagKeyChar (c : Char) : Bool :=
  decide (c.toNat > 32) && c != ':' && c != dquote && c.toNat != 127

/-- Source: `reflect.StructTag.Lookup`, on the characters of the tag; the
first argument bounds the number of key-value pairs scanned. -/
def structTagLookup : Nat → List Char → List Char → Option (List Char)
  | 0, _, _ => none
  | n + 1, tag, key =>
    let tag1 := tag.dropWhile (fun c => c == ' ')
    let name := tag1.takeWhile isTagKeyChar
    match tag1.dropWhile isTagKeyChar with
    | c1 :: c2 :: rest =>
      if name.isEmpty || c1 != ':' || c2 != dquote then none
      else
        match scanQuoted rest with
        | none => none
        | some (body, tag2) =>
          if name = key then unquoteBody body
          else structTagLookup n tag2 key
    | _ => none

/-- Source: `reflect.StructTag.Get`: the value of the key, or the empty
string. -/
def structTagGet (tag : String) (key : String) : String :=
  match structTagLookup (tag.length + 1) tag.data key.data with
  | some v => String.mk v
  | none => ""

/-- The text of `%q` for a string (`strconv.Quote`): quotes and backslashes
are escaped; other characters are kept. -/
def goQuote (s : String) : String :=
  "\"" ++ String.mk (s.data.flatMap (fun c =>
    if c = dquote then [backslash, dquote] else if c = backslash then [backslash, backslash] else [c])) ++ "\""

/-! ## The mirror: `encodedTypeFor` -/

/-- The loop over the fields of a struct in `createEncodedTypeFor`: `i` is
the index of the next field, `used` is `usedJsonNames`, and `mirror` is
`encodedTypeFor`. -/
def mirrorStructFields (mirror : GoType → Except Err WType) :
    Nat → List (String × String) → List (FieldInfo × GoType) →
    Except Err (List (WFieldInfo × WType))
  | _, _, [] => .ok []
  | i, used, (field, fieldType) :: rest =>
    let fieldName := field.name
    -- Default to the "json" tag, but override with the "unsafely.json" tag.
    let jsonTag :=
      if field.unsafelyJson ≠ "" then field.unsafelyJson
      else if field.json ≠ "" then field.json
      else ""
    if jsonTag = "-" then mirrorStructFields mirror (i + 1) used rest
    else
      let cut := cutComma jsonTag.data
      let jsonOptions := String.mk cut.2.1
      let hasOptions := cut.2.2
      let jsonName := if String.mk cut.1 = "" then fieldName else String.mk cut.1
      let jsonTag := if hasOptions then jsonName ++ "," ++ jsonOptions else jsonName
      match used.lookup jsonName with
      | some existingField =>
        .error (.msg ("createEncodedTypeFor(): duplicate JSON field name " ++ goQuote jsonName
          ++ " (struct fields " ++ goQuote existingField ++ " and " ++ goQuote field.name ++ ")"))
      | none =>
        match mirror fieldType with
        | .error e => .error (e.wrap "createEncodedTypeFor: ")
        | .ok newType =>
          let info : WFieldInfo :=
            { name := "F" ++ toString i
              tag := "json:\"" ++ jsonTag ++ "\" original:\"" ++ fieldName ++ "\""
              embedded := field.embedded }
          match mirrorStructFields mirror (i + 1) ((jsonName, field.name) :: used) rest with
          | .error e => .error e
          | .ok fields => .ok ((info, newType) :: fields)

/-- Source: `createEncodedTypeFor` in `encodedTypeFor.go`.  The recursive
calls of the source go through `encodedTypeFor`, whose cache holds only
results of this function and leaves the result unchanged
(`createEncodedTypeForCached` has the cache, `typeCache_transparent` compares
the two); the fuel bounds the depth of the recursion. -/
def createEncodedTypeFor (env : TypeEnv) : Nat → GoType → Except Err WType
  | 0, _ => .error .outOfFuel
  | fuel + 1, inputT =>
    if env.implementsMarshaler inputT then .ok .rawMessage
    else
      let kind := env.kind inputT
      if kind = .chan || kind = .func || kind = .unsafePointer then
        .error (.msg ("createEncodedTypeFor: unsupported kind " ++ kind.toString ++ " for "
          ++ typeString inputT))
      else if kind = .interface then .ok .interfaceValue
      else if kind = .pointer then .ok .pointerValue
      else if kind = .slice then
        match createEncodedTypeFor env fuel (env.elem inputT) with
        | .error e => .error (e.wrap "createEncodedTypeFor: ")
        | .ok elemType => .ok (.slice elemType)
      else if kind = .array then
        match createEncodedTypeFor env fuel (env.elem inputT) with
        | .error e => .error (e.wrap "createEncodedTypeFor: ")
        | .ok elemType => .ok (.array (env.len inputT) elemType)
      else if kind = .map then
        match createEncodedTypeFor env fuel (env.key inputT) with
        | .error e => .error (e.wrap "createEncodedTypeFor: ")
        | .ok keyType =>
          match createEncodedTypeFor env fuel (env.elem inputT) with
          | .error e => .error (e.wrap "createEncodedTypeFor: ")
          | .ok valueType =>
            -- JSON maps cannot have struct keys, so we use string keys instead.
            let keyType := if !isSimplePrimitive (keyType.kind env) then stringType else keyType
            .ok (.map keyType valueType)
      else if isComplexNumber kind then .ok .complexValue
      else if isSimplePrimitive kind then .ok (.prim inputT)
      else if kind ≠ .struct then
        .error (.msg ("createEncodedTypeFor: unhandled non-struct kind " ++ kind.toString
          ++ " of " ++ typeString inputT))
      else
        match mirrorStructFields (createEncodedTypeFor env fuel) 0 [] (env.fields inputT) with
        | .error e => .error e
        | .ok fields => .ok (.struct fields)

/-- Source: `encodedTypeFor` in `encodedTypeFor.go` (the cache is transparent). -/
def encodedTypeFor (env : TypeEnv) (fuel : Nat) (inputT : GoType) : Except Err WType :=
  createEncodedTypeFor env fuel inputT

/-! ## The text layer: `encoding/json` on wire values -/

/-- A hexadecimal digit, lower case. -/
def hexDigit (n : Nat) : Char :=
  if n < 10 then Char.ofNat (48 + n) else Char.ofNat (87 + n)

/-- The escape of one character inside a JSON string, as `encoding/json`
writes it with HTML escaping on. -/
def escapeChar (c : Char) : List Char :=
  if c = dquote then [backslash, dquote]
  else if c = backslash then [backslash, backslash]
  else if c = '\n' then [backslash, 'n']
  else if c = '\r' then [backslash, 'r']
  else if c = '\t' then [backslash, 't']
  else if c.toNat = 8 then [backslash, 'b']
  else if c.toNat = 12 then [backslash, 'f']
  else if c.toNat < 32 || c = '<' || c = '>' || c = '&' then
    [backslash, 'u', '0', '0', hexDigit (c.toNat / 16), hexDigit (c.toNat % 16)]
  else if c.toNat = 8232 then [backslash, 'u', '2', '0', '2', '8']
  else if c.toNat = 8233 then [backslash, 'u', '2', '0', '2', '9']
  else [c]

/-- A JSON string literal. -/
def jsonQuote (s : String) : String :=
  "\"" ++ String.mk (s.data.flatMap escapeChar) ++ "\""

mutual
/-- The single-line text of a document (`json.Marshal`, `json.Compact`). -/
def Json.compact : Json → String
  | .null => "null"
  | .bool b => if b then "true" else "false"
  | .num lit => lit
  | .str s => jsonQuote s
  | .arr items => "[" ++ Json.compactItems items ++ "]"
  | .obj members => "\x7b" ++ Json.compactMembers members ++ "\x7d"
/-- The elements of an array, separated by commas. -/
def Json.compactItems : List Json → String
  | [] => ""
  | [j] => j.compact
  | j :: rest => j.compact ++ "," ++ Json.compactItems rest
/-- The members of an object, separated by commas. -/
def Json.compactMembers : List (String × Json) → String
  | [] => ""
  | [(k, j)] => jsonQuote k ++ ":" ++ j.compact
  | (k, j) :: rest => jsonQuote k ++ ":" ++ j.compact ++ "," ++ Json.compactMembers rest
end

/-- The line break of `json.Indent`: a new line, the prefix, and one copy of
the indent for each level of nesting. -/
def indentBreak (pfx : String) (indent : String) (depth : Nat) : String :=
  "\n" ++ pfx ++ String.join (List.replicate depth indent)

mutual
/-- The multi-line text of a document (`json.MarshalIndent`, `json.Indent`)
at a nesting depth. -/
def Json.indentAt (pfx : String) (indent : String) : Nat → Json → String
  | _, .null => "null"
  | _, .bool b => if b then "true" else "false"
  | _, .num lit => lit
  | _, .str s => jsonQuote s
  | _, .arr [] => "[]"
  | depth, .arr (j :: rest) =>
    "[" ++ indentBreak pfx indent (depth + 1)
      ++ Json.indentItems pfx indent (depth + 1) (j :: rest)
      ++ indentBreak pfx indent depth ++ "]"
  | _, .obj [] => "\x7b\x7d"
  | depth, .obj (m :: rest) =>
    "\x7b" ++ indentBreak pfx indent (depth + 1)
      ++ Json.indentMembers pfx indent (depth + 1) (m :: rest)
      ++ indentBreak pfx indent depth ++ "\x7d"
/-- The elements of an array, one on each line. -/
def Json.indentItems (pfx : String) (indent : String) : Nat → List Json → String
  | _, [] => ""
  | depth, [j] => Json.indentAt pfx indent depth j
  | depth, j :: rest =>
    Json.indentAt pfx indent depth j ++ "," ++ indentBreak pfx indent depth
      ++ Json.indentItems pfx indent depth rest
/-- The members of an object, one on each line. -/
def Json.indentMembers (pfx : String) (indent : String) : Nat → List (String × Json) → String
  | _, [] => ""
  | depth, [(k, j)] => jsonQuote k ++ ": " ++ Json.indentAt pfx indent depth j
  | depth, (k, j) :: rest =>
    jsonQuote k ++ ": " ++ Json.indentAt pfx indent depth j ++ ","
      ++ indentBreak pfx indent depth ++ Json.indentMembers pfx indent depth rest
end

/-- Whether a document is the literal `null`: `bytes.Equal(raw, []byte("null"))`
on the raw message that holds the document. -/
def Json.isNull : Json → Bool
  | .null => true
  | _ => false

/-- The alphabet of `base64.StdEncoding`. -/
def base64Char (n : Nat) : Char :=
  if n < 26 then Char.ofNat (65 + n)
  else if n < 52 then Char.ofNat (71 + n)
  else if n < 62 then Char.ofNat (n - 4)
  else if n = 62 then '+' else '/'

/-- The text of `base64.StdEncoding` for a list of bytes. -/
def base64 : List Nat → List Char
  | [] => []
  | [a] => [base64Char (a / 4), base64Char (a % 4 * 16), '=', '=']
  | [a, b] => [base64Char (a / 4), base64Char (a % 4 * 16 + b / 16), base64Char (b % 16 * 4), '=']
  | a :: b :: c :: rest =>
    base64Char (a / 4) :: base64Char (a % 4 * 16 + b / 16)
      :: base64Char (b % 16 * 4 + c / 64) :: base64Char (c % 64) :: base64 rest

/-- Whether a floating point bit pattern of the given width is finite. -/
def floatIsFinite (bits : Nat) (width : Nat) : Bool :=
  if width = 32 then (bits / 2 ^ 23) % 2 ^ 8 != 255 else (bits / 2 ^ 52) % 2 ^ 11 != 2047

/-- The JSON number of a floating point value (`floatEncoder`): an error for
a NaN or an infinity, else the text the float format gives. -/
def jsonFloat (ff : FloatFormat) (bits : Nat) (width : Nat) : Except String Json :=
  if floatIsFinite bits width then .ok (.num (ff bits width))
  else .error "json: unsupported value: NaN or Inf"

/-- Whether a kind is an integer kind. -/
def isIntKind (k : Kind) : Bool :=
  match k with
  | .int | .int8 | .int16 | .int32 | .int64
  | .uint | .uint8 | .uint16 | .uint32 | .uint64 | .uintptr => true
  | _ => false

/-- The type `json.Number`. -/
def jsonNumberType : GoType := .named ⟨"encoding/json", "json", "Number"⟩

/-- The document of a primitive value of the given type. -/
def jsonPrim (env : TypeEnv) (ff : FloatFormat) (t : GoType) : Prim → Except String Json
  | .bool b => .ok (.bool b)
  | .int i => .ok (.num (toString i))
  | .float bits => jsonFloat ff bits (if env.kind t = .float32 then 32 else 64)
  | .str s => if t = jsonNumberType then .ok (.num (if s = "" then "0" else s)) else .ok (.str s)

/-- Source: `isEmptyValue` of `encoding/json`, which decides `omitempty`. -/
def Wire.isEmptyValue : Wire → Bool
  | .prim _ (.bool b) => !b
  | .prim _ (.int i) => i == 0
  | .prim _ (.float bits) => bits == 0
  | .prim _ (.str s) => s.length == 0
  | .rawMessage _ => false
  | .pointerValue _ => false
  | .interfaceValue iv => iv.isNone
  | .complexValue _ => false
  | .slice _ items => (items.getD []).length == 0
  | .array items => items.length == 0
  | .map entries => (entries.getD []).length == 0
  | .struct _ => false

/-- Source: `isValidTag` of `encoding/json`; a character outside ASCII counts
as a letter. -/
def isValidTag (name : List Char) : Bool :=
  !name.isEmpty && name.all (fun c =>
    "!#$%&()*+-./:;<=>?@[]^_\x7b|\x7d~ ".data.contains c || c.isAlphanum || decide (c.toNat ≥ 128))

/-- Whether the comma-separated options of a tag contain an option
(`tagOptions.Contains`); the first argument bounds the number of options. -/
def tagOptionsContain : Nat → List Char → String → Bool
  | 0, _, _ => false
  | n + 1, opts, name =>
    let cut := cutComma opts
    String.mk cut.1 == name || (cut.2.2 && tagOptionsContain n cut.2.1 name)

/-- The text of a map key (`resolveKeyName`): a string key is itself, an
integer key its decimal text; other kinds are unsupported. -/
def jsonMapKey (env : TypeEnv) : Wire → Except String String
  | .prim t (.str s) => if env.kind t = .string then .ok s else .error "json: unsupported type"
  | .prim t (.int i) => if isIntKind (env.kind t) then .ok (toString i) else .error "json: unsupported type"
  | _ => .error "json: unsupported type"

/-- Insertion of a member into a list sorted by key. -/
def insertMember (m : String × Json) : List (String × Json) → List (String × Json)
  | [] => [m]
  | x :: rest => if m.1 < x.1 then m :: x :: rest else x :: insertMember m rest

/-- Whether a wire value is a primitive of one of the kinds the `string`
option of a tag applies to. -/
def Wire.isQuotable (env : TypeEnv) : Wire → Bool
  | .prim t _ => isSimplePrimitive (env.kind t)
  | _ => false

mutual
/-- Source: `json.Marshal` on a wire value, as the document it prints.
Omitted: the `omitzero` option, text marshalers, and the resolution of two
fields of one struct that end up with the same JSON name. -/
def jsonMarshal (env : TypeEnv) (ff : FloatFormat) : Wire → Except String Json
  | .prim t p => jsonPrim env ff t p
  | .rawMessage j => .ok j
  | .pointerValue pv =>
    .ok (.obj [("pointer", .num (toString pv.pointer)), ("value", pv.value)])
  | .interfaceValue none => .ok .null
  | .interfaceValue (some iv) =>
    .ok (.obj ((if iv.ptrDepth = 0 then [] else [("ptrDepth", Json.num (toString iv.ptrDepth))])
      ++ (if iv.pkgPath = "" then [] else [("pkgPath", Json.str iv.pkgPath)])
      ++ (if iv.typeName = "" then [] else [("typeName", Json.str iv.typeName)])
      ++ (if iv.typeString = "" then [] else [("typeString", Json.str iv.typeString)])
      ++ [("value", iv.value)]))
  | .complexValue cv =>
    match jsonFloat ff cv.real 64, jsonFloat ff cv.imag 64 with
    | .ok re, .ok im => .ok (.obj [("real", re), ("imag", im)])
    | .error e, _ => .error e
    | _, .error e => .error e
  | .slice _ none => .ok .null
  | .slice elem (some items) =>
    match elem with
    | .prim t =>
      if env.kind t = .uint8 then
        .ok (.str (String.mk (base64 (items.map (fun w =>
          match w with
          | .prim _ (.int i) => i.toNat % 256
          | _ => 0)))))
      else (jsonMarshalList env ff items).map Json.arr
    | _ => (jsonMarshalList env ff items).map Json.arr
  | .array items => (jsonMarshalList env ff items).map Json.arr
  | .map none => .ok .null
  | .map (some entries) => (jsonMarshalEntries env ff entries).map Json.obj
  | .struct fields => (jsonMarshalFields env ff fields).map Json.obj
/-- The documents of the elements of a slice or an array. -/
def jsonMarshalList (env : TypeEnv) (ff : FloatFormat) : List Wire → Except String (List Json)
  | [] => .ok []
  | w :: rest =>
    match jsonMarshal env ff w, jsonMarshalList env ff rest with
    | .ok j, .ok js => .ok (j :: js)
    | .error e, _ => .error e
    | _, .error e => .error e
/-- The members of the object of a map, sorted by key. -/
def jsonMarshalEntries (env : TypeEnv) (ff : FloatFormat) :
    List (Wire × Wire) → Except String (List (String × Json))
  | [] => .ok []
  | (k, w) :: rest =>
    match jsonMapKey env k, jsonMarshal env ff w, jsonMarshalEntries env ff rest with
    | .ok key, .ok j, .ok ms => .ok (insertMember (key, j) ms)
    | .error e, _, _ => .error e
    | _, .error e, _ => .error e
    | _, _, .error e => .error e
/-- The members of the object of a wire struct, from the `json` tags. -/
def jsonMarshalFields (env : TypeEnv) (ff : FloatFormat) :
    List (WFieldInfo × Wire) → Except String (List (String × Json))
  | [] => .ok []
  | (info, w) :: rest =>
    let tag := structTagGet info.tag "json"
    let cut := cutComma tag.data
    let name := if isValidTag cut.1 then String.mk cut.1 else info.name
    if tag = "-" then jsonMarshalFields env ff rest
    else if tagOptionsContain tag.length cut.2.1 "omitempty" && w.isEmptyValue then
      jsonMarshalFields env ff rest
    else
      match jsonMarshal env ff w, jsonMarshalFields env ff rest with
      | .ok j, .ok ms =>
        if tagOptionsContain tag.length cut.2.1 "string" && w.isQuotable env then
          .ok ((name, Json.str j.compact) :: ms)
        else .ok ((name, j) :: ms)
      | .error e, _ => .error e
      | _, .error e => .error e
end

/-! ## The encoder -/

/-- Source: `marshalJSONConfig` in `marshalJSON.go` (`pfx` is the field
`prefix`). -/
structure marshalJSONConfig where
  pfx : String := ""
  indent : String := ""
  deriving DecidableEq

/-- Source: `MarshalJSONOption` in `marshalJSON.go`. -/
abbrev MarshalJSONOption := marshalJSONConfig → marshalJSONConfig

/-- Source: `WithPrefix` in `marshalJSON.go`. -/
def WithPrefix (pfx : String) : MarshalJSONOption :=
  fun config => { config with pfx := pfx }

/-- Source: `WithIndent` in `marshalJSON.go`. -/
def WithIndent (indent : String) : MarshalJSONOption :=
  fun config => { config with indent := indent }

/-- Source: `JSONEncoder` in `jsonEncoder.go`.  The two maps are keyed by the
machine address of a pointer.  `pointerIndex` is here the number of ids given
so far, an integer without bound; the field of the source is a Go `int`, whose
increment wraps around: `encodeToPointerValueWrapping` and `EncodeWrapping`
have the counter as that machine integer, and `Encode_agreesBelow` shows that
the two agree as long as the number is at most `maxInt bits`. -/
structure JSONEncoder where
  config : marshalJSONConfig
  pointerIndex : Int
  pointerValues : Nat → Option PointerValue
  pendingPointers : Nat → Bool

/-- Source: `NewJSONEncoder` in `jsonEncoder.go`. -/
def NewJSONEncoder (options : List MarshalJSONOption) : JSONEncoder :=
  { config := options.foldl (fun config opt => opt config) {}
    pointerIndex := 0
    pointerValues := fun _ => none
    pendingPointers := fun _ => false }

/-- The result of a method of the encoder: the returned value or error, and
the encoder as the call leaves it. -/
abbrev Res (α : Type) := Except Err α × JSONEncoder

/-- The signature of `encodeTo`: the original value with its type, and the
wire type of the destination; the result is the value written to it. -/
abbrev CopyFn := JSONEncoder → GoType → Val → WType → Res Wire

/-- The signature of `encode`. -/
abbrev EncodeFn := JSONEncoder → GoType → Val → Res Wire

/-- Source: `JSONEncoder.jsonMarshalInternal` in `jsonEncoder.go`.  The
configuration changes only the white space of the bytes, which the document
does not keep. -/
def jsonMarshalInternal (env : TypeEnv) (ff : FloatFormat) (_s : JSONEncoder) (v : Wire) :
    Except Err Json :=
  match jsonMarshal env ff v with
  | .ok j => .ok j
  | .error e => .error (.msg e)

/-- Source: `encodeToComplexValue` in `complexValue.go`. -/
def encodeToComplexValue (env : TypeEnv) (inputT : GoType) (inputV : Val) : Except Err Wire :=
  if env.kind inputT ≠ .complex128 && env.kind inputT ≠ .complex64 then
    .error (.msg ("encodeToComplexValue: expected value to be a complex number; received "
      ++ (env.kind inputT).toString))
  else
    match inputV with
    | .complex re im => .ok (.complexValue { real := re, imag := im })
    | _ => .error (.panic "reflect: call of reflect.Value.Complex on a value that is not complex")

/-- Source: `JSONEncoder.encodeToPointerValue` in `pointerValue.go`; `encode`
is `s.encode`.  The counter is incremented without bound here, see
`encodeToPointerValueWrapping` for the increment of the Go `int`. -/
def encodeToPointerValue (env : TypeEnv) (ff : FloatFormat) (heap : Heap) (encode : EncodeFn)
    (s : JSONEncoder) (inT : GoType) (inV : Val) : Res PointerValue :=
  if env.kind inT ≠ .pointer then
    (.error (.msg ("encodeToPointerValue: expected value to be a pointer; received "
      ++ (env.kind inT).toString)), s)
  else
    match inV with
    | .ptr none =>
      -- Marshal the underlying type; default to null.
      let s1 := { s with pointerIndex := s.pointerIndex + 1 }
      (.ok { pointer := s1.pointerIndex, value := Json.null }, s1)
    | .ptr (some p) =>
      let inPtr := p.addr
      -- The expectation is that we only see zero pointers iff the input is nil.
      if inPtr = 0 then
        (.error (.msg "encodeToPointerValue: assertion failed; isNil: false, inPtr: <nil>"), s)
      else
        -- Store pointers that we have seen so we do not need to remarshal them later.
        match s.pointerValues inPtr with
        | some val => (.ok val, s)
        | none =>
          if s.pendingPointers inPtr then
            (.error (.msg
              "encodeToPointerValue: cycle detected; structs with cyclic data are not supported"), s)
          else
            let s1 := { s with pendingPointers := Function.update s.pendingPointers inPtr true }
            match heap p.obj with
            | none => (.error (.panic "invalid memory address or nil pointer dereference"), s1)
            | some pointee =>
              match encode s1 (env.elem inT) pointee with
              | (.error err, s2) => (.error (err.wrap "encodeToPointerValue: "), s2)
              | (.ok outV, s2) =>
                -- We are done processing this pointer, so stop tracking it.
                let s3 := { s2 with pendingPointers := Function.update s2.pendingPointers inPtr false }
                match jsonMarshalInternal env ff s3 outV with
                | .error err => (.error (err.wrap "encodeToPointerValue: "), s3)
                | .ok value =>
                  let s4 := { s3 with pointerIndex := s3.pointerIndex + 1 }
                  let pv : PointerValue := { pointer := s4.pointerIndex, value := value }
                  -- Cache the encoded value for the pointer.
                  (.ok pv, { s4 with pointerValues := Function.update s4.pointerValues inPtr (some pv) })
    | _ => (.error (.panic "reflect: call of reflect.Value.UnsafePointer on a value that is not a pointer"), s)

/-- The loop of `encodeToInterfaceValue` that removes the pointer layers of
the recorded type and counts them; the fuel bounds the number of layers. -/
def stripPointers (env : TypeEnv) : Nat → GoType → Int → Option (Int × GoType)
  | 0, _, _ => none
  | fuel + 1, recordedT, pointerDepth =>
    if env.kind recordedT = .pointer then
      stripPointers env fuel (env.elem recordedT) (pointerDepth + 1)
    else some (pointerDepth, recordedT)

/-- Source: `reflect.Type.PkgPath()`. -/
def pkgPathOf : GoType → String
  | .named n => n.pkgPath
  | .basic .unsafePointer => "unsafe"
  | _ => ""

/-- Source: `reflect.Type.Name()`. -/
def nameOf : GoType → String
  | .named n => n.name
  | .basic .unsafePointer => "Pointer"
  | .basic .interface => ""
  | .basic .chan => ""
  | .basic .func => ""
  | .basic k => k.toString
  | _ => ""

/-- Source: `JSONEncoder.encodeToInterfaceValue` in `interfaceValue.go`;
`encode` is `s.encode`.  The result `none` is the zero value. -/
def encodeToInterfaceValue (env : TypeEnv) (ff : FloatFormat) (fuel : Nat) (encode : EncodeFn)
    (s : JSONEncoder) (inT : GoType) (inV : Val) : Res (Option InterfaceValue) :=
  if env.kind inT ≠ .interface then
    (.error (.msg ("encodeToInterfaceValue: expected value to be an interface; received "
      ++ (env.kind inT).toString ++ " (reflect.Value)")), s)
  else
    match inV with
    | .iface none => (.ok none, s)
    | .iface (some (decodedT, decodedV)) =>
      -- Encode the underlying value to JSON.
      match encode s decodedT decodedV with
      | (.error err, s1) => (.error (err.wrap "encodeToInterfaceValue: "), s1)
      | (.ok encodedV, s1) =>
        match jsonMarshalInternal env ff s1 encodedV with
        | .error err => (.error (err.wrap "encodeToInterfaceValue: "), s1)
        | .ok encodedBytes =>
          match stripPointers env fuel decodedT 0 with
          | none => (.error .outOfFuel, s1)
          | some (pointerDepth, recordedT) =>
            let pkgPath := pkgPathOf recordedT
            let typeName := nameOf recordedT
            let typeString := if pkgPath = "" && typeName = "" then typeString recordedT else ""
            (.ok (some { ptrDepth := pointerDepth, pkgPath := pkgPath, typeName := typeName,
                         typeString := typeString, value := encodedBytes }), s1)
    | _ => (.error (.panic "reflect: call of reflect.Value.Elem on a value that is not an interface"), s)

/-- The loop of `copyArrayLike` over the elements. -/
def copyItems (copyFn : CopyFn) (fromElemT : GoType) (toElemT : WType) :
    JSONEncoder → List Val → Res (List Wire)
  | s, [] => (.ok [], s)
  | s, v :: rest =>
    match copyFn s fromElemT v toElemT with
    | (.error err, s1) => (.error err, s1)
    | (.ok w, s1) =>
      match copyItems copyFn fromElemT toElemT s1 rest with
      | (.error err, s2) => (.error err, s2)
      | (.ok ws, s2) => (.ok (w :: ws), s2)

/-- Source: `copyArrayLike` in `copyCommon.go`, in the direction of encoding
(`copyFn` is `encodeTo`). -/
def copyArrayLike (env : TypeEnv) (copyFn : CopyFn) (s : JSONEncoder)
    (fromT : GoType) (fromV : Val) (toT : WType) : Res Wire :=
  let fromKind := env.kind fromT
  let toKind := toT.kind env
  if fromKind ≠ toKind then
    (.error (.msg ("copyArrayLike(): values must be the same kind; received "
      ++ fromKind.toString ++ " and " ++ toKind.toString)), s)
  else if toKind ≠ .array && toKind ≠ .slice then
    (.error (.msg ("copyArrayLike(): must be array or slice, received " ++ toKind.toString)), s)
  else
    match toT, fromV with
    | .slice toElemT, .slice none => (.ok (.slice toElemT none), s) -- slice is already nil
    | .slice toElemT, .slice (some items) =>
      match copyItems copyFn (env.elem fromT) toElemT s items with
      | (.error err, s1) => (.error err, s1)
      | (.ok ws, s1) => (.ok (.slice toElemT (some ws)), s1)
    | .array n toElemT, .array items =>
      if items.length ≠ n then (.error (.panic "reflect: array index out of range"), s)
      else
        match copyItems copyFn (env.elem fromT) toElemT s items with
        | (.error err, s1) => (.error err, s1)
        | (.ok ws, s1) => (.ok (.array ws), s1)
    | _, _ => (.error (.panic "reflect: value does not match its type"), s)

/-- Source: `copyCommon` in `copyCommon.go`, in the direction of encoding. -/
def copyCommon (env : TypeEnv) (copyFn : CopyFn) (s : JSONEncoder)
    (fromT : GoType) (fromV : Val) (toT : WType) : Res Wire :=
  let fromKind := env.kind fromT
  -- No conversion is needed for int, string, etc.
  if isSimplePrimitive fromKind then
    match toT, fromV with
    | .prim t, .prim p =>
      if fromT ≠ t then
        (.error (.msg ("copyCommon(): primitive values must be the same type; received "
          ++ typeString fromT ++ " and " ++ typeString t)), s)
      else (.ok (.prim fromT p), s)
    | .prim _, _ => (.error (.panic "reflect: value does not match its type"), s)
    | _, _ =>
      (.error (.msg ("copyCommon(): primitive values must be the same type; received "
        ++ typeString fromT ++ " and a wire type")), s)
  else if fromKind = .slice || fromKind = .array then
    copyArrayLike env copyFn s fromT fromV toT
  else
    (.error (.msg ("copyCommon(): unexpected kind: " ++ fromKind.toString)), s)

/-- The loop of `copyStruct` over the fields of the encoded struct. -/
def copyFields (env : TypeEnv) (copyFn : CopyFn) (originalT : GoType)
    (originalFields : List (String × Val)) :
    JSONEncoder → List (WFieldInfo × WType) → Res (List (WFieldInfo × Wire))
  | s, [] => (.ok [], s)
  | s, (encodedFieldT, encodedFieldType) :: rest =>
    -- Get the original field name from the original tag
    let originalFieldName := structTagGet encodedFieldT.tag "original"
    if originalFieldName = "" then
      (.error (.msg ("copyStruct(): could not find original field name for field "
        ++ encodedFieldT.name)), s)
    else
      -- Look up the field in the original struct
      match (env.fields originalT).find? (fun f => f.1.name = originalFieldName) with
      | none =>
        (.error (.msg ("copyStruct(): could not find original field " ++ originalFieldName
          ++ " for field " ++ encodedFieldT.name)), s)
      | some (_, originalFieldType) =>
        match originalFields.lookup originalFieldName with
        | none => (.error (.panic "reflect: value does not match its type"), s)
        | some originalFieldV =>
          match copyFn s originalFieldType originalFieldV encodedFieldType with
          | (.error err, s1) => (.error (err.wrap "copyStruct(): "), s1)
          | (.ok w, s1) =>
            match copyFields env copyFn originalT originalFields s1 rest with
            | (.error err, s2) => (.error err, s2)
            | (.ok ws, s2) => (.ok ((encodedFieldT, w) :: ws), s2)

/-- Source: `copyStruct` in `copyCommon.go` with `isEncode` true (`copyFn` is
`encodeTo`). -/
def copyStruct (env : TypeEnv) (copyFn : CopyFn) (s : JSONEncoder)
    (fromT : GoType) (fromV : Val) (toT : WType) : Res Wire :=
  if env.kind fromT ≠ .struct || toT.kind env ≠ .struct then
    (.error (.msg ("copyStruct: both values must be structs; received "
      ++ typeString fromT ++ " and a wire type")), s)
  else
    match toT, fromV with
    | .struct encodedFields, .struct originalFields =>
      match copyFields env copyFn fromT originalFields s encodedFields with
      | (.error err, s1) => (.error err, s1)
      | (.ok ws, s1) => (.ok (.struct ws), s1)
    | .pointerValue, _ => (.error (.msg "copyStruct(): could not find original field name for field Pointer"), s)
    | .complexValue, _ => (.error (.msg "copyStruct(): could not find original field name for field Real"), s)
    | _, _ => (.error (.panic "reflect: value does not match its type"), s)

/-- Whether two keys of a wire map are the same key. -/
def wireKeyEq : Wire → Wire → Bool
  | .prim _ p, .prim _ q => p == q
  | _, _ => false

/-- Source: `reflect.Value.SetMapIndex` on the entries of a wire map: the
value of an existing key is replaced. -/
def wireMapSet (key : Wire) (val : Wire) : List (Wire × Wire) → List (Wire × Wire)
  | [] => [(key, val)]
  | (k, v) :: rest =>
    if wireKeyEq k key then (k, val) :: rest else (k, v) :: wireMapSet key val rest

/-- The part of the loop of the map branch of `encodeTo` that computes the
key of the wire map from an original key. -/
def encodeMapKey (env : TypeEnv) (ff : FloatFormat) (encode : EncodeFn)
    (s : JSONEncoder) (keyT : GoType) (originalKey : Val) : Res Wire :=
  -- JSON does not support non-primitive keys (e.g, structs, pointers), so
  -- we convert these map keys to JSON strings.
  if !isSimplePrimitive (env.kind keyT) then
    match encode s keyT originalKey with
    | (.error err, s1) => (.error (err.wrap "encodeTo(): "), s1)
    | (.ok encodedKey, s1) =>
      match jsonMarshal env ff encodedKey with
      | .error err => (.error (.msg ("encodeTo(): " ++ err)), s1)
      | .ok encodedKeyBytes => (.ok (.prim (.basic .string) (.str encodedKeyBytes.compact)), s1)
  else
    match originalKey with
    | .prim p => (.ok (.prim keyT p), s)
    | _ => (.error (.panic "reflect: value does not match its type"), s)

/-- The loop of the map branch of `encodeTo` over the entries of the
original map; `acc` holds the entries of the wire map set so far. -/
def encodeMapEntries (env : TypeEnv) (ff : FloatFormat) (encode : EncodeFn)
    (keyT : GoType) (valT : GoType) (encodedKeyT : WType) :
    JSONEncoder → List (Val × Val) → List (Wire × Wire) → Res (List (Wire × Wire))
  | s, [], acc => (.ok acc, s)
  | s, (originalKey, originalVal) :: rest, acc =>
    match encodeMapKey env ff encode s keyT originalKey with
    | (.error err, s1) => (.error err, s1)
    | (.ok encodedKey, s1) =>
      match encode s1 valT originalVal with
      | (.error err, s2) => (.error err, s2)
      | (.ok encodedVal, s2) =>
        -- Set the key and value on the encoded map.
        let assignable : Bool :=
          match encodedKeyT, encodedKey with
          | .prim t, .prim t2 _ => t = t2
          | _, _ => false
        if assignable then
          encodeMapEntries env ff encode keyT valT encodedKeyT s2 rest
            (wireMapSet encodedKey encodedVal acc)
        else (.error (.panic "reflect.Value.SetMapIndex: value is not assignable to the key type"), s2)

/-- The body of `JSONEncoder.encode` in `jsonEncoder.go`, given `encodeTo`.
The test for the zero `reflect.Value` is left out: a `Val` is always valid. -/
def encodeWith (env : TypeEnv) (fuel : Nat) (encodeTo : CopyFn) : EncodeFn :=
  fun s fromT fromV =>
    match encodedTypeFor env fuel fromT with
    | .error err => (.error (err.wrap "encode(): "), s)
    | .ok encodedT =>
      match encodeTo s fromT fromV encodedT with
      | (.error err, s1) => (.error (err.wrap "encode(): "), s1)
      | (.ok encodedV, s1) => (.ok encodedV, s1)

/-- Source: `JSONEncoder.encodeTo` in `jsonEncoder.go`.  The result is the
value the source writes to `encodedV`.  Every nested call spends one unit of
fuel. -/
def encodeTo (env : TypeEnv) (ff : FloatFormat) (heap : Heap) : Nat → CopyFn
  | 0 => fun s _ _ _ => (.error .outOfFuel, s)
  | fuel + 1 => fun s originalT originalV encodedT =>
    let encode : EncodeFn := encodeWith env fuel (encodeTo env ff heap fuel)
    let originalKind := env.kind originalT
    let encodedKind := encodedT.kind env
    -- If the value implements json.Marshaler, we defer to the existing
    -- marshaling mechanism and simply store the output.
    match env.marshaler originalT with
    | some marshal =>
      match marshal originalV with
      | .error err =>
        (.error (.msg ("encodeTo(): custom json.Marshal for " ++ typeString originalT
          ++ " failed: " ++ err)), s)
      | .ok b => (.ok (.rawMessage b), s)
    | none =>
      if isPointerValueType encodedT then
        match encodeToPointerValue env ff heap encode s originalT originalV with
        | (.error err, s1) => (.error err, s1)
        | (.ok pv, s1) => (.ok (.pointerValue pv), s1)
      else if isInterfaceValueType encodedT then
        match encodeToInterfaceValue env ff fuel encode s originalT originalV with
        | (.error err, s1) => (.error err, s1)
        | (.ok iv, s1) => (.ok (.interfaceValue iv), s1)
      else if isComplexValueType encodedT then
        match encodeToComplexValue env originalT originalV with
        | .error err => (.error err, s)
        | .ok cv => (.ok cv, s)
      else if originalKind ≠ encodedKind then
        (.error (.msg ("encodeTo(): expected values to be the same kind; received "
          ++ typeString originalT ++ " and a wire type of kind " ++ encodedKind.toString)), s)
      else if originalKind = .map then
        match encodedT, originalV with
        | .map _ _, .map none => (.ok (.map none), s) -- The map in encodedV is nil by default.
        | .map encodedKeyT _, .map (some entries) =>
          match encodeMapEntries env ff encode (env.key originalT) (env.elem originalT)
              encodedKeyT s entries [] with
          | (.error err, s1) => (.error err, s1)
          | (.ok encodedMap, s1) => (.ok (.map (some encodedMap)), s1)
        | _, _ => (.error (.panic "reflect: value does not match its type"), s)
      else if originalKind = .struct then
        copyStruct env (encodeTo env ff heap fuel) s originalT originalV encodedT
      else
        copyCommon env (encodeTo env ff heap fuel) s originalT originalV encodedT

/-- Source: `JSONEncoder.encode` in `jsonEncoder.go`. -/
def encode (env : TypeEnv) (ff : FloatFormat) (heap : Heap) (fuel : Nat) : EncodeFn :=
  encodeWith env fuel (encodeTo env ff heap fuel)

/-- Source: `encodedJSONWrapper` in `marshalJSON.go`, as the document
`json.Marshal` prints for it. -/
def encodedJSONWrapper (value : Json) : Json :=
  .obj [("value", value)]

/-- Source: `JSONEncoder.Encode` in `jsonEncoder.go`.  The input `none` is
the nil interface; the output is the text of the bytes. -/
def Encode (env : TypeEnv) (ff : FloatFormat) (heap : Heap) (fuel : Nat)
    (s : JSONEncoder) (inp : Option (GoType × Val)) : Except Err String × JSONEncoder :=
  let finish (s1 : JSONEncoder) (encodedBytes : Json) : Except Err String × JSONEncoder :=
    -- Wrap the encoded value.
    let out := encodedJSONWrapper encodedBytes
    -- Output is a single line if prefix and indent are empty; multiline otherwise,
    if s1.config.pfx = "" && s1.config.indent = "" then (.ok out.compact, s1)
    else (.ok (out.indentAt s1.config.pfx s1.config.indent 0), s1)
  match inp with
  | none => finish s Json.null
  | some (inT, inV) =>
    match encode env ff heap fuel s inT inV with
    | (.error err, s1) => (.error (err.wrap "MarshalJSON: "), s1)
    | (.ok encodedV, s1) =>
      match jsonMarshalInternal env ff s1 encodedV with
      | .error err => (.error (err.wrap "MarshalJSON: "), s1)
      | .ok encodedBytes => finish s1 encodedBytes

/-- Source: `MarshalJSON` in `marshalJSON.go`. -/
def MarshalJSON (env : TypeEnv) (ff : FloatFormat) (heap : Heap) (fuel : Nat)
    (inp : Option (GoType × Val)) (options : List MarshalJSONOption) : Except Err String :=
  (Encode env ff heap fuel (NewJSONEncoder options) inp).1

/-! ## Decoding the boxes -/

/-- Source: `decodeFromComplexValue` in `complexValue.go`.  `out` is what
the destination holds before the call; the result pairs the returned error
with what the destination holds after it.  `narrow` is the conversion of a
`float64` to the nearest `float32`; `reflect.Value.Set` panics when the
destination type is not the predeclared complex type of its kind. -/
def decodeFromComplexValue (env : TypeEnv) (narrow : Nat → Nat)
    (encodedV : Wire) (outT : GoType) (out : Val) : Except Err Unit × Val :=
  match encodedV with
  | .complexValue cv =>
    match env.kind outT with
    | .complex128 =>
      if outT = .basic .complex128 then (.ok (), .complex cv.real cv.imag)
      else (.error (.panic "reflect.Set: value of type complex128 is not assignable"), out)
    | .complex64 =>
      if outT = .basic .complex64 then (.ok (), .complex (narrow cv.real) (narrow cv.imag))
      else (.error (.panic "reflect.Set: value of type complex64 is not assignable"), out)
    | k =>
      (.error (.msg ("decodeFromComplexValue: unsupported kind for outV: " ++ k.toString)), out)
  | _ =>
    (.error (.msg "decodeFromComplexValue: expected encodedV to be a complexValue; received another type"),
      out)

/-- What `Resolver.ResolveType` returns: a type, nil or not, and an error,
nil or not. -/
structure Resolved where
  typ : Option GoType
  err : Option String
  deriving DecidableEq

/-- Source: `Resolver` in `typeutil/resolver.go`, as its method
`ResolveType(pkgPath, typeName, typeString)`. -/
abbrev Resolver := String → String → String → Resolved

/-- Source: `StaticResolver` in `typeutil/staticResolver.go`: the map from
package path to type name to type, and the map from type string to type. -/
structure StaticResolver where
  packageNames : String → Option (String → Option GoType)
  typeStrings : String → Option GoType

/-- Source: `NewStaticResolver` in `typeutil/staticResolver.go`. -/
def NewStaticResolver : StaticResolver :=
  { packageNames := fun _ => none, typeStrings := fun _ => none }

/-- The body of the loop of `StaticResolver.AddTypes` for one type. -/
def StaticResolver.addType (s : StaticResolver) (typ : GoType) : StaticResolver :=
  let pkgPath := pkgPathOf typ
  let name := nameOf typ
  let pkgTypes : String → Option GoType := (s.packageNames pkgPath).getD (fun _ => none)
  -- Only store the type by string if we do not have a name and package path.
  if pkgPath = "" && name = "" then
    { packageNames := Function.update s.packageNames pkgPath (some pkgTypes)
      typeStrings := Function.update s.typeStrings (typeString typ) (some typ) }
  else
    { packageNames :=
        Function.update s.packageNames pkgPath (some (Function.update pkgTypes name (some typ)))
      typeStrings := s.typeStrings }

/-- Source: `StaticResolver.AddTypes` in `typeutil/staticResolver.go`. -/
def StaticResolver.AddTypes (s : StaticResolver) (types : List GoType) : StaticResolver :=
  types.foldl StaticResolver.addType s

/-- The text after "could not find type for " in the errors of the two
resolvers. -/
def notFoundText (pkgPath typeName typeString : String) : String :=
  "pkgPath: " ++ pkgPath ++ ", typeName: " ++ typeName ++ ", typeString: " ++ typeString

/-- Source: `StaticResolver.ResolveType` in `typeutil/staticResolver.go`. -/
def StaticResolver.ResolveType (s : StaticResolver) : Resolver :=
  fun pkgPath typeName typeString =>
    let typ : Option GoType :=
      if pkgPath = "" && typeName = "" then s.typeStrings typeString
      else
        match s.packageNames pkgPath with
        | some pkgTypes => pkgTypes typeName
        | none => none
    match typ with
    | none =>
      { typ := none
        err := some ("StaticResolver.ResolveType(): could not find type for "
          ++ notFoundText pkgPath typeName typeString) }
    | some t => { typ := some t, err := none }

/-- Source: `chainResolver` in `typeutil/chainResolver.go`. -/
structure chainResolver where
  resolvers : List Resolver

/-- Source: `NewChainResolver` in `typeutil/chainResolver.go`. -/
def NewChainResolver (resolvers : List Resolver) : chainResolver :=
  { resolvers := resolvers }

/-- The loop of `chainResolver.ResolveType` over the resolvers that are left. -/
def chainResolve (pkgPath typeName typeString : String) : List Resolver → Resolved
  | [] =>
    { typ := none
      err := some ("chainResolver.ResolveType(): could not find type for "
        ++ notFoundText pkgPath typeName typeString) }
  | resolver :: rest =>
    -- Return the first resolved type.
    match (resolver pkgPath typeName typeString).typ with
    | some typ => { typ := some typ, err := none }
    | none => chainResolve pkgPath typeName typeString rest

/-- Source: `chainResolver.ResolveType` in `typeutil/chainResolver.go`. -/
def chainResolver.ResolveType (s : chainResolver) : Resolver :=
  fun pkgPath typeName typeString => chainResolve pkgPath typeName typeString s.resolvers

/-- Modelled from the spec: the configuration of a decoder is not among the
sources; "TypeResolver binding: decode-session capability; absence is fatal
only when an interface field actually needs resolution".  As
`decodeFromInterfaceValue` uses it, `typeResolver` is a `Resolver` or nil. -/
structure unmarshalJSONConfig where
  typeResolver : Option Resolver := none

/-- Modelled from the spec: the declaration of `JSONDecoder` is not among the
sources; "PointerTable ... decode direction maps reference id to
already-materialized allocation".  As `decodeFromPointerValue` uses it, the
table maps a reference id to the destination (`outPtrV`: its type and the
variable) that was registered for it. -/
structure JSONDecoder where
  pointerValues : Int → Option (GoType × Nat)
  config : unmarshalJSONConfig := {}

/-- The memory the decoder writes, as far as pointers go: the content of
every pointer variable (`none` when the variable does not exist yet), and the
number of allocations made so far. -/
structure Memory where
  slots : Nat → Option (Option Pointer)
  nextObj : Nat

/-- The result of a method of the decoder. -/
abbrev DecRes := Except Err Unit × JSONDecoder × Memory

/-- The signature of `JSONDecoder.decodeTo`, which is not among the sources:
it decodes an encoded value into the variable `target` of the given type. -/
abbrev DecodeToFn := JSONDecoder → Memory → Wire → GoType → Nat → DecRes

/-- Whether a value of type `v` may be assigned to a variable of type `t`
(`reflect.Value.Set`): the types are identical, or their underlying types are
and one of the two is not a defined type. -/
def assignableTo (env : TypeEnv) (v : GoType) (t : GoType) : Bool :=
  let isNamed : GoType → Bool := fun x => match x with
    | .named _ => true
    | _ => false
  v = t || (env.expand v = env.expand t && (!isNamed v || !isNamed t))

/-- Source: `reflect.New`: a fresh variable, and the pointer to it. -/
def Memory.alloc (m : Memory) : Pointer × Memory :=
  ({ addr := m.nextObj + 1, obj := m.nextObj }, { m with nextObj := m.nextObj + 1 })

/-- Source: `JSONDecoder.decodeFromPointerValue` in `pointerValue.go`.
`outPtrV` is the pointer variable `out` of type `outT`; `unmarshal` is
`json.Unmarshal` into a value of a wire type and `decodeTo` is `s.decodeTo`. -/
def decodeFromPointerValue (env : TypeEnv) (fuel : Nat)
    (unmarshal : Json → WType → Except String Wire) (decodeTo : DecodeToFn)
    (s : JSONDecoder) (m : Memory) (pvV : Wire) (outT : GoType) (out : Nat) : DecRes :=
  match pvV with
  | .pointerValue pv =>
    if env.kind outT ≠ .pointer then
      (.error (.msg ("convertFromPointerValue: expected outV to be a pointer; received "
        ++ (env.kind outT).toString)), s, m)
    -- Short-circuit null, since outPtrV should already be a null pointer.
    else if pv.value.isNull then (.ok (), s, m)
    else
      -- If we have already decoded the pointerValue before, reuse the existing value.
      match s.pointerValues pv.pointer with
      | some (valT, val) =>
        if assignableTo env valT outT then
          (.ok (), s, { m with slots := Function.update m.slots out (m.slots val) })
        else (.error (.panic "reflect.Set: value is not assignable to the destination type"), s, m)
      | none =>
        -- Unmarshal the underlying JSON value into the encoded type.
        match encodedTypeFor env fuel (env.elem outT) with
        | .error err => (.error (err.wrap "convertFromPointerValue: "), s, m)
        | .ok encodedT =>
          match unmarshal pv.value encodedT with
          | .error err => (.error (.msg ("convertFromPointerValue: " ++ err)), s, m)
          | .ok encodedV =>
            -- Instantiate the pointer, then decodeTo the value.
            let target : Pointer := m.alloc.1
            let m0 : Memory := m.alloc.2
            let m1 : Memory := { m0 with slots := Function.update m0.slots out (some (some target)) }
            match decodeTo s m1 encodedV (env.elem outT) target.obj with
            | (.error err, s2, m2) => (.error (err.wrap "convertFromPointerValue: "), s2, m2)
            | (.ok _, s2, m2) =>
              -- Store the decoded value for the pointer so we can reuse it later.
              let registered := Function.update s2.pointerValues pv.pointer (some (outT, out))
              (.ok (), { s2 with pointerValues := registered }, m2)
  | _ =>
    (.error (.msg "convertFromPointerValue: expected inV to be a *pointerValue; received another type"),
      s, m)

/-- A call of `decodeFromPointerValue`: the box, and the destination. -/
structure DecodeCall where
  pv : PointerValue
  outT : GoType
  out : Nat

/-- A sequence of calls of `decodeFromPointerValue` on one decoder, stopped
by the first error. -/
def decodeSequence (env : TypeEnv) (fuel : Nat)
    (unmarshal : Json → WType → Except String Wire) (decodeTo : DecodeToFn) :
    JSONDecoder → Memory → List DecodeCall → DecRes
  | s, m, [] => (.ok (), s, m)
  | s, m, c :: rest =>
    match decodeFromPointerValue env fuel unmarshal decodeTo s m (.pointerValue c.pv) c.outT c.out with
    | (.error err, s1, m1) => (.error err, s1, m1)
    | (.ok _, s1, m1) => decodeSequence env fuel unmarshal decodeTo s1 m1 rest

/-- Whether a result is a success. -/
def isOk {α : Type} : Except Err α → Bool
  | .ok _ => true
  | .error _ => false

/-- Whether a text occurs inside the message of an error. -/
def Err.Contains (e : Err) (text : String) : Prop :=
  ∃ pre post : String, e = .msg (pre ++ text ++ post)

deriving instance DecidableEq for Except

/-! ## Relations between encoder states -/

/-- A relation between the encoder before and after a call, indexed by
whether the call succeeded, that sequential composition preserves. -/
structure StateRel (Q : Bool → JSONEncoder → JSONEncoder → Prop) : Prop where
  refl : ∀ b s, Q b s s
  trans : ∀ b s1 s2 s3, Q true s1 s2 → Q b s2 s3 → Q b s1 s3
  weaken : ∀ s1 s2, Q true s1 s2 → Q false s1 s2

/-- A function of the signature of `encodeTo` whose every call respects `Q`. -/
def CopyFn.Respects (Q : Bool → JSONEncoder → JSONEncoder → Prop) (f : CopyFn) : Prop :=
  ∀ s t v w r s', f s t v w = (r, s') → Q (isOk r) s s'

/-- A function of the signature of `encode` whose every call respects `Q`. -/
def EncodeFn.Respects (Q : Bool → JSONEncoder → JSONEncoder → Prop) (f : EncodeFn) : Prop :=
  ∀ s t v r s', f s t v = (r, s') → Q (isOk r) s s'

/-- What a call may change of the configuration, the id counter and the
pointer table: the configuration stays, the counter does not decrease, an
entry of the table is never changed or removed, and an entry that is new
holds an id above the old counter and at most the new one. -/
def Grows (s s' : JSONEncoder) : Prop :=
  s'.config = s.config ∧ s.pointerIndex ≤ s'.pointerIndex ∧
  (∀ a pv, s.pointerValues a = some pv → s'.pointerValues a = some pv) ∧
  (∀ a pv, s.pointerValues a = none → s'.pointerValues a = some pv →
    s.pointerIndex < pv.pointer ∧ pv.pointer ≤ s'.pointerIndex)

/-- One top-level call of `Encode` on an encoder, on any input and with any
memory. -/
def EncodeStep (s s' : JSONEncoder) : Prop :=
  ∃ (env : TypeEnv) (ff : FloatFormat) (heap : Heap) (fuel : Nat) (inp : Option (GoType × Val))
    (r : Except Err String), Encode env ff heap fuel s inp = (r, s')

/-! ## The values of the tests -/

/-- The package path of the repository. -/
def unsafelyPath : String := "github.com/outriggerlabs/unsafely"

/-- The name of `type node struct { next *node }` of
`TestMarshalJSON_DetectCycles`. -/
def nodeName : TypeName := ⟨unsafelyPath, "unsafely", "node"⟩

/-- The name of a variant of `node` whose field carries the tag `json:"-"`. -/
def skipNodeName : TypeName := ⟨unsafelyPath, "unsafely", "skipNode"⟩

/-- The name of `object1` of `TestJSONEncoder_SharedPointers`. -/
def object1Name : TypeName := ⟨unsafelyPath, "unsafely", "object1"⟩

/-- The name of `object2` of `TestJSONEncoder_SharedPointers`. -/
def object2Name : TypeName := ⟨unsafelyPath, "unsafely", "object2"⟩

/-- The type `node`. -/
def nodeType : GoType := .named nodeName

/-- The type environment of the tests: `node`, `skipNode`, `object1` and
`object2`; no type implements `json.Marshaler`. -/
def testEnv : TypeEnv where
  underlying := fun n =>
    if n = nodeName then some (.struct (.cons { name := "next" } (.pointer (.named nodeName)) .nil))
    else if n = skipNodeName then
      some (.struct (.cons { name := "next", json := "-" } (.pointer (.named skipNodeName)) .nil))
    else if n = object1Name then
      some (.struct (.cons { name := "a" } (.pointer (.basic .int))
        (.cons { name := "b" } (.pointer (.basic .int)) .nil)))
    else if n = object2Name then
      some (.struct (.cons { name := "c" } (.pointer (.basic .int)) .nil))
    else none
  marshaler := fun _ => none

/-- A float format for the examples without floating point numbers. -/
def noFloats : FloatFormat := fun _ _ => ""

/-- The bit pattern of the `float64` 1. -/
def float64One : Nat := 0x3FF0000000000000

/-- The bit pattern of the `float64` 2. -/
def float64Two : Nat := 0x4000000000000000

/-- A float format that prints the floats 1 and 2. -/
def smallFloats : FloatFormat :=
  fun bits _ => if bits = float64One then "1" else if bits = float64Two then "2" else ""

/-- The pointer `a` of the tests. -/
def ptrA : Pointer := { addr := 100, obj := 1 }

/-- The pointer `b` of the tests. -/
def ptrB : Pointer := { addr := 200, obj := 2 }

/-- The pointer `c` of the tests. -/
def ptrC : Pointer := { addr := 300, obj := 3 }

/-- A value of type `node` or `skipNode`. -/
def mkNode (next : Option Pointer) : Val := .struct [("next", .ptr next)]

/-- The memory of the test `linear`: `a` points to `b`, `b` to `c`, and
`c.next` is nil. -/
def linearHeap : Heap := fun obj =>
  if obj = 1 then some (mkNode (some ptrB))
  else if obj = 2 then some (mkNode (some ptrC))
  else if obj = 3 then some (mkNode none)
  else none

/-- The memory of the test `cycle`: as `linearHeap`, with `c.next = a`. -/
def cycleHeap : Heap := fun obj =>
  if obj = 1 then some (mkNode (some ptrB))
  else if obj = 2 then some (mkNode (some ptrC))
  else if obj = 3 then some (mkNode (some ptrA))
  else none

/-- A memory with one node whose field points to the node itself. -/
def selfHeap : Heap := fun obj => if obj = 1 then some (mkNode (some ptrA)) else none

/-- The memory of `TestMarshalJSON_PointerSharing`: `a` points to the string
"one". -/
def stringHeap : Heap := fun obj => if obj = 1 then some (.prim (.str "one")) else none

/-- The memory of `TestJSONEncoder_SharedPointers`: `int1` is 42, `int2` 53,
and a third variable holds 64. -/
def intHeap : Heap := fun obj =>
  if obj = 1 then some (.prim (.int 42))
  else if obj = 2 then some (.prim (.int 53))
  else if obj = 3 then some (.prim (.int 64))
  else none

/-- A memory with one variable, a nil slice of `int64`. -/
def nilSliceHeap : Heap := fun obj => if obj = 1 then some (.slice none) else none

/-- The encoder after `Encode` of the test `linear` on a fresh encoder. -/
def linearEncoder : JSONEncoder :=
  (Encode testEnv noFloats linearHeap 20 (NewJSONEncoder [])
    (some (.pointer nodeType, .ptr (some ptrA)))).2

/-- The reference id the table of an encoder holds for an address. -/
def idOf (s : JSONEncoder) (p : Pointer) : Option Int :=
  (s.pointerValues p.addr).map (fun pv => pv.pointer)

/-- The value `obj1` of `TestJSONEncoder_SharedPointers`. -/
def obj1 : Option (GoType × Val) :=
  some (.named object1Name, .struct [("a", .ptr (some ptrA)), ("b", .ptr (some ptrB))])

/-- The value `obj2` of `TestJSONEncoder_SharedPointers`. -/
def obj2 : Option (GoType × Val) :=
  some (.named object2Name, .struct [("c", .ptr (some ptrB))])

/-- A third value, whose field points to a variable not seen before. -/
def obj3 : Option (GoType × Val) :=
  some (.named object2Name, .struct [("c", .ptr (some ptrC))])

/-! ## What decoding assumes of `decodeTo` -/

/-- Modelled from the spec: `NewJSONDecoder` is not among the sources; a fresh
decoder has an empty pointer table ("PointerTable ... exclusively owned by one
Encoder/Decoder instance"). -/
def NewJSONDecoder : JSONDecoder := { pointerValues := fun _ => none }

/-- What the theorems on `decodeFromPointerValue` assume of `decodeTo`, which
decodes the payload into the fresh target: it does not release allocations, it
leaves every existing pointer variable and every existing entry of the table
as they are, and an entry it adds (for a pointer inside the payload) is for a
variable that did not exist before, holding an allocation made during the
call, different entries holding different allocations. -/
structure DecodeToFrame (decodeTo : DecodeToFn) : Prop where
  nextObj_le : ∀ s m w t target r s2 m2, decodeTo s m w t target = (r, s2, m2) →
    m.nextObj ≤ m2.nextObj
  slots_kept : ∀ s m w t target r s2 m2, decodeTo s m w t target = (r, s2, m2) →
    ∀ c, m.slots c ≠ none → m2.slots c = m.slots c
  table_kept : ∀ s m w t target r s2 m2, decodeTo s m w t target = (r, s2, m2) →
    ∀ id, s.pointerValues id ≠ none → s2.pointerValues id = s.pointerValues id
  table_new : ∀ s m w t target r s2 m2, decodeTo s m w t target = (r, s2, m2) →
    ∀ id T c, s.pointerValues id = none → s2.pointerValues id = some (T, c) →
      m.slots c = none ∧ ∃ p, m2.slots c = some (some p) ∧ m.nextObj ≤ p.obj ∧ p.obj < m2.nextObj
  table_new_inj : ∀ s m w t target r s2 m2, decodeTo s m w t target = (r, s2, m2) →
    ∀ id id' T c T' c', s.pointerValues id = none → s.pointerValues id' = none →
      s2.pointerValues id = some (T, c) → s2.pointerValues id' = some (T', c') →
      m2.slots c = m2.slots c' → id = id'

/-- The invariant of a sequence of calls of `decodeFromPointerValue`: every
registered variable holds an allocation made so far, different ids are
registered with different allocations, the destination of every call made
holds what the variable registered for its id holds, and the destinations of
the calls to come exist and are not registered. -/
structure DecodeInv (s : JSONDecoder) (m : Memory) (made : List DecodeCall)
    (coming : List DecodeCall) : Prop where
  holds : ∀ id T c, s.pointerValues id = some (T, c) →
    ∃ p, m.slots c = some (some p) ∧ p.obj < m.nextObj
  inj : ∀ id id' T c T' c', s.pointerValues id = some (T, c) →
    s.pointerValues id' = some (T', c') → m.slots c = m.slots c' → id = id'
  made_ok : ∀ d ∈ made, ∃ T c, s.pointerValues d.pv.pointer = some (T, c) ∧
    m.slots d.out = m.slots c
  coming_exist : ∀ d ∈ coming, m.slots d.out ≠ none
  coming_free : ∀ id T c, s.pointerValues id = some (T, c) → ∀ d ∈ coming, c ≠ d.out

/-- What the variable registered for a reference id holds. -/
def registeredSlot (s : JSONDecoder) (m : Memory) (id : Int) : Option (Option Pointer) :=
  match s.pointerValues id with
  | some (_, c) => m.slots c
  | none => none

/-- A `decodeTo` for the examples: it writes nothing. -/
def decodeToNothing : DecodeToFn := fun s m _ _ _ => (.ok (), s, m)

/-- A `json.Unmarshal` for the examples: every payload is the string "one". -/
def unmarshalOne : Json → WType → Except String Wire :=
  fun _ _ => .ok (.prim (.basic .string) (.str "one"))

/-- A memory with three nil pointer variables, 0, 1 and 2. -/
def threeNilPointers : Memory :=
  { slots := fun c => if c < 3 then some none else none, nextObj := 10 }

/-- Three calls: the destinations 0 and 1 get a box with the id 1, the
destination 2 gets a box with the id 2. -/
def sharingCalls : List DecodeCall :=
  [ { pv := { pointer := 1, value := .str "one" }, outT := .pointer (.basic .string), out := 0 },
    { pv := { pointer := 1, value := .str "one" }, outT := .pointer (.basic .string), out := 1 },
    { pv := { pointer := 2, value := .str "one" }, outT := .pointer (.basic .string), out := 2 } ]

/-- A linked list of `node` values in memory: each pointer of the list points
to a node whose `next` is the following pointer of the list, and the `next`
of the last node is `back`. -/
def LinkedTo (heap : Heap) : List Pointer → Pointer → Prop
  | [], _ => True
  | [p], back => heap p.obj = some (mkNode (some back))
  | p :: q :: rest, back => heap p.obj = some (mkNode (some q)) ∧ LinkedTo heap (q :: rest) back

/-- The message of the error of `encodeToPointerValue` for a cycle. -/
def cycleMessage : String :=
  "encodeToPointerValue: cycle detected; structs with cyclic data are not supported"

/-- The wire type of `node`. -/
def nodeWireType : WType :=
  .struct [({ name := "F0", tag := "json:\"next\" original:\"next\"", embedded := false },
    .pointerValue)]

/-- The error of a nested call as the enclosing call of `encodeTo` on a
pointer to a `node` returns it. -/
def wrapNode (e : Err) : Err :=
  ((e.wrap "copyStruct(): ").wrap "encode(): ").wrap "encodeToPointerValue: "

/-! ## The values of the examples and of the tests of struct tags -/

/-- The name of a type declared in the package of the repository. -/
def localName (name : String) : TypeName := ⟨unsafelyPath, "unsafely", name⟩

/-- The type `point` of `ExampleMarshalJSON_structMapKeys`:
`struct { x, y int }`. -/
def pointType : GoType := .named (localName "point")

/-- The type `customJSON` of `TestMarshalJSON_CustomMarshal`. -/
def customJSONType : GoType := .named (localName "customJSON")

/-- The type `embeddedCustomJSON` of `TestMarshalJSON_CustomMarshal`. -/
def embeddedCustomJSONType : GoType := .named (localName "embeddedCustomJSON")

/-- The method `customJSON.MarshalJSON`: the array of the field `value` and of
its upper case (of its ASCII letters). -/
def customJSONMarshal : Val → Except String Json
  | .struct fields =>
    match fields.lookup "value" with
    | some (.prim (.str s)) => .ok (.arr [.str s, .str (String.mk (s.data.map Char.toUpper))])
    | _ => .error "customJSON: no value"
  | _ => .error "customJSON: not a struct"

/-- The method `MarshalJSON` that `embeddedCustomJSON` gets from its embedded
field. -/
def embeddedCustomJSONMarshal : Val → Except String Json
  | .struct fields =>
    match fields.lookup "customJSON" with
    | some inner => customJSONMarshal inner
    | none => .error "embeddedCustomJSON: no embedded field"
  | _ => .error "embeddedCustomJSON: not a struct"

/-- The fields of `exampleWithTags` of `ExampleMarshalJSON_structTags`. -/
def exampleWithTagsFields : List (FieldInfo × GoType) :=
  [ ({ name := "X", json := "x" }, .basic .int),
    ({ name := "Y", json := "y,omitempty", unsafelyJson := "y" }, .basic .int),
    ({ name := "Temp", json := "-", unsafelyJson := "," }, .basic .int),
    ({ name := "Fn", unsafelyJson := "-" }, .basic .func),
    ({ name := "Dash", json := "-," }, .basic .string) ]

/-- The type environment of the examples: `point`, `example`,
`exampleWithTags`, `skipFields`, `customJSON`, `embeddedCustomJSON`,
`wrapper`, `stringer`, `stringAlias` and `testStruct`; the two custom types
implement `json.Marshaler`.  The pointers to them, which implement it too,
are not among the values of the examples. -/
def exampleEnv : TypeEnv where
  underlying := fun n =>
    if n = localName "point" then
      some (.struct (.cons { name := "x" } (.basic .int) (.cons { name := "y" } (.basic .int) .nil)))
    else if n = localName "example" then
      some (.struct (.cons { name := "i" } (.basic .int)
        (.cons { name := "p" } pointType
        (.cons { name := "edges" } (.map pointType (.basic .int)) .nil))))
    else if n = localName "exampleWithTags" then
      some (.struct (FieldList.ofList exampleWithTagsFields))
    else if n = localName "skipFields" then
      some (.struct (.cons { name := "value" } (.basic .int)
        (.cons { name := "skip", unsafelyJson := "-" } (.basic .func) .nil)))
    else if n = localName "customJSON" then
      some (.struct (.cons { name := "value" } (.basic .string)
        (.cons { name := "unsupported" } (.basic .func) .nil)))
    else if n = localName "embeddedCustomJSON" then
      some (.struct (.cons { name := "customJSON", embedded := true } customJSONType .nil))
    else if n = localName "wrapper" then
      some (.struct (.cons { name := "v" } (.basic .interface) .nil))
    else if n = localName "stringer" then
      some (.struct (.cons { name := "value" } (.basic .interface) .nil))
    else if n = localName "stringAlias" then some (.basic .string)
    else if n = localName "testStruct" then
      some (.struct (.cons { name := "String" } (.basic .string)
        (.cons { name := "Int" } (.basic .int)
        (.cons { name := "Slice" } (.slice (.basic .string))
        (.cons { name := "Map" } (.map (.basic .string) (.basic .int))
        (.cons { name := "Complex" } (.basic .complex128)
        (.cons { name := "StrPtr" } (.pointer (.basic .string))
        (.cons { name := "Any" } (.basic .interface) .nil))))))))
    else none
  marshaler := fun t =>
    if t = customJSONType then some customJSONMarshal
    else if t = embeddedCustomJSONType then some embeddedCustomJSONMarshal
    else none

/-- An integer of type `int`. -/
def intVal (i : Int) : Val := .prim (.int i)

/-- A value of type `point`. -/
def pointVal (x y : Int) : Val := .struct [("x", intVal x), ("y", intVal y)]

/-- The value of `ExampleMarshalJSON_structMapKeys`: `map[point]int{{1, 2}: 3}`. -/
def structMapKeys : Option (GoType × Val) :=
  some (.map pointType (.basic .int), .map (some [(pointVal 1 2, intVal 3)]))

/-- The value of `ExampleMarshalJSON_prefixAndIndent`. -/
def prefixAndIndentVal : Option (GoType × Val) :=
  some (.named (localName "example"),
    .struct [("i", intVal 1), ("p", pointVal 1 2),
      ("edges", .map (some [(pointVal 2 3, intVal 1)]))])

/-- The value of `ExampleMarshalJSON_structTags`. -/
def structTagsVal : Option (GoType × Val) :=
  some (.named (localName "exampleWithTags"),
    .struct [("X", intVal 1), ("Y", intVal 0), ("Temp", intVal 3), ("Fn", .other),
      ("Dash", .prim (.str "dash"))])

/-- No memory: the examples without pointers. -/
def emptyHeap : Heap := fun _ => none

/-- The value `skipFields{value: 1}` of `TestMarshalJSON_StructTags_SkipFields`. -/
def skipFieldsVal : Option (GoType × Val) :=
  some (.named (localName "skipFields"), .struct [("value", intVal 1), ("skip", .other)])

/-- A value of type `customJSON`. -/
def customJSONVal (value : String) : Val :=
  .struct [("value", .prim (.str value)), ("unsupported", .other)]

/-- The value `wrapper{v: 42}` of `ExampleMarshalJSON_interfaces`. -/
def wrapperIntVal : Option (GoType × Val) :=
  some (.named (localName "wrapper"), .struct [("v", .iface (some (.basic .int, intVal 42)))])

/-- The value `wrapper{v: &val}` for the variable `val` of `intHeap` that
holds 42. -/
def wrapperPointerVal : Option (GoType × Val) :=
  some (.named (localName "wrapper"),
    .struct [("v", .iface (some (.pointer (.basic .int), .ptr (some ptrA))))])

/-- The value of `TestMarshalJSON_Options_IndentAndPrefix`; the variable of
`stringHeap` holds the string of `StrPtr`. -/
def testStructVal : Option (GoType × Val) :=
  some (.named (localName "testStruct"),
    .struct [("String", .prim (.str "hello")), ("Int", intVal 42),
      ("Slice", .slice (some [.prim (.str "a"), .prim (.str "b"), .prim (.str "c")])),
      ("Map", .map (some [(.prim (.str "y"), intVal 2), (.prim (.str "x"), intVal 1)])),
      ("Complex", .complex float64One float64Two),
      ("StrPtr", .ptr (some ptrA)),
      ("Any", .iface (some (.slice (.basic .int), .slice (some [intVal 1, intVal 2, intVal 3]))))])

/-- The type of `structWithInterfaces` of
`TestMarshalJSON_Struct_WithNilInterface`. -/
def structWithInterfacesType : GoType :=
  .struct (.cons { name := "nilInterface" } (.basic .interface)
    (.cons { name := "nilStruct" } (.basic .interface)
    (.cons { name := "emptyString" } (.basic .interface)
    (.cons { name := "emptyStruct" } (.basic .interface) .nil))))

/-- The value of `TestMarshalJSON_Struct_WithNilInterface`. -/
def structWithInterfacesVal : Option (GoType × Val) :=
  some (structWithInterfacesType,
    .struct [("nilInterface", .iface none),
      ("nilStruct", .iface (some (.pointer (.named (localName "stringer")), .ptr none))),
      ("emptyString", .iface (some (.named (localName "stringAlias"), .prim (.str "")))),
      ("emptyStruct", .iface (some (.named (localName "stringer"),
        .struct [("value", .iface none)])))])

/-- The struct type of the case "json tags" of `TestMarshalJSON_StructTags`. -/
def jsonTagsType : GoType :=
  .struct (.cons { name := "X", json := "x" } (.basic .int)
    (.cons { name := "Y", json := ",omitempty" } (.basic .int)
    (.cons { name := "Z", json := "z,omitempty" } (.basic .int) .nil)))

/-- The fields of the case "override tags" of `TestMarshalJSON_StructTags`. -/
def overrideTagsFields : List (FieldInfo × GoType) :=
  [ ({ name := "noTag" }, .basic .string),
    ({ name := "WithTag", json := "jsonTag" }, .basic .string),
    ({ name := "OverrideTag", json := "originalTag", unsafelyJson := "overrideTag" }, .basic .string),
    ({ name := "OverrideOptions", json := ",omitempty", unsafelyJson := "," }, .basic .string),
    ({ name := "OverrideNoSkip", json := "-", unsafelyJson := "," }, .basic .string),
    ({ name := "OverrideSkip", json := ",omitempty", unsafelyJson := "-" }, .basic .string),
    ({ name := "unexported", unsafelyJson := "last" }, .basic .string) ]

/-- The value of the case "override tags". -/
def overrideTagsVal : Option (GoType × Val) :=
  some (.struct (FieldList.ofList overrideTagsFields),
    .struct [("noTag", .prim (.str "1")), ("WithTag", .prim (.str "2")),
      ("OverrideTag", .prim (.str "3")), ("OverrideOptions", .prim (.str "")),
      ("OverrideNoSkip", .prim (.str "5")), ("OverrideSkip", .prim (.str "6")),
      ("unexported", .prim (.str "7"))])

/-- The fields of the case "duplicate json names". -/
def duplicateFields : List (FieldInfo × GoType) :=
  [ ({ name := "Field1", json := "same" }, .basic .string),
    ({ name := "Field2", json := "same" }, .basic .string) ]

/-- The fields of the case "duplicate json name conflicts with override". -/
def duplicateOverrideFields : List (FieldInfo × GoType) :=
  [ ({ name := "Field1", json := "same" }, .basic .string),
    ({ name := "Field2", unsafelyJson := "same" }, .basic .string) ]

/-- The fields of the case "duplicate json names with override". -/
def renamedFields : List (FieldInfo × GoType) :=
  [ ({ name := "Field1", json := "same" }, .basic .string),
    ({ name := "same", unsafelyJson := "different" }, .basic .string) ]

/-- A value of a struct with two string fields. -/
def twoStrings (n1 v1 n2 v2 : String) : Val :=
  .struct [(n1, .prim (.str v1)), (n2, .prim (.str v2))]

/-! ## The rules of the struct tags, in the words of the specification -/

/-- The effective tag of a field: the `unsafely.json` tag when that tag is
not empty, otherwise the `json` tag. -/
def effectiveTag (field : FieldInfo) : String :=
  if field.unsafelyJson ≠ "" then field.unsafelyJson else field.json

/-- The name part of a tag: the text before its first comma. -/
def tagNamePart (tag : String) : String := String.mk (cutComma tag.data).1

/-- Whether a tag has a comma, after which its options stand. -/
def tagHasOptions (tag : String) : Bool := (cutComma tag.data).2.2

/-- The options of a tag: the text after its first comma. -/
def tagOptionsPart (tag : String) : String := String.mk (cutComma tag.data).2.1

/-- The wire name of a field, in the words of the specification: the name
part of the `unsafely.json` tag when that tag is not empty, otherwise of the
`json` tag when that tag is not empty, otherwise the declared name; an empty
name part also gives the declared name. -/
def wireNameOf (field : FieldInfo) : String :=
  if field.unsafelyJson ≠ "" then
    if tagNamePart field.unsafelyJson = "" then field.name else tagNamePart field.unsafelyJson
  else if field.json ≠ "" then
    if tagNamePart field.json = "" then field.name else tagNamePart field.json
  else field.name

/-- Whether a field is retained, in the words of the specification: its
effective tag is not the bare omit marker. -/
def isRetained (field : FieldInfo) : Bool := effectiveTag field != "-"

/-- The `json` tag of the wire field of a field: the wire name, and after it
the comma and the options of the effective tag when that tag has a comma. -/
def wireJsonTagOf (field : FieldInfo) : String :=
  if tagHasOptions (effectiveTag field) then
    wireNameOf field ++ "," ++ tagOptionsPart (effectiveTag field)
  else wireNameOf field

/-- The struct tag of the wire field of a field. -/
def wireTagOf (field : FieldInfo) : String :=
  "json:\"" ++ wireJsonTagOf field ++ "\" original:\"" ++ field.name ++ "\""

/-- The wire field that the mirror makes of the field with index `i`. -/
def wireFieldOf (i : Nat) (field : FieldInfo) : WFieldInfo :=
  { name := "F" ++ toString i, tag := wireTagOf field, embedded := field.embedded }

/-- The text of the error for two fields with one wire name. -/
def duplicateMessage (jsonName existingField fieldName : String) : String :=
  "createEncodedTypeFor(): duplicate JSON field name " ++ goQuote jsonName
    ++ " (struct fields " ++ goQuote existingField ++ " and " ++ goQuote fieldName ++ ")"

/-- The retained fields of a struct with their indices, counted from `i`. -/
def retainedFrom (i : Nat) (fields : List (FieldInfo × GoType)) : List (Nat × FieldInfo × GoType) :=
  (fields.enumFrom i).filter (fun p => isRetained p.2.1)

/-- The names in use after the loop of `createEncodedTypeFor` has gone over
some fields: `usedJsonNames`, with the latest entry first. -/
def usedAfter : List (FieldInfo × GoType) → List (String × String) → List (String × String)
  | [], used => used
  | (field, _) :: rest, used =>
    if isRetained field then usedAfter rest ((wireNameOf field, field.name) :: used)
    else usedAfter rest used

/-- The wire names of the retained fields of a list of fields. -/
def retainedNames (fields : List (FieldInfo × GoType)) : List String :=
  (fields.filter (fun p => isRetained p.1)).map (fun p => wireNameOf p.1)

/-! ## Types with a channel, a function or an unsafe pointer inside -/

/-- A type that does not implement `json.Marshaler` and is a channel, a
function or an unsafe pointer, or is a slice, an array, a map or a struct that
has such a type as element, key, value or retained field. -/
inductive HasUnsupported (env : TypeEnv) : GoType → Prop where
  | direct (t : GoType) : env.implementsMarshaler t = false →
      (env.kind t = .chan ∨ env.kind t = .func ∨ env.kind t = .unsafePointer) →
      HasUnsupported env t
  | slice (t : GoType) : env.implementsMarshaler t = false → env.kind t = .slice →
      HasUnsupported env (env.elem t) → HasUnsupported env t
  | array (t : GoType) : env.implementsMarshaler t = false → env.kind t = .array →
      HasUnsupported env (env.elem t) → HasUnsupported env t
  | mapKey (t : GoType) : env.implementsMarshaler t = false → env.kind t = .map →
      HasUnsupported env (env.key t) → HasUnsupported env t
  | mapElem (t : GoType) : env.implementsMarshaler t = false → env.kind t = .map →
      HasUnsupported env (env.elem t) → HasUnsupported env t
  | field (t : GoType) (f : FieldInfo) (ft : GoType) : env.implementsMarshaler t = false →
      env.kind t = .struct → (f, ft) ∈ env.fields t → isRetained f = true →
      HasUnsupported env ft → HasUnsupported env t

/-- As `HasUnsupported`, where nothing else goes wrong before the mirror
meets the unsupported type: the key of a map is mirrored before its value,
and the fields of a struct in their order, each after the test for a
duplicate of its wire name. -/
inductive FirstUnsupported (env : TypeEnv) : GoType → Prop where
  | direct (t : GoType) : env.implementsMarshaler t = false →
      (env.kind t = .chan ∨ env.kind t = .func ∨ env.kind t = .unsafePointer) →
      FirstUnsupported env t
  | slice (t : GoType) : env.implementsMarshaler t = false → env.kind t = .slice →
      FirstUnsupported env (env.elem t) → FirstUnsupported env t
  | array (t : GoType) : env.implementsMarshaler t = false → env.kind t = .array →
      FirstUnsupported env (env.elem t) → FirstUnsupported env t
  | mapKey (t : GoType) : env.implementsMarshaler t = false → env.kind t = .map →
      FirstUnsupported env (env.key t) → FirstUnsupported env t
  | mapElem (t : GoType) : env.implementsMarshaler t = false → env.kind t = .map →
      (∃ fuel w, createEncodedTypeFor env fuel (env.key t) = .ok w) →
      FirstUnsupported env (env.elem t) → FirstUnsupported env t
  | field (t : GoType) (pre : List (FieldInfo × GoType)) (f : FieldInfo) (ft : GoType)
      (post : List (FieldInfo × GoType)) : env.implementsMarshaler t = false →
      env.kind t = .struct → env.fields t = pre ++ (f, ft) :: post → isRetained f = true →
      (∀ p ∈ pre, isRetained p.1 = true → ∃ fuel w, createEncodedTypeFor env fuel p.2 = .ok w) →
      (retainedNames pre).Nodup → wireNameOf f ∉ retainedNames pre →
      FirstUnsupported env ft → FirstUnsupported env t

/-- The fields of a struct with two fields of one wire name and then a
channel. -/
def duplicateChanFields : List (FieldInfo × GoType) :=
  duplicateFields ++ [({ name := "C" }, .basic .chan)]

/-! ## Decoding the box of an interface -/

/-- The loop of `decodeFromInterfaceValue` that adds the pointer indirections
recorded in the pointer depth: `reflect.PointerTo`, so many times. -/
def addPointers : Nat → GoType → GoType
  | 0, decodedT => decodedT
  | n + 1, decodedT => addPointers n (.pointer decodedT)

/-- The result of `decodeFromInterfaceValue`: the returned value (`none` is
the zero `reflect.Value`, else the type and the variable of the decoded
value) or error, the arguments of the calls of `ResolveType` that the function
made itself, in order, and the decoder and the memory as the call leaves
them. -/
abbrev DecIfaceRes :=
  Except Err (Option (GoType × Nat)) × List (String × String × String) × JSONDecoder × Memory

/-- Source: `JSONDecoder.decodeFromInterfaceValue` in `interfaceValue.go`.
`unmarshal` is `json.Unmarshal` into a value of a wire type and `decodeTo` is
`s.decodeTo`.  A resolver that returns neither a type nor an error makes the
code panic on the nil type. -/
def decodeFromInterfaceValue (env : TypeEnv) (fuel : Nat)
    (unmarshal : Json → WType → Except String Wire) (decodeTo : DecodeToFn)
    (s : JSONDecoder) (m : Memory) (inV : Wire) : DecIfaceRes :=
  match inV with
  | .interfaceValue none => (.ok none, [], s, m) -- Nil interface
  | .interfaceValue (some iv) =>
    match s.config.typeResolver with
    | none =>
      (.error (.msg ("decodeFromInterfaceValue(): a type resolver must be configured using "
        ++ "WithTypeResolver() to resolve types to interface values")), [], s, m)
    | some typeResolver =>
      let call := (iv.pkgPath, iv.typeName, iv.typeString)
      let resolved := typeResolver iv.pkgPath iv.typeName iv.typeString
      match resolved.err with
      | some err => (.error (.msg ("decodeFromInterfaceValue(): " ++ err)), [call], s, m)
      | none =>
        match resolved.typ with
        | none => (.error (.panic "invalid memory address or nil pointer dereference"), [call], s, m)
        | some resolvedT =>
          -- Add the pointer indirections recorded in the pointer depth.
          let decodedT := addPointers iv.ptrDepth.toNat resolvedT
          match encodedTypeFor env fuel decodedT with
          | .error err => (.error (err.wrap "decodeFromInterfaceValue(): "), [call], s, m)
          | .ok encodedT =>
            match unmarshal iv.value encodedT with
            | .error err => (.error (.msg ("decodeFromInterfaceValue(): " ++ err)), [call], s, m)
            | .ok encodedV =>
              let decodedV : Pointer := m.alloc.1
              match decodeTo s m.alloc.2 encodedV decodedT decodedV.obj with
              | (.error err, s2, m2) =>
                (.error (err.wrap "decodeFromInterfaceValue(): "), [call], s2, m2)
              | (.ok _, s2, m2) => (.ok (some (decodedT, decodedV.obj)), [call], s2, m2)
  | _ =>
    (.error (.msg ("decodeFromInterfaceValue(): expected value to be an *interfaceValue; "
      ++ "received another type")), [], s, m)

/-! ## The invariant of the reference ids -/

/-- The invariant of the pointer table of an encoder: the counter is not
negative, every box of the table has an id between 1 and the counter, and
different addresses have boxes with different ids. -/
def TableInv (s : JSONEncoder) : Prop :=
  0 ≤ s.pointerIndex
  ∧ (∀ a pv, s.pointerValues a = some pv → 1 ≤ pv.pointer ∧ pv.pointer ≤ s.pointerIndex)
  ∧ (∀ a b pva pvb, s.pointerValues a = some pva → s.pointerValues b = some pvb →
      pva.pointer = pvb.pointer → a = b)

/-- The relation of the induction for `TableInv`: the table and the counter
grow, and the invariant is kept. -/
def KeepsTable (s s' : JSONEncoder) : Prop :=
  Grows s s' ∧ (TableInv s → TableInv s')

/-! ## More values for the examples -/

/-- A struct type whose only field is omitted: `struct { id int "json:\"-\"" }`. -/
def hiddenKeyType : GoType :=
  .struct (.cons { name := "id", json := "-" } (.basic .int) .nil)

/-- A map with two keys of `hiddenKeyType`, `{1}` and `{2}`. -/
def hiddenKeyMap : Option (GoType × Val) :=
  some (.map hiddenKeyType (.basic .int),
    .map (some [(.struct [("id", intVal 1)], intVal 10), (.struct [("id", intVal 2)], intVal 20)]))

/-- A memory whose variable 1 is an interface that holds a channel. -/
def chanHeap : Heap := fun obj =>
  if obj = 1 then some (.iface (some (.basic .chan, .other))) else none

/-- The memory after the variable 1 has been set to the `int` 42. -/
def fixedHeap : Heap := fun obj =>
  if obj = 1 then some (.iface (some (.basic .int, intVal 42))) else none

/-- The pointer to the interface variable 1, of type `*any`. -/
def anyPointer : Option (GoType × Val) :=
  some (.pointer (.basic .interface), .ptr (some ptrA))

/-- A struct with one field, `secret`, an interface that holds a channel. -/
def secretVal : Option (GoType × Val) :=
  some (.struct (.cons { name := "secret" } (.basic .interface) .nil),
    .struct [("secret", .iface (some (.basic .chan, .other)))])

/-- A slice of three interfaces; the one at position 1 holds a channel. -/
def sliceWithChan : Option (GoType × Val) :=
  some (.slice (.basic .interface),
    .slice (some [.iface (some (.basic .int, intVal 7)), .iface (some (.basic .chan, .other)),
      .iface (some (.basic .int, intVal 9))]))

/-- The defined type `type intPointer *int`. -/
def intPointerName : TypeName := localName "intPointer"

/-- An environment with the defined pointer type `intPointer`. -/
def pointerEnv : TypeEnv where
  underlying := fun n => if n = intPointerName then some (.pointer (.basic .int)) else none
  marshaler := fun _ => none

/-- An entry of a wire map as the loop of the map branch of `encodeTo` makes
it from an entry of the original map: the key by `encodeMapKey` and then the
value by `encode`, in some state of the encoder. -/
def EncodedEntry (env : TypeEnv) (ff : FloatFormat) (encode : EncodeFn) (keyT valT : GoType)
    (entry : Val × Val) (kv : Wire × Wire) : Prop :=
  ∃ sa sb sc, encodeMapKey env ff encode sa keyT entry.1 = (.ok kv.1, sb)
    ∧ encode sb valT entry.2 = (.ok kv.2, sc)

/-- The wire map after the entries of a list have been set one after the
other (`SetMapIndex`). -/
def wireMapSetAll (kvs : List (Wire × Wire)) (acc : List (Wire × Wire)) : List (Wire × Wire) :=
  kvs.foldl (fun a kv => wireMapSet kv.1 kv.2 a) acc

/-- The type `exampleWithTags` of `ExampleMarshalJSON_structTags`. -/
def exampleWithTagsType : GoType := .named (localName "exampleWithTags")

/-- A struct type with the single field `Y int` with the given tags. -/
def singleY (json unsafelyJson : String) : GoType :=
  .struct (.cons { name := "Y", json := json, unsafelyJson := unsafelyJson } (.basic .int) .nil)

/-- The struct type `jsonDash` of `TestMarshalJSON_Dash`. -/
def jsonDashType : GoType :=
  .struct (.cons { name := "Val", json := "-," } (.basic .int) .nil)

/-! ## The keys of the static resolver, and more values -/

/-- The key under which `StaticResolver.AddTypes` stores a type: the type
string when the type has neither package path nor name, else the package path
and the name. -/
def StaticResolver.keyOf (typ : GoType) : (String × String) ⊕ String :=
  if pkgPathOf typ = "" && nameOf typ = "" then .inr (typeString typ)
  else .inl (pkgPathOf typ, nameOf typ)

/-- The key that `StaticResolver.ResolveType` looks up. -/
def StaticResolver.lookupKey (pkgPath typeName typeString : String) : (String × String) ⊕ String :=
  if pkgPath = "" && typeName = "" then .inr typeString else .inl (pkgPath, typeName)

/-- The type `testStruct` of the tests of the resolvers. -/
def resolverTestStruct : GoType :=
  .named ⟨"github.com/outriggerlabs/unsafely/typeutil_test", "typeutil_test", "testStruct"⟩

/-- The type `map[string]int`. -/
def mapStringInt : GoType := .map (.basic .string) (.basic .int)

/-- The two resolvers of `TestChainResolver`. -/
def testChain : List Resolver :=
  [(NewStaticResolver.AddTypes [mapStringInt]).ResolveType,
   (NewStaticResolver.AddTypes [resolverTestStruct]).ResolveType]

/-- A decoder whose type resolver is a static resolver without types. -/
def emptyResolverDecoder : JSONDecoder :=
  { NewJSONDecoder with config := { typeResolver := some NewStaticResolver.ResolveType } }

/-- The box of an interface that holds the `int` 42. -/
def intBox : InterfaceValue :=
  { ptrDepth := 0, pkgPath := "", typeName := "int", typeString := "", value := .num "42" }

/-- The number of elements of a wire slice or array, or of entries of a wire
map; `none` for a nil slice or map. -/
def wireLen : Wire → Option Nat
  | .slice _ items => items.map List.length
  | .array items => some items.length
  | .map entries => entries.map List.length
  | _ => none

/-- The relation of the induction for the pending set: a call that succeeds
leaves the pending set as it found it. -/
def RestoresPending (ok : Bool) (s s' : JSONEncoder) : Prop :=
  ok = true → s'.pendingPointers = s.pendingPointers

/-- A slice of one interface that holds the pointer to the variable 1, as a
value of the given pointer type. -/
def sliceOfPointer (t : GoType) : Option (GoType × Val) :=
  some (.slice (.basic .interface), .slice (some [.iface (some (t, .ptr (some ptrA)))]))

/-! ## Types that refer to themselves, and more map types -/

/-- An environment with three types that refer to themselves without a
pointer in between: `type tree struct { children []tree }`,
`type index struct { byName map[string]index }` and `type nest []nest`.  No
type implements `json.Marshaler`. -/
def recursiveEnv : TypeEnv where
  underlying := fun n =>
    if n = localName "tree" then
      some (.struct (.cons { name := "children" } (.slice (.named (localName "tree"))) .nil))
    else if n = localName "index" then
      some (.struct (.cons { name := "byName" }
        (.map (.basic .string) (.named (localName "index"))) .nil))
    else if n = localName "nest" then some (.slice (.named (localName "nest")))
    else none
  marshaler := fun _ => none

/-- The type `tree`. -/
def treeType : GoType := .named (localName "tree")

/-- The type `index`. -/
def indexType : GoType := .named (localName "index")

/-- The type `nest`. -/
def nestType : GoType := .named (localName "nest")

/-- A type whose mirror `createEncodedTypeFor` builds with finitely many
nested calls: a type that implements `json.Marshaler` or is not a slice, an
array, a map or a struct needs no nested call; a slice or an array needs the
mirror of its element type, a map those of its key and value types, a struct
those of the types of its retained fields. -/
inductive Mirrorable (env : TypeEnv) : GoType → Prop where
  | leaf (t : GoType) :
      (env.implementsMarshaler t = true ∨ (env.kind t ≠ .slice ∧ env.kind t ≠ .array
        ∧ env.kind t ≠ .map ∧ env.kind t ≠ .struct)) → Mirrorable env t
  | slice (t : GoType) : env.kind t = .slice → Mirrorable env (env.elem t) → Mirrorable env t
  | array (t : GoType) : env.kind t = .array → Mirrorable env (env.elem t) → Mirrorable env t
  | map (t : GoType) : env.kind t = .map → Mirrorable env (env.key t) →
      Mirrorable env (env.elem t) → Mirrorable env t
  | struct (t : GoType) : env.kind t = .struct →
      (∀ p ∈ env.fields t, isRetained p.1 = true → Mirrorable env p.2) → Mirrorable env t

/-! ## Pointers that share an address -/

mutual
/-- The pointers a value holds, not counting what they point to. -/
def pointersIn : Val → List Pointer
  | .ptr (some p) => [p]
  | .slice (some items) => pointersInList items
  | .array items => pointersInList items
  | .map (some entries) => pointersInEntries entries
  | .struct fields => pointersInFields fields
  | .iface (some (_, v)) => pointersIn v
  | _ => []
/-- The pointers the values of a list hold. -/
def pointersInList : List Val → List Pointer
  | [] => []
  | v :: rest => pointersIn v ++ pointersInList rest
/-- The pointers the keys and the values of the entries of a map hold. -/
def pointersInEntries : List (Val × Val) → List Pointer
  | [] => []
  | (k, v) :: rest => pointersIn k ++ pointersIn v ++ pointersInEntries rest
/-- The pointers the fields of a struct hold. -/
def pointersInFields : List (String × Val) → List Pointer
  | [] => []
  | (_, v) :: rest => pointersIn v ++ pointersInFields rest
end

/-- A memory without a cycle through pointer edges: the variables can be
ranked so that every pointer held in a variable points to a variable of lower
rank. -/
def PointerAcyclic (heap : Heap) : Prop :=
  ∃ rank : Nat → Nat, ∀ obj v, heap obj = some v → ∀ p ∈ pointersIn v, rank p.obj < rank obj

/-- The type `holder`: `struct { first int; self *int }`. -/
def holderType : GoType :=
  .struct (.cons { name := "first" } (.basic .int) (.cons { name := "self" } (.pointer (.basic .int)) .nil))

/-- A memory with a `holder` in the variable 1, at the address 100, whose
field `self` points to the variable 2, an `int` at the given address.  With
the address 100 the variable 2 is the field `first` of the holder, which has
the address of the holder. -/
def holderHeap (addr : Nat) : Heap := fun obj =>
  if obj = 1 then
    some (.struct [("first", intVal 1), ("self", .ptr (some { addr := addr, obj := 2 }))])
  else if obj = 2 then some (intVal 1)
  else none

/-- The pointer to the holder. -/
def holderPointer : Option (GoType × Val) :=
  some (.pointer holderType, .ptr (some ptrA))

/-- A memory with a `point` in the variable 1, at the address 100, whose
fields `x` and `y` are the variables 2, at the address 100, and 3, at the
address 108. -/
def pointHeap : Heap := fun obj =>
  if obj = 1 then some (pointVal 1 2)
  else if obj = 2 then some (intVal 1)
  else if obj = 3 then some (intVal 2)
  else none

/-- The type `struct { whole *point; part *int }`. -/
def wholeAndPartType : GoType :=
  .struct (.cons { name := "whole" } (.pointer pointType)
    (.cons { name := "part" } (.pointer (.basic .int)) .nil))

/-- A value of `wholeAndPartType`: `whole` points to the point of `pointHeap`
and `part` is the given pointer. -/
def wholeAndPart (part : Pointer) : Option (GoType × Val) :=
  some (wholeAndPartType, .struct [("whole", .ptr (some ptrA)), ("part", .ptr (some part))])

/-- The pointer to the field `x` of the point of `pointHeap`. -/
def ptrX : Pointer := { addr := 100, obj := 2 }

/-- The pointer to the field `y` of the point of `pointHeap`. -/
def ptrY : Pointer := { addr := 108, obj := 3 }

/-- A memory with one variable, a nil map. -/
def nilMapHeap : Heap := fun obj => if obj = 1 then some (.map none) else none

/-- A memory with one variable, a nil interface. -/
def nilInterfaceHeap : Heap := fun obj => if obj = 1 then some (.iface none) else none

/-- A memory with one pointer variable, 0, that holds nil. -/
def oneNilPointer : Memory :=
  { slots := fun c => if c = 0 then some none else none, nextObj := 10 }

/-! ## A key type of primitive kind that implements `json.Marshaler` -/

/-- The name of `type label string`, a type with the method
`func (l label) MarshalJSON() ([]byte, error)`. -/
def labelName : TypeName := localName "label"

/-- The type `label`. -/
def labelType : GoType := .named labelName

/-- The method `label.MarshalJSON`: the JSON string of the label after
`label:`. -/
def labelMarshal : Val → Except String Json
  | .prim (.str s) => .ok (.str ("label:" ++ s))
  | _ => .error "label: not a string"

/-- An environment with `label`, which implements `json.Marshaler`, and with
`type plain string`, which does not. -/
def labelEnv : TypeEnv where
  underlying := fun n =>
    if n = labelName then some (.basic .string)
    else if n = localName "plain" then some (.basic .string)
    else none
  marshaler := fun t => if t = labelType then some labelMarshal else none

/-- The value `map[label]int{"a": 1}`. -/
def labelMap : Option (GoType × Val) :=
  some (.map labelType (.basic .int), .map (some [(.prim (.str "a"), intVal 1)]))

/-- The value `map[plain]int{"a": 1}`. -/
def plainMap : Option (GoType × Val) :=
  some (.map (.named (localName "plain")) (.basic .int), .map (some [(.prim (.str "a"), intVal 1)]))

/-! ## Struct tags with a double quote or a backslash in the JSON name -/

/-- A struct type with the single field `X int` whose `json` tag has the
given value (what `Tag.Get("json")` returns). -/
def singleX (json : String) : GoType :=
  .struct (.cons { name := "X", json := json } (.basic .int) .nil)

/-- The value of `singleX` with `X` set to 1. -/
def singleXVal (json : String) : Option (GoType × Val) :=
  some (singleX json, .struct [("X", intVal 1)])

/-- A `json.Unmarshal` for the examples: every payload is read as itself, a
raw message. -/
def unmarshalRaw : Json → WType → Except String Wire :=
  fun j _ => .ok (.rawMessage j)

/-- A memory with two nil pointer variables, 0 and 1. -/
def twoNilPointers : Memory :=
  { slots := fun c => if c < 2 then some none else none, nextObj := 10 }

/-- Two calls for two documents of two fresh encoders: the box with the id 1
of a `*string` for the destination 0, and the box with the id 1 of an `*int`
for the destination 1. -/
def twoEncoderCalls : List DecodeCall :=
  [ { pv := { pointer := 1, value := .str "one" }, outT := .pointer (.basic .string), out := 0 },
    { pv := { pointer := 1, value := .num "42" }, outT := .pointer (.basic .int), out := 1 } ]

/-! ## Slices and maps that contain themselves -/

/-- The type `[]any`. -/
def anySliceType : GoType := .slice (.basic .interface)

/-- The type `map[string]any`. -/
def anyMapType : GoType := .map (.basic .string) (.basic .interface)

/-- The slice `s` of `s := make([]any, 1); s[0] = s`, followed through `n` of
its levels: a slice whose only element is an interface that holds the slice of
the next level, with `bottom` in the place of the slice after the last level.
The slice `s` itself agrees with `selfSlice bottom n` down to the level `n`,
for every `n` and every `bottom`. -/
def selfSlice (bottom : Val) : Nat → Val
  | 0 => bottom
  | n + 1 => .slice (some [.iface (some (anySliceType, selfSlice bottom n))])

/-- The map `m` of `m := map[string]any{}; m["self"] = m`, followed through
`n` of its levels, with `bottom` after the last level. -/
def selfMap (bottom : Val) : Nat → Val
  | 0 => bottom
  | n + 1 => .map (some [(.prim (.str "self"), .iface (some (anyMapType, selfMap bottom n)))])

/-! ## Maps visited in different orders -/

/-- The map `map[string]*int` with the given entries, in the order in which
`MapRange` visits them. -/
def stringPointerMap (entries : List (String × Pointer)) : Option (GoType × Val) :=
  some (.map (.basic .string) (.pointer (.basic .int)),
    .map (some (entries.map (fun e => (.prim (.str e.1), .ptr (some e.2))))))

/-- The map `map[*int]string` with the given entries, in the order in which
`MapRange` visits them. -/
def pointerStringMap (entries : List (Pointer × String)) : Option (GoType × Val) :=
  some (.map (.pointer (.basic .int)) (.basic .string),
    .map (some (entries.map (fun e => (.ptr (some e.1), .prim (.str e.2))))))

/-- The entries of a `map[string]int` as values, in the order in which
`MapRange` visits them. -/
def stringIntEntries (entries : List (String × Int)) : List (Val × Val) :=
  entries.map (fun e => (.prim (.str e.1), intVal e.2))

/-- The map `map[string]int` with the given entries. -/
def stringIntMap (entries : List (String × Int)) : Option (GoType × Val) :=
  some (mapStringInt, .map (some (stringIntEntries entries)))

/-- The entries of the wire map of a `map[string]int`. -/
def stringIntWires (entries : List (String × Int)) : List (Wire × Wire) :=
  entries.map (fun e => (.prim (.basic .string) (.str e.1), .prim (.basic .int) (.int e.2)))

/-- The members of the JSON object of a `map[string]int`, before they are
sorted. -/
def stringIntMembers (entries : List (String × Int)) : List (String × Json) :=
  entries.map (fun e => (e.1, .num (toString e.2)))

/-- The last step of `JSONEncoder.Encode`: the text of the envelope around the
encoded value, on a single line if prefix and indent are empty and on several
lines otherwise. -/
def envelopeText (config : marshalJSONConfig) (encodedBytes : Json) : String :=
  if config.pfx = "" && config.indent = "" then (encodedJSONWrapper encodedBytes).compact
  else (encodedJSONWrapper encodedBytes).indentAt config.pfx config.indent 0

/-! ## The mirror with its cache -/

/-- Source: `typeCache` in `encodedTypeFor.go`: the map from decoded types to
encoded types. -/
abbrev TypeCache := GoType → Option WType

/-- The result of a function that reads and writes the cache: the returned
value or error, and the cache as the call leaves it. -/
abbrev CacheRes (α : Type) := Except Err α × TypeCache

/-- Source: `encodedTypeFor` in `encodedTypeFor.go`, given
`createEncodedTypeFor`: a type in the cache is answered from the cache, and
the result of `createEncodedTypeFor` is stored after the call has returned
without an error. -/
def encodedTypeForWith (create : TypeCache → GoType → CacheRes WType)
    (cache : TypeCache) (inputT : GoType) : CacheRes WType :=
  match cache inputT with
  | some encodedT => (.ok encodedT, cache)
  | none =>
    match create cache inputT with
    | (.error err, cache1) => (.error err, cache1)
    | (.ok encodedT, cache1) => (.ok encodedT, Function.update cache1 inputT (some encodedT))

/-- The loop over the fields of a struct in `createEncodedTypeFor`, as
`mirrorStructFields`, with the cache; `mirror` is `encodedTypeFor`. -/
def mirrorStructFieldsCached (mirror : TypeCache → GoType → CacheRes WType) :
    Nat → List (String × String) → List (FieldInfo × GoType) → TypeCache →
    CacheRes (List (WFieldInfo × WType))
  | _, _, [], cache => (.ok [], cache)
  | i, used, (field, fieldType) :: rest, cache =>
    let fieldName := field.name
    -- Default to the "json" tag, but override with the "unsafely.json" tag.
    let jsonTag :=
      if field.unsafelyJson ≠ "" then field.unsafelyJson
      else if field.json ≠ "" then field.json
      else ""
    if jsonTag = "-" then mirrorStructFieldsCached mirror (i + 1) used rest cache
    else
      let cut := cutComma jsonTag.data
      let jsonOptions := String.mk cut.2.1
      let hasOptions := cut.2.2
      let jsonName := if String.mk cut.1 = "" then fieldName else String.mk cut.1
      let jsonTag := if hasOptions then jsonName ++ "," ++ jsonOptions else jsonName
      match used.lookup jsonName with
      | some existingField =>
        (.error (.msg ("createEncodedTypeFor(): duplicate JSON field name " ++ goQuote jsonName
          ++ " (struct fields " ++ goQuote existingField ++ " and " ++ goQuote field.name ++ ")")),
          cache)
      | none =>
        match mirror cache fieldType with
        | (.error e, cache1) => (.error (e.wrap "createEncodedTypeFor: "), cache1)
        | (.ok newType, cache1) =>
          let info : WFieldInfo :=
            { name := "F" ++ toString i
              tag := "json:\"" ++ jsonTag ++ "\" original:\"" ++ fieldName ++ "\""
              embedded := field.embedded }
          match mirrorStructFieldsCached mirror (i + 1) ((jsonName, field.name) :: used) rest
              cache1 with
          | (.error e, cache2) => (.error e, cache2)
          | (.ok fields, cache2) => (.ok ((info, newType) :: fields), cache2)

/-- Source: `createEncodedTypeFor` in `encodedTypeFor.go`, with the cache as
explicit state: the nested calls go through `encodedTypeFor`, which reads and
writes the cache.  The fuel bounds the depth of the nested calls. -/
def createEncodedTypeForCached (env : TypeEnv) : Nat → TypeCache → GoType → CacheRes WType
  | 0, cache, _ => (.error .outOfFuel, cache)
  | fuel + 1, cache, inputT =>
    let encodedTypeFor := encodedTypeForWith (createEncodedTypeForCached env fuel)
    if env.implementsMarshaler inputT then (.ok .rawMessage, cache)
    else
      let kind := env.kind inputT
      if kind = .chan || kind = .func || kind = .unsafePointer then
        (.error (.msg ("createEncodedTypeFor: unsupported kind " ++ kind.toString ++ " for "
          ++ typeString inputT)), cache)
      else if kind = .interface then (.ok .interfaceValue, cache)
      else if kind = .pointer then (.ok .pointerValue, cache)
      else if kind = .slice then
        match encodedTypeFor cache (env.elem inputT) with
        | (.error e, cache1) => (.error (e.wrap "createEncodedTypeFor: "), cache1)
        | (.ok elemType, cache1) => (.ok (.slice elemType), cache1)
      else if kind = .array then
        match encodedTypeFor cache (env.elem inputT) with
        | (.error e, cache1) => (.error (e.wrap "createEncodedTypeFor: "), cache1)
        | (.ok elemType, cache1) => (.ok (.array (env.len inputT) elemType), cache1)
      else if kind = .map then
        match encodedTypeFor cache (env.key inputT) with
        | (.error e, cache1) => (.error (e.wrap "createEncodedTypeFor: "), cache1)
        | (.ok keyType, cache1) =>
          match encodedTypeFor cache1 (env.elem inputT) with
          | (.error e, cache2) => (.error (e.wrap "createEncodedTypeFor: "), cache2)
          | (.ok valueType, cache2) =>
            -- JSON maps cannot have struct keys, so we use string keys instead.
            let keyType := if !isSimplePrimitive (keyType.kind env) then stringType else keyType
            (.ok (.map keyType valueType), cache2)
      else if isComplexNumber kind then (.ok .complexValue, cache)
      else if isSimplePrimitive kind then (.ok (.prim inputT), cache)
      else if kind ≠ .struct then
        (.error (.msg ("createEncodedTypeFor: unhandled non-struct kind " ++ kind.toString
          ++ " of " ++ typeString inputT)), cache)
      else
        match mirrorStructFieldsCached encodedTypeFor 0 [] (env.fields inputT) cache with
        | (.error e, cache1) => (.error e, cache1)
        | (.ok fields, cache1) => (.ok (.struct fields), cache1)

/-- Source: `encodedTypeFor` in `encodedTypeFor.go`, with the cache as
explicit state. -/
def encodedTypeForCached (env : TypeEnv) (fuel : Nat) : TypeCache → GoType → CacheRes WType :=
  encodedTypeForWith (createEncodedTypeForCached env fuel)

/-- A cache that holds only what `createEncodedTypeFor` has returned: the
state of the cache at any time, since it starts empty and only
`encodedTypeFor` writes to it. -/
def CacheSound (env : TypeEnv) (cache : TypeCache) : Prop :=
  ∀ t w, cache t = some w → ∃ fuel, createEncodedTypeFor env fuel t = .ok w

/-- The empty cache, as at the start of the process. -/
def emptyCache : TypeCache := fun _ => none

/-! ## A type that refers to itself and holds a channel -/

/-- An environment with the type
`type branch struct { kids []branch; c chan int }`, which refers to itself
through a slice and has a channel as its second field.  No type implements
`json.Marshaler`. -/
def branchEnv : TypeEnv where
  underlying := fun n =>
    if n = localName "branch" then
      some (.struct (.cons { name := "kids" } (.slice (.named (localName "branch")))
        (.cons { name := "c" } (.basic .chan) .nil)))
    else none
  marshaler := fun _ => none

/-- The type `branch`. -/
def branchType : GoType := .named (localName "branch")

/-! ## A pointer type that implements `json.Marshaler` -/

/-- The type `stamp`: `type stamp struct{}` with the method
`func (s *stamp) MarshalJSON() ([]byte, error)`. -/
def stampType : GoType := .named (localName "stamp")

/-- What `json.Marshal` prints for a `*stamp`: `null` for the nil pointer,
without a call of the method, and else the output of `(*stamp).MarshalJSON`,
the JSON string `stamp`. -/
def stampMarshal : Val → Except String Json
  | .ptr none => .ok .null
  | .ptr (some _) => .ok (.str "stamp")
  | _ => .error "stamp: not a pointer"

/-- An environment with `stamp`, whose pointer type `*stamp` implements
`json.Marshaler` (the method has a pointer receiver). -/
def stampEnv : TypeEnv where
  underlying := fun n => if n = localName "stamp" then some (.struct .nil) else none
  marshaler := fun t => if t = .pointer stampType then some stampMarshal else none

/-- A memory with a variable of type `stamp`. -/
def stampHeap : Heap := fun obj => if obj = 1 then some (.struct []) else none

/-- The value `[]any{&s}` for the variable `s` of `stampHeap`. -/
def stampInInterface : Option (GoType × Val) :=
  some (.slice (.basic .interface),
    .slice (some [.iface (some (.pointer stampType, .ptr (some ptrA)))]))

/-- A memory with an `int` variable that holds 42 and a variable that holds
the pointer to it. -/
def pointerToPointerHeap : Heap := fun obj =>
  if obj = 1 then some (.prim (.int 42))
  else if obj = 2 then some (.ptr (some ptrA))
  else none

/-- The value `[]any{&p}` for the variable `p` of `pointerToPointerHeap` that
holds the pointer to the `int` variable: the concrete value has the type
`**int`. -/
def pointerToPointerInInterface : Option (GoType × Val) :=
  some (.slice (.basic .interface),
    .slice (some [.iface (some (.pointer (.pointer (.basic .int)), .ptr (some ptrB)))]))

/-! ## Entries of a map that are encoded without the state of the encoder -/

/-- An entry of a map that is encoded without reading or changing the
encoder: in every state of the encoder the loop of the map branch of
`encodeTo` makes from it a wire key of the key type of the wire map with the
text `m.1` and a wire value with the document `m.2`, and leaves the state as
it was.  `m` is the member of the JSON object that `encoding/json` prints for
the entry. -/
def StatelessEntry (env : TypeEnv) (ff : FloatFormat) (encode : EncodeFn) (keyT valT : GoType)
    (encodedKeyT : WType) (entry : Val × Val) (m : String × Json) : Prop :=
  ∀ s : JSONEncoder, ∃ (t : GoType) (p : Prim) (w : Wire),
    encodeMapKey env ff encode s keyT entry.1 = (.ok (.prim t p), s)
    ∧ encodedKeyT = .prim t
    ∧ jsonMapKey env (.prim t p) = .ok m.1
    ∧ encode s valT entry.2 = (.ok w, s)
    ∧ jsonMarshal env ff w = .ok m.2

/-- An entry of a wire map with keys of the type `encodedKeyT` that
`encoding/json` prints as the member `m`. -/
def WireMember (env : TypeEnv) (ff : FloatFormat) (encodedKeyT : WType)
    (kv : Wire × Wire) (m : String × Json) : Prop :=
  (∃ (t : GoType) (p : Prim), kv.1 = .prim t p ∧ encodedKeyT = .prim t)
    ∧ jsonMapKey env kv.1 = .ok m.1 ∧ jsonMarshal env ff kv.2 = .ok m.2

/-- The map of `hiddenKeyMap` with its entries visited in the other order. -/
def hiddenKeyMapSwapped : Option (GoType × Val) :=
  some (.map hiddenKeyType (.basic .int),
    .map (some [(.struct [("id", intVal 2)], intVal 20), (.struct [("id", intVal 1)], intVal 10)]))

/-- The map `map[point]int` with the given entries, in the order in which
`MapRange` visits them. -/
def pointIntMap (entries : List ((Int × Int) × Int)) : Option (GoType × Val) :=
  some (.map pointType (.basic .int),
    .map (some (entries.map (fun e => (pointVal e.1.1 e.1.2, intVal e.2)))))

/-! ## A traversal that comes back to a pointer it is encoding -/

/-- The traversal of `encodeTo` for the value `v` of type `t` with the wire
type `w`, started in the state `s`, comes to a pointer whose pointee it is
encoding: a pointer with one of the addresses `opened` or with the address of
a pointer that the traversal has entered on the way.  The traversal enters a
pointer that is not nil and not in the table (`encodeToPointerValue` answers a
pointer in the table with its box and does not visit its pointee again), and
it goes into a field of a struct after the fields before it in the wire type
have been copied without error.  Only types that do not implement
`json.Marshaler` are traversed, and only the fields of the wire type, so not
a field that is omitted. -/
inductive ReachesOpenPointer (env : TypeEnv) (ff : FloatFormat) (heap : Heap) :
    List Nat → Nat → JSONEncoder → GoType → Val → WType → Prop where
  | back (opened : List Nat) (fuel : Nat) (s : JSONEncoder) (t : GoType) (p : Pointer) :
      env.marshaler t = none → env.kind t = .pointer → p.addr ∈ opened →
      ReachesOpenPointer env ff heap opened (fuel + 1) s t (.ptr (some p)) .pointerValue
  | pointer (opened : List Nat) (fuel : Nat) (s : JSONEncoder) (t : GoType) (p : Pointer)
      (pointee : Val) (w : WType) :
      env.marshaler t = none → env.kind t = .pointer → p.addr ≠ 0 →
      s.pointerValues p.addr = none → heap p.obj = some pointee →
      encodedTypeFor env fuel (env.elem t) = .ok w →
      ReachesOpenPointer env ff heap (p.addr :: opened) fuel
        { s with pendingPointers := Function.update s.pendingPointers p.addr true }
        (env.elem t) pointee w →
      ReachesOpenPointer env ff heap opened (fuel + 1) s t (.ptr (some p)) .pointerValue
  | field (opened : List Nat) (fuel : Nat) (s s1 : JSONEncoder) (t : GoType)
      (vals : List (String × Val)) (pre : List (WFieldInfo × WType)) (wf : WFieldInfo)
      (wt : WType) (post : List (WFieldInfo × WType)) (ws : List (WFieldInfo × Wire))
      (fi : FieldInfo) (ft : GoType) (fv : Val) :
      env.marshaler t = none → env.kind t = .struct →
      copyFields env (encodeTo env ff heap fuel) t vals s pre = (.ok ws, s1) →
      structTagGet wf.tag "original" ≠ "" →
      (env.fields t).find? (fun f => f.1.name = structTagGet wf.tag "original") = some (fi, ft) →
      vals.lookup (structTagGet wf.tag "original") = some fv →
      ReachesOpenPointer env ff heap opened fuel s1 ft fv wt →
      ReachesOpenPointer env ff heap opened (fuel + 1) s t (.struct vals)
        (.struct (pre ++ (wf, wt) :: post))

/-- The relation of the induction for the pointers that are being encoded: a
call that succeeds leaves the pending set as it found it and adds no pending
address to the table. -/
def KeepsOpenPointers (ok : Bool) (s s' : JSONEncoder) : Prop :=
  ok = true → s'.pendingPointers = s.pendingPointers
    ∧ ∀ a, s.pendingPointers a = true → s.pointerValues a = none → s'.pointerValues a = none

/-- An environment with two struct types that hold each other:
`type person struct { name string; home address; friend *person }` and
`type address struct { city string; owner *person }`.  No type implements
`json.Marshaler`. -/
def familyEnv : TypeEnv where
  underlying := fun n =>
    if n = localName "person" then
      some (.struct (.cons { name := "name" } (.basic .string)
        (.cons { name := "home" } (.named (localName "address"))
        (.cons { name := "friend" } (.pointer (.named (localName "person"))) .nil))))
    else if n = localName "address" then
      some (.struct (.cons { name := "city" } (.basic .string)
        (.cons { name := "owner" } (.pointer (.named (localName "person"))) .nil)))
    else none
  marshaler := fun _ => none

/-- The type `person`. -/
def personType : GoType := .named (localName "person")

/-- A value of type `person`. -/
def personVal (name city : String) (owner friend : Option Pointer) : Val :=
  .struct [("name", .prim (.str name)),
    ("home", .struct [("city", .prim (.str city)), ("owner", .ptr owner)]),
    ("friend", .ptr friend)]

/-- A memory with one `person` whose home is owned by the person itself. -/
def ownHomeHeap : Heap := fun obj =>
  if obj = 1 then some (personVal "ann" "rome" (some ptrA) none) else none

/-- A memory with two values of type `person`: the friend of the first is the
second, and the home of the second is owned by the first. -/
def friendHomeHeap : Heap := fun obj =>
  if obj = 1 then some (personVal "ann" "rome" none (some ptrB))
  else if obj = 2 then some (personVal "bob" "oslo" (some ptrA) none)
  else none

/-- The wire type of `address`. -/
def addressWireType : WType :=
  .struct [(wireFieldOf 0 { name := "city" }, .prim (.basic .string)),
    (wireFieldOf 1 { name := "owner" }, .pointerValue)]

/-- The wire type of `person`. -/
def personWireType : WType :=
  .struct [(wireFieldOf 0 { name := "name" }, .prim (.basic .string)),
    (wireFieldOf 1 { name := "home" }, addressWireType),
    (wireFieldOf 2 { name := "friend" }, .pointerValue)]

/-- An environment with `type outer struct { part *int; whole *inner }` and
`type inner struct { id int; up *outer }`.  No type implements
`json.Marshaler`. -/
def aliasEnv : TypeEnv where
  underlying := fun n =>
    if n = localName "outer" then
      some (.struct (.cons { name := "part" } (.pointer (.basic .int))
        (.cons { name := "whole" } (.pointer (.named (localName "inner"))) .nil)))
    else if n = localName "inner" then
      some (.struct (.cons { name := "id" } (.basic .int)
        (.cons { name := "up" } (.pointer (.named (localName "outer"))) .nil)))
    else none
  marshaler := fun _ => none

/-- A memory with an `outer` in the variable 1, at the address 100, and an
`inner` in the variable 2, at the address 200: `whole` points to the inner
value and `up` back to the outer one, and `part` points to the field `id` of
the inner value, the variable 3, which has the address of the inner value. -/
def aliasHeap : Heap := fun obj =>
  if obj = 1 then
    some (.struct [("part", .ptr (some { addr := 200, obj := 3 })),
      ("whole", .ptr (some { addr := 200, obj := 2 }))])
  else if obj = 2 then some (.struct [("id", intVal 7), ("up", .ptr (some ptrA))])
  else if obj = 3 then some (intVal 7)
  else none

/-! ## The counter as a machine integer -/

/-- The largest value of a Go `int` of the given width (32 or 64 bits). -/
def maxInt (bits : Nat) : Int := 2 ^ (bits - 1) - 1

/-- The smallest value of a Go `int` of the given width. -/
def minInt (bits : Nat) : Int := -(2 ^ (bits - 1))

/-- The value of a Go `int` of the given width that holds the integer `i`
modulo `2 ^ bits` (two's complement). -/
def wrapInt (bits : Nat) (i : Int) : Int := (i + 2 ^ (bits - 1)) % 2 ^ bits - 2 ^ (bits - 1)

/-- Source: `s.pointerIndex++` in `pointerValue.go`, on a Go `int` of the
given width: the increment of a signed machine integer wraps around, from
`maxInt bits` to `minInt bits`. -/
def incrementInt (bits : Nat) (i : Int) : Int := wrapInt bits (i + 1)

/-- Source: `JSONEncoder.encodeToPointerValue` in `pointerValue.go`, with the
counter `pointerIndex` as the Go `int` of the given width that it is; `encode`
is `s.encode`.  The function `encodeToPointerValue` above counts without
bound; the two agree as long as the count is at most `maxInt bits`. -/
def encodeToPointerValueWrapping (bits : Nat) (env : TypeEnv) (ff : FloatFormat) (heap : Heap)
    (encode : EncodeFn) (s : JSONEncoder) (inT : GoType) (inV : Val) : Res PointerValue :=
  if env.kind inT ≠ .pointer then
    (.error (.msg ("encodeToPointerValue: expected value to be a pointer; received "
      ++ (env.kind inT).toString)), s)
  else
    match inV with
    | .ptr none =>
      -- Marshal the underlying type; default to null.
      let s1 := { s with pointerIndex := incrementInt bits s.pointerIndex }
      (.ok { pointer := s1.pointerIndex, value := Json.null }, s1)
    | .ptr (some p) =>
      let inPtr := p.addr
      -- The expectation is that we only see zero pointers iff the input is nil.
      if inPtr = 0 then
        (.error (.msg "encodeToPointerValue: assertion failed; isNil: false, inPtr: <nil>"), s)
      else
        -- Store pointers that we have seen so we do not need to remarshal them later.
        match s.pointerValues inPtr with
        | some val => (.ok val, s)
        | none =>
          if s.pendingPointers inPtr then
            (.error (.msg
              "encodeToPointerValue: cycle detected; structs with cyclic data are not supported"), s)
          else
            let s1 := { s with pendingPointers := Function.update s.pendingPointers inPtr true }
            match heap p.obj with
            | none => (.error (.panic "invalid memory address or nil pointer dereference"), s1)
            | some pointee =>
              match encode s1 (env.elem inT) pointee with
              | (.error err, s2) => (.error (err.wrap "encodeToPointerValue: "), s2)
              | (.ok outV, s2) =>
                -- We are done processing this pointer, so stop tracking it.
                let s3 := { s2 with pendingPointers := Function.update s2.pendingPointers inPtr false }
                match jsonMarshalInternal env ff s3 outV with
                | .error err => (.error (err.wrap "encodeToPointerValue: "), s3)
                | .ok value =>
                  let s4 := { s3 with pointerIndex := incrementInt bits s3.pointerIndex }
                  let pv : PointerValue := { pointer := s4.pointerIndex, value := value }
                  -- Cache the encoded value for the pointer.
                  (.ok pv, { s4 with pointerValues := Function.update s4.pointerValues inPtr (some pv) })
    | _ => (.error (.panic "reflect: call of reflect.Value.UnsafePointer on a value that is not a pointer"), s)

/-- Source: `JSONEncoder.encodeTo` in `jsonEncoder.go`, with the counter as a
Go `int` of the given width: as `encodeTo`, with `encodeToPointerValueWrapping`
for the pointers. -/
def encodeToWrapping (bits : Nat) (env : TypeEnv) (ff : FloatFormat) (heap : Heap) : Nat → CopyFn
  | 0 => fun s _ _ _ => (.error .outOfFuel, s)
  | fuel + 1 => fun s originalT originalV encodedT =>
    let encode : EncodeFn := encodeWith env fuel (encodeToWrapping bits env ff heap fuel)
    let originalKind := env.kind originalT
    let encodedKind := encodedT.kind env
    -- If the value implements json.Marshaler, we defer to the existing
    -- marshaling mechanism and simply store the output.
    match env.marshaler originalT with
    | some marshal =>
      match marshal originalV with
      | .error err =>
        (.error (.msg ("encodeTo(): custom json.Marshal for " ++ typeString originalT
          ++ " failed: " ++ err)), s)
      | .ok b => (.ok (.rawMessage b), s)
    | none =>
      if isPointerValueType encodedT then
        match encodeToPointerValueWrapping bits env ff heap encode s originalT originalV with
        | (.error err, s1) => (.error err, s1)
        | (.ok pv, s1) => (.ok (.pointerValue pv), s1)
      else if isInterfaceValueType encodedT then
        match encodeToInterfaceValue env ff fuel encode s originalT originalV with
        | (.error err, s1) => (.error err, s1)
        | (.ok iv, s1) => (.ok (.interfaceValue iv), s1)
      else if isComplexValueType encodedT then
        match encodeToComplexValue env originalT originalV with
        | .error err => (.error err, s)
        | .ok cv => (.ok cv, s)
      else if originalKind ≠ encodedKind then
        (.error (.msg ("encodeTo(): expected values to be the same kind; received "
          ++ typeString originalT ++ " and a wire type of kind " ++ encodedKind.toString)), s)
      else if originalKind = .map then
        match encodedT, originalV with
        | .map _ _, .map none => (.ok (.map none), s) -- The map in encodedV is nil by default.
        | .map encodedKeyT _, .map (some entries) =>
          match encodeMapEntries env ff encode (env.key originalT) (env.elem originalT)
              encodedKeyT s entries [] with
          | (.error err, s1) => (.error err, s1)
          | (.ok encodedMap, s1) => (.ok (.map (some encodedMap)), s1)
        | _, _ => (.error (.panic "reflect: value does not match its type"), s)
      else if originalKind = .struct then
        copyStruct env (encodeToWrapping bits env ff heap fuel) s originalT originalV encodedT
      else
        copyCommon env (encodeToWrapping bits env ff heap fuel) s originalT originalV encodedT

/-- Source: `JSONEncoder.encode` in `jsonEncoder.go`, with the counter as a Go
`int` of the given width. -/
def encodeWrapping (bits : Nat) (env : TypeEnv) (ff : FloatFormat) (heap : Heap) (fuel : Nat) :
    EncodeFn :=
  encodeWith env fuel (encodeToWrapping bits env ff heap fuel)

/-- Source: `JSONEncoder.Encode` in `jsonEncoder.go`, with the counter as a Go
`int` of the given width. -/
def EncodeWrapping (bits : Nat) (env : TypeEnv) (ff : FloatFormat) (heap : Heap) (fuel : Nat)
    (s : JSONEncoder) (inp : Option (GoType × Val)) : Except Err String × JSONEncoder :=
  let finish (s1 : JSONEncoder) (encodedBytes : Json) : Except Err String × JSONEncoder :=
    -- Wrap the encoded value.
    let out := encodedJSONWrapper encodedBytes
    -- Output is a single line if prefix and indent are empty; multiline otherwise,
    if s1.config.pfx = "" && s1.config.indent = "" then (.ok out.compact, s1)
    else (.ok (out.indentAt s1.config.pfx s1.config.indent 0), s1)
  match inp with
  | none => finish s Json.null
  | some (inT, inV) =>
    match encodeWrapping bits env ff heap fuel s inT inV with
    | (.error err, s1) => (.error (err.wrap "MarshalJSON: "), s1)
    | (.ok encodedV, s1) =>
      match jsonMarshalInternal env ff s1 encodedV with
      | .error err => (.error (err.wrap "MarshalJSON: "), s1)
      | .ok encodedBytes => finish s1 encodedBytes

/-- One top-level call of `Encode` on an encoder whose counter is a Go `int`
of the given width, on any input and with any memory. -/
def EncodeStepWrapping (bits : Nat) (s s' : JSONEncoder) : Prop :=
  ∃ (env : TypeEnv) (ff : FloatFormat) (heap : Heap) (fuel : Nat) (inp : Option (GoType × Val))
    (r : Except Err String), EncodeWrapping bits env ff heap fuel s inp = (r, s')

/-- Two functions of the signature of `encodeTo` agree on every call that
starts with a counter that is not negative and ends with a counter of at most
`M`. -/
def CopyFn.AgreesBelow (M : Int) (f g : CopyFn) : Prop :=
  ∀ s t v w r s', 0 ≤ s.pointerIndex → f s t v w = (r, s') → s'.pointerIndex ≤ M →
    g s t v w = (r, s')

/-- Two functions of the signature of `encode` agree on every call that starts
with a counter that is not negative and ends with a counter of at most `M`. -/
def EncodeFn.AgreesBelow (M : Int) (f g : EncodeFn) : Prop :=
  ∀ s t v r s', 0 ≤ s.pointerIndex → f s t v = (r, s') → s'.pointerIndex ≤ M →
    g s t v = (r, s')

/-- The fresh encoder after `maxInt bits` encodings of nil pointers: the
counter has its largest value. -/
def encoderAtMaxInt (bits : Nat) : JSONEncoder :=
  { NewJSONEncoder [] with pointerIndex := maxInt bits }

/-- The encoder `encoderAtMaxInt` after the encoding of the pointer to the
variable 1 of `intHeap`. -/
def encoderAfterOverflow (bits : Nat) : JSONEncoder :=
  (EncodeWrapping bits exampleEnv noFloats intHeap 6 (encoderAtMaxInt bits)
    (some (.pointer (.basic .int), .ptr (some ptrA)))).2

/-- The fresh encoder after the encoding of the pointer to the variable 1 of
`intHeap`. -/
def encoderWithOneBox (bits : Nat) : JSONEncoder :=
  (EncodeWrapping bits exampleEnv noFloats intHeap 6 (NewJSONEncoder [])
    (some (.pointer (.basic .int), .ptr (some ptrA)))).2

/-- The encoder `encoderWithOneBox` after `2 ^ bits - 1` encodings of nil
pointers: the counter has come back to 0. -/
def encoderWrappedAround (bits : Nat) : JSONEncoder :=
  { encoderWithOneBox bits with pointerIndex := 0 }

/-- The encoder `encoderWrappedAround` after the encoding of the pointer to
the variable 2 of `intHeap`. -/
def encoderWithRepeatedId (bits : Nat) : JSONEncoder :=
  (EncodeWrapping bits exampleEnv noFloats intHeap 6 (encoderWrappedAround bits)
    (some (.pointer (.basic .int), .ptr (some ptrB)))).2

/-! ## Types without pointers and interfaces -/

/-- A type whose values the encoder copies without its table: a type that
implements `json.Marshaler`, a type that is not a pointer, an interface, a
slice, an array, a map or a struct, or a slice, an array, a map or a struct
of such types. -/
inductive PointerFree (env : TypeEnv) : GoType → Prop where
  | marshaler (t : GoType) : env.marshaler t ≠ none → PointerFree env t
  | leaf (t : GoType) : env.kind t ≠ .pointer → env.kind t ≠ .interface →
      env.kind t ≠ .slice → env.kind t ≠ .array → env.kind t ≠ .map → env.kind t ≠ .struct →
      PointerFree env t
  | slice (t : GoType) : env.kind t = .slice → PointerFree env (env.elem t) → PointerFree env t
  | array (t : GoType) : env.kind t = .array → PointerFree env (env.elem t) → PointerFree env t
  | map (t : GoType) : env.kind t = .map → PointerFree env (env.key t) →
      PointerFree env (env.elem t) → PointerFree env t
  | struct (t : GoType) : env.kind t = .struct →
      (∀ p ∈ env.fields t, PointerFree env p.2) → PointerFree env t

/-- A function of the signature of `encodeTo` that neither reads nor changes
the encoder on the values of a type: in every state it returns what it
returns in any other state, and leaves the state as it was. -/
def CopyFn.StatelessOn (f : CopyFn) (t : GoType) : Prop :=
  ∀ (s s0 : JSONEncoder) (v : Val) (w : WType), f s t v w = ((f s0 t v w).1, s)

/-- A function of the signature of `encode` that neither reads nor changes the
encoder on the values of a type. -/
def EncodeFn.StatelessOn (f : EncodeFn) (t : GoType) : Prop :=
  ∀ (s s0 : JSONEncoder) (v : Val), f s t v = ((f s0 t v).1, s)

/-- An entry of a map that the loop of the map branch of `encodeTo` encodes,
in the state `s0`, to a wire key of the key type of the wire map with the text
`m.1` and to a wire value with the document `m.2`. -/
def EncodesToMember (env : TypeEnv) (ff : FloatFormat) (encode : EncodeFn) (keyT valT : GoType)
    (encodedKeyT : WType) (s0 : JSONEncoder) (entry : Val × Val) (m : String × Json) : Prop :=
  ∃ (t : GoType) (p : Prim) (w : Wire) (s1 s2 : JSONEncoder),
    encodeMapKey env ff encode s0 keyT entry.1 = (.ok (.prim t p), s1)
    ∧ encodedKeyT = .prim t
    ∧ jsonMapKey env (.prim t p) = .ok m.1
    ∧ encode s0 valT entry.2 = (.ok w, s2)
    ∧ jsonMarshal env ff w = .ok m.2

/-! ## Theorems: the induction over the fuel -/

theorem StateRel.any {Q : Bool → JSONEncoder → JSONEncoder → Prop} (hQ : StateRel Q)
    {s1 s2 : JSONEncoder} (b : Bool) (h : Q true s1 s2) : Q b s1 s2 := by
  cases b
  · exact hQ.weaken _ _ h
  · exact h

theorem copyItems_respects {Q : Bool → JSONEncoder → JSONEncoder → Prop} (hQ : StateRel Q)
    (copyFn : CopyFn) (hf : CopyFn.Respects Q copyFn) (fromElemT : GoType) (toElemT : WType)
    (items : List Val) :
    ∀ s r s', copyItems copyFn fromElemT toElemT s items = (r, s') → Q (isOk r) s s' := by
  induction items with
  | nil =>
    intro s r s' h
    simp only [copyItems, Prod.mk.injEq] at h
    obtain ⟨rfl, rfl⟩ := h
    exact hQ.refl _ _
  | cons v rest ih =>
    intro s r s' h
    unfold copyItems at h
    repeat' split at h
    all_goals simp only [Prod.mk.injEq] at h
    all_goals obtain ⟨rfl, rfl⟩ := h
    all_goals have h1 := hf _ _ _ _ _ _ ‹copyFn _ _ _ _ = _›
    all_goals first
      | (have h2 := ih _ _ _ ‹copyItems _ _ _ _ _ = _›; exact hQ.trans _ _ _ _ h1 h2)
      | exact h1

theorem copyArrayLike_respects {Q : Bool → JSONEncoder → JSONEncoder → Prop} (hQ : StateRel Q)
    (env : TypeEnv) (copyFn : CopyFn) (hf : CopyFn.Respects Q copyFn)
    (s : JSONEncoder) (fromT : GoType) (fromV : Val) (toT : WType) (r : Except Err Wire)
    (s' : JSONEncoder) (h : copyArrayLike env copyFn s fromT fromV toT = (r, s')) :
    Q (isOk r) s s' := by
  unfold copyArrayLike at h
  dsimp only at h
  repeat' split at h
  all_goals simp only [Prod.mk.injEq] at h
  all_goals obtain ⟨rfl, rfl⟩ := h
  all_goals first
    | exact hQ.refl _ _
    | (have h1 := copyItems_respects hQ copyFn hf _ _ _ _ _ _ ‹copyItems _ _ _ _ _ = _›
       exact h1)

theorem copyCommon_respects {Q : Bool → JSONEncoder → JSONEncoder → Prop} (hQ : StateRel Q)
    (env : TypeEnv) (copyFn : CopyFn) (hf : CopyFn.Respects Q copyFn)
    (s : JSONEncoder) (fromT : GoType) (fromV : Val) (toT : WType) (r : Except Err Wire)
    (s' : JSONEncoder) (h : copyCommon env copyFn s fromT fromV toT = (r, s')) :
    Q (isOk r) s s' := by
  unfold copyCommon at h
  dsimp only at h
  repeat' split at h
  all_goals first
    | exact copyArrayLike_respects hQ env copyFn hf _ _ _ _ _ _ h
    | (simp only [Prod.mk.injEq] at h; obtain ⟨rfl, rfl⟩ := h; exact hQ.refl _ _)

theorem copyFields_respects {Q : Bool → JSONEncoder → JSONEncoder → Prop} (hQ : StateRel Q)
    (env : TypeEnv) (copyFn : CopyFn) (hf : CopyFn.Respects Q copyFn) (originalT : GoType)
    (originalFields : List (String × Val)) (fields : List (WFieldInfo × WType)) :
    ∀ s r s', copyFields env copyFn originalT originalFields s fields = (r, s') →
      Q (isOk r) s s' := by
  induction fields with
  | nil =>
    intro s r s' h
    simp only [copyFields, Prod.mk.injEq] at h
    obtain ⟨rfl, rfl⟩ := h
    exact hQ.refl _ _
  | cons f rest ih =>
    intro s r s' h
    obtain ⟨info, ft⟩ := f
    unfold copyFields at h
    dsimp only at h
    repeat' split at h
    all_goals simp only [Prod.mk.injEq] at h
    all_goals obtain ⟨rfl, rfl⟩ := h
    all_goals first
      | exact hQ.refl _ _
      | (have h1 := hf _ _ _ _ _ _ ‹copyFn _ _ _ _ = _›
         have h2 := ih _ _ _ ‹copyFields _ _ _ _ _ _ = _›
         exact hQ.trans _ _ _ _ h1 h2)
      | (have h1 := hf _ _ _ _ _ _ ‹copyFn _ _ _ _ = _›; exact h1)

theorem copyStruct_respects {Q : Bool → JSONEncoder → JSONEncoder → Prop} (hQ : StateRel Q)
    (env : TypeEnv) (copyFn : CopyFn) (hf : CopyFn.Respects Q copyFn)
    (s : JSONEncoder) (fromT : GoType) (fromV : Val) (toT : WType) (r : Except Err Wire)
    (s' : JSONEncoder) (h : copyStruct env copyFn s fromT fromV toT = (r, s')) :
    Q (isOk r) s s' := by
  unfold copyStruct at h
  repeat' split at h
  all_goals simp only [Prod.mk.injEq] at h
  all_goals obtain ⟨rfl, rfl⟩ := h
  all_goals first
    | exact hQ.refl _ _
    | (have h1 := copyFields_respects hQ env copyFn hf _ _ _ _ _ _ ‹copyFields _ _ _ _ _ _ = _›
       exact h1)

theorem encodeWith_respects {Q : Bool → JSONEncoder → JSONEncoder → Prop} (hQ : StateRel Q)
    (env : TypeEnv) (fuel : Nat) (copyFn : CopyFn) (hf : CopyFn.Respects Q copyFn) :
    EncodeFn.Respects Q (encodeWith env fuel copyFn) := by
  intro s t v r s' h
  unfold encodeWith at h
  repeat' split at h
  all_goals simp only [Prod.mk.injEq] at h
  all_goals obtain ⟨rfl, rfl⟩ := h
  all_goals first
    | exact hQ.refl _ _
    | (have h1 := hf _ _ _ _ _ _ ‹copyFn _ _ _ _ = _›; exact h1)

theorem encodeMapKey_respects {Q : Bool → JSONEncoder → JSONEncoder → Prop} (hQ : StateRel Q)
    (env : TypeEnv) (ff : FloatFormat) (encode : EncodeFn) (hf : EncodeFn.Respects Q encode)
    (s : JSONEncoder) (keyT : GoType) (k : Val) (r : Except Err Wire) (s' : JSONEncoder)
    (h : encodeMapKey env ff encode s keyT k = (r, s')) : Q (isOk r) s s' := by
  unfold encodeMapKey at h
  repeat' split at h
  all_goals simp only [Prod.mk.injEq] at h
  all_goals obtain ⟨rfl, rfl⟩ := h
  all_goals first
    | exact hQ.refl _ _
    | (have h1 := hf _ _ _ _ _ ‹encode _ _ _ = _›; exact h1)
    | (have h1 := hf _ _ _ _ _ ‹encode _ _ _ = _›; exact hQ.any _ h1)

theorem encodeMapEntries_respects {Q : Bool → JSONEncoder → JSONEncoder → Prop} (hQ : StateRel Q)
    (env : TypeEnv) (ff : FloatFormat) (encode : EncodeFn) (hf : EncodeFn.Respects Q encode)
    (keyT valT : GoType) (encodedKeyT : WType) (entries : List (Val × Val)) :
    ∀ s acc r s', encodeMapEntries env ff encode keyT valT encodedKeyT s entries acc = (r, s') →
      Q (isOk r) s s' := by
  induction entries with
  | nil =>
    intro s acc r s' h
    simp only [encodeMapEntries, Prod.mk.injEq] at h
    obtain ⟨rfl, rfl⟩ := h
    exact hQ.refl _ _
  | cons e rest ih =>
    intro s acc r s' h
    obtain ⟨k, v⟩ := e
    unfold encodeMapEntries at h
    dsimp only at h
    split at h
    · simp only [Prod.mk.injEq] at h
      obtain ⟨rfl, rfl⟩ := h
      have h1 := encodeMapKey_respects hQ env ff encode hf _ _ _ _ _ ‹encodeMapKey _ _ _ _ _ _ = _›
      exact h1
    · have hk := encodeMapKey_respects hQ env ff encode hf _ _ _ _ _ ‹encodeMapKey _ _ _ _ _ _ = _›
      split at h
      · simp only [Prod.mk.injEq] at h
        obtain ⟨rfl, rfl⟩ := h
        have hv := hf _ _ _ _ _ ‹encode _ _ _ = _›
        exact hQ.trans _ _ _ _ hk hv
      · have hv := hf _ _ _ _ _ ‹encode _ _ _ = _›
        have hkv := hQ.trans _ _ _ _ hk hv
        split at h
        · exact hQ.trans _ _ _ _ hkv (ih _ _ _ _ h)
        · simp only [Prod.mk.injEq] at h
          obtain ⟨rfl, rfl⟩ := h
          exact hQ.weaken _ _ hkv

theorem encodeToInterfaceValue_respects {Q : Bool → JSONEncoder → JSONEncoder → Prop}
    (hQ : StateRel Q) (env : TypeEnv) (ff : FloatFormat) (fuel : Nat) (encode : EncodeFn)
    (hf : EncodeFn.Respects Q encode) (s : JSONEncoder) (inT : GoType) (inV : Val)
    (r : Except Err (Option InterfaceValue)) (s' : JSONEncoder)
    (h : encodeToInterfaceValue env ff fuel encode s inT inV = (r, s')) : Q (isOk r) s s' := by
  unfold encodeToInterfaceValue at h
  repeat' split at h
  all_goals simp only [Prod.mk.injEq] at h
  all_goals obtain ⟨rfl, rfl⟩ := h
  all_goals first
    | exact hQ.refl _ _
    | (have h1 := hf _ _ _ _ _ ‹encode _ _ _ = _›; exact h1)
    | (have h1 := hf _ _ _ _ _ ‹encode _ _ _ = _›; exact hQ.any _ h1)

/-- The induction over the fuel: a relation that sequential composition
preserves and that `encodeToPointerValue` respects for every respectful
`encode` is respected by `encodeTo`. -/
theorem encodeTo_respects {Q : Bool → JSONEncoder → JSONEncoder → Prop} (hQ : StateRel Q)
    (env : TypeEnv) (ff : FloatFormat) (heap : Heap)
    (hptr : ∀ encode : EncodeFn, EncodeFn.Respects Q encode → ∀ s t v r s',
      encodeToPointerValue env ff heap encode s t v = (r, s') → Q (isOk r) s s')
    (fuel : Nat) : CopyFn.Respects Q (encodeTo env ff heap fuel) := by
  induction fuel with
  | zero =>
    intro s t v w r s' h
    simp only [encodeTo, Prod.mk.injEq] at h
    obtain ⟨rfl, rfl⟩ := h
    exact hQ.refl _ _
  | succ fuel ih =>
    intro s t v w r s' h
    have henc : EncodeFn.Respects Q (encodeWith env fuel (encodeTo env ff heap fuel)) :=
      encodeWith_respects hQ env fuel _ ih
    unfold encodeTo at h
    dsimp only at h
    repeat' split at h
    all_goals first
      | exact copyStruct_respects hQ env _ ih _ _ _ _ _ _ h
      | exact copyCommon_respects hQ env _ ih _ _ _ _ _ _ h
      | (simp only [Prod.mk.injEq] at h
         obtain ⟨rfl, rfl⟩ := h
         first
          | exact hQ.refl _ _
          | (have h1 := hptr _ henc _ _ _ _ _ ‹encodeToPointerValue _ _ _ _ _ _ _ = _›; exact h1)
          | (have h1 := encodeToInterfaceValue_respects hQ env ff fuel _ henc _ _ _ _ _
              ‹encodeToInterfaceValue _ _ _ _ _ _ _ = _›
             exact h1)
          | (have h1 := encodeMapEntries_respects hQ env ff _ henc _ _ _ _ _ _ _ _
              ‹encodeMapEntries _ _ _ _ _ _ _ _ _ = _›
             exact h1))

theorem encode_respects {Q : Bool → JSONEncoder → JSONEncoder → Prop} (hQ : StateRel Q)
    (env : TypeEnv) (ff : FloatFormat) (heap : Heap)
    (hptr : ∀ encode : EncodeFn, EncodeFn.Respects Q encode → ∀ s t v r s',
      encodeToPointerValue env ff heap encode s t v = (r, s') → Q (isOk r) s s')
    (fuel : Nat) : EncodeFn.Respects Q (encode env ff heap fuel) :=
  encodeWith_respects hQ env fuel _ (encodeTo_respects hQ env ff heap hptr fuel)

/-! ## Theorems: the counter and the table only grow -/

theorem Grows.refl (s : JSONEncoder) : Grows s s := by
  refine ⟨rfl, le_refl _, fun _ _ h => h, ?_⟩
  intro a pv h1 h2
  rw [h1] at h2
  cases h2

theorem Grows.trans {s1 s2 s3 : JSONEncoder} (h12 : Grows s1 s2) (h23 : Grows s2 s3) :
    Grows s1 s3 := by
  obtain ⟨c12, i12, k12, n12⟩ := h12
  obtain ⟨c23, i23, k23, n23⟩ := h23
  refine ⟨c23.trans c12, le_trans i12 i23, fun a pv h => k23 a pv (k12 a pv h), ?_⟩
  intro a pv h1 h3
  cases h2 : s2.pointerValues a with
  | none =>
    have := n23 a pv h2 h3
    exact ⟨lt_of_le_of_lt i12 this.1, this.2⟩
  | some pv2 =>
    have h3' := k23 a pv2 h2
    rw [h3] at h3'
    cases h3'
    have := n12 a pv h1 h2
    exact ⟨this.1, le_trans this.2 i23⟩

theorem Grows.stateRel : StateRel (fun _ s s' => Grows s s') where
  refl := fun _ s => Grows.refl s
  trans := fun _ _ _ _ h1 h2 => Grows.trans h1 h2
  weaken := fun _ _ h => h

theorem Grows.of_fields {s s' : JSONEncoder} (hc : s'.config = s.config)
    (hi : s'.pointerIndex = s.pointerIndex) (hv : s'.pointerValues = s.pointerValues) :
    Grows s s' := by
  refine ⟨hc, le_of_eq hi.symm, fun a pv h => by rw [hv]; exact h, ?_⟩
  intro a pv h1 h2
  rw [hv, h1] at h2
  cases h2

theorem Grows.nilStep (s : JSONEncoder) :
    Grows s { s with pointerIndex := s.pointerIndex + 1 } := by
  refine ⟨rfl, by simp, fun a pv h => h, ?_⟩
  intro a pv h1 h2
  simp only at h2
  rw [h1] at h2
  cases h2

theorem Grows.doneStep {s s2 : JSONEncoder} (a : Nat) (value : Json)
    (hnone : s.pointerValues a = none) (h : Grows s s2) (pend : Nat → Bool) :
    Grows s { config := s2.config, pendingPointers := pend, pointerIndex := s2.pointerIndex + 1,
              pointerValues := Function.update s2.pointerValues a
                (some { pointer := s2.pointerIndex + 1, value := value }) } := by
  obtain ⟨hc, hi, hk, hn⟩ := h
  refine ⟨hc, by simp only; omega, ?_, ?_⟩
  · intro b pv hb
    have hne : b ≠ a := by
      intro e
      rw [e, hnone] at hb
      cases hb
    simp only [Function.update_noteq hne]
    exact hk b pv hb
  · intro b pv hb hb'
    simp only at hb'
    by_cases e : b = a
    · subst e
      simp only [Function.update_same, Option.some.injEq] at hb'
      subst hb'
      simp only
      omega
    · simp only [Function.update_noteq e] at hb'
      have := hn b pv hb hb'
      simp only
      omega

theorem encodeToPointerValue_grows (env : TypeEnv) (ff : FloatFormat) (heap : Heap)
    (encode : EncodeFn) (henc : EncodeFn.Respects (fun _ s s' => Grows s s') encode)
    (s : JSONEncoder) (t : GoType) (v : Val) (r : Except Err PointerValue) (s' : JSONEncoder)
    (h : encodeToPointerValue env ff heap encode s t v = (r, s')) : Grows s s' := by
  unfold encodeToPointerValue at h
  dsimp only at h
  repeat' split at h
  all_goals simp only [Prod.mk.injEq] at h
  all_goals obtain ⟨rfl, rfl⟩ := h
  all_goals first
    | exact Grows.refl _
    | exact Grows.nilStep _
    | exact Grows.of_fields rfl rfl rfl
    | (have h1 := henc _ _ _ _ _ ‹encode _ _ _ = _›
       have h0 : Grows s _ := Grows.trans (Grows.of_fields rfl rfl rfl) h1
       first
        | exact h0
        | exact Grows.trans h0 (Grows.of_fields rfl rfl rfl)
        | exact Grows.doneStep _ _ ‹s.pointerValues _ = none› h0 _)

theorem encode_grows (env : TypeEnv) (ff : FloatFormat) (heap : Heap) (fuel : Nat) :
    EncodeFn.Respects (fun _ s s' => Grows s s') (encode env ff heap fuel) :=
  encode_respects Grows.stateRel env ff heap
    (fun enc henc s t v r s' h => encodeToPointerValue_grows env ff heap enc henc s t v r s' h) fuel

theorem Encode_grows (env : TypeEnv) (ff : FloatFormat) (heap : Heap) (fuel : Nat)
    (s : JSONEncoder) (inp : Option (GoType × Val)) (r : Except Err String) (s' : JSONEncoder)
    (h : Encode env ff heap fuel s inp = (r, s')) : Grows s s' := by
  unfold Encode at h
  dsimp only at h
  repeat' split at h
  all_goals simp only [Prod.mk.injEq] at h
  all_goals obtain ⟨rfl, rfl⟩ := h
  all_goals first
    | exact Grows.refl _
    | (have h1 := encode_grows env ff heap fuel _ _ _ _ _ ‹encode _ _ _ _ _ _ _ = _›; exact h1)

/-! ## Theorems: the invariant of a sequence of decoding calls -/

theorem decodeFromPointerValue_reuse_inv {s : JSONDecoder} {m : Memory}
    {made rest : List DecodeCall} {call : DecodeCall} {valT : GoType} {val : Nat}
    (hinv : DecodeInv s m made (call :: rest))
    (hmade : ∀ d ∈ made, d.out ≠ call.out) (hrest : ∀ d ∈ rest, d.out ≠ call.out)
    (hreg : s.pointerValues call.pv.pointer = some (valT, val)) :
    DecodeInv s { m with slots := Function.update m.slots call.out (m.slots val) }
      (call :: made) rest := by
  have hfree : ∀ id T c, s.pointerValues id = some (T, c) → c ≠ call.out :=
    fun id T c h => hinv.coming_free id T c h call (List.mem_cons_self _ _)
  have hslot : ∀ id T c, s.pointerValues id = some (T, c) →
      Function.update m.slots call.out (m.slots val) c = m.slots c :=
    fun id T c h => Function.update_noteq (hfree id T c h) _ _
  constructor
  · intro id T c h
    obtain ⟨p, hp, hlt⟩ := hinv.holds id T c h
    exact ⟨p, by simp only [hslot id T c h]; exact hp, hlt⟩
  · intro id id' T c T' c' h h' heq
    simp only [hslot id T c h, hslot id' T' c' h'] at heq
    exact hinv.inj id id' T c T' c' h h' heq
  · intro d hd
    rcases List.mem_cons.mp hd with rfl | hd
    · refine ⟨valT, val, hreg, ?_⟩
      simp only [Function.update_same, hslot _ _ _ hreg]
    · obtain ⟨T, c, hc, heq⟩ := hinv.made_ok d hd
      refine ⟨T, c, hc, ?_⟩
      simp only [hslot _ _ _ hc, Function.update_noteq (hmade d hd)]
      exact heq
  · intro d hd
    simp only [Function.update_noteq (hrest d hd)]
    exact hinv.coming_exist d (List.mem_cons_of_mem _ hd)
  · intro id T c h d hd
    exact hinv.coming_free id T c h d (List.mem_cons_of_mem _ hd)

theorem decodeFromPointerValue_fresh_inv {decodeTo : DecodeToFn} (hframe : DecodeToFrame decodeTo)
    {s s2 : JSONDecoder} {m m2 : Memory} {made rest : List DecodeCall} {call : DecodeCall}
    {w : Wire} {t : GoType} {r : Except Err Unit}
    (hinv : DecodeInv s m made (call :: rest))
    (hmade : ∀ d ∈ made, d.out ≠ call.out) (hrest : ∀ d ∈ rest, d.out ≠ call.out)
    (hreg : s.pointerValues call.pv.pointer = none)
    (hdec : decodeTo s
      { slots := Function.update m.slots call.out (some (some m.alloc.1)),
        nextObj := m.nextObj + 1 } w t m.alloc.1.obj = (r, s2, m2)) :
    DecodeInv
      { s2 with pointerValues :=
          Function.update s2.pointerValues call.pv.pointer (some (call.outT, call.out)) }
      m2 (call :: made) rest := by
  have hfree : ∀ id T c, s.pointerValues id = some (T, c) → c ≠ call.out :=
    fun id T c h => hinv.coming_free id T c h call (List.mem_cons_self _ _)
  have hle := hframe.nextObj_le _ _ _ _ _ _ _ _ hdec
  have hkept := hframe.slots_kept _ _ _ _ _ _ _ _ hdec
  have htab := hframe.table_kept _ _ _ _ _ _ _ _ hdec
  have hnew := hframe.table_new _ _ _ _ _ _ _ _ hdec
  have hnewinj := hframe.table_new_inj _ _ _ _ _ _ _ _ hdec
  simp only at hle hkept hnew
  -- the destination holds the fresh allocation
  have hout : m2.slots call.out = some (some m.alloc.1) := by
    rw [hkept call.out (by simp)]
    simp
  -- a variable registered before the call keeps its content
  have hold : ∀ id T c, s.pointerValues id = some (T, c) →
      s2.pointerValues id = some (T, c) ∧ m2.slots c = m.slots c := by
    intro id T c h
    refine ⟨by rw [htab id (by rw [h]; simp), h], ?_⟩
    obtain ⟨p, hp, _⟩ := hinv.holds id T c h
    have hne := hfree id T c h
    rw [hkept c (by simp [Function.update_noteq hne, hp])]
    simp [Function.update_noteq hne]
  -- what an entry of the final table is
  have hcases : ∀ id T c,
      Function.update s2.pointerValues call.pv.pointer (some (call.outT, call.out)) id
        = some (T, c) →
      (id = call.pv.pointer ∧ c = call.out ∧ m2.slots c = some (some m.alloc.1))
      ∨ (id ≠ call.pv.pointer ∧ s.pointerValues id = some (T, c)
          ∧ ∃ p, m2.slots c = some (some p) ∧ p.obj < m.nextObj)
      ∨ (id ≠ call.pv.pointer ∧ s.pointerValues id = none ∧ s2.pointerValues id = some (T, c)
          ∧ m.slots c = none ∧ c ≠ call.out
          ∧ ∃ p, m2.slots c = some (some p) ∧ m.nextObj + 1 ≤ p.obj ∧ p.obj < m2.nextObj) := by
    intro id T c h
    by_cases hid : id = call.pv.pointer
    · subst hid
      simp only [Function.update_same, Option.some.injEq, Prod.mk.injEq] at h
      obtain ⟨_, rfl⟩ := h
      exact Or.inl ⟨rfl, rfl, hout⟩
    · simp only [Function.update_noteq hid] at h
      cases hs : s.pointerValues id with
      | some e =>
        obtain ⟨T0, c0⟩ := e
        obtain ⟨h2, hm⟩ := hold id T0 c0 hs
        rw [h2] at h
        simp only [Option.some.injEq, Prod.mk.injEq] at h
        obtain ⟨rfl, rfl⟩ := h
        obtain ⟨p, hp, hlt⟩ := hinv.holds id T0 c0 hs
        exact Or.inr (Or.inl ⟨hid, rfl, p, by rw [hm]; exact hp, hlt⟩)
      | none =>
        obtain ⟨hnone, p, hp, hge, hlt⟩ := hnew id T c hs h
        have hne : c ≠ call.out := by
          intro e
          rw [e] at hnone
          simp at hnone
        simp only [Function.update_noteq hne] at hnone
        exact Or.inr (Or.inr ⟨hid, rfl, h, hnone, hne, p, hp, hge, hlt⟩)
  have hallocobj : m.alloc.1.obj = m.nextObj := rfl
  constructor
  · intro id T c h
    rcases hcases id T c h with ⟨_, _, hc⟩ | ⟨_, _, p, hp, hlt⟩ | ⟨_, _, _, _, _, p, hp, _, hlt⟩
    · exact ⟨_, hc, by rw [hallocobj]; omega⟩
    · exact ⟨p, hp, by omega⟩
    · exact ⟨p, hp, hlt⟩
  · intro id id' T c T' c' h h' heq
    rcases hcases id T c h with ⟨h1, _, hc⟩ | ⟨h1, hs, p, hp, hlt⟩ | ⟨h1, hs, hs2, _, _, p, hp, hge, _⟩ <;>
    rcases hcases id' T' c' h' with ⟨h1', _, hc'⟩ | ⟨h1', hs', p', hp', hlt'⟩ |
      ⟨h1', hs', hs2', _, _, p', hp', hge', _⟩
    · rw [h1, h1']
    · rw [hc, hp'] at heq
      simp only [Option.some.injEq] at heq
      rw [← heq, hallocobj] at hlt'
      omega
    · rw [hc, hp'] at heq
      simp only [Option.some.injEq] at heq
      rw [← heq, hallocobj] at hge'
      omega
    · rw [hp, hc'] at heq
      simp only [Option.some.injEq] at heq
      rw [heq, hallocobj] at hlt
      omega
    · have e1 := (hold id T c hs).2
      have e2 := (hold id' T' c' hs').2
      rw [e1, e2] at heq
      exact hinv.inj id id' T c T' c' hs hs' heq
    · rw [hp, hp'] at heq
      simp only [Option.some.injEq] at heq
      rw [heq] at hlt
      omega
    · rw [hp, hc'] at heq
      simp only [Option.some.injEq] at heq
      rw [heq, hallocobj] at hge
      omega
    · rw [hp, hp'] at heq
      simp only [Option.some.injEq] at heq
      rw [← heq] at hlt'
      omega
    · exact hnewinj id id' T c T' c' hs hs' hs2 hs2' heq
  · intro d hd
    rcases List.mem_cons.mp hd with rfl | hd
    · exact ⟨d.outT, d.out, by simp, rfl⟩
    · obtain ⟨T, c, hc, heq⟩ := hinv.made_ok d hd
      have hne : d.pv.pointer ≠ call.pv.pointer := by
        intro e
        rw [e, hreg] at hc
        cases hc
      obtain ⟨h2, hm⟩ := hold _ T c hc
      refine ⟨T, c, by simp only [Function.update_noteq hne]; exact h2, ?_⟩
      obtain ⟨p, hp, _⟩ := hinv.holds _ T c hc
      rw [hm, hkept d.out (by simp [Function.update_noteq (hmade d hd), heq, hp])]
      simp only [Function.update_noteq (hmade d hd)]
      exact heq
  · intro d hd
    have hex := hinv.coming_exist d (List.mem_cons_of_mem _ hd)
    rw [hkept d.out (by simp [Function.update_noteq (hrest d hd), hex])]
    simp only [Function.update_noteq (hrest d hd)]
    exact hex
  · intro id T c h d hd
    rcases hcases id T c h with ⟨_, hc, _⟩ | ⟨_, hs, _⟩ | ⟨_, _, _, hnone, _, _⟩
    · rw [hc]
      exact fun e => hrest d hd e.symm
    · exact hinv.coming_free id T c hs d (List.mem_cons_of_mem _ hd)
    · intro e
      rw [e] at hnone
      exact hinv.coming_exist d (List.mem_cons_of_mem _ hd) hnone

theorem decodeFromPointerValue_inv (env : TypeEnv) (fuel : Nat)
    (unmarshal : Json → WType → Except String Wire) {decodeTo : DecodeToFn}
    (hframe : DecodeToFrame decodeTo)
    {s s1 : JSONDecoder} {m m1 : Memory} {made rest : List DecodeCall} {call : DecodeCall}
    (hinv : DecodeInv s m made (call :: rest))
    (hmade : ∀ d ∈ made, d.out ≠ call.out) (hrest : ∀ d ∈ rest, d.out ≠ call.out)
    (hnn : call.pv.value.isNull = false)
    (hstep : decodeFromPointerValue env fuel unmarshal decodeTo s m (.pointerValue call.pv)
      call.outT call.out = (.ok (), s1, m1)) :
    DecodeInv s1 m1 (call :: made) rest := by
  unfold decodeFromPointerValue at hstep
  simp only [hnn, Bool.false_eq_true, if_false] at hstep
  repeat' split at hstep
  all_goals simp only [Prod.mk.injEq, reduceCtorEq, false_and] at hstep
  all_goals obtain ⟨_, rfl, rfl⟩ := hstep
  · exact decodeFromPointerValue_reuse_inv hinv hmade hrest ‹s.pointerValues _ = some _›
  · exact decodeFromPointerValue_fresh_inv hframe hinv hmade hrest ‹s.pointerValues _ = none›
      ‹decodeTo _ _ _ _ _ = _›

theorem decodeSequence_inv (env : TypeEnv) (fuel : Nat)
    (unmarshal : Json → WType → Except String Wire) {decodeTo : DecodeToFn}
    (hframe : DecodeToFrame decodeTo) (calls : List DecodeCall) :
    ∀ (made : List DecodeCall) (s s' : JSONDecoder) (m m' : Memory),
      DecodeInv s m made calls →
      (∀ d ∈ made, ∀ c ∈ calls, d.out ≠ c.out) → (calls.map (fun c => c.out)).Nodup →
      (∀ c ∈ calls, c.pv.value.isNull = false) →
      decodeSequence env fuel unmarshal decodeTo s m calls = (.ok (), s', m') →
      ∃ all : List DecodeCall, (∀ c, c ∈ all ↔ c ∈ made ∨ c ∈ calls) ∧ DecodeInv s' m' all [] := by
  induction calls with
  | nil =>
    intro made s s' m m' hinv _ _ _ hrun
    simp only [decodeSequence, Prod.mk.injEq, true_and] at hrun
    obtain ⟨rfl, rfl⟩ := hrun
    exact ⟨made, by simp, hinv⟩
  | cons call rest ih =>
    intro made s s' m m' hinv hdisj hnodup hnn hrun
    unfold decodeSequence at hrun
    split at hrun
    · simp only [Prod.mk.injEq, reduceCtorEq, false_and] at hrun
    · rename_i u s1 m1 hstep
      have hnd := List.nodup_cons.mp hnodup
      have hrest : ∀ d ∈ rest, d.out ≠ call.out := by
        intro d hd e
        exact hnd.1 (List.mem_map.mpr ⟨d, hd, e⟩)
      have hmade : ∀ d ∈ made, d.out ≠ call.out :=
        fun d hd => hdisj d hd call (List.mem_cons_self _ _)
      have hstep' : decodeFromPointerValue env fuel unmarshal decodeTo s m (.pointerValue call.pv)
          call.outT call.out = (.ok (), s1, m1) := hstep
      have hinv1 := decodeFromPointerValue_inv env fuel unmarshal hframe hinv hmade hrest
        (hnn call (List.mem_cons_self _ _)) hstep'
      have hdisj1 : ∀ d ∈ call :: made, ∀ c ∈ rest, d.out ≠ c.out := by
        intro d hd c hc
        rcases List.mem_cons.mp hd with rfl | hd
        · exact fun e => hrest c hc e.symm
        · exact hdisj d hd c (List.mem_cons_of_mem _ hc)
      obtain ⟨all, hall, hfin⟩ := ih (call :: made) s1 s' m1 m' hinv1 hdisj1 hnd.2
        (fun c hc => hnn c (List.mem_cons_of_mem _ hc)) hrun
      refine ⟨all, ?_, hfin⟩
      intro c
      rw [hall c]
      simp only [List.mem_cons]
      tauto

/-! ## Theorems: cyclic linked lists -/

theorem Err.Contains.wrap {e : Err} {text : String} (h : e.Contains text) (pre : String) :
    (e.wrap pre).Contains text := by
  obtain ⟨a, b, rfl⟩ := h
  exact ⟨pre ++ a, b, by simp [Err.wrap, String.append_assoc]⟩

theorem cycleMessage_contains : (Err.msg cycleMessage).Contains "cycle detected" :=
  ⟨"encodeToPointerValue: ", "; structs with cyclic data are not supported", by decide⟩

theorem encodedTypeFor_node (fuel : Nat) :
    encodedTypeFor testEnv (fuel + 2) nodeType = .ok nodeWireType := rfl

theorem encodedTypeFor_nodePointer (fuel : Nat) :
    encodedTypeFor testEnv (fuel + 1) (.pointer nodeType) = .ok .pointerValue := rfl

theorem structTagGet_node : structTagGet "json:\"next\" original:\"next\"" "original" = "next" := by
  decide

theorem encodeTo_nodeStruct_error (ff : FloatFormat) (heap : Heap) (fuel : Nat)
    (s1 s2 : JSONEncoder) (q : Pointer) (e : Err)
    (hinner : encodeTo testEnv ff heap (fuel + 1) s1 (.pointer nodeType) (.ptr (some q))
      .pointerValue = (.error e, s2)) :
    encodeTo testEnv ff heap (fuel + 2) s1 nodeType (mkNode (some q)) nodeWireType
      = (.error (e.wrap "copyStruct(): "), s2) := by
  have h1 : encodeTo testEnv ff heap (fuel + 2) s1 nodeType (mkNode (some q)) nodeWireType
      = copyStruct testEnv (encodeTo testEnv ff heap (fuel + 1)) s1 nodeType (mkNode (some q))
          nodeWireType := rfl
  have hk : testEnv.kind nodeType = .struct := rfl
  have hf : testEnv.fields nodeType = [({ name := "next" }, .pointer nodeType)] := rfl
  rw [h1]
  simp [copyStruct, copyFields, nodeWireType, mkNode, structTagGet_node, hk, hf, WType.kind,
    hinner, List.lookup]

theorem encodeTo_node_error (ff : FloatFormat) (heap : Heap) (fuel : Nat) (s s2 : JSONEncoder)
    (p q : Pointer) (e : Err) (hp : p.addr ≠ 0) (htab : s.pointerValues p.addr = none)
    (hpend : s.pendingPointers p.addr = false) (hheap : heap p.obj = some (mkNode (some q)))
    (hinner : encodeTo testEnv ff heap (fuel + 1)
      { s with pendingPointers := Function.update s.pendingPointers p.addr true }
      (.pointer nodeType) (.ptr (some q)) .pointerValue = (.error e, s2)) :
    encodeTo testEnv ff heap (fuel + 3) s (.pointer nodeType) (.ptr (some p)) .pointerValue
      = (.error (wrapNode e), s2) := by
  have h1 : encodeTo testEnv ff heap (fuel + 3) s (.pointer nodeType) (.ptr (some p)) .pointerValue
      = match encodeToPointerValue testEnv ff heap
          (encodeWith testEnv (fuel + 2) (encodeTo testEnv ff heap (fuel + 2))) s
          (.pointer nodeType) (.ptr (some p)) with
        | (.error err, s1) => (.error err, s1)
        | (.ok pv, s1) => (.ok (.pointerValue pv), s1) := rfl
  have hk : testEnv.kind (.pointer nodeType) = .pointer := rfl
  have he : testEnv.elem (.pointer nodeType) = nodeType := rfl
  have h2 := encodeTo_nodeStruct_error ff heap fuel _ s2 q e hinner
  rw [h1]
  simp [encodeToPointerValue, hk, he, hp, htab, hpend, hheap, encodeWith, encodedTypeFor_node,
    h2, wrapNode]

theorem encodeTo_pending_error (ff : FloatFormat) (heap : Heap) (fuel : Nat) (s : JSONEncoder)
    (p : Pointer) (hp : p.addr ≠ 0) (htab : s.pointerValues p.addr = none)
    (hpend : s.pendingPointers p.addr = true) :
    encodeTo testEnv ff heap (fuel + 1) s (.pointer nodeType) (.ptr (some p)) .pointerValue
      = (.error (.msg cycleMessage), s) := by
  have h1 : encodeTo testEnv ff heap (fuel + 1) s (.pointer nodeType) (.ptr (some p)) .pointerValue
      = match encodeToPointerValue testEnv ff heap
          (encodeWith testEnv fuel (encodeTo testEnv ff heap fuel)) s
          (.pointer nodeType) (.ptr (some p)) with
        | (.error err, s1) => (.error err, s1)
        | (.ok pv, s1) => (.ok (.pointerValue pv), s1) := rfl
  have hk : testEnv.kind (.pointer nodeType) = .pointer := rfl
  rw [h1]
  simp [encodeToPointerValue, hk, hp, htab, hpend, cycleMessage]

theorem wrapNode_contains {e : Err} {text : String} (h : e.Contains text) :
    (wrapNode e).Contains text :=
  ((h.wrap _).wrap _).wrap _

theorem lasso_error (ff : FloatFormat) (heap : Heap) (back : Pointer) (hbz : back.addr ≠ 0)
    (rest : List Pointer) :
    ∀ (p : Pointer) (s : JSONEncoder) (fuel : Nat),
      LinkedTo heap (p :: rest) back →
      (∀ q ∈ p :: rest, q.addr ≠ 0) → ((p :: rest).map (fun q => q.addr)).Nodup →
      (∀ a, s.pointerValues a = none) →
      (∀ q ∈ p :: rest, s.pendingPointers q.addr = false) →
      (back ∈ p :: rest ∨ s.pendingPointers back.addr = true) →
      ∃ e s', encodeTo testEnv ff heap (2 * rest.length + 3 + fuel) s (.pointer nodeType)
          (.ptr (some p)) .pointerValue = (.error e, s') ∧ e.Contains "cycle detected" := by
  induction rest with
  | nil =>
    intro p s fuel hlink hnz _ htab hpend hback
    have hp := hnz p (List.mem_cons_self _ _)
    have hpp := hpend p (List.mem_cons_self _ _)
    have hb : Function.update s.pendingPointers p.addr true back.addr = true := by
      by_cases e : back.addr = p.addr
      · rw [e, Function.update_same]
      · rw [Function.update_noteq e]
        rcases hback with h | h
        · simp only [List.mem_singleton] at h
          exact absurd (by rw [h]) e
        · exact h
    have hinner := encodeTo_pending_error ff heap fuel
      { s with pendingPointers := Function.update s.pendingPointers p.addr true } back hbz
      (htab _) hb
    have := encodeTo_node_error ff heap fuel s _ p back _ hp (htab _) hpp hlink hinner
    have h3 : 2 * ([] : List Pointer).length + 3 + fuel = fuel + 3 := by
      simp only [List.length_nil]
      omega
    rw [h3]
    exact ⟨_, _, this, wrapNode_contains cycleMessage_contains⟩
  | cons q rest ih =>
    intro p s fuel hlink hnz hnodup htab hpend hback
    have hp := hnz p (List.mem_cons_self _ _)
    have hpp := hpend p (List.mem_cons_self _ _)
    obtain ⟨hheap, hlink'⟩ := hlink
    have hnd := List.nodup_cons.mp hnodup
    have hne : ∀ r ∈ q :: rest, r.addr ≠ p.addr := by
      intro r hr e
      exact hnd.1 (List.mem_map.mpr ⟨r, hr, e⟩)
    obtain ⟨e, s', hinner, hc⟩ := ih q
      { s with pendingPointers := Function.update s.pendingPointers p.addr true } fuel hlink'
      (fun r hr => hnz r (List.mem_cons_of_mem _ hr)) hnd.2 htab
      (fun r hr => by
        show Function.update s.pendingPointers p.addr true r.addr = false
        rw [Function.update_noteq (hne r hr)]
        exact hpend r (List.mem_cons_of_mem _ hr))
      (by
        rcases hback with h | h
        · rcases List.mem_cons.mp h with h | h
          · right
            subst h
            show Function.update s.pendingPointers back.addr true back.addr = true
            rw [Function.update_same]
          · exact Or.inl h
        · right
          show Function.update s.pendingPointers p.addr true back.addr = true
          by_cases e : back.addr = p.addr
          · rw [e, Function.update_same]
          · rw [Function.update_noteq e]
            exact h)
    have hfuel : 2 * rest.length + 3 + fuel = (2 * rest.length + 2 + fuel) + 1 := by omega
    rw [hfuel] at hinner
    have := encodeTo_node_error ff heap (2 * rest.length + 2 + fuel) s s' p q e hp (htab _) hpp
      hheap hinner
    have hfuel2 : 2 * (q :: rest).length + 3 + fuel = (2 * rest.length + 2 + fuel) + 3 := by
      simp only [List.length_cons]
      omega
    rw [hfuel2]
    exact ⟨_, _, this, wrapNode_contains hc⟩

/-! ## Claims -/

/-- C2: within one encoder, a non-nil pointer whose address is in the pointer
table is answered with the stored box itself, whatever `encode` would do with
the pointee and whatever the memory holds now; the encoder, and so the id
counter, is left as it was.  The box of a first occurrence is the one stored,
and no later call of `encode` changes or removes it.  For `[]*string{a, a}`
both elements are the box with pointer 1 and value "one". -/
theorem pointer_dedup :
    (∀ (env : TypeEnv) (ff : FloatFormat) (heap : Heap) (encode : EncodeFn) (s : JSONEncoder)
        (inT : GoType) (p : Pointer) (pv : PointerValue),
      env.kind inT = .pointer → p.addr ≠ 0 → s.pointerValues p.addr = some pv →
      encodeToPointerValue env ff heap encode s inT (.ptr (some p)) = (.ok pv, s))
    ∧ (∀ (env : TypeEnv) (ff : FloatFormat) (heap : Heap) (encode : EncodeFn) (s s' : JSONEncoder)
        (inT : GoType) (p : Pointer) (pv : PointerValue),
      s.pointerValues p.addr = none →
      encodeToPointerValue env ff heap encode s inT (.ptr (some p)) = (.ok pv, s') →
      s'.pointerValues p.addr = some pv)
    ∧ (∀ (env : TypeEnv) (ff : FloatFormat) (heap : Heap) (fuel : Nat) (s s' : JSONEncoder)
        (t : GoType) (v : Val) (r : Except Err Wire) (a : Nat) (pv : PointerValue),
      encode env ff heap fuel s t v = (r, s') → s.pointerValues a = some pv →
      s'.pointerValues a = some pv)
    ∧ (∀ ff : FloatFormat, MarshalJSON testEnv ff stringHeap 4
        (some (.slice (.pointer (.basic .string)), .slice (some [.ptr (some ptrA), .ptr (some ptrA)])))
        [] = .ok ("\x7b\"value\":[\x7b\"pointer\":1,\"value\":\"one\"\x7d,"
          ++ "\x7b\"pointer\":1,\"value\":\"one\"\x7d]\x7d")) := by
  refine ⟨?_, ?_, ?_, fun ff => rfl⟩
  · intro env ff heap encode s inT p pv hk hp hs
    unfold encodeToPointerValue
    simp [hk, hp, hs]
  · intro env ff heap encode s s' inT p pv hs h
    unfold encodeToPointerValue at h
    dsimp only at h
    repeat' split at h
    all_goals simp only [Prod.mk.injEq, reduceCtorEq, false_and, Except.ok.injEq] at h
    · rename_i heq
      rw [hs] at heq
      cases heq
    · obtain ⟨rfl, rfl⟩ := h
      simp
  · intro env ff heap fuel s s' t v r a pv h hs
    exact (encode_grows env ff heap fuel s t v r s' h).2.2.1 a pv hs

/-- C8: a non-nil pointer that is not yet in the table gets its reference id
only after its pointee has been encoded completely: the id is one more than
the counter as the encoding of the pointee leaves it, so it is greater than
the id of every box that this encoding entered into the table.  For the chain
a, b, c, nil on a fresh encoder the boxes are numbered a=4, b=3, c=2 and the
nil pointer 1. -/
theorem pointer_id_after_pointee :
    (∀ (env : TypeEnv) (ff : FloatFormat) (heap : Heap) (fuel : Nat) (s s' : JSONEncoder)
        (inT : GoType) (p : Pointer) (pv : PointerValue),
      s.pointerValues p.addr = none →
      encodeToPointerValue env ff heap (encode env ff heap fuel) s inT (.ptr (some p))
        = (.ok pv, s') →
      ∃ pointee outV s2, heap p.obj = some pointee
        ∧ encode env ff heap fuel
            { s with pendingPointers := Function.update s.pendingPointers p.addr true }
            (env.elem inT) pointee = (.ok outV, s2)
        ∧ jsonMarshal env ff outV = .ok pv.value
        ∧ pv.pointer = s2.pointerIndex + 1 ∧ s'.pointerIndex = pv.pointer
        ∧ s.pointerIndex ≤ s2.pointerIndex
        ∧ (∀ a q, a ≠ p.addr → s.pointerValues a = none → s'.pointerValues a = some q →
            s.pointerIndex < q.pointer ∧ q.pointer < pv.pointer))
    ∧ MarshalJSON testEnv noFloats linearHeap 8 (some (.pointer nodeType, .ptr (some ptrA))) []
        = .ok ("\x7b\"value\":\x7b\"pointer\":4,\"value\":\x7b\"next\":\x7b\"pointer\":3,\"value\":"
          ++ "\x7b\"next\":\x7b\"pointer\":2,\"value\":\x7b\"next\":\x7b\"pointer\":1,\"value\":null"
          ++ "\x7d\x7d\x7d\x7d\x7d\x7d\x7d\x7d") := by
  refine ⟨?_, by decide!⟩
  intro env ff heap fuel s s' inT p pv hs h
  unfold encodeToPointerValue at h
  dsimp only at h
  repeat' split at h
  all_goals simp only [Prod.mk.injEq, reduceCtorEq, false_and, Except.ok.injEq] at h
  · rename_i heq
    rw [hs] at heq
    cases heq
  · obtain ⟨rfl, rfl⟩ := h
    have henc := ‹encode env ff heap fuel _ _ _ = _›
    have hjson := ‹jsonMarshalInternal env ff _ _ = _›
    have hg := encode_grows env ff heap fuel _ _ _ _ _ henc
    obtain ⟨_, hi, _, hn⟩ := hg
    refine ⟨_, _, _, ‹heap p.obj = some _›, henc, ?_, rfl, rfl, hi, ?_⟩
    · unfold jsonMarshalInternal at hjson
      split at hjson
      · rename_i j hj
        simp only [Except.ok.injEq] at hjson
        rw [hj, hjson]
      · cases hjson
    · intro a q hne ha hq
      simp only [Function.update_noteq hne] at hq
      have := hn a q ha hq
      simp only at this ⊢
      omega

/-- C7, counterexample: after the chain a, b, c, nil is encoded by a fresh
encoder, the ids of a, b and c are not increasing in first-visit order. -/
theorem chain_ids_not_increasing :
    ¬ ∃ ia ib ic, idOf linearEncoder ptrA = some ia ∧ idOf linearEncoder ptrB = some ib
      ∧ idOf linearEncoder ptrC = some ic ∧ ia < ib ∧ ib < ic := by
  rintro ⟨ia, ib, ic, ha, hb, hc, hab, hbc⟩
  have h4 : idOf linearEncoder ptrA = some 4 := by decide!
  have h3 : idOf linearEncoder ptrB = some 3 := by decide!
  rw [h4] at ha
  rw [h3] at hb
  cases ha
  cases hb
  omega

/-- C7, as the code has it: for the chain a, b, c, nil on a fresh encoder the
encoding succeeds and the reference ids decrease in first-visit order, since a
pointer is numbered when its pointee is complete: a is 4, b is 3, c is 2. -/
theorem chain_ids_decrease :
    isOk (MarshalJSON testEnv noFloats linearHeap 20 (some (.pointer nodeType, .ptr (some ptrA))) [])
      = true
    ∧ ∃ ia ib ic, idOf linearEncoder ptrA = some ia ∧ idOf linearEncoder ptrB = some ib
      ∧ idOf linearEncoder ptrC = some ic ∧ ia = 4 ∧ ib = 3 ∧ ic = 2 ∧ ia > ib ∧ ib > ic := by
  refine ⟨by decide!, 4, 3, 2, by decide!, by decide!, by decide!, rfl, rfl, rfl, by decide, by decide⟩

theorem encodeSteps_grow {s s' : JSONEncoder} (h : Relation.ReflTransGen EncodeStep s s') :
    Grows s s' := by
  induction h with
  | refl => exact Grows.refl _
  | tail _ hstep ih =>
    obtain ⟨env, ff, heap, fuel, inp, r, hr⟩ := hstep
    exact Grows.trans ih (Encode_grows env ff heap fuel _ inp r _ hr)

/-- C4: the pointer table and the id counter persist across the `Encode`
calls of one encoder.  After any number of calls the counter has not gone
down, every entry of the table is still there with the same box, and every
new entry has an id above the counter the calls started from; a pointer
whose box is in the table is answered with that box in every later call.
`obj1{a: &int1, b: &int2}` then `obj2{c: &int2}` give the ids 1, 2 and then 2,
and a pointer to a third variable gets 3 afterwards. -/
theorem pointer_ids_persist_across_calls :
    (∀ s s' : JSONEncoder, Relation.ReflTransGen EncodeStep s s' → Grows s s')
    ∧ (∀ (s s' : JSONEncoder) (env : TypeEnv) (ff : FloatFormat) (heap : Heap) (encode : EncodeFn)
        (inT : GoType) (p : Pointer) (pv : PointerValue),
      Relation.ReflTransGen EncodeStep s s' → s.pointerValues p.addr = some pv →
      env.kind inT = .pointer → p.addr ≠ 0 →
      encodeToPointerValue env ff heap encode s' inT (.ptr (some p)) = (.ok pv, s'))
    ∧ (Encode testEnv noFloats intHeap 6 (NewJSONEncoder []) obj1).1
        = .ok ("\x7b\"value\":\x7b\"a\":\x7b\"pointer\":1,\"value\":42\x7d,"
          ++ "\"b\":\x7b\"pointer\":2,\"value\":53\x7d\x7d\x7d")
    ∧ (Encode testEnv noFloats intHeap 6
          (Encode testEnv noFloats intHeap 6 (NewJSONEncoder []) obj1).2 obj2).1
        = .ok "\x7b\"value\":\x7b\"c\":\x7b\"pointer\":2,\"value\":53\x7d\x7d\x7d"
    ∧ (Encode testEnv noFloats intHeap 6
          (Encode testEnv noFloats intHeap 6
            (Encode testEnv noFloats intHeap 6 (NewJSONEncoder []) obj1).2 obj2).2 obj3).1
        = .ok "\x7b\"value\":\x7b\"c\":\x7b\"pointer\":3,\"value\":64\x7d\x7d\x7d" := by
  refine ⟨fun s s' h => encodeSteps_grow h, ?_, by decide!, by decide!, by decide!⟩
  intro s s' env ff heap encode inT p pv h hs hk hp
  have hs' := (encodeSteps_grow h).2.2.1 _ _ hs
  unfold encodeToPointerValue
  simp [hk, hp, hs']

/-- C10: `decodeFromComplexValue` returns an error and leaves the destination
as it was whenever the kind of the destination is neither complex64 nor
complex128, and whenever the encoded value is not a `complexValue`;
`encodeToComplexValue` returns an error whenever its input is not of a complex
kind. -/
theorem complexValue_type_errors :
    (∀ (env : TypeEnv) (narrow : Nat → Nat) (encodedV : Wire) (outT : GoType) (out : Val),
      env.kind outT ≠ .complex64 → env.kind outT ≠ .complex128 →
      ∃ e, decodeFromComplexValue env narrow encodedV outT out = (.error (.msg e), out))
    ∧ (∀ (env : TypeEnv) (narrow : Nat → Nat) (encodedV : Wire) (outT : GoType) (out : Val),
      (∀ cv, encodedV ≠ .complexValue cv) →
      ∃ e, decodeFromComplexValue env narrow encodedV outT out = (.error (.msg e), out))
    ∧ (∀ (env : TypeEnv) (inputT : GoType) (inputV : Val),
      env.kind inputT ≠ .complex64 → env.kind inputT ≠ .complex128 →
      ∃ e, encodeToComplexValue env inputT inputV = .error (.msg e))
    ∧ (∃ e, decodeFromComplexValue testEnv id (.complexValue { real := float64One, imag := float64Two })
        (.basic .float64) (.prim (.float 0)) = (.error (.msg e), .prim (.float 0)))
    ∧ (∃ e, encodeToComplexValue testEnv (.basic .float64) (.prim (.float 0)) = .error (.msg e)) := by
  refine ⟨?_, ?_, ?_, ⟨_, rfl⟩, ⟨_, rfl⟩⟩
  · intro env narrow encodedV outT out h64 h128
    unfold decodeFromComplexValue
    split
    · split
      · rename_i hk
        exact absurd hk h128
      · rename_i hk
        exact absurd hk h64
      · exact ⟨_, rfl⟩
    · exact ⟨_, rfl⟩
  · intro env narrow encodedV outT out hne
    unfold decodeFromComplexValue
    split
    · rename_i cv
      exact absurd rfl (hne cv)
    · exact ⟨_, rfl⟩
  · intro env inputT inputV h64 h128
    unfold encodeToComplexValue
    simp [h64, h128]

/-- C6, as the code has it: encoding a nil pointer emits a box with a null
payload and the next reference id; the counter advances by exactly one, and
the pointer table and the pending set are left as they were. -/
theorem nil_pointer_takes_next_id (env : TypeEnv) (ff : FloatFormat) (heap : Heap)
    (encode : EncodeFn) (s : JSONEncoder) (inT : GoType) (hk : env.kind inT = .pointer) :
    ∃ pv s', encodeToPointerValue env ff heap encode s inT (.ptr none) = (.ok pv, s')
      ∧ pv.pointer = s.pointerIndex + 1 ∧ pv.value.isNull = true
      ∧ s'.pointerIndex = s.pointerIndex + 1
      ∧ s'.pointerValues = s.pointerValues ∧ s'.pendingPointers = s.pendingPointers
      ∧ s'.config = s.config := by
  refine ⟨{ pointer := s.pointerIndex + 1, value := Json.null },
    { s with pointerIndex := s.pointerIndex + 1 }, ?_, rfl, rfl, rfl, rfl, rfl, rfl⟩
  unfold encodeToPointerValue
  simp [hk]

/-- C6, witness: the nil `*node` on a fresh encoder. -/
theorem nil_pointer_takes_next_id_witness :
    ∃ pv s', encodeToPointerValue testEnv noFloats linearHeap (encode testEnv noFloats linearHeap 5)
        (NewJSONEncoder []) (.pointer nodeType) (.ptr none) = (.ok pv, s')
      ∧ pv.pointer = (NewJSONEncoder []).pointerIndex + 1 ∧ pv.value.isNull = true
      ∧ s'.pointerIndex = (NewJSONEncoder []).pointerIndex + 1
      ∧ s'.pointerValues = (NewJSONEncoder []).pointerValues
      ∧ s'.pendingPointers = (NewJSONEncoder []).pendingPointers
      ∧ s'.config = (NewJSONEncoder []).config :=
  nil_pointer_takes_next_id testEnv noFloats linearHeap _ _ (.pointer nodeType) rfl

/-- C6, counterexample: on a fresh encoder the box of a nil `*node` carries
the reference id 1, and the counter, 0 before the call, is 1 after it; a
non-nil pointer encoded afterwards gets the id 2, not 1. -/
theorem nil_pointer_consumes_id :
    (encodeToPointerValue testEnv noFloats linearHeap (encode testEnv noFloats linearHeap 5)
        (NewJSONEncoder []) (.pointer nodeType) (.ptr none)).1.toOption.map (fun pv => pv.pointer)
      = some 1
    ∧ (NewJSONEncoder []).pointerIndex = 0
    ∧ (encodeToPointerValue testEnv noFloats linearHeap (encode testEnv noFloats linearHeap 5)
        (NewJSONEncoder []) (.pointer nodeType) (.ptr none)).2.pointerIndex = 1
    ∧ (encodeToPointerValue testEnv noFloats intHeap (encode testEnv noFloats intHeap 5)
        (encodeToPointerValue testEnv noFloats intHeap (encode testEnv noFloats intHeap 5)
          (NewJSONEncoder []) (.pointer (.basic .int)) (.ptr none)).2
        (.pointer (.basic .int)) (.ptr (some ptrA))).1.toOption.map (fun pv => pv.pointer)
      = some 2 := by
  decide!

/-- C9: for every complex number, `encodeToComplexValue` yields the box with
its real and imaginary parts, `decodeFromComplexValue` of that box into a
`complex128` destination writes exactly the number back, and for `1+2i` the
output of `MarshalJSON` is `{"value":{"real":1,"imag":2}}` whenever the text
layer prints the floats 1 and 2 as `1` and `2`. -/
theorem complexValue_roundtrip :
    (∀ (env : TypeEnv) (inputT : GoType) (re im : Nat),
      env.kind inputT = .complex128 ∨ env.kind inputT = .complex64 →
      encodeToComplexValue env inputT (.complex re im)
        = .ok (.complexValue { real := re, imag := im }))
    ∧ (∀ (env : TypeEnv) (narrow : Nat → Nat) (inputT : GoType) (re im : Nat) (out : Val),
      env.kind inputT = .complex128 ∨ env.kind inputT = .complex64 →
      ∃ box, encodeToComplexValue env inputT (.complex re im) = .ok box
        ∧ decodeFromComplexValue env narrow box (.basic .complex128) out
          = (.ok (), .complex re im))
    ∧ (∀ (ff : FloatFormat) (heap : Heap), ff float64One 64 = "1" → ff float64Two 64 = "2" →
      MarshalJSON testEnv ff heap 2 (some (.basic .complex128, .complex float64One float64Two)) []
        = .ok "\x7b\"value\":\x7b\"real\":1,\"imag\":2\x7d\x7d") := by
  refine ⟨?_, ?_, ?_⟩
  · intro env inputT re im hk
    unfold encodeToComplexValue
    rcases hk with hk | hk <;> simp [hk]
  · intro env narrow inputT re im out hk
    refine ⟨.complexValue { real := re, imag := im }, ?_, ?_⟩
    · unfold encodeToComplexValue
      rcases hk with hk | hk <;> simp [hk]
    · simp [decodeFromComplexValue, TypeEnv.kind, TypeEnv.expand]
  · intro ff heap h1 h2
    have hform : MarshalJSON testEnv ff heap 2
          (some (.basic .complex128, .complex float64One float64Two)) []
        = .ok (Json.compact (encodedJSONWrapper (.obj [("real", .num (ff float64One 64)),
            ("imag", .num (ff float64Two 64))]))) := rfl
    rw [hform, h1, h2]
    rfl

/-- C3: a sequence of successful calls of `decodeFromPointerValue` with
non-null payloads on a fresh decoder, into different nil pointer variables:
afterwards every destination holds an allocation, two destinations hold the
same allocation exactly when their boxes carry the same reference id, and the
number of different allocations the destinations hold is the number of
different ids. -/
theorem decode_sharing_by_id (env : TypeEnv) (fuel : Nat)
    (unmarshal : Json → WType → Except String Wire) (decodeTo : DecodeToFn)
    (hframe : DecodeToFrame decodeTo) (calls : List DecodeCall) (m0 m : Memory) (s : JSONDecoder)
    (hdest : ∀ c ∈ calls, m0.slots c.out = some none)
    (hnodup : (calls.map (fun c => c.out)).Nodup)
    (hnn : ∀ c ∈ calls, c.pv.value.isNull = false)
    (hrun : decodeSequence env fuel unmarshal decodeTo NewJSONDecoder m0 calls = (.ok (), s, m)) :
    (∀ c ∈ calls, ∃ p, m.slots c.out = some (some p))
    ∧ (∀ c1 ∈ calls, ∀ c2 ∈ calls,
        (m.slots c1.out = m.slots c2.out ↔ c1.pv.pointer = c2.pv.pointer))
    ∧ (calls.map (fun c => m.slots c.out)).toFinset.card
        = (calls.map (fun c => c.pv.pointer)).toFinset.card := by
  have hinit : DecodeInv NewJSONDecoder m0 [] calls := by
    constructor
    · intro id T c h
      cases h
    · intro id id' T c T' c' h
      cases h
    · intro d hd
      cases hd
    · intro d hd
      rw [hdest d hd]
      simp
    · intro id T c h
      cases h
  obtain ⟨all, hall, hfin⟩ := decodeSequence_inv env fuel unmarshal hframe calls [] NewJSONDecoder s
    m0 m hinit (fun d hd => by cases hd) hnodup hnn hrun
  have hmem : ∀ c ∈ calls, ∃ T c0, s.pointerValues c.pv.pointer = some (T, c0)
      ∧ m.slots c.out = m.slots c0 :=
    fun c hc => hfin.made_ok c ((hall c).mpr (Or.inr hc))
  have hreg : ∀ c ∈ calls, m.slots c.out = registeredSlot s m c.pv.pointer := by
    intro c hc
    obtain ⟨T, c0, h0, heq⟩ := hmem c hc
    simp only [registeredSlot, h0]
    exact heq
  refine ⟨?_, ?_, ?_⟩
  · intro c hc
    obtain ⟨T, c0, h0, heq⟩ := hmem c hc
    obtain ⟨p, hp, _⟩ := hfin.holds _ T c0 h0
    exact ⟨p, by rw [heq, hp]⟩
  · intro c1 h1 c2 h2
    obtain ⟨T1, r1, e1, q1⟩ := hmem c1 h1
    obtain ⟨T2, r2, e2, q2⟩ := hmem c2 h2
    constructor
    · intro h
      rw [q1, q2] at h
      exact hfin.inj _ _ T1 r1 T2 r2 e1 e2 h
    · intro h
      rw [hreg c1 h1, hreg c2 h2, h]
  · have hmap : calls.map (fun c => m.slots c.out)
        = (calls.map (fun c => c.pv.pointer)).map (registeredSlot s m) := by
      rw [List.map_map]
      exact List.map_congr_left (fun c hc => hreg c hc)
    have himg : ((calls.map (fun c => c.pv.pointer)).map (registeredSlot s m)).toFinset
        = (calls.map (fun c => c.pv.pointer)).toFinset.image (registeredSlot s m) := by
      ext x
      simp
    rw [hmap, himg]
    apply Finset.card_image_of_injOn
    intro i hi j hj hij
    simp only [Finset.mem_coe, List.mem_toFinset, List.mem_map] at hi hj
    obtain ⟨c1, h1, rfl⟩ := hi
    obtain ⟨c2, h2, rfl⟩ := hj
    obtain ⟨T1, r1, e1, _⟩ := hmem c1 h1
    obtain ⟨T2, r2, e2, _⟩ := hmem c2 h2
    simp only [registeredSlot, e1, e2] at hij
    exact hfin.inj _ _ T1 r1 T2 r2 e1 e2 hij

theorem decodeToNothing_frame : DecodeToFrame decodeToNothing := by
  constructor
  all_goals intro s m w t target r s2 m2 h
  all_goals simp only [decodeToNothing, Prod.mk.injEq] at h
  all_goals obtain ⟨_, rfl, rfl⟩ := h
  · exact le_refl _
  · intro c _
    rfl
  · intro id _
    rfl
  · intro id T c h1 h2
    rw [h1] at h2
    cases h2
  · intro id id' T c T' c' h1 _ h2
    rw [h1] at h2
    cases h2

/-- C3, witness: three calls on a fresh decoder, the first two with the id 1
and the third with the id 2, into the nil pointer variables 0, 1 and 2. -/
theorem decode_sharing_by_id_witness :
    (∀ c ∈ sharingCalls, ∃ p,
      (decodeSequence testEnv 3 unmarshalOne decodeToNothing NewJSONDecoder threeNilPointers
        sharingCalls).2.2.slots c.out = some (some p))
    ∧ (∀ c1 ∈ sharingCalls, ∀ c2 ∈ sharingCalls,
        ((decodeSequence testEnv 3 unmarshalOne decodeToNothing NewJSONDecoder threeNilPointers
          sharingCalls).2.2.slots c1.out
        = (decodeSequence testEnv 3 unmarshalOne decodeToNothing NewJSONDecoder threeNilPointers
          sharingCalls).2.2.slots c2.out ↔ c1.pv.pointer = c2.pv.pointer))
    ∧ (sharingCalls.map (fun c =>
        (decodeSequence testEnv 3 unmarshalOne decodeToNothing NewJSONDecoder threeNilPointers
          sharingCalls).2.2.slots c.out)).toFinset.card
        = (sharingCalls.map (fun c => c.pv.pointer)).toFinset.card :=
  decode_sharing_by_id testEnv 3 unmarshalOne decodeToNothing decodeToNothing_frame sharingCalls
    threeNilPointers _ _
    (by intro c hc; simp only [sharingCalls, List.mem_cons, List.mem_singleton, List.not_mem_nil, or_false] at hc; rcases hc with rfl | rfl | rfl <;> rfl)
    (by decide)
    (by intro c hc; simp only [sharingCalls, List.mem_cons, List.mem_singleton, List.not_mem_nil, or_false] at hc; rcases hc with rfl | rfl | rfl <;> rfl)
    (by
      have h1 : (decodeSequence testEnv 3 unmarshalOne decodeToNothing NewJSONDecoder
          threeNilPointers sharingCalls).1 = .ok () := by decide!
      rw [← h1])

/-- C1, the code at the failing input `p := new([]int64)`, a non-nil pointer
to a nil slice: `MarshalJSON(p)` is `{"value":{"pointer":1,"value":null}}`,
the box of `p` has the payload `null`, and `decodeFromPointerValue` answers
every box with the payload `null` by returning without an error and without
writing to the destination, which therefore stays the nil pointer. -/
theorem pointer_to_nil_slice_decodes_to_nil :
    MarshalJSON testEnv noFloats nilSliceHeap 4
        (some (.pointer (.slice (.basic .int64)), .ptr (some ptrA))) []
      = .ok "\x7b\"value\":\x7b\"pointer\":1,\"value\":null\x7d\x7d"
    ∧ (encodeToPointerValue testEnv noFloats nilSliceHeap (encode testEnv noFloats nilSliceHeap 3)
        (NewJSONEncoder []) (.pointer (.slice (.basic .int64))) (.ptr (some ptrA))).1.toOption.map
          (fun pv => (pv.pointer, pv.value.isNull)) = some (1, true)
    ∧ (∀ (fuel : Nat) (unmarshal : Json → WType → Except String Wire) (decodeTo : DecodeToFn)
        (s : JSONDecoder) (m : Memory) (pv : PointerValue) (out : Nat),
      pv.value.isNull = true →
      decodeFromPointerValue testEnv fuel unmarshal decodeTo s m (.pointerValue pv)
        (.pointer (.slice (.basic .int64))) out = (.ok (), s, m)) := by
  refine ⟨by decide!, by decide!, ?_⟩
  intro fuel unmarshal decodeTo s m pv out hnull
  unfold decodeFromPointerValue
  simp [hnull, TypeEnv.kind, TypeEnv.expand]

/-! ## Theorems: the mirror of struct types -/

theorem wireNameOf_eq (field : FieldInfo) :
    wireNameOf field
      = if tagNamePart (effectiveTag field) = "" then field.name
        else tagNamePart (effectiveTag field) := by
  unfold wireNameOf effectiveTag
  by_cases h1 : field.unsafelyJson = ""
  · by_cases h2 : field.json = ""
    · simp [h1, h2, tagNamePart, cutComma]
    · simp [h1, h2]
  · simp [h1]

theorem sourceTag_eq (field : FieldInfo) :
    (if field.unsafelyJson ≠ "" then field.unsafelyJson
      else if field.json ≠ "" then field.json else "") = effectiveTag field := by
  unfold effectiveTag
  by_cases hu : field.unsafelyJson = ""
  · by_cases hj : field.json = ""
    · simp [hu, hj]
    · simp [hu, hj]
  · simp [hu]

theorem mirrorStructFields_skip (mirror : GoType → Except Err WType) (i : Nat)
    (used : List (String × String)) (field : FieldInfo) (t : GoType)
    (rest : List (FieldInfo × GoType)) (h : isRetained field = false) :
    mirrorStructFields mirror i used ((field, t) :: rest)
      = mirrorStructFields mirror (i + 1) used rest := by
  have h1 : effectiveTag field = "-" := by simpa [isRetained] using h
  rw [mirrorStructFields]
  simp only [sourceTag_eq, h1, if_true]

theorem mirrorStructFields_keep (mirror : GoType → Except Err WType) (i : Nat)
    (used : List (String × String)) (field : FieldInfo) (t : GoType)
    (rest : List (FieldInfo × GoType)) (h : isRetained field = true) :
    mirrorStructFields mirror i used ((field, t) :: rest)
      = match used.lookup (wireNameOf field) with
        | some existingField =>
          .error (.msg (duplicateMessage (wireNameOf field) existingField field.name))
        | none =>
          match mirror t with
          | .error e => .error (e.wrap "createEncodedTypeFor: ")
          | .ok newType =>
            match mirrorStructFields mirror (i + 1) ((wireNameOf field, field.name) :: used) rest with
            | .error e => .error e
            | .ok fields => .ok ((wireFieldOf i field, newType) :: fields) := by
  have h1 : effectiveTag field ≠ "-" := by simpa [isRetained] using h
  rw [mirrorStructFields]
  simp only [sourceTag_eq, h1, if_false]
  have hname : (if String.mk (cutComma (effectiveTag field).data).1 = "" then field.name
      else String.mk (cutComma (effectiveTag field).data).1) = wireNameOf field := by
    rw [wireNameOf_eq]
    rfl
  simp only [hname]
  have htag : (if (cutComma (effectiveTag field).data).2.2 = true then
        wireNameOf field ++ "," ++ String.mk (cutComma (effectiveTag field).data).2.1
      else wireNameOf field) = wireJsonTagOf field := rfl
  simp only [htag]
  rfl

theorem retainedFrom_cons_keep (i : Nat) (field : FieldInfo) (t : GoType)
    (rest : List (FieldInfo × GoType)) (h : isRetained field = true) :
    retainedFrom i ((field, t) :: rest) = (i, field, t) :: retainedFrom (i + 1) rest := by
  simp [retainedFrom, List.enumFrom, List.filter, h]

theorem retainedFrom_cons_skip (i : Nat) (field : FieldInfo) (t : GoType)
    (rest : List (FieldInfo × GoType)) (h : isRetained field = false) :
    retainedFrom i ((field, t) :: rest) = retainedFrom (i + 1) rest := by
  simp [retainedFrom, List.enumFrom, List.filter, h]

theorem retainedFrom_names (fields : List (FieldInfo × GoType)) :
    ∀ i, (retainedFrom i fields).map (fun p => wireNameOf p.2.1) = retainedNames fields := by
  induction fields with
  | nil => intro i; rfl
  | cons p rest ih =>
    intro i
    obtain ⟨field, t⟩ := p
    by_cases h : isRetained field = true
    · rw [retainedFrom_cons_keep i field t rest h]
      rw [List.map_cons, ih (i + 1)]
      simp [retainedNames, List.filter, h]
    · have h' : isRetained field = false := by simpa using h
      rw [retainedFrom_cons_skip i field t rest h']
      rw [ih (i + 1)]
      simp [retainedNames, List.filter, h']

/-- What a successful run of the loop of `createEncodedTypeFor` returns: one
wire field for each retained field, in order, with the mirror of its type;
the wire names of the retained fields are different from each other and not
in use before. -/
theorem mirrorStructFields_ok (mirror : GoType → Except Err WType)
    (fields : List (FieldInfo × GoType)) :
    ∀ (i : Nat) (used : List (String × String)) (out : List (WFieldInfo × WType)),
      mirrorStructFields mirror i used fields = .ok out →
      List.Forall₂ (fun p w => w.1 = wireFieldOf p.1 p.2.1 ∧ mirror p.2.2 = .ok w.2)
          (retainedFrom i fields) out
        ∧ (retainedNames fields).Nodup
        ∧ ∀ n ∈ retainedNames fields, used.lookup n = none := by
  induction fields with
  | nil =>
    intro i used out h
    simp only [mirrorStructFields, Except.ok.injEq] at h
    subst h
    exact ⟨List.Forall₂.nil, List.nodup_nil, fun n hn => by cases hn⟩
  | cons p rest ih =>
    intro i used out h
    obtain ⟨field, t⟩ := p
    by_cases hr : isRetained field = true
    · rw [mirrorStructFields_keep mirror i used field t rest hr] at h
      split at h
      · cases h
      · rename_i hlook
        split at h
        · cases h
        · rename_i newType hm
          split at h
          · cases h
          · rename_i fs hrest
            simp only [Except.ok.injEq] at h
            subst h
            obtain ⟨h1, h2, h3⟩ := ih (i + 1) _ fs hrest
            have hnames : retainedNames ((field, t) :: rest)
                = wireNameOf field :: retainedNames rest := by
              simp [retainedNames, List.filter, hr]
            rw [retainedFrom_cons_keep i field t rest hr, hnames]
            refine ⟨List.Forall₂.cons ⟨rfl, hm⟩ h1, ?_, ?_⟩
            · refine List.nodup_cons.mpr ⟨?_, h2⟩
              intro hmem
              have := h3 _ hmem
              simp [List.lookup] at this
            · intro n hn
              rcases List.mem_cons.mp hn with rfl | hn
              · exact hlook
              · have := h3 n hn
                simp only [List.lookup] at this
                split at this
                · cases this
                · exact this
    · have hr' : isRetained field = false := by simpa using hr
      rw [mirrorStructFields_skip mirror i used field t rest hr'] at h
      obtain ⟨h1, h2, h3⟩ := ih (i + 1) used out h
      have hnames : retainedNames ((field, t) :: rest) = retainedNames rest := by
        simp [retainedNames, List.filter, hr']
      rw [retainedFrom_cons_skip i field t rest hr', hnames]
      exact ⟨h1, h2, h3⟩

theorem retainedNames_cons_keep (field : FieldInfo) (t : GoType)
    (rest : List (FieldInfo × GoType)) (h : isRetained field = true) :
    retainedNames ((field, t) :: rest) = wireNameOf field :: retainedNames rest := by
  simp [retainedNames, List.filter, h]

theorem retainedNames_cons_skip (field : FieldInfo) (t : GoType)
    (rest : List (FieldInfo × GoType)) (h : isRetained field = false) :
    retainedNames ((field, t) :: rest) = retainedNames rest := by
  simp [retainedNames, List.filter, h]

theorem lookup_usedAfter_none (n : String) (pre : List (FieldInfo × GoType)) :
    ∀ used : List (String × String), n ∉ retainedNames pre →
      (usedAfter pre used).lookup n = used.lookup n := by
  induction pre with
  | nil => intro used _; rfl
  | cons p rest ih =>
    intro used hn
    obtain ⟨field, t⟩ := p
    by_cases hr : isRetained field = true
    · rw [retainedNames_cons_keep field t rest hr] at hn
      simp only [List.mem_cons, not_or] at hn
      simp only [usedAfter, hr, if_true]
      rw [ih _ hn.2]
      simp only [List.lookup]
      have : (n == wireNameOf field) = false := by simpa using hn.1
      rw [this]
    · have hr' : isRetained field = false := by simpa using hr
      rw [retainedNames_cons_skip field t rest hr'] at hn
      simp only [usedAfter, hr', Bool.false_eq_true, if_false]
      exact ih _ hn

theorem lookup_usedAfter (field : FieldInfo) (t : GoType) (pre : List (FieldInfo × GoType)) :
    ∀ used : List (String × String), (retainedNames pre).Nodup → (field, t) ∈ pre →
      isRetained field = true → (usedAfter pre used).lookup (wireNameOf field) = some field.name := by
  induction pre with
  | nil => intro used _ h; cases h
  | cons p rest ih =>
    intro used hnd hmem hret
    obtain ⟨g, tg⟩ := p
    by_cases hr : isRetained g = true
    · rw [retainedNames_cons_keep g tg rest hr] at hnd
      obtain ⟨hnot, hnd'⟩ := List.nodup_cons.mp hnd
      simp only [usedAfter, hr, if_true]
      rcases List.mem_cons.mp hmem with heq | hmem'
      · simp only [Prod.mk.injEq] at heq
        obtain ⟨rfl, rfl⟩ := heq
        rw [lookup_usedAfter_none _ rest _ hnot]
        simp [List.lookup]
      · exact ih _ hnd' hmem' hret
    · have hr' : isRetained g = false := by simpa using hr
      rw [retainedNames_cons_skip g tg rest hr'] at hnd
      simp only [usedAfter, hr', Bool.false_eq_true, if_false]
      rcases List.mem_cons.mp hmem with heq | hmem'
      · simp only [Prod.mk.injEq] at heq
        obtain ⟨rfl, rfl⟩ := heq
        rw [hret] at hr'
        cases hr'
      · exact ih _ hnd hmem' hret

/-- An error of the loop of `createEncodedTypeFor` after a part of the fields
that mirrors without error is the error of the whole loop. -/
theorem mirrorStructFields_prefix_error (mirror : GoType → Except Err WType)
    (rest : List (FieldInfo × GoType)) (e : Err) (pre : List (FieldInfo × GoType)) :
    ∀ (i : Nat) (used : List (String × String)),
      (∀ p ∈ pre, isRetained p.1 = true → ∃ w, mirror p.2 = .ok w) →
      (retainedNames pre).Nodup →
      (∀ n ∈ retainedNames pre, used.lookup n = none) →
      mirrorStructFields mirror (i + pre.length) (usedAfter pre used) rest = .error e →
      mirrorStructFields mirror i used (pre ++ rest) = .error e := by
  induction pre with
  | nil =>
    intro i used _ _ _ h
    simpa [usedAfter] using h
  | cons p pre ih =>
    intro i used hok hnd hfree h
    obtain ⟨field, t⟩ := p
    have hlen : i + ((field, t) :: pre).length = (i + 1) + pre.length := by
      simp only [List.length_cons]
      omega
    rw [hlen] at h
    by_cases hr : isRetained field = true
    · rw [retainedNames_cons_keep field t pre hr] at hnd hfree
      obtain ⟨hnot, hnd'⟩ := List.nodup_cons.mp hnd
      simp only [usedAfter, hr, if_true] at h
      obtain ⟨w, hw⟩ := hok (field, t) (List.mem_cons_self _ _) hr
      have hrec := ih (i + 1) ((wireNameOf field, field.name) :: used)
        (fun p hp hrp => hok p (List.mem_cons_of_mem _ hp) hrp) hnd'
        (fun n hn => by
          have hne : (n == wireNameOf field) = false := by
            have : n ≠ wireNameOf field := fun heq => hnot (heq ▸ hn)
            simpa using this
          simp only [List.lookup, hne]
          exact hfree n (List.mem_cons_of_mem _ hn)) h
      rw [List.cons_append, mirrorStructFields_keep mirror i used field t _ hr,
        hfree _ (List.mem_cons_self _ _)]
      simp only [hw, hrec]
    · have hr' : isRetained field = false := by simpa using hr
      rw [retainedNames_cons_skip field t pre hr'] at hnd hfree
      simp only [usedAfter, hr', Bool.false_eq_true, if_false] at h
      rw [List.cons_append, mirrorStructFields_skip mirror i used field t _ hr']
      exact ih (i + 1) used (fun p hp hrp => hok p (List.mem_cons_of_mem _ hp) hrp) hnd hfree h

/-- When the wire names of the retained fields are different from each other
and not in use, the loop of `createEncodedTypeFor` either succeeds or returns
the wrapped error of the mirror of the type of a retained field. -/
theorem mirrorStructFields_nodup (mirror : GoType → Except Err WType)
    (fields : List (FieldInfo × GoType)) :
    ∀ (i : Nat) (used : List (String × String)),
      (retainedNames fields).Nodup → (∀ n ∈ retainedNames fields, used.lookup n = none) →
      (∃ out, mirrorStructFields mirror i used fields = .ok out)
      ∨ ∃ p ∈ fields, isRetained p.1 = true ∧ ∃ e, mirror p.2 = .error e
          ∧ mirrorStructFields mirror i used fields = .error (e.wrap "createEncodedTypeFor: ") := by
  induction fields with
  | nil =>
    intro i used _ _
    exact Or.inl ⟨[], rfl⟩
  | cons p rest ih =>
    intro i used hnd hfree
    obtain ⟨field, t⟩ := p
    by_cases hr : isRetained field = true
    · rw [retainedNames_cons_keep field t rest hr] at hnd hfree
      obtain ⟨hnot, hnd'⟩ := List.nodup_cons.mp hnd
      rw [mirrorStructFields_keep mirror i used field t _ hr, hfree _ (List.mem_cons_self _ _)]
      cases hm : mirror t with
      | error e =>
        exact Or.inr ⟨(field, t), List.mem_cons_self _ _, hr, e, hm, rfl⟩
      | ok w =>
        have hrec := ih (i + 1) ((wireNameOf field, field.name) :: used) hnd'
          (fun n hn => by
            have hne : (n == wireNameOf field) = false := by
              have : n ≠ wireNameOf field := fun heq => hnot (heq ▸ hn)
              simpa using this
            simp only [List.lookup, hne]
            exact hfree n (List.mem_cons_of_mem _ hn))
        rcases hrec with ⟨out, hout⟩ | ⟨p, hp, hrp, e, he, hres⟩
        · exact Or.inl ⟨(wireFieldOf i field, w) :: out, by simp only [hout]⟩
        · exact Or.inr ⟨p, List.mem_cons_of_mem _ hp, hrp, e, he, by simp only [hres]⟩
    · have hr' : isRetained field = false := by simpa using hr
      rw [retainedNames_cons_skip field t rest hr'] at hnd hfree
      rw [mirrorStructFields_skip mirror i used field t _ hr']
      rcases ih (i + 1) used hnd hfree with ⟨out, hout⟩ | ⟨p, hp, hrp, e, he, hres⟩
      · exact Or.inl ⟨out, hout⟩
      · exact Or.inr ⟨p, List.mem_cons_of_mem _ hp, hrp, e, he, hres⟩

theorem createEncodedTypeFor_marshaler (env : TypeEnv) (fuel : Nat) (t : GoType)
    (hm : env.implementsMarshaler t = true) :
    createEncodedTypeFor env (fuel + 1) t = .ok .rawMessage := by
  rw [createEncodedTypeFor]
  simp [hm]

theorem createEncodedTypeFor_unsupported (env : TypeEnv) (fuel : Nat) (t : GoType)
    (hm : env.implementsMarshaler t = false)
    (hk : env.kind t = .chan ∨ env.kind t = .func ∨ env.kind t = .unsafePointer) :
    createEncodedTypeFor env (fuel + 1) t
      = .error (.msg ("createEncodedTypeFor: unsupported kind " ++ (env.kind t).toString
          ++ " for " ++ typeString t)) := by
  rw [createEncodedTypeFor]
  rcases hk with hk | hk | hk <;> simp [hm, hk]

theorem createEncodedTypeFor_interface (env : TypeEnv) (fuel : Nat) (t : GoType)
    (hm : env.implementsMarshaler t = false) (hk : env.kind t = .interface) :
    createEncodedTypeFor env (fuel + 1) t = .ok .interfaceValue := by
  rw [createEncodedTypeFor]
  simp [hm, hk]

theorem createEncodedTypeFor_pointer (env : TypeEnv) (fuel : Nat) (t : GoType)
    (hm : env.implementsMarshaler t = false) (hk : env.kind t = .pointer) :
    createEncodedTypeFor env (fuel + 1) t = .ok .pointerValue := by
  rw [createEncodedTypeFor]
  simp [hm, hk]

theorem createEncodedTypeFor_slice (env : TypeEnv) (fuel : Nat) (t : GoType)
    (hm : env.implementsMarshaler t = false) (hk : env.kind t = .slice) :
    createEncodedTypeFor env (fuel + 1) t
      = match createEncodedTypeFor env fuel (env.elem t) with
        | .error e => .error (e.wrap "createEncodedTypeFor: ")
        | .ok elemType => .ok (.slice elemType) := by
  rw [createEncodedTypeFor]
  simp [hm, hk]

theorem createEncodedTypeFor_array (env : TypeEnv) (fuel : Nat) (t : GoType)
    (hm : env.implementsMarshaler t = false) (hk : env.kind t = .array) :
    createEncodedTypeFor env (fuel + 1) t
      = match createEncodedTypeFor env fuel (env.elem t) with
        | .error e => .error (e.wrap "createEncodedTypeFor: ")
        | .ok elemType => .ok (.array (env.len t) elemType) := by
  rw [createEncodedTypeFor]
  simp [hm, hk]

theorem createEncodedTypeFor_map (env : TypeEnv) (fuel : Nat) (t : GoType)
    (hm : env.implementsMarshaler t = false) (hk : env.kind t = .map) :
    createEncodedTypeFor env (fuel + 1) t
      = match createEncodedTypeFor env fuel (env.key t) with
        | .error e => .error (e.wrap "createEncodedTypeFor: ")
        | .ok keyType =>
          match createEncodedTypeFor env fuel (env.elem t) with
          | .error e => .error (e.wrap "createEncodedTypeFor: ")
          | .ok valueType =>
            .ok (.map (if !isSimplePrimitive (keyType.kind env) then stringType else keyType)
              valueType) := by
  rw [createEncodedTypeFor]
  simp [hm, hk]

theorem createEncodedTypeFor_complex (env : TypeEnv) (fuel : Nat) (t : GoType)
    (hm : env.implementsMarshaler t = false)
    (hk : env.kind t = .complex64 ∨ env.kind t = .complex128) :
    createEncodedTypeFor env (fuel + 1) t = .ok .complexValue := by
  rw [createEncodedTypeFor]
  rcases hk with hk | hk <;> simp [hm, hk, isComplexNumber]

theorem createEncodedTypeFor_primitive (env : TypeEnv) (fuel : Nat) (t : GoType)
    (hm : env.implementsMarshaler t = false) (hk : isSimplePrimitive (env.kind t) = true) :
    createEncodedTypeFor env (fuel + 1) t = .ok (.prim t) := by
  rw [createEncodedTypeFor]
  cases hkind : env.kind t <;> simp [hkind, isSimplePrimitive] at hk <;>
    simp [hm, hkind, isComplexNumber, isSimplePrimitive]

theorem createEncodedTypeFor_invalid (env : TypeEnv) (fuel : Nat) (t : GoType)
    (hm : env.implementsMarshaler t = false) (hk : env.kind t = .invalid) :
    createEncodedTypeFor env (fuel + 1) t
      = .error (.msg ("createEncodedTypeFor: unhandled non-struct kind " ++ (env.kind t).toString
          ++ " of " ++ typeString t)) := by
  rw [createEncodedTypeFor]
  simp [hm, hk, isComplexNumber, isSimplePrimitive]

theorem createEncodedTypeFor_struct (env : TypeEnv) (fuel : Nat) (t : GoType)
    (hm : env.implementsMarshaler t = false) (hk : env.kind t = .struct) :
    createEncodedTypeFor env (fuel + 1) t
      = match mirrorStructFields (createEncodedTypeFor env fuel) 0 [] (env.fields t) with
        | .error e => .error e
        | .ok fields => .ok (.struct fields) := by
  rw [createEncodedTypeFor]
  simp [hm, hk, isComplexNumber, isSimplePrimitive]

/-- Every kind is of one of the classes that `createEncodedTypeFor` tells
apart. -/
theorem Kind.classify (k : Kind) :
    k = .slice ∨ k = .array ∨ k = .map ∨ k = .struct ∨ k = .interface ∨ k = .pointer
      ∨ k = .invalid ∨ (k = .chan ∨ k = .func ∨ k = .unsafePointer)
      ∨ (k = .complex64 ∨ k = .complex128) ∨ isSimplePrimitive k = true := by
  cases k <;> simp [isSimplePrimitive]

theorem Err.wrap_eq_outOfFuel (pre : String) (e : Err) :
    e.wrap pre = .outOfFuel ↔ e = .outOfFuel := by
  cases e <;> simp [Err.wrap]

/-- The loop of `createEncodedTypeFor` gives the same result with a mirror
that agrees with the first wherever the first does not run out of fuel,
unless the loop itself ran out of fuel. -/
theorem mirrorStructFields_stable (f g : GoType → Except Err WType)
    (hfg : ∀ t r, f t = r → r ≠ .error .outOfFuel → g t = r)
    (fields : List (FieldInfo × GoType)) :
    ∀ (i : Nat) (used : List (String × String)) (r : Except Err (List (WFieldInfo × WType))),
      mirrorStructFields f i used fields = r → r ≠ .error .outOfFuel →
      mirrorStructFields g i used fields = r := by
  induction fields with
  | nil =>
    intro i used r h _
    simpa [mirrorStructFields] using h
  | cons p rest ih =>
    intro i used r h hr
    obtain ⟨field, t⟩ := p
    by_cases hret : isRetained field = true
    · rw [mirrorStructFields_keep f i used field t rest hret] at h
      rw [mirrorStructFields_keep g i used field t rest hret]
      cases hl : used.lookup (wireNameOf field) with
      | some existing =>
        simp only [hl] at h ⊢
        exact h
      | none =>
        simp only [hl] at h ⊢
        cases hf : f t with
        | error e =>
          simp only [hf] at h
          have he : e ≠ .outOfFuel := by
            intro he
            subst he
            exact hr h.symm
          rw [hfg t _ hf (by simpa using he)]
          exact h
        | ok w =>
          simp only [hf] at h
          rw [hfg t _ hf (by simp)]
          simp only
          cases hrest : mirrorStructFields f (i + 1) ((wireNameOf field, field.name) :: used) rest with
          | error e =>
            simp only [hrest] at h
            have he : e ≠ .outOfFuel := by
              intro he
              subst he
              exact hr h.symm
            rw [ih _ _ _ hrest (by simpa using he)]
            exact h
          | ok fs =>
            simp only [hrest] at h
            rw [ih _ _ _ hrest (by simp)]
            exact h
    · have hret' : isRetained field = false := by simpa using hret
      rw [mirrorStructFields_skip f i used field t rest hret'] at h
      rw [mirrorStructFields_skip g i used field t rest hret']
      exact ih _ _ _ h hr

/-- More fuel does not change a result of `createEncodedTypeFor` that is not
the exhaustion of the fuel. -/
theorem createEncodedTypeFor_succ (env : TypeEnv) :
    ∀ (fuel : Nat) (t : GoType) (r : Except Err WType),
      createEncodedTypeFor env fuel t = r → r ≠ .error .outOfFuel →
      createEncodedTypeFor env (fuel + 1) t = r := by
  intro fuel
  induction fuel with
  | zero =>
    intro t r h hr
    rw [createEncodedTypeFor] at h
    exact absurd h.symm hr
  | succ fuel ih =>
    intro t r h hr
    have sub : ∀ (x : GoType) (e : Err) (pre : String),
        createEncodedTypeFor env fuel x = .error e → e.wrap pre ≠ .outOfFuel →
        createEncodedTypeFor env (fuel + 1) x = .error e := by
      intro x e pre hx he
      exact ih x _ hx (by
        intro hc
        simp only [Except.error.injEq] at hc
        exact he ((Err.wrap_eq_outOfFuel pre e).mpr hc))
    by_cases hm : env.implementsMarshaler t = true
    · rw [createEncodedTypeFor_marshaler env _ t hm] at h ⊢
      exact h
    have hm' : env.implementsMarshaler t = false := by simpa using hm
    rcases Kind.classify (env.kind t) with hkind | hkind | hkind | hkind | hkind | hkind | hkind | hkind | hkind | hkind
    · -- slice
      rw [createEncodedTypeFor_slice env _ t hm' hkind] at h ⊢
      cases hx : createEncodedTypeFor env fuel (env.elem t) with
      | error e =>
        simp only [hx] at h
        rw [sub _ e "createEncodedTypeFor: " hx (by intro hc; rw [hc] at h; exact hr h.symm)]
        exact h
      | ok w =>
        simp only [hx] at h
        rw [ih _ _ hx (by simp)]
        exact h
    · -- array
      rw [createEncodedTypeFor_array env _ t hm' hkind] at h ⊢
      cases hx : createEncodedTypeFor env fuel (env.elem t) with
      | error e =>
        simp only [hx] at h
        rw [sub _ e "createEncodedTypeFor: " hx (by intro hc; rw [hc] at h; exact hr h.symm)]
        exact h
      | ok w =>
        simp only [hx] at h
        rw [ih _ _ hx (by simp)]
        exact h
    · -- map
      rw [createEncodedTypeFor_map env _ t hm' hkind] at h ⊢
      cases hk : createEncodedTypeFor env fuel (env.key t) with
      | error e =>
        simp only [hk] at h
        rw [sub _ e "createEncodedTypeFor: " hk (by intro hc; rw [hc] at h; exact hr h.symm)]
        exact h
      | ok wk =>
        simp only [hk] at h
        rw [ih _ _ hk (by simp)]
        simp only
        cases hx : createEncodedTypeFor env fuel (env.elem t) with
        | error e =>
          simp only [hx] at h
          rw [sub _ e "createEncodedTypeFor: " hx (by intro hc; rw [hc] at h; exact hr h.symm)]
          exact h
        | ok w =>
          simp only [hx] at h
          rw [ih _ _ hx (by simp)]
          exact h
    · -- struct
      rw [createEncodedTypeFor_struct env _ t hm' hkind] at h ⊢
      cases hx : mirrorStructFields (createEncodedTypeFor env fuel) 0 [] (env.fields t) with
      | error e =>
        simp only [hx] at h
        rw [mirrorStructFields_stable _ _ ih _ _ _ _ hx (by
          intro hc
          simp only [Except.error.injEq] at hc
          rw [hc] at h
          exact hr h.symm)]
        exact h
      | ok fs =>
        simp only [hx] at h
        rw [mirrorStructFields_stable _ _ ih _ _ _ _ hx (by simp)]
        exact h
    · rw [createEncodedTypeFor_interface env _ t hm' hkind] at h ⊢
      exact h
    · rw [createEncodedTypeFor_pointer env _ t hm' hkind] at h ⊢
      exact h
    · rw [createEncodedTypeFor_invalid env _ t hm' hkind] at h ⊢
      exact h
    · rw [createEncodedTypeFor_unsupported env _ t hm' hkind] at h ⊢
      exact h
    · rw [createEncodedTypeFor_complex env _ t hm' hkind] at h ⊢
      exact h
    · rw [createEncodedTypeFor_primitive env _ t hm' hkind] at h ⊢
      exact h

/-- The same, for any larger fuel. -/
theorem createEncodedTypeFor_mono (env : TypeEnv) (fuel : Nat) (t : GoType)
    (r : Except Err WType) (h : createEncodedTypeFor env fuel t = r)
    (hr : r ≠ .error .outOfFuel) :
    ∀ more : Nat, createEncodedTypeFor env (fuel + more) t = r := by
  intro more
  induction more with
  | zero => exact h
  | succ n ih => exact createEncodedTypeFor_succ env (fuel + n) t r ih hr

theorem Err.Contains.isInfix {m text : String} (h : (Err.msg m).Contains text) :
    text.data <:+: m.data := by
  obtain ⟨a, b, hab⟩ := h
  simp only [Err.msg.injEq] at hab
  exact ⟨a.data, b.data, by rw [hab]; simp [String.data_append]⟩

/-- A successful run of the loop of `createEncodedTypeFor` has mirrored the
type of every retained field. -/
theorem mirrorStructFields_ok_field (mirror : GoType → Except Err WType)
    (fields : List (FieldInfo × GoType)) :
    ∀ (i : Nat) (used : List (String × String)) (out : List (WFieldInfo × WType)),
      mirrorStructFields mirror i used fields = .ok out →
      ∀ p ∈ fields, isRetained p.1 = true → ∃ w, mirror p.2 = .ok w := by
  induction fields with
  | nil =>
    intro i used out _ p hp
    cases hp
  | cons q rest ih =>
    intro i used out h p hp hret
    obtain ⟨field, t⟩ := q
    by_cases hr : isRetained field = true
    · rw [mirrorStructFields_keep mirror i used field t rest hr] at h
      split at h
      · cases h
      · split at h
        · cases h
        · rename_i newType hm
          split at h
          · cases h
          · rename_i fs hrest
            rcases List.mem_cons.mp hp with rfl | hp'
            · exact ⟨newType, hm⟩
            · exact ih _ _ _ hrest p hp' hret
    · have hr' : isRetained field = false := by simpa using hr
      rw [mirrorStructFields_skip mirror i used field t rest hr'] at h
      rcases List.mem_cons.mp hp with rfl | hp'
      · rw [hret] at hr'
        cases hr'
      · exact ih _ _ _ h p hp' hret

theorem hasUnsupported_not_ok (env : TypeEnv) (t : GoType) (h : HasUnsupported env t) :
    ∀ (fuel : Nat) (w : WType), createEncodedTypeFor env fuel t ≠ .ok w := by
  induction h with
  | direct t hm hk =>
    intro fuel w
    cases fuel with
    | zero => simp [createEncodedTypeFor]
    | succ n => rw [createEncodedTypeFor_unsupported env n t hm hk]; simp
  | slice t hm hk _ ih =>
    intro fuel w
    cases fuel with
    | zero => simp [createEncodedTypeFor]
    | succ n =>
      rw [createEncodedTypeFor_slice env n t hm hk]
      cases hx : createEncodedTypeFor env n (env.elem t) with
      | error e => simp
      | ok x => exact absurd hx (ih n x)
  | array t hm hk _ ih =>
    intro fuel w
    cases fuel with
    | zero => simp [createEncodedTypeFor]
    | succ n =>
      rw [createEncodedTypeFor_array env n t hm hk]
      cases hx : createEncodedTypeFor env n (env.elem t) with
      | error e => simp
      | ok x => exact absurd hx (ih n x)
  | mapKey t hm hk _ ih =>
    intro fuel w
    cases fuel with
    | zero => simp [createEncodedTypeFor]
    | succ n =>
      rw [createEncodedTypeFor_map env n t hm hk]
      cases hx : createEncodedTypeFor env n (env.key t) with
      | error e => simp
      | ok x => exact absurd hx (ih n x)
  | mapElem t hm hk _ ih =>
    intro fuel w
    cases fuel with
    | zero => simp [createEncodedTypeFor]
    | succ n =>
      rw [createEncodedTypeFor_map env n t hm hk]
      cases hy : createEncodedTypeFor env n (env.key t) with
      | error e => simp
      | ok y =>
        cases hx : createEncodedTypeFor env n (env.elem t) with
        | error e => simp
        | ok x => exact absurd hx (ih n x)
  | field t f ft hm hk hmem hret _ ih =>
    intro fuel w
    cases fuel with
    | zero => simp [createEncodedTypeFor]
    | succ n =>
      rw [createEncodedTypeFor_struct env n t hm hk]
      cases hx : mirrorStructFields (createEncodedTypeFor env n) 0 [] (env.fields t) with
      | error e => simp
      | ok out =>
        obtain ⟨x, hx'⟩ := mirrorStructFields_ok_field _ _ _ _ _ hx (f, ft) hmem hret
        exact absurd hx' (ih n x)

theorem unsupportedMessage_contains (k ts : String) :
    (Err.msg ("createEncodedTypeFor: unsupported kind " ++ k ++ " for " ++ ts)).Contains
      "unsupported kind" := by
  refine ⟨"createEncodedTypeFor: ", " " ++ k ++ " for " ++ ts, ?_⟩
  have : "createEncodedTypeFor: unsupported kind "
      = "createEncodedTypeFor: " ++ "unsupported kind" ++ " " := by decide
  rw [this]
  simp only [String.append_assoc]

/-- One fuel with which the mirror of every retained field of a list
succeeds, when each succeeds with some fuel. -/
theorem common_fuel (env : TypeEnv) (pre : List (FieldInfo × GoType))
    (h : ∀ p ∈ pre, isRetained p.1 = true → ∃ fuel w, createEncodedTypeFor env fuel p.2 = .ok w) :
    ∃ fuel0, ∀ more, ∀ p ∈ pre, isRetained p.1 = true →
      ∃ w, createEncodedTypeFor env (fuel0 + more) p.2 = .ok w := by
  induction pre with
  | nil => exact ⟨0, fun _ p hp => by cases hp⟩
  | cons q rest ih =>
    obtain ⟨f0, hf0⟩ := ih (fun p hp => h p (List.mem_cons_of_mem _ hp))
    by_cases hr : isRetained q.1 = true
    · obtain ⟨f1, w, hw⟩ := h q (List.mem_cons_self _ _) hr
      refine ⟨f0 + f1, fun more p hp hret => ?_⟩
      rcases List.mem_cons.mp hp with rfl | hp'
      · refine ⟨w, ?_⟩
        have := createEncodedTypeFor_mono env f1 p.2 _ hw (by simp) (f0 + more)
        rw [← this]
        congr 1
        omega
      · have := hf0 (f1 + more) p hp' hret
        rw [← Nat.add_assoc] at this
        exact this
    · refine ⟨f0, fun more p hp hret => ?_⟩
      rcases List.mem_cons.mp hp with rfl | hp'
      · exact absurd hret hr
      · exact hf0 more p hp' hret

theorem firstUnsupported_error (env : TypeEnv) (t : GoType) (h : FirstUnsupported env t) :
    ∃ fuel0, ∀ more, ∃ e, createEncodedTypeFor env (fuel0 + more) t = .error e
      ∧ e.Contains "unsupported kind" := by
  induction h with
  | direct t hm hk =>
    refine ⟨1, fun more => ⟨_, ?_, unsupportedMessage_contains (env.kind t).toString (typeString t)⟩⟩
    rw [Nat.add_comm, createEncodedTypeFor_unsupported env more t hm hk]
  | slice t hm hk _ ih =>
    obtain ⟨f0, hf0⟩ := ih
    refine ⟨f0 + 1, fun more => ?_⟩
    obtain ⟨e, he, hc⟩ := hf0 more
    refine ⟨e.wrap "createEncodedTypeFor: ", ?_, hc.wrap _⟩
    have : f0 + 1 + more = (f0 + more) + 1 := by omega
    rw [this, createEncodedTypeFor_slice env _ t hm hk, he]
  | array t hm hk _ ih =>
    obtain ⟨f0, hf0⟩ := ih
    refine ⟨f0 + 1, fun more => ?_⟩
    obtain ⟨e, he, hc⟩ := hf0 more
    refine ⟨e.wrap "createEncodedTypeFor: ", ?_, hc.wrap _⟩
    have : f0 + 1 + more = (f0 + more) + 1 := by omega
    rw [this, createEncodedTypeFor_array env _ t hm hk, he]
  | mapKey t hm hk _ ih =>
    obtain ⟨f0, hf0⟩ := ih
    refine ⟨f0 + 1, fun more => ?_⟩
    obtain ⟨e, he, hc⟩ := hf0 more
    refine ⟨e.wrap "createEncodedTypeFor: ", ?_, hc.wrap _⟩
    have : f0 + 1 + more = (f0 + more) + 1 := by omega
    rw [this, createEncodedTypeFor_map env _ t hm hk, he]
  | mapElem t hm hk hkey _ ih =>
    obtain ⟨f0, hf0⟩ := ih
    obtain ⟨f1, wk, hwk⟩ := hkey
    refine ⟨f1 + f0 + 1, fun more => ?_⟩
    obtain ⟨e, he, hc⟩ := hf0 (f1 + more)
    refine ⟨e.wrap "createEncodedTypeFor: ", ?_, hc.wrap _⟩
    have h1 : f1 + f0 + 1 + more = (f1 + (f0 + more)) + 1 := by omega
    have h2 : f0 + (f1 + more) = f1 + (f0 + more) := by omega
    rw [h2] at he
    rw [h1, createEncodedTypeFor_map env _ t hm hk,
      createEncodedTypeFor_mono env f1 _ _ hwk (by simp) (f0 + more), he]
  | field t pre f ft post hm hk hfields hret hpre hnd hnot _ ih =>
    obtain ⟨f0, hf0⟩ := ih
    obtain ⟨f1, hf1⟩ := common_fuel env pre hpre
    refine ⟨f1 + f0 + 1, fun more => ?_⟩
    obtain ⟨e, he, hc⟩ := hf0 (f1 + more)
    refine ⟨e.wrap "createEncodedTypeFor: ", ?_, hc.wrap _⟩
    have h1 : f1 + f0 + 1 + more = (f1 + (f0 + more)) + 1 := by omega
    have h2 : f0 + (f1 + more) = f1 + (f0 + more) := by omega
    rw [h2] at he
    rw [h1, createEncodedTypeFor_struct env _ t hm hk, hfields]
    have hloop : mirrorStructFields (createEncodedTypeFor env (f1 + (f0 + more))) 0 []
        (pre ++ (f, ft) :: post) = .error (e.wrap "createEncodedTypeFor: ") := by
      apply mirrorStructFields_prefix_error _ _ _ pre 0 [] (hf1 (f0 + more)) hnd
        (fun n _ => rfl)
      rw [mirrorStructFields_keep _ _ _ f ft post hret, lookup_usedAfter_none _ pre [] hnot]
      simp only [List.lookup, he]
    rw [hloop]

theorem cutComma_spec (l : List Char) :
    (cutComma l).1 ++ (if (cutComma l).2.2 then ',' :: (cutComma l).2.1 else []) = l
      ∧ ',' ∉ (cutComma l).1 := by
  induction l with
  | nil => simp [cutComma]
  | cons c cs ih =>
    by_cases hc : c = ','
    · simp [cutComma, hc]
    · simp only [cutComma, hc, if_false, List.cons_append, List.mem_cons, not_or]
      exact ⟨by rw [ih.1], fun h => hc h.symm, ih.2⟩

theorem scanQuoted_clean (rest : List Char) (body : List Char)
    (h : ∀ c ∈ body, c ≠ dquote ∧ c ≠ backslash) :
    scanQuoted (body ++ dquote :: rest) = some (body, rest) := by
  induction body with
  | nil =>
    rw [List.nil_append, scanQuoted.eq_def]
    simp
  | cons c cs ih =>
    have hc := h c (List.mem_cons_self _ _)
    have ih' := ih (fun d hd => h d (List.mem_cons_of_mem _ hd))
    rw [List.cons_append, scanQuoted.eq_def]
    simp only [hc.1, hc.2, if_false, ih']
    rfl

theorem unquoteBody_clean (body : List Char)
    (h : ∀ c ∈ body, c ≠ '\n' ∧ c ≠ dquote ∧ c ≠ backslash) :
    unquoteBody body = some body := by
  induction body with
  | nil => rw [unquoteBody.eq_def]
  | cons c cs ih =>
    have hc := h c (List.mem_cons_self _ _)
    have ih' := ih (fun d hd => h d (List.mem_cons_of_mem _ hd))
    rw [unquoteBody.eq_def]
    simp only [hc.1, hc.2.1, hc.2.2, if_false, ih']
    rfl

/-- One step of `reflect.StructTag.Lookup`: a tag that starts with a key, a
colon and a quoted value without double quote or backslash. -/
theorem structTagLookup_head (n : Nat) (c : Char) (cs body rest key : List Char)
    (hc : (c == ' ') = false) (hname : ∀ d ∈ c :: cs, isTagKeyChar d = true)
    (hbody : ∀ d ∈ body, d ≠ dquote ∧ d ≠ backslash) :
    structTagLookup (n + 1) ((c :: cs) ++ ':' :: dquote :: (body ++ dquote :: rest)) key
      = if c :: cs = key then unquoteBody body else structTagLookup n rest key := by
  have hcolon : isTagKeyChar ':' = false := by decide
  have htake : List.takeWhile isTagKeyChar ((c :: cs) ++ ':' :: dquote :: (body ++ dquote :: rest))
      = c :: cs := by
    rw [List.takeWhile_append_of_pos hname]
    simp [List.takeWhile_cons, hcolon]
  have hdrop : List.dropWhile isTagKeyChar ((c :: cs) ++ ':' :: dquote :: (body ++ dquote :: rest))
      = ':' :: dquote :: (body ++ dquote :: rest) := by
    rw [List.dropWhile_append_of_pos hname]
    simp [List.dropWhile_cons, hcolon]
  have hsp : List.dropWhile (fun d => d == ' ') ((c :: cs) ++ ':' :: dquote :: (body ++ dquote :: rest))
      = (c :: cs) ++ ':' :: dquote :: (body ++ dquote :: rest) := by
    simp [List.dropWhile_cons, hc]
  rw [structTagLookup]
  simp only [hsp, htake, hdrop, scanQuoted_clean rest body hbody]
  simp

/-- What `encoding/json` reads as the `json` tag of a wire field is the tag
the mirror wrote, when that text has no line break, double quote or
backslash. -/
theorem structTagGet_wireTag_json (field : FieldInfo)
    (h : ∀ c ∈ (wireJsonTagOf field).data, c ≠ '\n' ∧ c ≠ dquote ∧ c ≠ backslash) :
    structTagGet (wireTagOf field) "json" = wireJsonTagOf field := by
  have hd : (wireTagOf field).data
      = ('j' :: ['s', 'o', 'n']) ++ ':' :: dquote
        :: ((wireJsonTagOf field).data
          ++ dquote :: (" original:\"".data ++ field.name.data ++ [dquote])) := by
    simp [wireTagOf, dquote]
  unfold structTagGet
  rw [hd, structTagLookup_head _ 'j' ['s', 'o', 'n'] _ _ _ (by decide) (by decide)
    (fun d hd => ⟨(h d hd).2.1, (h d hd).2.2⟩)]
  have hkey : "json".data = ['j', 's', 'o', 'n'] := by decide
  rw [hkey, if_pos rfl, unquoteBody_clean _ h]

theorem cutComma_append (a b : List Char) (h : ',' ∉ a) :
    cutComma (a ++ ',' :: b) = (a, b, true) := by
  induction a with
  | nil => simp [cutComma]
  | cons c cs ih =>
    simp only [List.mem_cons, not_or] at h
    have hc : c ≠ ',' := fun hc => h.1 hc.symm
    simp [cutComma, hc, ih h.2]

theorem cutComma_none (a : List Char) (h : ',' ∉ a) : cutComma a = (a, [], false) := by
  induction a with
  | nil => simp [cutComma]
  | cons c cs ih =>
    simp only [List.mem_cons, not_or] at h
    have hc : c ≠ ',' := fun hc => h.1 hc.symm
    simp [cutComma, hc, ih h.2]

theorem wireNameOf_comma (field : FieldInfo) (h : ',' ∉ field.name.data) :
    ',' ∉ (wireNameOf field).data := by
  rw [wireNameOf_eq]
  split
  · exact h
  · exact (cutComma_spec _).2

/-- The name part of the `json` tag of a wire field is the wire name of the
field. -/
theorem wireJsonTagOf_name (field : FieldInfo) (h : ',' ∉ field.name.data) :
    (cutComma (wireJsonTagOf field).data).1 = (wireNameOf field).data := by
  have hn := wireNameOf_comma field h
  unfold wireJsonTagOf
  split
  · simp only [String.data_append]
    rw [List.append_assoc, List.singleton_append, cutComma_append _ _ hn]
  · rw [cutComma_none _ hn]

/-- The member that `encoding/json` prints for a wire field, if it prints
one, has the wire name of the field as its key. -/
theorem jsonMarshalFields_wireField (env : TypeEnv) (ff : FloatFormat) (i : Nat)
    (field : FieldInfo) (w : Wire) (rest : List (WFieldInfo × Wire))
    (members : List (String × Json))
    (hclean : ∀ c ∈ (wireJsonTagOf field).data, c ≠ '\n' ∧ c ≠ dquote ∧ c ≠ backslash)
    (hcomma : ',' ∉ field.name.data) (hvalid : isValidTag (wireNameOf field).data = true)
    (h : jsonMarshalFields env ff ((wireFieldOf i field, w) :: rest) = .ok members) :
    jsonMarshalFields env ff rest = .ok members
      ∨ ∃ j ms, jsonMarshalFields env ff rest = .ok ms ∧ members = (wireNameOf field, j) :: ms := by
  rw [jsonMarshalFields] at h
  simp only [wireFieldOf, structTagGet_wireTag_json field hclean, wireJsonTagOf_name field hcomma,
    hvalid, if_true] at h
  split at h
  · exact Or.inl h
  · split at h
    · exact Or.inl h
    · split at h
      · rename_i j ms hj hms
        split at h
        · simp only [Except.ok.injEq] at h
          exact Or.inr ⟨_, ms, hms, h.symm⟩
        · simp only [Except.ok.injEq] at h
          exact Or.inr ⟨_, ms, hms, h.symm⟩
      · cases h
      · cases h

/-! ## Theorems: the entries of a wire map -/

/-- The wire map that the loop of the map branch of `encodeTo` returns is the
result of setting, in order, the encoded entries of the original map. -/
theorem encodeMapEntries_fold (env : TypeEnv) (ff : FloatFormat) (encode : EncodeFn)
    (keyT valT : GoType) (encodedKeyT : WType) (entries : List (Val × Val)) :
    ∀ (s : JSONEncoder) (acc out : List (Wire × Wire)) (s' : JSONEncoder),
      encodeMapEntries env ff encode keyT valT encodedKeyT s entries acc = (.ok out, s') →
      ∃ kvs, List.Forall₂ (EncodedEntry env ff encode keyT valT) entries kvs
        ∧ out = wireMapSetAll kvs acc := by
  induction entries with
  | nil =>
    intro s acc out s' h
    simp only [encodeMapEntries, Prod.mk.injEq, Except.ok.injEq] at h
    exact ⟨[], List.Forall₂.nil, h.1.symm⟩
  | cons e rest ih =>
    intro s acc out s' h
    obtain ⟨k, v⟩ := e
    rw [encodeMapEntries] at h
    split at h
    · simp at h
    · rename_i encodedKey s1 hk
      split at h
      · simp at h
      · rename_i encodedVal s2 hv
        dsimp only at h
        split at h
        · obtain ⟨kvs, hall, hout⟩ := ih _ _ _ _ h
          exact ⟨(encodedKey, encodedVal) :: kvs,
            List.Forall₂.cons ⟨s, s1, s2, hk, hv⟩ hall, hout⟩
        · simp at h

theorem wireMapSet_mem (key val : Wire) (acc : List (Wire × Wire)) (kv : Wire × Wire)
    (h : kv ∈ wireMapSet key val acc) :
    kv ∈ acc ∨ (kv.2 = val ∧ (kv.1 = key ∨ ∃ old, (kv.1, old) ∈ acc ∧ wireKeyEq kv.1 key = true)) := by
  induction acc with
  | nil =>
    simp only [wireMapSet, List.mem_singleton] at h
    subst h
    exact Or.inr ⟨rfl, Or.inl rfl⟩
  | cons x rest ih =>
    obtain ⟨k, v⟩ := x
    simp only [wireMapSet] at h
    split at h
    · rename_i heq
      rcases List.mem_cons.mp h with rfl | h
      · exact Or.inr ⟨rfl, Or.inr ⟨v, List.mem_cons_self _ _, heq⟩⟩
      · exact Or.inl (List.mem_cons_of_mem _ h)
    · rcases List.mem_cons.mp h with rfl | h
      · exact Or.inl (List.mem_cons_self _ _)
      · rcases ih h with h | ⟨h1, h2⟩
        · exact Or.inl (List.mem_cons_of_mem _ h)
        · refine Or.inr ⟨h1, ?_⟩
          rcases h2 with h2 | ⟨old, hold, heq⟩
          · exact Or.inl h2
          · exact Or.inr ⟨old, List.mem_cons_of_mem _ hold, heq⟩

theorem wireMapSet_keys (key val : Wire) (acc : List (Wire × Wire)) (k : Wire)
    (h : k ∈ (wireMapSet key val acc).map Prod.fst) : k = key ∨ k ∈ acc.map Prod.fst := by
  induction acc with
  | nil => simpa [wireMapSet] using h
  | cons x rest ih =>
    obtain ⟨k0, v0⟩ := x
    simp only [wireMapSet] at h
    split at h
    · exact Or.inr (by simpa using h)
    · simp only [List.map_cons, List.mem_cons] at h ⊢
      rcases h with h | h
      · exact Or.inr (Or.inl h)
      · rcases ih (by simpa using h) with h | h
        · exact Or.inl h
        · exact Or.inr (Or.inr (by simpa using h))

/-- When all keys are strings, every entry of the wire map after a sequence
of `SetMapIndex` is an entry that was there before or one of the entries
set. -/
theorem wireMapSetAll_mem (kvs : List (Wire × Wire)) :
    ∀ (acc : List (Wire × Wire)) (kv : Wire × Wire),
      (∀ x ∈ kvs, ∃ t, x.1 = .prim (.basic .string) (.str t)) →
      (∀ x ∈ acc, ∃ t, x.1 = .prim (.basic .string) (.str t)) →
      kv ∈ wireMapSetAll kvs acc → kv ∈ acc ∨ kv ∈ kvs := by
  induction kvs with
  | nil =>
    intro acc kv _ _ h
    exact Or.inl h
  | cons x rest ih =>
    intro acc kv hk ha h
    have hx := hk x (List.mem_cons_self _ _)
    have hacc' : ∀ y ∈ wireMapSet x.1 x.2 acc, ∃ t, y.1 = .prim (.basic .string) (.str t) := by
      intro y hy
      rcases wireMapSet_keys x.1 x.2 acc y.1 (List.mem_map_of_mem _ hy) with h1 | h1
      · rw [h1]; exact hx
      · obtain ⟨z, hz, hz1⟩ := List.mem_map.mp h1
        rw [← hz1]
        exact ha z hz
    rcases ih (wireMapSet x.1 x.2 acc) kv (fun y hy => hk y (List.mem_cons_of_mem _ hy)) hacc' h
      with h1 | h1
    · rcases wireMapSet_mem x.1 x.2 acc kv h1 with h2 | ⟨h2, h3⟩
      · exact Or.inl h2
      · refine Or.inr (List.mem_cons.mpr (Or.inl ?_))
        rcases h3 with h3 | ⟨old, hold, heq⟩
        · exact Prod.ext h3 h2
        · obtain ⟨t1, ht1⟩ := ha _ hold
          obtain ⟨t2, ht2⟩ := hx
          simp only at ht1
          rw [ht1, ht2] at heq
          simp only [wireKeyEq, beq_iff_eq, Prim.str.injEq] at heq
          refine Prod.ext ?_ h2
          rw [ht1, ht2, heq]
    · exact Or.inr (List.mem_cons_of_mem _ h1)

theorem encodeMapKey_nonprimitive (env : TypeEnv) (ff : FloatFormat) (encode : EncodeFn)
    (s s1 : JSONEncoder) (keyT : GoType) (originalKey : Val) (key : Wire)
    (hk : isSimplePrimitive (env.kind keyT) = false)
    (h : encodeMapKey env ff encode s keyT originalKey = (.ok key, s1)) :
    ∃ encodedKey doc, encode s keyT originalKey = (.ok encodedKey, s1)
      ∧ jsonMarshal env ff encodedKey = .ok doc
      ∧ key = .prim (.basic .string) (.str doc.compact) := by
  unfold encodeMapKey at h
  simp only [hk, Bool.not_false, if_true] at h
  split at h
  · simp at h
  · rename_i encodedKey s2 henc
    split at h
    · simp at h
    · rename_i doc hdoc
      simp only [Prod.mk.injEq, Except.ok.injEq] at h
      obtain ⟨rfl, rfl⟩ := h
      exact ⟨encodedKey, doc, henc, hdoc, rfl⟩

/-- The mirror of a type whose kind is not primitive is not of a primitive
kind. -/
theorem createEncodedTypeFor_nonprimitive (env : TypeEnv) (fuel : Nat) (t : GoType) (w : WType)
    (h : createEncodedTypeFor env fuel t = .ok w)
    (hk : isSimplePrimitive (env.kind t) = false) :
    isSimplePrimitive (w.kind env) = false := by
  cases fuel with
  | zero => simp [createEncodedTypeFor] at h
  | succ n =>
    by_cases hm : env.implementsMarshaler t = true
    · rw [createEncodedTypeFor_marshaler env n t hm] at h
      simp only [Except.ok.injEq] at h
      subst h
      rfl
    have hm' : env.implementsMarshaler t = false := by simpa using hm
    rcases Kind.classify (env.kind t) with hkind | hkind | hkind | hkind | hkind | hkind | hkind
      | hkind | hkind | hkind
    · rw [createEncodedTypeFor_slice env n t hm' hkind] at h
      split at h
      · cases h
      · simp only [Except.ok.injEq] at h
        subst h
        rfl
    · rw [createEncodedTypeFor_array env n t hm' hkind] at h
      split at h
      · cases h
      · simp only [Except.ok.injEq] at h
        subst h
        rfl
    · rw [createEncodedTypeFor_map env n t hm' hkind] at h
      split at h
      · cases h
      · split at h
        · cases h
        · simp only [Except.ok.injEq] at h
          subst h
          rfl
    · rw [createEncodedTypeFor_struct env n t hm' hkind] at h
      split at h
      · cases h
      · simp only [Except.ok.injEq] at h
        subst h
        rfl
    · rw [createEncodedTypeFor_interface env n t hm' hkind] at h
      simp only [Except.ok.injEq] at h
      subst h
      rfl
    · rw [createEncodedTypeFor_pointer env n t hm' hkind] at h
      simp only [Except.ok.injEq] at h
      subst h
      rfl
    · rw [createEncodedTypeFor_invalid env n t hm' hkind] at h
      cases h
    · rw [createEncodedTypeFor_unsupported env n t hm' hkind] at h
      cases h
    · rw [createEncodedTypeFor_complex env n t hm' hkind] at h
      simp only [Except.ok.injEq] at h
      subst h
      rfl
    · rw [hkind] at hk
      cases hk

/-- The mirror of a map type whose key kind is not primitive is a map with
string keys. -/
theorem encodedTypeFor_map_nonprimitive (env : TypeEnv) (fuel : Nat) (t : GoType) (w : WType)
    (hm : env.implementsMarshaler t = false) (hkind : env.kind t = .map)
    (hk : isSimplePrimitive (env.kind (env.key t)) = false)
    (h : encodedTypeFor env fuel t = .ok w) :
    ∃ valT, w = .map stringType valT := by
  unfold encodedTypeFor at h
  cases fuel with
  | zero => simp [createEncodedTypeFor] at h
  | succ n =>
    rw [createEncodedTypeFor_map env n t hm hkind] at h
    split at h
    · cases h
    · rename_i keyType hkey
      split at h
      · cases h
      · rename_i valueType _
        simp only [Except.ok.injEq] at h
        subst h
        rw [createEncodedTypeFor_nonprimitive env n _ _ hkey hk]
        exact ⟨valueType, rfl⟩

/-- The map branch of `encodeTo`, for a map that is not nil. -/
theorem encodeTo_map (env : TypeEnv) (ff : FloatFormat) (heap : Heap) (fuel : Nat)
    (s : JSONEncoder) (t : GoType) (entries : List (Val × Val)) (keyW valW : WType)
    (hm : env.marshaler t = none) (hkind : env.kind t = .map) :
    encodeTo env ff heap (fuel + 1) s t (.map (some entries)) (.map keyW valW)
      = match encodeMapEntries env ff (encode env ff heap fuel) (env.key t) (env.elem t)
            keyW s entries [] with
        | (.error err, s1) => (.error err, s1)
        | (.ok encodedMap, s1) => (.ok (.map (some encodedMap)), s1) := by
  rw [encodeTo]
  simp only [hm, hkind, isPointerValueType, isInterfaceValueType, isComplexValueType, WType.kind,
    Bool.false_eq_true, if_false, ne_eq, not_true_eq_false, if_true]
  rfl

/-- The map branch of `encodeTo`, for a nil map. -/
theorem encodeTo_map_nil (env : TypeEnv) (ff : FloatFormat) (heap : Heap) (fuel : Nat)
    (s : JSONEncoder) (t : GoType) (keyW valW : WType)
    (hm : env.marshaler t = none) (hkind : env.kind t = .map) :
    encodeTo env ff heap (fuel + 1) s t (.map none) (.map keyW valW) = (.ok (.map none), s) := by
  rw [encodeTo]
  simp only [hm, hkind, isPointerValueType, isInterfaceValueType, isComplexValueType, WType.kind,
    Bool.false_eq_true, if_false, ne_eq, not_true_eq_false, if_true]

/-! ## Claims, continued -/

/-- C11: for a map whose key kind is not primitive, the mirror has string
keys, and every key of the wire map is the single-line text (`Json.compact`)
of the document of the recursively encoded key of an entry of the map,
whatever the configuration of the encoder is, and maps to the encoded value
of that entry.  `map[point]int{{1, 2}: 3}` yields the sole key
`{"x":1,"y":2}` mapped to 3, also with an indent and a prefix. -/
theorem map_key_is_compact_text :
    (∀ (env : TypeEnv) (ff : FloatFormat) (heap : Heap) (fuel : Nat) (s s' : JSONEncoder)
        (t : GoType) (entries : List (Val × Val)) (w : Wire),
      env.marshaler t = none → env.kind t = .map →
      isSimplePrimitive (env.kind (env.key t)) = false →
      encode env ff heap (fuel + 1) s t (.map (some entries)) = (.ok w, s') →
      ∃ out, w = .map (some out) ∧ ∀ kv ∈ out, ∃ entry ∈ entries,
        ∃ (sa sb sc : JSONEncoder) (encodedKey : Wire) (doc : Json),
          encode env ff heap fuel sa (env.key t) entry.1 = (.ok encodedKey, sb)
          ∧ jsonMarshal env ff encodedKey = .ok doc
          ∧ kv.1 = .prim (.basic .string) (.str doc.compact)
          ∧ encode env ff heap fuel sb (env.elem t) entry.2 = (.ok kv.2, sc))
    ∧ MarshalJSON exampleEnv noFloats emptyHeap 6 structMapKeys []
        = .ok "\x7b\"value\":\x7b\"\x7b\\\"x\\\":1,\\\"y\\\":2\x7d\":3\x7d\x7d"
    ∧ MarshalJSON exampleEnv noFloats emptyHeap 6 prefixAndIndentVal
          [WithIndent "  ", WithPrefix ">>"]
        = .ok ("\x7b\n>>  \"value\": \x7b\n>>    \"i\": 1,\n>>    \"p\": \x7b\n>>      \"x\": 1,\n"
          ++ ">>      \"y\": 2\n>>    \x7d,\n>>    \"edges\": \x7b\n"
          ++ ">>      \"\x7b\\\"x\\\":2,\\\"y\\\":3\x7d\": 1\n>>    \x7d\n>>  \x7d\n>>\x7d") := by
  refine ⟨?_, by decide!, by decide!⟩
  intro env ff heap fuel s s' t entries w hm hkind hk h
  have hm' : env.implementsMarshaler t = false := by simp [TypeEnv.implementsMarshaler, hm]
  unfold encode encodeWith at h
  split at h
  · simp at h
  · rename_i encodedT hT
    obtain ⟨valW, rfl⟩ := encodedTypeFor_map_nonprimitive env _ t _ hm' hkind hk hT
    rw [encodeTo_map env ff heap fuel s t entries _ _ hm hkind] at h
    split at h
    · simp at h
    · rename_i encodedV s1 henc
      simp only [Prod.mk.injEq, Except.ok.injEq] at h
      obtain ⟨rfl, rfl⟩ := h
      split at henc
      · simp at henc
      · rename_i encodedMap s2 hloop
        simp only [Prod.mk.injEq, Except.ok.injEq] at henc
        obtain ⟨rfl, rfl⟩ := henc
        obtain ⟨kvs, hall, hout⟩ := encodeMapEntries_fold _ _ _ _ _ _ _ _ _ _ _ hloop
        have hkeys : ∀ entry kv, EncodedEntry env ff (encode env ff heap fuel) (env.key t)
            (env.elem t) entry kv →
            ∃ (sa sb sc : JSONEncoder) (encodedKey : Wire) (doc : Json),
              encode env ff heap fuel sa (env.key t) entry.1 = (.ok encodedKey, sb)
              ∧ jsonMarshal env ff encodedKey = .ok doc
              ∧ kv.1 = .prim (.basic .string) (.str doc.compact)
              ∧ encode env ff heap fuel sb (env.elem t) entry.2 = (.ok kv.2, sc) := by
          intro entry kv ⟨sa, sb, sc, h1, h2⟩
          obtain ⟨encodedKey, doc, h3, h4, h5⟩ :=
            encodeMapKey_nonprimitive env ff _ sa sb _ _ _ hk h1
          exact ⟨sa, sb, sc, encodedKey, doc, h3, h4, h5, h2⟩
        have hforall : ∀ kv ∈ kvs, ∃ entry ∈ entries,
            EncodedEntry env ff (encode env ff heap fuel) (env.key t) (env.elem t) entry kv := by
          intro kv hkv
          obtain ⟨i, hi, hget⟩ := List.mem_iff_getElem.mp hkv
          have hlen := hall.length_eq
          have := List.forall₂_iff_get.mp hall
          refine ⟨entries.get ⟨i, by omega⟩, List.get_mem _ _ _, ?_⟩
          have h3 := this.2 i (by omega) hi
          rw [List.get_eq_getElem, List.get_eq_getElem, hget] at h3
          rw [List.get_eq_getElem]
          exact h3
        refine ⟨_, rfl, fun kv hkv => ?_⟩
        rw [hout] at hkv
        have hstr : ∀ x ∈ kvs, ∃ t, x.1 = .prim (.basic .string) (.str t) := by
          intro x hx
          obtain ⟨entry, _, he⟩ := hforall x hx
          obtain ⟨_, _, _, _, doc, _, _, h5, _⟩ := hkeys entry x he
          exact ⟨_, h5⟩
        rcases wireMapSetAll_mem kvs [] kv hstr (fun x hx => by cases hx) hkv with h1 | h1
        · cases h1
        · obtain ⟨entry, hentry, he⟩ := hforall kv h1
          exact ⟨entry, hentry, hkeys entry kv he⟩

/-- C12: the loop of `createEncodedTypeFor` makes one wire field for each
retained field, named `F<i>` after the index of the field, whose `json` tag
begins with the wire name of the field as the specification words it
(`wireNameOf`: the name part of the `unsafely.json` tag when that tag is not
empty, otherwise of the `json` tag when that tag is not empty, otherwise the
declared name; an empty name part gives the declared name); `encoding/json`
reads that tag back and prints the field, if it prints it, under that name.
The cases "no tags", "json tags" and "override tags" of the tests give the
names of the tests. -/
theorem wire_name_from_tags :
    (∀ (mirror : GoType → Except Err WType) (i : Nat) (used : List (String × String))
        (fields : List (FieldInfo × GoType)) (out : List (WFieldInfo × WType)),
      mirrorStructFields mirror i used fields = .ok out →
      List.Forall₂ (fun p w => w.1.name = "F" ++ toString p.1
          ∧ w.1.tag = "json:\"" ++ wireJsonTagOf p.2.1 ++ "\" original:\"" ++ p.2.1.name ++ "\""
          ∧ (',' ∉ p.2.1.name.data → tagNamePart (wireJsonTagOf p.2.1) = wireNameOf p.2.1))
        (retainedFrom i fields) out)
    ∧ (∀ (env : TypeEnv) (ff : FloatFormat) (i : Nat) (field : FieldInfo) (w : Wire)
        (rest : List (WFieldInfo × Wire)) (members : List (String × Json)),
      (∀ c ∈ (wireJsonTagOf field).data, c ≠ '\n' ∧ c ≠ dquote ∧ c ≠ backslash) →
      ',' ∉ field.name.data → isValidTag (wireNameOf field).data = true →
      jsonMarshalFields env ff ((wireFieldOf i field, w) :: rest) = .ok members →
      jsonMarshalFields env ff rest = .ok members
        ∨ ∃ j ms, jsonMarshalFields env ff rest = .ok ms ∧ members = (wireNameOf field, j) :: ms)
    ∧ wireNameOf { name := "OverrideTag", json := "originalTag", unsafelyJson := "overrideTag" }
        = "overrideTag"
    ∧ wireNameOf { name := "Z", json := "z,omitempty" } = "z"
    ∧ wireNameOf { name := "Y", json := ",omitempty" } = "Y"
    ∧ wireNameOf { name := "noTag" } = "noTag"
    ∧ MarshalJSON exampleEnv noFloats emptyHeap 6
        (some (jsonTagsType, .struct [("X", intVal 1), ("Y", intVal 2), ("Z", intVal 0)])) []
        = .ok "\x7b\"value\":\x7b\"x\":1,\"Y\":2\x7d\x7d"
    ∧ MarshalJSON exampleEnv noFloats emptyHeap 6 overrideTagsVal []
        = .ok ("\x7b\"value\":\x7b\"noTag\":\"1\",\"jsonTag\":\"2\",\"overrideTag\":\"3\","
          ++ "\"OverrideOptions\":\"\",\"OverrideNoSkip\":\"5\",\"last\":\"7\"\x7d\x7d") := by
  refine ⟨?_, ?_, by decide, by decide, by decide, by decide, by decide!, by decide!⟩
  · intro mirror i used fields out h
    refine List.Forall₂.imp ?_ (mirrorStructFields_ok mirror fields i used out h).1
    intro p w ⟨h1, _⟩
    refine ⟨by rw [h1]; rfl, by rw [h1]; rfl, fun hc => ?_⟩
    unfold tagNamePart
    rw [wireJsonTagOf_name _ hc]
  · intro env ff i field w rest members hclean hcomma hvalid h
    exact jsonMarshalFields_wireField env ff i field w rest members hclean hcomma hvalid h

/-- C13: the loop of `createEncodedTypeFor` makes wire fields of exactly the
fields whose effective tag (`unsafely.json` if not empty, else `json`) is not
the bare `-`, and passes over a field with that tag without looking at its
type.  `json:"-"` with `unsafely.json:","` keeps the field under its declared
name, `json:",omitempty"` with `unsafely.json:"-"` removes it, and `json:"-,"`
keeps it under the wire name `-`. -/
theorem field_removed_iff_omit_marker :
    (∀ (mirror : GoType → Except Err WType) (i : Nat) (used : List (String × String))
        (fields : List (FieldInfo × GoType)) (out : List (WFieldInfo × WType)),
      mirrorStructFields mirror i used fields = .ok out →
      out.map (fun w => w.1) = (retainedFrom i fields).map (fun p => wireFieldOf p.1 p.2.1))
    ∧ (∀ field : FieldInfo, isRetained field = false ↔ effectiveTag field = "-")
    ∧ (∀ (mirror : GoType → Except Err WType) (i : Nat) (used : List (String × String))
        (field : FieldInfo) (t : GoType) (rest : List (FieldInfo × GoType)),
      effectiveTag field = "-" →
      mirrorStructFields mirror i used ((field, t) :: rest)
        = mirrorStructFields mirror (i + 1) used rest)
    ∧ (isRetained { name := "Temp", json := "-", unsafelyJson := "," } = true
      ∧ wireNameOf { name := "Temp", json := "-", unsafelyJson := "," } = "Temp")
    ∧ isRetained { name := "OverrideSkip", json := ",omitempty", unsafelyJson := "-" } = false
    ∧ (isRetained { name := "Dash", json := "-," } = true
      ∧ wireNameOf { name := "Dash", json := "-," } = "-")
    ∧ encodedTypeFor exampleEnv 2 exampleWithTagsType
        = .ok (.struct [
            (wireFieldOf 0 { name := "X", json := "x" }, .prim (.basic .int)),
            (wireFieldOf 1 { name := "Y", json := "y,omitempty", unsafelyJson := "y" },
              .prim (.basic .int)),
            (wireFieldOf 2 { name := "Temp", json := "-", unsafelyJson := "," }, .prim (.basic .int)),
            (wireFieldOf 4 { name := "Dash", json := "-," }, .prim (.basic .string))])
    ∧ MarshalJSON exampleEnv noFloats emptyHeap 6 structTagsVal []
        = .ok "\x7b\"value\":\x7b\"x\":1,\"y\":0,\"Temp\":3,\"-\":\"dash\"\x7d\x7d"
    ∧ MarshalJSON exampleEnv noFloats emptyHeap 6
        (some (jsonDashType, .struct [("Val", intVal 1)])) []
        = .ok "\x7b\"value\":\x7b\"-\":1\x7d\x7d" := by
  refine ⟨?_, ?_, ?_, by decide, by decide, by decide, rfl, by decide!, by decide!⟩
  · intro mirror i used fields out h
    have h1 := (mirrorStructFields_ok mirror fields i used out h).1
    clear h
    generalize retainedFrom i fields = l at h1
    induction h1 with
    | nil => rfl
    | cons hab _ ih => simp only [List.map_cons, hab.1, ih]
  · intro field
    simp [isRetained]
  · intro mirror i used field t rest h
    exact mirrorStructFields_skip mirror i used field t rest (by simp [isRetained, h])

/-- C14: the struct tag of a wire field is the text `json:"N,O" original:"D"`,
where `N` is the wire name, `D` the declared name and `O` the options of the
effective tag, that is, all the text after its first comma, as it stands there
(without the comma part when the effective tag has no comma).  A non-empty
`unsafely.json` tag is the effective tag whatever the `json` tag is, so the
wire field does not depend on the `json` tag: with `json:"y,omitempty"` and
`unsafely.json:"y"` a zero `Y` is emitted, with `json:"y,omitempty"` alone it
is omitted. -/
theorem tag_options_carried :
    (∀ (mirror : GoType → Except Err WType) (i : Nat) (used : List (String × String))
        (fields : List (FieldInfo × GoType)) (out : List (WFieldInfo × WType)),
      mirrorStructFields mirror i used fields = .ok out →
      List.Forall₂ (fun p w => w.1.tag = wireTagOf p.2.1) (retainedFrom i fields) out)
    ∧ (∀ field : FieldInfo, tagHasOptions (effectiveTag field) = true →
      effectiveTag field
          = tagNamePart (effectiveTag field) ++ "," ++ tagOptionsPart (effectiveTag field)
        ∧ wireTagOf field = "json:\"" ++ (wireNameOf field ++ "," ++ tagOptionsPart (effectiveTag field))
            ++ "\" original:\"" ++ field.name ++ "\"")
    ∧ (∀ field : FieldInfo, tagHasOptions (effectiveTag field) = false →
      effectiveTag field = tagNamePart (effectiveTag field)
        ∧ wireTagOf field = "json:\"" ++ wireNameOf field ++ "\" original:\"" ++ field.name ++ "\"")
    ∧ (∀ (field : FieldInfo) (j : String) (i : Nat), field.unsafelyJson ≠ "" →
      effectiveTag { field with json := j } = field.unsafelyJson
        ∧ isRetained { field with json := j } = isRetained field
        ∧ wireFieldOf i { field with json := j } = wireFieldOf i field)
    ∧ MarshalJSON exampleEnv noFloats emptyHeap 6
        (some (singleY "y,omitempty" "y", .struct [("Y", intVal 0)])) []
        = .ok "\x7b\"value\":\x7b\"y\":0\x7d\x7d"
    ∧ MarshalJSON exampleEnv noFloats emptyHeap 6
        (some (singleY "y,omitempty" "", .struct [("Y", intVal 0)])) []
        = .ok "\x7b\"value\":\x7b\x7d\x7d"
    ∧ wireTagOf { name := "Z", json := "z,omitempty,string" }
        = "json:\"z,omitempty,string\" original:\"Z\"" := by
  refine ⟨?_, ?_, ?_, ?_, by decide!, by decide!, by decide⟩
  · intro mirror i used fields out h
    refine List.Forall₂.imp ?_ (mirrorStructFields_ok mirror fields i used out h).1
    intro p w ⟨h1, _⟩
    rw [h1]
    rfl
  · intro field h
    constructor
    · have hs := (cutComma_spec (effectiveTag field).data).1
      unfold tagHasOptions at h
      rw [h] at hs
      simp only [if_true] at hs
      apply String.ext
      simp only [tagNamePart, tagOptionsPart, String.data_append]
      simpa using hs.symm
    · simp only [wireTagOf, wireJsonTagOf, h, if_true]
  · intro field h
    constructor
    · have hs := (cutComma_spec (effectiveTag field).data).1
      unfold tagHasOptions at h
      rw [h] at hs
      simp only [Bool.false_eq_true, if_false, List.append_nil] at hs
      apply String.ext
      simp only [tagNamePart]
      rw [hs]
    · simp only [wireTagOf, wireJsonTagOf, h, Bool.false_eq_true, if_false]
  · intro field j i hu
    have h1 : effectiveTag { field with json := j } = field.unsafelyJson := by
      simp [effectiveTag, hu]
    have h2 : effectiveTag field = field.unsafelyJson := by simp [effectiveTag, hu]
    have h3 : wireNameOf { field with json := j } = wireNameOf field := by
      simp [wireNameOf, hu]
    refine ⟨h1, ?_, ?_⟩
    · simp only [isRetained, h1, h2]
    · simp only [wireFieldOf, wireTagOf, wireJsonTagOf, h1, h2, h3]

/-- C15: when two retained fields of a struct have the same wire name, the
loop of `createEncodedTypeFor` does not succeed, and the mirror of a struct
type with such fields (that does not implement `json.Marshaler`) fails; when
the fields before the second of the two mirror without error, the error is
the duplicate-name error with the wire name, the declared name of the earlier
field and then that of the later one.  When the wire names of the retained
fields are all different the loop returns no duplicate-name error: it
succeeds or returns the wrapped error of the mirror of a field type.  The
three cases of the tests: `Field1`/`Field2` named `same` by `json` tags, the
same with an `unsafely.json` tag, and a field `same` renamed `different`,
which does not conflict. -/
theorem duplicate_wire_names_rejected :
    (∀ (mirror : GoType → Except Err WType) (i : Nat) (used : List (String × String))
        (fields : List (FieldInfo × GoType)) (out : List (WFieldInfo × WType)),
      ¬ (retainedNames fields).Nodup → mirrorStructFields mirror i used fields ≠ .ok out)
    ∧ (∀ (env : TypeEnv) (fuel : Nat) (t : GoType) (w : WType),
      env.implementsMarshaler t = false → env.kind t = .struct →
      ¬ (retainedNames (env.fields t)).Nodup → encodedTypeFor env fuel t ≠ .ok w)
    ∧ (∀ (mirror : GoType → Except Err WType) (pre : List (FieldInfo × GoType)) (f : FieldInfo)
        (tf : GoType) (g : FieldInfo) (tg : GoType) (post : List (FieldInfo × GoType)),
      (f, tf) ∈ pre → isRetained f = true → isRetained g = true →
      wireNameOf f = wireNameOf g → (retainedNames pre).Nodup →
      (∀ p ∈ pre, isRetained p.1 = true → ∃ w, mirror p.2 = .ok w) →
      mirrorStructFields mirror 0 [] (pre ++ (g, tg) :: post)
        = .error (.msg ("createEncodedTypeFor(): duplicate JSON field name " ++ goQuote (wireNameOf g)
            ++ " (struct fields " ++ goQuote f.name ++ " and " ++ goQuote g.name ++ ")")))
    ∧ (∀ (mirror : GoType → Except Err WType) (fields : List (FieldInfo × GoType)),
      (retainedNames fields).Nodup →
      (∃ out, mirrorStructFields mirror 0 [] fields = .ok out)
      ∨ ∃ p ∈ fields, isRetained p.1 = true ∧ ∃ e, mirror p.2 = .error e
          ∧ mirrorStructFields mirror 0 [] fields = .error (e.wrap "createEncodedTypeFor: "))
    ∧ MarshalJSON exampleEnv noFloats emptyHeap 6
        (some (.struct (FieldList.ofList duplicateFields), twoStrings "Field1" "" "Field2" "")) []
        = .error (.msg ("MarshalJSON: encode(): createEncodedTypeFor(): duplicate JSON field name "
          ++ "\"same\" (struct fields \"Field1\" and \"Field2\")"))
    ∧ MarshalJSON exampleEnv noFloats emptyHeap 6
        (some (.struct (FieldList.ofList duplicateOverrideFields),
          twoStrings "Field1" "" "Field2" "")) []
        = .error (.msg ("MarshalJSON: encode(): createEncodedTypeFor(): duplicate JSON field name "
          ++ "\"same\" (struct fields \"Field1\" and \"Field2\")"))
    ∧ MarshalJSON exampleEnv noFloats emptyHeap 6
        (some (.struct (FieldList.ofList renamedFields), twoStrings "Field1" "a" "same" "b")) []
        = .ok "\x7b\"value\":\x7b\"same\":\"a\",\"different\":\"b\"\x7d\x7d" := by
  refine ⟨?_, ?_, ?_, ?_, by decide!, by decide!, by decide!⟩
  · intro mirror i used fields out hnd h
    exact hnd (mirrorStructFields_ok mirror fields i used out h).2.1
  · intro env fuel t w hm hk hnd h
    unfold encodedTypeFor at h
    cases fuel with
    | zero => simp [createEncodedTypeFor] at h
    | succ n =>
      rw [createEncodedTypeFor_struct env n t hm hk] at h
      split at h
      · cases h
      · rename_i fs hfs
        exact hnd (mirrorStructFields_ok _ _ _ _ _ hfs).2.1
  · intro mirror pre f tf g tg post hmem hrf hrg hname hnd hok
    apply mirrorStructFields_prefix_error mirror _ _ pre 0 [] hok hnd (fun n _ => rfl)
    rw [mirrorStructFields_keep _ _ _ g tg post hrg, ← hname,
      lookup_usedAfter f tf pre [] hnd hmem hrf]
    rfl
  · intro mirror fields hnd
    exact mirrorStructFields_nodup mirror fields 0 [] hnd (fun n _ => rfl)

/-! ## Theorems: the box of an interface -/

theorem stripPointers_spec (env : TypeEnv) :
    ∀ (fuel : Nat) (t : GoType) (depth depth' : Int) (r : GoType),
      stripPointers env fuel t depth = some (depth', r) →
      env.kind r ≠ .pointer ∧ depth ≤ depth' ∧ (env.kind t = .pointer → depth + 1 ≤ depth') := by
  intro fuel
  induction fuel with
  | zero =>
    intro t depth depth' r h
    simp [stripPointers] at h
  | succ n ih =>
    intro t depth depth' r h
    rw [stripPointers] at h
    split at h
    · rename_i hk
      obtain ⟨h1, h2, _⟩ := ih _ _ _ _ h
      exact ⟨h1, by omega, fun _ => h2⟩
    · rename_i hk
      simp only [Option.some.injEq, Prod.mk.injEq] at h
      obtain ⟨rfl, rfl⟩ := h
      exact ⟨hk, le_refl _, fun h => absurd h hk⟩

/-- The branch of `encodeTo` for a type that implements `json.Marshaler`. -/
theorem encodeTo_marshaler (env : TypeEnv) (ff : FloatFormat) (heap : Heap) (fuel : Nat)
    (s : JSONEncoder) (t : GoType) (v : Val) (w : WType) (marshal : Val → Except String Json)
    (hm : env.marshaler t = some marshal) :
    encodeTo env ff heap (fuel + 1) s t v w
      = match marshal v with
        | .error err =>
          (.error (.msg ("encodeTo(): custom json.Marshal for " ++ typeString t ++ " failed: "
            ++ err)), s)
        | .ok b => (.ok (.rawMessage b), s) := by
  rw [encodeTo]
  simp only [hm]

/-- The branch of `encodeTo` for a destination of type `pointerValue`. -/
theorem encodeTo_pointerValue (env : TypeEnv) (ff : FloatFormat) (heap : Heap) (fuel : Nat)
    (s : JSONEncoder) (t : GoType) (v : Val) (hm : env.marshaler t = none) :
    encodeTo env ff heap (fuel + 1) s t v .pointerValue
      = match encodeToPointerValue env ff heap (encode env ff heap fuel) s t v with
        | (.error err, s1) => (.error err, s1)
        | (.ok pv, s1) => (.ok (.pointerValue pv), s1) := by
  rw [encodeTo]
  simp only [hm, isPointerValueType, if_true]
  rfl

/-- The result of `encode` for a value of pointer kind is a `pointerValue`. -/
theorem encode_pointer_kind (env : TypeEnv) (ff : FloatFormat) (heap : Heap) (fuel : Nat)
    (s s' : JSONEncoder) (t : GoType) (v : Val) (w : Wire)
    (hm : env.marshaler t = none) (hk : env.kind t = .pointer)
    (h : encode env ff heap fuel s t v = (.ok w, s')) : ∃ pv, w = .pointerValue pv := by
  have hm' : env.implementsMarshaler t = false := by simp [TypeEnv.implementsMarshaler, hm]
  cases fuel with
  | zero => simp [encode, encodeWith, encodedTypeFor, createEncodedTypeFor] at h
  | succ n =>
    unfold encode encodeWith at h
    unfold encodedTypeFor at h
    rw [createEncodedTypeFor_pointer env n t hm' hk] at h
    simp only at h
    rw [encodeTo_pointerValue env ff heap n s t v hm] at h
    split at h
    · simp at h
    · rename_i encodedV s1 henc
      simp only [Prod.mk.injEq, Except.ok.injEq] at h
      obtain ⟨rfl, rfl⟩ := h
      split at henc
      · simp at henc
      · rename_i pv s2 _
        simp only [Prod.mk.injEq, Except.ok.injEq] at henc
        exact ⟨pv, henc.1.symm⟩

/-- What a successful call of `encodeToInterfaceValue` on an interface that
is not nil returns. -/
theorem encodeToInterfaceValue_some (env : TypeEnv) (ff : FloatFormat) (fuel : Nat)
    (encode : EncodeFn) (s s' : JSONEncoder) (inT T : GoType) (v : Val)
    (r : Option InterfaceValue)
    (h : encodeToInterfaceValue env ff fuel encode s inT (.iface (some (T, v))) = (.ok r, s')) :
    ∃ encodedV doc depth R, encode s T v = (.ok encodedV, s')
      ∧ jsonMarshal env ff encodedV = .ok doc
      ∧ stripPointers env fuel T 0 = some (depth, R)
      ∧ r = some { ptrDepth := depth, pkgPath := pkgPathOf R, typeName := nameOf R,
                   typeString := if pkgPathOf R = "" && nameOf R = "" then typeString R else "",
                   value := doc } := by
  unfold encodeToInterfaceValue at h
  split at h
  · simp at h
  · dsimp only at h
    split at h
    · simp at h
    · rename_i encodedV s1 henc
      unfold jsonMarshalInternal at h
      cases hj : jsonMarshal env ff encodedV with
      | error e => simp [hj] at h
      | ok j =>
        simp only [hj] at h
        split at h
        · simp at h
        · rename_i depth R hstrip
          simp only [Prod.mk.injEq, Except.ok.injEq] at h
          obtain ⟨rfl, rfl⟩ := h
          exact ⟨encodedV, j, depth, R, henc, hj, hstrip, rfl⟩

/-- C17: a type that implements `json.Marshaler` is mirrored as
`json.RawMessage` whatever its kind and its fields are, and `encodeTo` stores
for a value of it the output of its own marshalling, or returns the wrapped
error of that marshalling, without looking at the fields and without changing
the encoder.  `customJSON`, a struct with a function field, and
`embeddedCustomJSON`, which embeds it, are mirrored and encode to the arrays
that `customJSON.MarshalJSON` writes. -/
theorem marshaler_mirrored_as_raw :
    (∀ (env : TypeEnv) (fuel : Nat) (t : GoType), env.implementsMarshaler t = true →
      encodedTypeFor env (fuel + 1) t = .ok .rawMessage)
    ∧ (∀ (env : TypeEnv) (ff : FloatFormat) (heap : Heap) (fuel : Nat) (s : JSONEncoder)
        (t : GoType) (v : Val) (w : WType) (marshal : Val → Except String Json),
      env.marshaler t = some marshal →
      encodeTo env ff heap (fuel + 1) s t v w
        = match marshal v with
          | .error err =>
            (.error (.msg ("encodeTo(): custom json.Marshal for " ++ typeString t ++ " failed: "
              ++ err)), s)
          | .ok b => (.ok (.rawMessage b), s))
    ∧ (∀ (env : TypeEnv) (ff : FloatFormat) (heap : Heap) (fuel : Nat) (s : JSONEncoder)
        (t : GoType) (v : Val) (marshal : Val → Except String Json) (b : Json),
      env.marshaler t = some marshal → marshal v = .ok b →
      encode env ff heap (fuel + 2) s t v = (.ok (.rawMessage b), s))
    ∧ HasUnsupported exampleEnv (.struct (.cons { name := "value" } (.basic .string)
        (.cons { name := "unsupported" } (.basic .func) .nil)))
    ∧ exampleEnv.expand customJSONType = .struct (.cons { name := "value" } (.basic .string)
        (.cons { name := "unsupported" } (.basic .func) .nil))
    ∧ encodedTypeFor exampleEnv 1 customJSONType = .ok .rawMessage
    ∧ encodedTypeFor exampleEnv 1 embeddedCustomJSONType = .ok .rawMessage
    ∧ MarshalJSON exampleEnv noFloats emptyHeap 6 (some (customJSONType, customJSONVal "one")) []
        = .ok "\x7b\"value\":[\"one\",\"ONE\"]\x7d"
    ∧ MarshalJSON exampleEnv noFloats emptyHeap 6
        (some (embeddedCustomJSONType, .struct [("customJSON", customJSONVal "two")])) []
        = .ok "\x7b\"value\":[\"two\",\"TWO\"]\x7d" := by
  refine ⟨?_, ?_, ?_, ?_, rfl, rfl, rfl, by decide!, by decide!⟩
  · intro env fuel t hm
    exact createEncodedTypeFor_marshaler env fuel t hm
  · intro env ff heap fuel s t v w marshal hm
    exact encodeTo_marshaler env ff heap fuel s t v w marshal hm
  · intro env ff heap fuel s t v marshal b hm hb
    have hm' : env.implementsMarshaler t = true := by simp [TypeEnv.implementsMarshaler, hm]
    unfold encode encodeWith encodedTypeFor
    rw [createEncodedTypeFor_marshaler env (fuel + 1) t hm']
    simp only
    rw [encodeTo_marshaler env ff heap (fuel + 1) s t v _ marshal hm, hb]
  · exact HasUnsupported.field _ { name := "unsupported" } (.basic .func) rfl rfl (by decide) rfl
      (HasUnsupported.direct _ rfl (Or.inr (Or.inl rfl)))

/-- C18: the box of an interface that is not nil records the package path
and the name of the concrete type after the leading pointer layers are
removed (a type that is not of pointer kind), and its `typeString` is the
descriptive string of that type when package path and name are both empty and
is empty otherwise.  For `int` the box has the type name `int` and no type
string; for `[]int` it has the type string `[]int` and neither package path
nor type name. -/
theorem interface_box_type_descriptor :
    (∀ (env : TypeEnv) (ff : FloatFormat) (fuel : Nat) (encode : EncodeFn) (s s' : JSONEncoder)
        (inT T : GoType) (v : Val) (r : Option InterfaceValue),
      encodeToInterfaceValue env ff fuel encode s inT (.iface (some (T, v))) = (.ok r, s') →
      ∃ box R, r = some box ∧ stripPointers env fuel T 0 = some (box.ptrDepth, R)
        ∧ env.kind R ≠ .pointer
        ∧ box.pkgPath = pkgPathOf R ∧ box.typeName = nameOf R
        ∧ (pkgPathOf R = "" ∧ nameOf R = "" → box.typeString = typeString R)
        ∧ (box.typeString ≠ "" → box.pkgPath = "" ∧ box.typeName = ""))
    ∧ MarshalJSON exampleEnv noFloats emptyHeap 6 wrapperIntVal []
        = .ok "\x7b\"value\":\x7b\"v\":\x7b\"typeName\":\"int\",\"value\":42\x7d\x7d\x7d"
    ∧ MarshalJSON exampleEnv smallFloats stringHeap 6 testStructVal []
        = .ok ("\x7b\"value\":\x7b\"String\":\"hello\",\"Int\":42,\"Slice\":[\"a\",\"b\",\"c\"],"
          ++ "\"Map\":\x7b\"x\":1,\"y\":2\x7d,\"Complex\":\x7b\"real\":1,\"imag\":2\x7d,"
          ++ "\"StrPtr\":\x7b\"pointer\":1,\"value\":\"one\"\x7d,"
          ++ "\"Any\":\x7b\"typeString\":\"[]int\",\"value\":[1,2,3]\x7d\x7d\x7d") := by
  refine ⟨?_, by decide!, by decide!⟩
  intro env ff fuel encode s s' inT T v r h
  obtain ⟨encodedV, doc, depth, R, _, _, hstrip, rfl⟩ :=
    encodeToInterfaceValue_some env ff fuel encode s s' inT T v r h
  refine ⟨_, R, rfl, hstrip, (stripPointers_spec env fuel T 0 depth R hstrip).1, rfl, rfl, ?_, ?_⟩
  · intro ⟨h1, h2⟩
    simp [h1, h2]
  · intro hne
    simp only at hne ⊢
    by_cases hc : (pkgPathOf R = "" && nameOf R = "") = true
    · simpa using hc
    · simp [hc] at hne

/-- C20: a nil interface encodes to the nil box, which prints as `null`, and
`decodeFromInterfaceValue` answers the nil box with the zero value and no
error, without a call of the type resolver and whatever the configuration of
the decoder is, so also for a decoder without a resolver.  `MarshalJSON` of a
nil interface is `{"value":null}`. -/
theorem nil_interface_needs_no_resolver :
    (∀ (env : TypeEnv) (ff : FloatFormat) (fuel : Nat) (encode : EncodeFn) (s : JSONEncoder)
        (inT : GoType), env.kind inT = .interface →
      encodeToInterfaceValue env ff fuel encode s inT (.iface none) = (.ok none, s))
    ∧ (∀ (env : TypeEnv) (ff : FloatFormat), jsonMarshal env ff (.interfaceValue none) = .ok .null)
    ∧ (∀ (env : TypeEnv) (fuel : Nat) (unmarshal : Json → WType → Except String Wire)
        (decodeTo : DecodeToFn) (s : JSONDecoder) (m : Memory),
      decodeFromInterfaceValue env fuel unmarshal decodeTo s m (.interfaceValue none)
        = (.ok none, [], s, m))
    ∧ NewJSONDecoder.config.typeResolver.isNone = true
    ∧ (∀ (env : TypeEnv) (fuel : Nat) (unmarshal : Json → WType → Except String Wire)
        (decodeTo : DecodeToFn) (m : Memory),
      decodeFromInterfaceValue env fuel unmarshal decodeTo NewJSONDecoder m (.interfaceValue none)
        = (.ok none, [], NewJSONDecoder, m))
    ∧ MarshalJSON exampleEnv noFloats emptyHeap 6 none [] = .ok "\x7b\"value\":null\x7d"
    ∧ MarshalJSON exampleEnv noFloats emptyHeap 6
        (some (.named (localName "wrapper"), .struct [("v", .iface none)])) []
        = .ok "\x7b\"value\":\x7b\"v\":null\x7d\x7d" := by
  refine ⟨?_, ?_, fun _ _ _ _ _ _ => rfl, rfl, fun _ _ _ _ _ => rfl, by decide!, by decide!⟩
  · intro env ff fuel encode s inT hk
    simp [encodeToInterfaceValue, hk]
  · intro env ff
    rw [jsonMarshal]

/-! ## Theorems: the resolvers -/

/-- The type that the static resolver finds after one more type has been
added. -/
theorem StaticResolver.resolve_addType (s : StaticResolver) (t : GoType)
    (p n ts : String) :
    ((s.addType t).ResolveType p n ts).typ
      = if StaticResolver.keyOf t = StaticResolver.lookupKey p n ts then some t
        else (s.ResolveType p n ts).typ := by
  have htyp : ∀ (s : StaticResolver), (s.ResolveType p n ts).typ
      = if p = "" && n = "" then s.typeStrings ts
        else match s.packageNames p with
          | some pkgTypes => pkgTypes n
          | none => none := by
    intro s
    unfold StaticResolver.ResolveType
    dsimp only
    split <;> simp_all
  rw [htyp, htyp]
  unfold StaticResolver.addType StaticResolver.keyOf StaticResolver.lookupKey
  by_cases ht : (pkgPathOf t = "" && nameOf t = "") = true
  · by_cases hl : (p = "" && n = "") = true
    · simp only [ht, hl, if_true, Sum.inr.injEq]
      by_cases hts : typeString t = ts
      · subst hts
        simp
      · have : ts ≠ typeString t := fun h => hts h.symm
        simp [hts, Function.update_noteq this]
    · simp only [ht, hl, if_true, Bool.false_eq_true, if_false, reduceCtorEq]
      by_cases hp : p = pkgPathOf t
      · subst hp
        simp only [Function.update_same]
        cases s.packageNames (pkgPathOf t) <;> rfl
      · simp only [Function.update_noteq hp]
  · by_cases hl : (p = "" && n = "") = true
    · simp only [ht, hl, if_true, Bool.false_eq_true, if_false, reduceCtorEq]
    · simp only [ht, hl, Bool.false_eq_true, if_false, Sum.inl.injEq, Prod.mk.injEq]
      by_cases hp : p = pkgPathOf t
      · subst hp
        simp only [Function.update_same, true_and]
        by_cases hn : n = nameOf t
        · subst hn
          simp
        · have : ¬ nameOf t = n := fun h => hn h.symm
          simp only [Function.update_noteq hn, this, if_false]
          cases s.packageNames (pkgPathOf t) <;> rfl
      · have : ¬ pkgPathOf t = p := fun h => hp h.symm
        simp only [Function.update_noteq hp, this, false_and, if_false]

/-- The type that the static resolver finds after `AddTypes`: the last of the
added types with the key looked up, or what it found before. -/
theorem StaticResolver.resolve_AddTypes (p n ts : String) (types : List GoType) :
    ∀ s : StaticResolver, ((s.AddTypes types).ResolveType p n ts).typ
      = ((types.reverse.find? (fun t =>
            decide (StaticResolver.keyOf t = StaticResolver.lookupKey p n ts)))).orElse
          (fun _ => (s.ResolveType p n ts).typ) := by
  induction types with
  | nil =>
    intro s
    simp [StaticResolver.AddTypes]
  | cons t rest ih =>
    intro s
    have : s.AddTypes (t :: rest) = (s.addType t).AddTypes rest := rfl
    rw [this, ih (s.addType t), StaticResolver.resolve_addType]
    simp only [List.reverse_cons, List.find?_append, List.find?_cons, List.find?_nil]
    cases hfind : rest.reverse.find? (fun t =>
        decide (StaticResolver.keyOf t = StaticResolver.lookupKey p n ts)) with
    | some u => simp
    | none =>
      by_cases hk : StaticResolver.keyOf t = StaticResolver.lookupKey p n ts
      · simp [hk]
      · simp [hk]

/-- The error of the static resolver is there exactly when the type is not. -/
theorem StaticResolver.resolve_err (s : StaticResolver) (p n ts : String) :
    ((s.ResolveType p n ts).err = none ↔ (s.ResolveType p n ts).typ ≠ none)
      ∧ ((s.ResolveType p n ts).typ = none → (s.ResolveType p n ts).err
          = some ("StaticResolver.ResolveType(): could not find type for "
              ++ notFoundText p n ts)) := by
  unfold StaticResolver.ResolveType
  dsimp only
  split <;> simp_all

/-- What `chainResolver.ResolveType` returns: the type of the first resolver
that yields one, or the error. -/
theorem chainResolve_spec (p n ts : String) (resolvers : List Resolver) :
    chainResolve p n ts resolvers
      = match resolvers.find? (fun r => (r p n ts).typ.isSome) with
        | some r => { typ := (r p n ts).typ, err := none }
        | none =>
          { typ := none
            err := some ("chainResolver.ResolveType(): could not find type for "
              ++ notFoundText p n ts) } := by
  induction resolvers with
  | nil => rfl
  | cons r rest ih =>
    rw [chainResolve]
    cases hr : (r p n ts).typ with
    | some t => simp [List.find?_cons, hr]
    | none => simp [List.find?_cons, hr, ih]

/-- C21: on a box that is not nil, `decodeFromInterfaceValue` returns an error
and no value when the decoder has no type resolver, without any call of a
resolver, and when `ResolveType` returns an error for the recorded package
path, type name and type string, whose text it wraps; with a resolver
configured it calls `ResolveType` exactly once, with these three strings,
whatever the outcome of the call and of the rest of the decoding is. -/
theorem interface_decode_needs_resolver :
    (∀ (env : TypeEnv) (fuel : Nat) (unmarshal : Json → WType → Except String Wire)
        (decodeTo : DecodeToFn) (s : JSONDecoder) (m : Memory) (iv : InterfaceValue),
      s.config.typeResolver = none →
      decodeFromInterfaceValue env fuel unmarshal decodeTo s m (.interfaceValue (some iv))
        = (.error (.msg ("decodeFromInterfaceValue(): a type resolver must be configured using "
            ++ "WithTypeResolver() to resolve types to interface values")), [], s, m))
    ∧ (∀ (env : TypeEnv) (fuel : Nat) (unmarshal : Json → WType → Except String Wire)
        (decodeTo : DecodeToFn) (s : JSONDecoder) (m : Memory) (iv : InterfaceValue)
        (resolver : Resolver) (err : String),
      s.config.typeResolver = some resolver →
      (resolver iv.pkgPath iv.typeName iv.typeString).err = some err →
      decodeFromInterfaceValue env fuel unmarshal decodeTo s m (.interfaceValue (some iv))
        = (.error (.msg ("decodeFromInterfaceValue(): " ++ err)),
            [(iv.pkgPath, iv.typeName, iv.typeString)], s, m))
    ∧ (∀ (env : TypeEnv) (fuel : Nat) (unmarshal : Json → WType → Except String Wire)
        (decodeTo : DecodeToFn) (s : JSONDecoder) (m : Memory) (iv : InterfaceValue)
        (resolver : Resolver),
      s.config.typeResolver = some resolver →
      (decodeFromInterfaceValue env fuel unmarshal decodeTo s m (.interfaceValue (some iv))).2.1
        = [(iv.pkgPath, iv.typeName, iv.typeString)])
    ∧ (decodeFromInterfaceValue exampleEnv 3 unmarshalOne decodeToNothing NewJSONDecoder
          threeNilPointers (.interfaceValue (some intBox))).1
        = .error (.msg ("decodeFromInterfaceValue(): a type resolver must be configured using "
            ++ "WithTypeResolver() to resolve types to interface values"))
    ∧ (decodeFromInterfaceValue exampleEnv 3 unmarshalOne decodeToNothing emptyResolverDecoder
          threeNilPointers (.interfaceValue (some intBox))).1
        = .error (.msg ("decodeFromInterfaceValue(): StaticResolver.ResolveType(): could not find "
            ++ "type for pkgPath: , typeName: int, typeString: ")) := by
  refine ⟨?_, ?_, ?_, by decide!, by decide!⟩
  · intro env fuel unmarshal decodeTo s m iv h
    simp only [decodeFromInterfaceValue, h]
  · intro env fuel unmarshal decodeTo s m iv resolver err h herr
    simp only [decodeFromInterfaceValue, h, herr]
  · intro env fuel unmarshal decodeTo s m iv resolver h
    simp only [decodeFromInterfaceValue, h]
    repeat' split
    all_goals rfl

/-- C23: a successful `Encode` returns the text of the JSON object with the
single member `value` whose content is the document of the encoded input (the
single-line text when prefix and indent are empty, else the indented one);
for a nil input the content is `null`, and `MarshalJSON(nil)` is
`{"value":null}`. -/
theorem output_is_value_envelope :
    (∀ (env : TypeEnv) (ff : FloatFormat) (heap : Heap) (fuel : Nat) (s s' : JSONEncoder)
        (inp : Option (GoType × Val)) (out : String),
      Encode env ff heap fuel s inp = (.ok out, s') →
      ∃ j : Json,
        out = (if s.config.pfx = "" && s.config.indent = "" then (Json.obj [("value", j)]).compact
          else (Json.obj [("value", j)]).indentAt s.config.pfx s.config.indent 0)
        ∧ match inp with
          | none => j = .null ∧ s' = s
          | some (t, v) => ∃ w, encode env ff heap fuel s t v = (.ok w, s')
              ∧ jsonMarshal env ff w = .ok j)
    ∧ (∀ (env : TypeEnv) (ff : FloatFormat) (heap : Heap) (fuel : Nat),
      MarshalJSON env ff heap fuel none [] = .ok "\x7b\"value\":null\x7d")
    ∧ MarshalJSON exampleEnv noFloats intHeap 6 (some (.pointer (.basic .int), .ptr (some ptrA))) []
        = .ok "\x7b\"value\":\x7b\"pointer\":1,\"value\":42\x7d\x7d" := by
  refine ⟨?_, fun _ _ _ _ => rfl, by decide!⟩
  intro env ff heap fuel s s' inp out h
  unfold Encode at h
  dsimp only at h
  split at h
  · split at h
    · simp only [Prod.mk.injEq, Except.ok.injEq] at h
      obtain ⟨rfl, rfl⟩ := h
      rename_i hc
      exact ⟨.null, by simp only [hc, if_true]; rfl, rfl, rfl⟩
    · simp only [Prod.mk.injEq, Except.ok.injEq] at h
      obtain ⟨rfl, rfl⟩ := h
      rename_i hc
      exact ⟨.null, by simp only [hc]; rfl, rfl, rfl⟩
  · split at h
    · simp at h
    · rename_i t v w s1 henc
      have hcfg : s1.config = s.config := (encode_grows env ff heap fuel _ _ _ _ _ henc).1
      unfold jsonMarshalInternal at h
      cases hj : jsonMarshal env ff w with
      | error e => simp [hj] at h
      | ok j =>
        simp only [hj, hcfg] at h
        split at h
        · simp only [Prod.mk.injEq, Except.ok.injEq] at h
          obtain ⟨rfl, rfl⟩ := h
          rename_i hc
          exact ⟨j, by simp only [hc, if_true]; rfl, w, henc, hj⟩
        · simp only [Prod.mk.injEq, Except.ok.injEq] at h
          obtain ⟨rfl, rfl⟩ := h
          rename_i hc
          exact ⟨j, by simp only [hc]; rfl, w, henc, hj⟩

/-- C28: `copyCommon` copies a primitive value as it is when the destination
has exactly the type of the source, and returns an error (and so no value for
the destination), leaving the encoder as it is, when the type of the
destination is another one; a defined type and its underlying type are
different types: a `stringAlias` is not copied to a `string`. -/
theorem primitive_copy_needs_same_type :
    (∀ (env : TypeEnv) (copyFn : CopyFn) (s : JSONEncoder) (fromT : GoType) (p : Prim),
      isSimplePrimitive (env.kind fromT) = true →
      copyCommon env copyFn s fromT (.prim p) (.prim fromT) = (.ok (.prim fromT p), s))
    ∧ (∀ (env : TypeEnv) (copyFn : CopyFn) (s : JSONEncoder) (fromT toT : GoType) (p : Prim),
      isSimplePrimitive (env.kind fromT) = true → fromT ≠ toT →
      copyCommon env copyFn s fromT (.prim p) (.prim toT)
        = (.error (.msg ("copyCommon(): primitive values must be the same type; received "
            ++ typeString fromT ++ " and " ++ typeString toT)), s))
    ∧ (∀ (env : TypeEnv) (copyFn : CopyFn) (s : JSONEncoder) (fromT : GoType) (toT : WType)
        (p : Prim),
      isSimplePrimitive (env.kind fromT) = true → toT ≠ .prim fromT →
      ∃ e, copyCommon env copyFn s fromT (.prim p) toT = (.error (.msg e), s))
    ∧ copyCommon exampleEnv (encodeTo exampleEnv noFloats emptyHeap 3) (NewJSONEncoder [])
          (.named (localName "stringAlias")) (.prim (.str "goodbye")) (.prim (.basic .string))
        = (.error (.msg ("copyCommon(): primitive values must be the same type; received "
            ++ "unsafely.stringAlias and string")), NewJSONEncoder [])
    ∧ copyCommon exampleEnv (encodeTo exampleEnv noFloats emptyHeap 3) (NewJSONEncoder [])
          (.basic .string) (.prim (.str "goodbye")) (.prim (.named (localName "stringAlias")))
        = (.error (.msg ("copyCommon(): primitive values must be the same type; received "
            ++ "string and unsafely.stringAlias")), NewJSONEncoder []) := by
  refine ⟨?_, ?_, ?_, rfl, rfl⟩
  · intro env copyFn s fromT p hk
    simp [copyCommon, hk]
  · intro env copyFn s fromT toT p hk hne
    simp [copyCommon, hk, hne]
  · intro env copyFn s fromT toT p hk hne
    cases toT with
    | prim t =>
      have : fromT ≠ t := fun h => hne (by rw [h])
      simp only [copyCommon, hk, if_true, ne_eq, this, not_false_eq_true]
      exact ⟨_, rfl⟩
    | _ =>
      simp only [copyCommon, hk, if_true]
      exact ⟨_, rfl⟩

theorem StaticResolver.resolve_found (s : StaticResolver) (p n ts : String) (t : GoType)
    (h : (s.ResolveType p n ts).typ = some t) : s.ResolveType p n ts = ⟨some t, none⟩ := by
  unfold StaticResolver.ResolveType at h ⊢
  dsimp only at h ⊢
  split at h
  · simp at h
  · rename_i u hu
    simp only [Option.some.injEq] at h
    subst h
    simp only [hu]

/-- C24: the lookup of a `StaticResolver` undoes the registration: after
`AddTypes`, `ResolveType` with the package path, the name and the type string
of an added type returns that type, unless a type added later has the same key
(package path and name, or the type string for a type with neither); a lookup
with a package path or a name does not depend on the type string, a lookup
with neither goes by the type string; and `ResolveType` returns an error
exactly when none of the added types has the key looked up.  The four cases
of `TestStaticResolver`. -/
theorem static_resolver_lookup :
    (∀ (s : StaticResolver) (pre : List GoType) (t : GoType) (post : List GoType),
      (∀ u ∈ post, StaticResolver.keyOf u ≠ StaticResolver.keyOf t) →
      (s.AddTypes (pre ++ t :: post)).ResolveType (pkgPathOf t) (nameOf t) (typeString t)
        = ⟨some t, none⟩)
    ∧ (∀ (s : StaticResolver) (p n ts ts' : String), (p ≠ "" ∨ n ≠ "") →
      (s.ResolveType p n ts).typ = (s.ResolveType p n ts').typ)
    ∧ (∀ (s : StaticResolver) (ts : String), (s.ResolveType "" "" ts).typ = s.typeStrings ts)
    ∧ (∀ (types : List GoType) (p n ts : String),
      ((NewStaticResolver.AddTypes types).ResolveType p n ts).err ≠ none
        ↔ ∀ t ∈ types, StaticResolver.keyOf t ≠ StaticResolver.lookupKey p n ts)
    ∧ (∀ (s : StaticResolver) (p n ts : String),
      ((s.ResolveType p n ts).err = none ↔ (s.ResolveType p n ts).typ ≠ none))
    ∧ (NewStaticResolver.AddTypes [mapStringInt]).ResolveType "" "" "map[string]int"
        = ⟨some mapStringInt, none⟩
    ∧ (NewStaticResolver.AddTypes [resolverTestStruct]).ResolveType
          "github.com/outriggerlabs/unsafely/typeutil_test" "testStruct" ""
        = ⟨some resolverTestStruct, none⟩
    ∧ (NewStaticResolver.AddTypes []).ResolveType "" "" "nonexistentType"
        = ⟨none, some ("StaticResolver.ResolveType(): could not find type for pkgPath: , "
            ++ "typeName: , typeString: nonexistentType")⟩
    ∧ (NewStaticResolver.AddTypes []).ResolveType "nonexistent/pkg" "testStruct" ""
        = ⟨none, some ("StaticResolver.ResolveType(): could not find type for pkgPath: "
            ++ "nonexistent/pkg, typeName: testStruct, typeString: ")⟩ := by
  refine ⟨?_, ?_, ?_, ?_, ?_, by decide!, by decide!, by decide!, by decide!⟩
  · intro s pre t post hpost
    apply StaticResolver.resolve_found
    rw [StaticResolver.resolve_AddTypes]
    have hkey : StaticResolver.lookupKey (pkgPathOf t) (nameOf t) (typeString t)
        = StaticResolver.keyOf t := rfl
    rw [hkey, List.reverse_append, List.reverse_cons, List.append_assoc, List.find?_append]
    have hnone : post.reverse.find? (fun u =>
        decide (StaticResolver.keyOf u = StaticResolver.keyOf t)) = none := by
      rw [List.find?_eq_none]
      intro u hu
      simpa using hpost u (List.mem_reverse.mp hu)
    rw [hnone]
    simp [List.find?_cons]
  · intro s p n ts ts' h
    unfold StaticResolver.ResolveType
    have : (p = "" && n = "") = false := by
      rcases h with h | h <;> simp [h]
    simp only [this, Bool.false_eq_true, if_false]
    split <;> rfl
  · intro s ts
    unfold StaticResolver.ResolveType
    dsimp only
    split <;> simp_all
  · intro types p n ts
    have herr := (StaticResolver.resolve_err (NewStaticResolver.AddTypes types) p n ts).1
    have htyp := StaticResolver.resolve_AddTypes p n ts types NewStaticResolver
    have hnew : (NewStaticResolver.ResolveType p n ts).typ = none := by
      unfold StaticResolver.ResolveType NewStaticResolver
      dsimp only
      split <;> simp_all
    rw [hnew] at htyp
    constructor
    · intro h t ht hk
      have h1 : ((NewStaticResolver.AddTypes types).ResolveType p n ts).typ = none := by
        by_contra hc
        exact h (herr.mpr hc)
      rw [htyp] at h1
      have hfind : types.reverse.find? (fun t =>
          decide (StaticResolver.keyOf t = StaticResolver.lookupKey p n ts)) = none := by
        cases hf : types.reverse.find? (fun t =>
            decide (StaticResolver.keyOf t = StaticResolver.lookupKey p n ts)) with
        | none => rfl
        | some u => simp [hf] at h1
      rw [List.find?_eq_none] at hfind
      have := hfind t (List.mem_reverse.mpr ht)
      simp [hk] at this
    · intro h hc
      have h1 := herr.mp hc
      apply h1
      rw [htyp]
      have hfind : types.reverse.find? (fun t =>
          decide (StaticResolver.keyOf t = StaticResolver.lookupKey p n ts)) = none := by
        rw [List.find?_eq_none]
        intro u hu
        simpa using h u (List.mem_reverse.mp hu)
      rw [hfind]
      rfl
  · intro s p n ts
    exact (StaticResolver.resolve_err s p n ts).1

/-- C25: `chainResolver.ResolveType` returns, without an error, the type of
the first resolver of the chain that yields a type that is not nil (whether
or not that resolver also returned an error), and it returns an error exactly
when no resolver of the chain yields a type, as for the empty chain.  The five
cases of `TestChainResolver`. -/
theorem chain_resolver_first_match :
    (∀ (p n ts : String) (pre : List Resolver) (r : Resolver) (post : List Resolver) (t : GoType),
      (∀ q ∈ pre, (q p n ts).typ = none) → (r p n ts).typ = some t →
      (NewChainResolver (pre ++ r :: post)).ResolveType p n ts = ⟨some t, none⟩)
    ∧ (∀ (p n ts : String) (resolvers : List Resolver),
      ((NewChainResolver resolvers).ResolveType p n ts).err ≠ none
        ↔ ∀ r ∈ resolvers, (r p n ts).typ = none)
    ∧ (∀ (p n ts : String) (resolvers : List Resolver),
      (∀ r ∈ resolvers, (r p n ts).typ = none) →
      (NewChainResolver resolvers).ResolveType p n ts
        = ⟨none, some ("chainResolver.ResolveType(): could not find type for "
            ++ notFoundText p n ts)⟩)
    ∧ (NewChainResolver testChain).ResolveType "" "" "map[string]int" = ⟨some mapStringInt, none⟩
    ∧ (NewChainResolver testChain).ResolveType
          "github.com/outriggerlabs/unsafely/typeutil_test" "testStruct" ""
        = ⟨some resolverTestStruct, none⟩
    ∧ (NewChainResolver testChain).ResolveType "" "" "nonexistentType"
        = ⟨none, some ("chainResolver.ResolveType(): could not find type for pkgPath: , "
            ++ "typeName: , typeString: nonexistentType")⟩
    ∧ (NewChainResolver testChain).ResolveType
          "github.com/outriggerlabs/unsafely/typeutil_test" "nonExistentType" ""
        = ⟨none, some ("chainResolver.ResolveType(): could not find type for pkgPath: "
            ++ "github.com/outriggerlabs/unsafely/typeutil_test, typeName: nonExistentType, "
            ++ "typeString: ")⟩
    ∧ (NewChainResolver []).ResolveType "" "" "map[string]int"
        = ⟨none, some ("chainResolver.ResolveType(): could not find type for pkgPath: , "
            ++ "typeName: , typeString: map[string]int")⟩ := by
  refine ⟨?_, ?_, ?_, by decide!, by decide!, by decide!, by decide!, by decide!⟩
  · intro p n ts pre r post t hpre hr
    simp only [chainResolver.ResolveType, NewChainResolver]
    rw [chainResolve_spec, List.find?_append]
    have hnone : pre.find? (fun r => (r p n ts).typ.isSome) = none := by
      rw [List.find?_eq_none]
      intro q hq
      simp [hpre q hq]
    rw [hnone]
    simp [List.find?_cons, hr]
  · intro p n ts resolvers
    simp only [chainResolver.ResolveType, NewChainResolver]
    rw [chainResolve_spec]
    cases hf : resolvers.find? (fun r => (r p n ts).typ.isSome) with
    | some r =>
      simp only [ne_eq, not_true_eq_false, false_iff]
      intro h
      have hmem := List.mem_of_find?_eq_some hf
      have hsome := List.find?_some hf
      rw [h r hmem] at hsome
      simp at hsome
    | none =>
      simp only [ne_eq, reduceCtorEq, not_false_eq_true, true_iff]
      rw [List.find?_eq_none] at hf
      intro r hr
      have := hf r hr
      simpa using this
  · intro p n ts resolvers h
    simp only [chainResolver.ResolveType, NewChainResolver]
    rw [chainResolve_spec]
    have hf : resolvers.find? (fun r => (r p n ts).typ.isSome) = none := by
      rw [List.find?_eq_none]
      intro r hr
      simp [h r hr]
    rw [hf]

/-! ## Theorems: the sizes of wire slices and maps -/

theorem copyItems_length (copyFn : CopyFn) (fromElemT : GoType) (toElemT : WType)
    (items : List Val) :
    ∀ (s s' : JSONEncoder) (ws : List Wire),
      copyItems copyFn fromElemT toElemT s items = (.ok ws, s') → ws.length = items.length := by
  induction items with
  | nil =>
    intro s s' ws h
    simp only [copyItems, Prod.mk.injEq, Except.ok.injEq] at h
    obtain ⟨rfl, _⟩ := h
    rfl
  | cons v rest ih =>
    intro s s' ws h
    rw [copyItems] at h
    split at h
    · simp at h
    · split at h
      · simp at h
      · rename_i ws1 s2 hrest
        simp only [Prod.mk.injEq, Except.ok.injEq] at h
        rw [← h.1, List.length_cons, List.length_cons, ih _ _ _ hrest]

theorem wireMapSet_length (key val : Wire) (acc : List (Wire × Wire)) :
    (wireMapSet key val acc).length ≤ acc.length + 1
      ∧ ((∀ x ∈ acc, wireKeyEq x.1 key = false) →
          (wireMapSet key val acc).length = acc.length + 1) := by
  induction acc with
  | nil => simp [wireMapSet]
  | cons x rest ih =>
    obtain ⟨k, v⟩ := x
    simp only [wireMapSet]
    split
    · rename_i heq
      refine ⟨by simp, fun h => ?_⟩
      have := h (k, v) (List.mem_cons_self _ _)
      simp only at this
      rw [this] at heq
      cases heq
    · refine ⟨by simpa using ih.1, fun h => ?_⟩
      have := ih.2 (fun x hx => h x (List.mem_cons_of_mem _ hx))
      simp [this]

theorem wireMapSetAll_length (kvs : List (Wire × Wire)) :
    ∀ acc : List (Wire × Wire),
      (wireMapSetAll kvs acc).length ≤ acc.length + kvs.length
        ∧ (kvs.Pairwise (fun a b => wireKeyEq a.1 b.1 = false) →
            (∀ x ∈ acc, ∀ y ∈ kvs, wireKeyEq x.1 y.1 = false) →
            (wireMapSetAll kvs acc).length = acc.length + kvs.length) := by
  induction kvs with
  | nil =>
    intro acc
    simp [wireMapSetAll]
  | cons kv rest ih =>
    intro acc
    have hstep : wireMapSetAll (kv :: rest) acc = wireMapSetAll rest (wireMapSet kv.1 kv.2 acc) :=
      rfl
    rw [hstep]
    obtain ⟨h1, h2⟩ := ih (wireMapSet kv.1 kv.2 acc)
    obtain ⟨h3, h4⟩ := wireMapSet_length kv.1 kv.2 acc
    refine ⟨by simp only [List.length_cons]; omega, fun hpair hacc => ?_⟩
    obtain ⟨hhead, hrest⟩ := List.pairwise_cons.mp hpair
    have hlen := h4 (fun x hx => hacc x hx kv (List.mem_cons_self _ _))
    rw [h2 hrest ?_, hlen]
    · simp only [List.length_cons]
      omega
    · intro x hx y hy
      rcases wireMapSet_keys kv.1 kv.2 acc x.1 (List.mem_map_of_mem _ hx) with hk | hk
      · rw [hk]
        exact hhead y hy
      · obtain ⟨z, hz, hz1⟩ := List.mem_map.mp hk
        rw [← hz1]
        exact hacc z hz y (List.mem_cons_of_mem _ hy)

/-- C22, counterexample: the map with the two keys `{1}` and `{2}` of a struct
type whose only field is omitted is not nil and has two entries; both keys
encode to the text `{}`, and the wire map has one entry. -/
theorem map_key_collision_drops_entry :
    hiddenKeyMap = some (.map hiddenKeyType (.basic .int),
      .map (some [(.struct [("id", intVal 1)], intVal 10), (.struct [("id", intVal 2)], intVal 20)]))
    ∧ ((encode exampleEnv noFloats emptyHeap 5 (NewJSONEncoder []) (.map hiddenKeyType (.basic .int))
          (.map (some [(.struct [("id", intVal 1)], intVal 10),
            (.struct [("id", intVal 2)], intVal 20)]))).1.toOption.map wireLen)
        = some (some 1)
    ∧ MarshalJSON exampleEnv noFloats emptyHeap 6 hiddenKeyMap []
        = .ok "\x7b\"value\":\x7b\"\x7b\x7d\":20\x7d\x7d" := by
  refine ⟨rfl, by decide!, by decide!⟩

/-- C22, as the code has it: a nil source slice or map leaves the wire slice
or map nil; a source slice that is not nil, also an empty one, gives a wire
slice that is not nil with the same number of elements; a source map that is
not nil gives a wire map that is not nil, the result of setting the encoded
entries in order, with at most as many entries as the source, and with as
many when the encoded keys are different from each other. -/
theorem nil_preserved_and_sizes :
    (∀ (env : TypeEnv) (copyFn : CopyFn) (s : JSONEncoder) (fromT : GoType) (toElemT : WType),
      env.kind fromT = .slice →
      copyArrayLike env copyFn s fromT (.slice none) (.slice toElemT)
        = (.ok (.slice toElemT none), s))
    ∧ (∀ (env : TypeEnv) (copyFn : CopyFn) (s s' : JSONEncoder) (fromT : GoType) (toT : WType)
        (items : List Val) (w : Wire),
      copyArrayLike env copyFn s fromT (.slice (some items)) toT = (.ok w, s') →
      ∃ toElemT ws, w = .slice toElemT (some ws) ∧ ws.length = items.length)
    ∧ (∀ (env : TypeEnv) (ff : FloatFormat) (heap : Heap) (fuel : Nat) (s : JSONEncoder)
        (t : GoType) (keyW valW : WType), env.marshaler t = none → env.kind t = .map →
      encodeTo env ff heap (fuel + 1) s t (.map none) (.map keyW valW) = (.ok (.map none), s))
    ∧ (∀ (env : TypeEnv) (ff : FloatFormat) (heap : Heap) (fuel : Nat) (s s' : JSONEncoder)
        (t : GoType) (keyW valW : WType) (entries : List (Val × Val)) (w : Wire),
      env.marshaler t = none → env.kind t = .map →
      encodeTo env ff heap (fuel + 1) s t (.map (some entries)) (.map keyW valW) = (.ok w, s') →
      ∃ kvs, List.Forall₂ (EncodedEntry env ff (encode env ff heap fuel) (env.key t) (env.elem t))
          entries kvs
        ∧ w = .map (some (wireMapSetAll kvs []))
        ∧ (wireMapSetAll kvs []).length ≤ entries.length
        ∧ (kvs.Pairwise (fun a b => wireKeyEq a.1 b.1 = false) →
            (wireMapSetAll kvs []).length = entries.length))
    ∧ MarshalJSON exampleEnv noFloats emptyHeap 6 (some (.slice (.basic .int64), .slice none)) []
        = .ok "\x7b\"value\":null\x7d"
    ∧ MarshalJSON exampleEnv noFloats emptyHeap 6 (some (.slice (.basic .int64), .slice (some []))) []
        = .ok "\x7b\"value\":[]\x7d"
    ∧ MarshalJSON exampleEnv noFloats emptyHeap 6
        (some (.map (.basic .string) (.basic .int), .map none)) []
        = .ok "\x7b\"value\":null\x7d"
    ∧ MarshalJSON exampleEnv noFloats emptyHeap 6
        (some (.map (.basic .string) (.basic .int), .map (some []))) []
        = .ok "\x7b\"value\":\x7b\x7d\x7d" := by
  refine ⟨?_, ?_, ?_, ?_, by decide!, by decide!, by decide!, by decide!⟩
  · intro env copyFn s fromT toElemT hk
    simp [copyArrayLike, hk, WType.kind]
  · intro env copyFn s s' fromT toT items w h
    unfold copyArrayLike at h
    dsimp only at h
    split at h
    · simp at h
    · split at h
      · simp at h
      · split at h
        · exact absurd ‹Val.slice (some items) = Val.slice none› (by simp)
        · have heq2 := ‹Val.slice (some items) = Val.slice (some _)›
          simp only [Val.slice.injEq, Option.some.injEq] at heq2
          subst heq2
          split at h
          · simp at h
          · rename_i ws s1 hitems
            simp only [Prod.mk.injEq, Except.ok.injEq] at h
            exact ⟨_, ws, h.1.symm, copyItems_length _ _ _ _ _ _ _ hitems⟩
        · exact absurd ‹Val.slice (some items) = Val.array _› (by simp)
        · simp at h
  · intro env ff heap fuel s t keyW valW hm hk
    exact encodeTo_map_nil env ff heap fuel s t keyW valW hm hk
  · intro env ff heap fuel s s' t keyW valW entries w hm hk h
    rw [encodeTo_map env ff heap fuel s t entries keyW valW hm hk] at h
    split at h
    · simp at h
    · rename_i encodedMap s1 hloop
      simp only [Prod.mk.injEq, Except.ok.injEq] at h
      obtain ⟨rfl, rfl⟩ := h
      obtain ⟨kvs, hall, rfl⟩ := encodeMapEntries_fold _ _ _ _ _ _ _ _ _ _ _ hloop
      have hlen := hall.length_eq
      obtain ⟨h1, h2⟩ := wireMapSetAll_length kvs []
      refine ⟨kvs, hall, rfl, by simpa [hlen] using h1, fun hp => ?_⟩
      have := h2 hp (fun x hx => by cases hx)
      simpa [hlen] using this

/-! ## Theorems: the invariant of the reference ids -/

theorem tableInv_of_fields {s s' : JSONEncoder} (h1 : s'.pointerIndex = s.pointerIndex)
    (h2 : s'.pointerValues = s.pointerValues) (h : TableInv s) : TableInv s' := by
  unfold TableInv at h ⊢
  rw [h1, h2]
  exact h

theorem tableInv_nilStep (s : JSONEncoder) (h : TableInv s) :
    TableInv { s with pointerIndex := s.pointerIndex + 1 } := by
  obtain ⟨h0, h1, h2⟩ := h
  refine ⟨by simp only; omega, fun a pv ha => ?_, h2⟩
  have := h1 a pv ha
  simp only
  omega

theorem tableInv_doneStep (s : JSONEncoder) (a : Nat) (value : Json) (pend : Nat → Bool)
    (h : TableInv s) :
    TableInv { config := s.config, pointerIndex := s.pointerIndex + 1,
               pointerValues := Function.update s.pointerValues a
                 (some { pointer := s.pointerIndex + 1, value := value }),
               pendingPointers := pend } := by
  obtain ⟨h0, h1, h2⟩ := h
  refine ⟨by simp only; omega, fun b pv hb => ?_, fun b c pvb pvc hb hc hid => ?_⟩
  · simp only at hb ⊢
    by_cases hba : b = a
    · subst hba
      simp only [Function.update_same, Option.some.injEq] at hb
      subst hb
      simp only
      omega
    · simp only [Function.update_noteq hba] at hb
      have := h1 b pv hb
      omega
  · simp only at hb hc
    by_cases hba : b = a
    · by_cases hca : c = a
      · rw [hba, hca]
      · subst hba
        simp only [Function.update_same, Option.some.injEq] at hb
        simp only [Function.update_noteq hca] at hc
        have := h1 c pvc hc
        subst hb
        simp only at hid
        omega
    · by_cases hca : c = a
      · subst hca
        simp only [Function.update_same, Option.some.injEq] at hc
        simp only [Function.update_noteq hba] at hb
        have := h1 b pvb hb
        subst hc
        simp only at hid
        omega
      · simp only [Function.update_noteq hba] at hb
        simp only [Function.update_noteq hca] at hc
        exact h2 b c pvb pvc hb hc hid

theorem keepsTable_stateRel : StateRel (fun _ s s' => KeepsTable s s') where
  refl := fun _ s => ⟨Grows.refl s, fun h => h⟩
  trans := fun _ _ _ _ h1 h2 => ⟨Grows.trans h1.1 h2.1, fun h => h2.2 (h1.2 h)⟩
  weaken := fun _ _ h => h

theorem encodeToPointerValue_keepsTable (env : TypeEnv) (ff : FloatFormat) (heap : Heap)
    (encode : EncodeFn) (henc : EncodeFn.Respects (fun _ s s' => KeepsTable s s') encode)
    (s : JSONEncoder) (t : GoType) (v : Val) (r : Except Err PointerValue) (s' : JSONEncoder)
    (h : encodeToPointerValue env ff heap encode s t v = (r, s')) : KeepsTable s s' := by
  have hg : Grows s s' :=
    encodeToPointerValue_grows env ff heap encode (fun s t v r s' h => (henc s t v r s' h).1)
      s t v r s' h
  refine ⟨hg, fun hinv => ?_⟩
  unfold encodeToPointerValue at h
  dsimp only at h
  repeat' split at h
  all_goals simp only [Prod.mk.injEq] at h
  all_goals obtain ⟨rfl, rfl⟩ := h
  all_goals first
    | exact hinv
    | exact tableInv_nilStep _ hinv
    | exact tableInv_of_fields rfl rfl hinv
    | (have h1 := henc _ _ _ _ _ ‹encode _ _ _ = _›
       have h2 : TableInv _ := h1.2 (tableInv_of_fields rfl rfl hinv)
       first
        | exact h2
        | exact tableInv_of_fields rfl rfl h2
        | exact tableInv_doneStep _ _ _ _ h2)

theorem encode_keepsTable (env : TypeEnv) (ff : FloatFormat) (heap : Heap) (fuel : Nat) :
    EncodeFn.Respects (fun _ s s' => KeepsTable s s') (encode env ff heap fuel) :=
  encode_respects keepsTable_stateRel env ff heap
    (fun enc henc s t v r s' h => encodeToPointerValue_keepsTable env ff heap enc henc s t v r s' h)
    fuel

theorem Encode_keepsTable (env : TypeEnv) (ff : FloatFormat) (heap : Heap) (fuel : Nat)
    (s : JSONEncoder) (inp : Option (GoType × Val)) (r : Except Err String) (s' : JSONEncoder)
    (h : Encode env ff heap fuel s inp = (r, s')) : KeepsTable s s' := by
  unfold Encode at h
  dsimp only at h
  repeat' split at h
  all_goals simp only [Prod.mk.injEq] at h
  all_goals obtain ⟨rfl, rfl⟩ := h
  all_goals first
    | exact keepsTable_stateRel.refl true _
    | (have h1 := encode_keepsTable env ff heap fuel _ _ _ _ _ ‹encode _ _ _ _ _ _ _ = _›
       exact h1)

theorem encodeSteps_keepTable {s s' : JSONEncoder} (h : Relation.ReflTransGen EncodeStep s s') :
    KeepsTable s s' := by
  induction h with
  | refl => exact keepsTable_stateRel.refl true _
  | tail _ hstep ih =>
    obtain ⟨env, ff, heap, fuel, inp, r, hr⟩ := hstep
    exact keepsTable_stateRel.trans true _ _ _ ih (Encode_keepsTable env ff heap fuel _ inp r _ hr)

/-! ## Theorems: the pending set -/

theorem restoresPending_stateRel : StateRel RestoresPending where
  refl := fun _ _ _ => rfl
  trans := fun _ _ _ _ h1 h2 hb => by rw [h2 hb, h1 rfl]
  weaken := fun _ _ _ hb => by cases hb

theorem encodeToPointerValue_restoresPending (env : TypeEnv) (ff : FloatFormat) (heap : Heap)
    (encode : EncodeFn) (henc : EncodeFn.Respects RestoresPending encode)
    (s : JSONEncoder) (t : GoType) (v : Val) (r : Except Err PointerValue) (s' : JSONEncoder)
    (h : encodeToPointerValue env ff heap encode s t v = (r, s')) :
    RestoresPending (isOk r) s s' := by
  intro hok
  unfold encodeToPointerValue at h
  dsimp only at h
  repeat' split at h
  all_goals simp only [Prod.mk.injEq] at h
  all_goals obtain ⟨rfl, rfl⟩ := h
  all_goals try rfl
  all_goals try (simp only [isOk] at hok; cases hok)
  all_goals
    have h0 := henc _ _ _ _ _ ‹encode _ _ _ = _›
    have h1 := h0 rfl
    have hnp := ‹¬ s.pendingPointers _ = true›
    simp only at h1 ⊢
    rw [h1]
    funext b
    simp only [Function.update_apply]
    split
    · rename_i hb
      subst hb
      simpa using hnp
    · rfl

theorem encode_restoresPending (env : TypeEnv) (ff : FloatFormat) (heap : Heap) (fuel : Nat) :
    EncodeFn.Respects RestoresPending (encode env ff heap fuel) :=
  encode_respects restoresPending_stateRel env ff heap
    (fun enc henc s t v r s' h =>
      encodeToPointerValue_restoresPending env ff heap enc henc s t v r s' h) fuel

/-- C27, the code at the failing input: `x` is an interface variable that
holds a channel and `p` the pointer to it.  `Encode(p)` on a fresh encoder
fails with the "unsupported kind" error, and the address of `p`, which was not
pending before, is still in the pending set after the call has returned.
After `x` has been set to the `int` 42, `Encode(p)` on the same encoder
returns "cycle detected", although a fresh encoder encodes `p`.  Only a call
that succeeds leaves the pending set as it found it. -/
theorem pending_entry_survives_error :
    (∀ (env : TypeEnv) (ff : FloatFormat) (heap : Heap) (fuel : Nat) (s s' : JSONEncoder)
        (inp : Option (GoType × Val)) (out : String),
      Encode env ff heap fuel s inp = (.ok out, s') → s'.pendingPointers = s.pendingPointers)
    ∧ (Encode exampleEnv noFloats chanHeap 6 (NewJSONEncoder []) anyPointer).1
        = .error (.msg ("MarshalJSON: encode(): encodeToPointerValue: encode(): "
            ++ "encodeToInterfaceValue: encode(): createEncodedTypeFor: "
            ++ "unsupported kind chan for chan"))
    ∧ (NewJSONEncoder []).pendingPointers ptrA.addr = false
    ∧ (Encode exampleEnv noFloats chanHeap 6 (NewJSONEncoder []) anyPointer).2.pendingPointers
          ptrA.addr = true
    ∧ (Encode exampleEnv noFloats fixedHeap 6
          (Encode exampleEnv noFloats chanHeap 6 (NewJSONEncoder []) anyPointer).2 anyPointer).1
        = .error (.msg ("MarshalJSON: encode(): encodeToPointerValue: cycle detected; "
            ++ "structs with cyclic data are not supported"))
    ∧ (Encode exampleEnv noFloats fixedHeap 6 (NewJSONEncoder []) anyPointer).1
        = .ok ("\x7b\"value\":\x7b\"pointer\":1,\"value\":\x7b\"typeName\":\"int\","
            ++ "\"value\":42\x7d\x7d\x7d") := by
  refine ⟨?_, by decide!, rfl, by decide!, by decide!, by decide!⟩
  intro env ff heap fuel s s' inp out h
  unfold Encode at h
  dsimp only at h
  repeat' split at h
  all_goals simp only [Prod.mk.injEq, reduceCtorEq, false_and, Except.ok.injEq] at h
  all_goals obtain ⟨_, rfl⟩ := h
  all_goals first
    | rfl
    | (have h0 := encode_restoresPending env ff heap fuel _ _ _ _ _ ‹encode _ _ _ _ _ _ _ = _›
       exact h0 rfl)

/-! ## Theorems: how errors are wrapped -/

theorem copyItems_error (copyFn : CopyFn) (fromElemT : GoType) (toElemT : WType)
    (items : List Val) :
    ∀ (s s' : JSONEncoder) (e : Err),
      copyItems copyFn fromElemT toElemT s items = (.error e, s') →
      ∃ sa, ∃ v ∈ items, copyFn sa fromElemT v toElemT = (.error e, s') := by
  induction items with
  | nil =>
    intro s s' e h
    simp [copyItems] at h
  | cons v rest ih =>
    intro s s' e h
    rw [copyItems] at h
    split at h
    · rename_i err s1 hv
      simp only [Prod.mk.injEq, Except.error.injEq] at h
      obtain ⟨rfl, rfl⟩ := h
      exact ⟨s, v, List.mem_cons_self _ _, hv⟩
    · split at h
      · rename_i err s2 hrest
        simp only [Prod.mk.injEq, Except.error.injEq] at h
        obtain ⟨rfl, rfl⟩ := h
        obtain ⟨sa, u, hu, hc⟩ := ih _ _ _ hrest
        exact ⟨sa, u, List.mem_cons_of_mem _ hu, hc⟩
      · simp at h

theorem copyFields_error (env : TypeEnv) (copyFn : CopyFn) (originalT : GoType)
    (originalFields : List (String × Val)) (fields : List (WFieldInfo × WType)) :
    ∀ (s s' : JSONEncoder) (e : Err),
      copyFields env copyFn originalT originalFields s fields = (.error e, s') →
      (∃ wf ∈ fields, e = .msg ("copyStruct(): could not find original field name for field "
          ++ wf.1.name))
      ∨ (∃ wf ∈ fields, e = .msg ("copyStruct(): could not find original field "
          ++ structTagGet wf.1.tag "original" ++ " for field " ++ wf.1.name))
      ∨ e = .panic "reflect: value does not match its type"
      ∨ ∃ sa t v e0, ∃ wf ∈ fields, copyFn sa t v wf.2 = (.error e0, s')
          ∧ e = e0.wrap "copyStruct(): " := by
  induction fields with
  | nil =>
    intro s s' e h
    simp [copyFields] at h
  | cons wf rest ih =>
    intro s s' e h
    obtain ⟨info, wt⟩ := wf
    rw [copyFields] at h
    split at h
    · simp only [Prod.mk.injEq, Except.error.injEq] at h
      exact Or.inl ⟨(info, wt), List.mem_cons_self _ _, h.1.symm⟩
    · split at h
      · simp only [Prod.mk.injEq, Except.error.injEq] at h
        exact Or.inr (Or.inl ⟨(info, wt), List.mem_cons_self _ _, h.1.symm⟩)
      · split at h
        · simp only [Prod.mk.injEq, Except.error.injEq] at h
          exact Or.inr (Or.inr (Or.inl h.1.symm))
        · split at h
          · rename_i err s1 hc
            simp only [Prod.mk.injEq, Except.error.injEq] at h
            obtain ⟨rfl, rfl⟩ := h
            exact Or.inr (Or.inr (Or.inr ⟨_, _, _, err, (info, wt), List.mem_cons_self _ _, hc, rfl⟩))
          · split at h
            · rename_i err s2 hrest
              simp only [Prod.mk.injEq, Except.error.injEq] at h
              obtain ⟨rfl, rfl⟩ := h
              rcases ih _ _ _ hrest with ⟨x, hx, he⟩ | ⟨x, hx, he⟩ | he | ⟨sa, t, v, e0, x, hx, hc, he⟩
              · exact Or.inl ⟨x, List.mem_cons_of_mem _ hx, he⟩
              · exact Or.inr (Or.inl ⟨x, List.mem_cons_of_mem _ hx, he⟩)
              · exact Or.inr (Or.inr (Or.inl he))
              · exact Or.inr (Or.inr (Or.inr ⟨sa, t, v, e0, x, List.mem_cons_of_mem _ hx, hc, he⟩))
            · simp at h

/-- C29, counterexample: the struct whose field `secret` holds a channel fails
to encode inside that field, and the message of the error of `MarshalJSON`
does not contain `secret`; the slice whose element at position 1 holds a
channel fails to encode inside that element, and the message contains no
digit. -/
theorem error_message_lacks_path :
    (∃ m, MarshalJSON exampleEnv noFloats emptyHeap 6 secretVal [] = .error (.msg m)
      ∧ m = "MarshalJSON: encode(): copyStruct(): encodeToInterfaceValue: encode(): "
          ++ "createEncodedTypeFor: unsupported kind chan for chan"
      ∧ ¬ (Err.msg m).Contains "secret")
    ∧ (∃ m, MarshalJSON exampleEnv noFloats emptyHeap 6 sliceWithChan [] = .error (.msg m)
      ∧ m = "MarshalJSON: encode(): encodeToInterfaceValue: encode(): "
          ++ "createEncodedTypeFor: unsupported kind chan for chan"
      ∧ ∀ c ∈ m.data, c.isDigit = false) := by
  refine ⟨⟨_, by decide!, rfl, ?_⟩, ⟨_, by decide!, rfl, by decide!⟩⟩
  intro h
  have := h.isInfix
  revert this
  decide!

/-- C29, as the code has it: a nested error is wrapped with the name of the
function it passes through, not with the place of the failure.  `copyStruct`
puts the same prefix `copyStruct(): ` before the error of the encoding of any
of its fields; the loop over the elements of a slice or an array returns the
error of the element unchanged; the mirror of a struct puts
`createEncodedTypeFor: ` before the error of the mirror of any field type.
The only messages with a field name are those of `copyStruct` itself for a
field it cannot find.  The ring a, b, c, a fails with a message made of such
prefixes only. -/
theorem errors_wrapped_with_function_names :
    (∀ (env : TypeEnv) (copyFn : CopyFn) (originalT : GoType)
        (originalFields : List (String × Val)) (fields : List (WFieldInfo × WType))
        (s s' : JSONEncoder) (e : Err),
      copyFields env copyFn originalT originalFields s fields = (.error e, s') →
      (∃ wf ∈ fields, e = .msg ("copyStruct(): could not find original field name for field "
          ++ wf.1.name))
      ∨ (∃ wf ∈ fields, e = .msg ("copyStruct(): could not find original field "
          ++ structTagGet wf.1.tag "original" ++ " for field " ++ wf.1.name))
      ∨ e = .panic "reflect: value does not match its type"
      ∨ ∃ sa t v e0, ∃ wf ∈ fields, copyFn sa t v wf.2 = (.error e0, s')
          ∧ e = e0.wrap "copyStruct(): ")
    ∧ (∀ (copyFn : CopyFn) (fromElemT : GoType) (toElemT : WType) (items : List Val)
        (s s' : JSONEncoder) (e : Err),
      copyItems copyFn fromElemT toElemT s items = (.error e, s') →
      ∃ sa, ∃ v ∈ items, copyFn sa fromElemT v toElemT = (.error e, s'))
    ∧ (∀ (mirror : GoType → Except Err WType) (fields : List (FieldInfo × GoType)),
      (retainedNames fields).Nodup →
      (∃ out, mirrorStructFields mirror 0 [] fields = .ok out)
      ∨ ∃ p ∈ fields, isRetained p.1 = true ∧ ∃ e, mirror p.2 = .error e
          ∧ mirrorStructFields mirror 0 [] fields = .error (e.wrap "createEncodedTypeFor: "))
    ∧ MarshalJSON testEnv noFloats cycleHeap 7 (some (.pointer nodeType, .ptr (some ptrA))) []
        = .error (.msg ("MarshalJSON: encode(): encodeToPointerValue: encode(): copyStruct(): "
          ++ "encodeToPointerValue: encode(): copyStruct(): encodeToPointerValue: encode(): "
          ++ "copyStruct(): encodeToPointerValue: cycle detected; "
          ++ "structs with cyclic data are not supported"))
    ∧ MarshalJSON exampleEnv noFloats emptyHeap 6
        (some (.struct (.cons { name := "secret" } (.basic .chan) .nil),
          .struct [("secret", .other)])) []
        = .error (.msg ("MarshalJSON: encode(): createEncodedTypeFor: createEncodedTypeFor: "
          ++ "unsupported kind chan for chan")) := by
  refine ⟨?_, ?_, ?_, by decide!, by decide!⟩
  · intro env copyFn originalT originalFields fields s s' e h
    exact copyFields_error env copyFn originalT originalFields fields s s' e h
  · intro copyFn fromElemT toElemT items s s' e h
    exact copyItems_error copyFn fromElemT toElemT items s s' e h
  · intro mirror fields hnd
    exact mirrorStructFields_nodup mirror fields 0 [] hnd (fun n _ => rfl)

theorem addPointers_succ (n : Nat) : ∀ t : GoType, addPointers (n + 1) t = .pointer (addPointers n t) := by
  induction n with
  | zero => intro t; rfl
  | succ k ih =>
    intro t
    rw [addPointers, ih (.pointer t)]
    rfl

theorem stripPointers_addPointers (env : TypeEnv) (base : GoType) (hb : env.kind base ≠ .pointer)
    (n : Nat) : ∀ (fuel : Nat) (depth : Int), n < fuel →
      stripPointers env fuel (addPointers n base) depth = some (depth + n, base) := by
  induction n with
  | zero =>
    intro fuel depth hf
    obtain ⟨k, rfl⟩ : ∃ k, fuel = k + 1 := ⟨fuel - 1, by omega⟩
    simp [stripPointers, addPointers, hb]
  | succ m ih =>
    intro fuel depth hf
    obtain ⟨k, rfl⟩ : ∃ k, fuel = k + 1 := ⟨fuel - 1, by omega⟩
    rw [addPointers_succ, stripPointers]
    have hk : env.kind (.pointer (addPointers m base)) = .pointer := rfl
    have he : env.elem (.pointer (addPointers m base)) = addPointers m base := rfl
    simp only [hk, if_true, he]
    rw [ih k (depth + 1) (by omega)]
    simp only [Nat.cast_add, Nat.cast_one, Option.some.injEq, Prod.mk.injEq, and_true]
    omega

/-- C30, the code at the failing input `type intPointer *int`, a defined
pointer type: for a concrete type made of pointer layers written `*` over a
base type that is not of pointer kind, the encoder records the number of the
layers and the base type, and adding that many layers to the base type gives
the concrete type back.  The defined type `intPointer` is of pointer kind:
the encoder strips it to `int` with the depth 1, the box of an `intPointer` is
the box of a `*int`, and adding one layer to `int` gives `*int`, which is not
`intPointer`. -/
theorem defined_pointer_type_not_rebuilt :
    (∀ (env : TypeEnv) (base : GoType) (n fuel : Nat), env.kind base ≠ .pointer → n < fuel →
      stripPointers env fuel (addPointers n base) 0 = some ((n : Int), base)
        ∧ addPointers ((n : Int).toNat) base = addPointers n base)
    ∧ pointerEnv.kind (.named intPointerName) = .pointer
    ∧ stripPointers pointerEnv 5 (.named intPointerName) 0 = some (1, .basic .int)
    ∧ addPointers (1 : Int).toNat (.basic .int) = .pointer (.basic .int)
    ∧ addPointers (1 : Int).toNat (.basic .int) ≠ .named intPointerName
    ∧ MarshalJSON pointerEnv noFloats intHeap 6 (sliceOfPointer (.named intPointerName)) []
        = .ok ("\x7b\"value\":[\x7b\"ptrDepth\":1,\"typeName\":\"int\","
            ++ "\"value\":\x7b\"pointer\":1,\"value\":42\x7d\x7d]\x7d")
    ∧ MarshalJSON pointerEnv noFloats intHeap 6 (sliceOfPointer (.pointer (.basic .int))) []
        = MarshalJSON pointerEnv noFloats intHeap 6 (sliceOfPointer (.named intPointerName)) [] := by
  refine ⟨?_, rfl, by decide!, rfl, by decide, by decide!, by decide!⟩
  intro env base n fuel hb hf
  refine ⟨?_, by simp⟩
  have := stripPointers_addPointers env base hb n fuel 0 hf
  simpa using this

/-! ## Theorems: the mirror of a map type -/

/-- The mirror of a type is of a primitive kind exactly when the type is of a
primitive kind and does not implement `json.Marshaler`; the mirror is then the
type itself. -/
theorem createEncodedTypeFor_prim_iff (env : TypeEnv) (fuel : Nat) (t : GoType) (w : WType)
    (h : createEncodedTypeFor env fuel t = .ok w) :
    (isSimplePrimitive (w.kind env) = true ↔
      (env.implementsMarshaler t = false ∧ isSimplePrimitive (env.kind t) = true))
    ∧ (isSimplePrimitive (w.kind env) = true → w = .prim t) := by
  cases fuel with
  | zero => simp [createEncodedTypeFor] at h
  | succ fuel =>
    cases hm : env.implementsMarshaler t with
    | true =>
      rw [createEncodedTypeFor_marshaler env fuel t hm] at h
      simp only [Except.ok.injEq] at h
      subst h
      simp [WType.kind, isSimplePrimitive]
    | false =>
      cases hk : isSimplePrimitive (env.kind t) with
      | true =>
        rw [createEncodedTypeFor_primitive env fuel t hm hk] at h
        simp only [Except.ok.injEq] at h
        subst h
        simp [WType.kind, hk]
      | false =>
        have h1 := createEncodedTypeFor_nonprimitive env (fuel + 1) t w h hk
        simp [h1]

/-- C31: for a map type that does not itself implement `json.Marshaler`,
`createEncodedTypeFor` succeeds exactly when the mirrors of the key type and
of the value type succeed, and the result is the
wire map whose value type is the mirror of the value type and whose key type
is the mirror of the key type when that mirror is of a primitive kind, and
`string` otherwise.  The mirror of the key type is of a primitive kind exactly
when the key type is of a primitive kind and does not implement
`json.Marshaler`, and it is then the key type itself.  Keys that are structs,
arrays, pointers, interfaces, complex numbers or custom-marshalled types give
string keys. -/
theorem map_mirror_key_and_value :
    (∀ (env : TypeEnv) (fuel : Nat) (t : GoType) (keyW valW : WType),
      env.implementsMarshaler t = false → env.kind t = .map →
      createEncodedTypeFor env fuel (env.key t) = .ok keyW →
      createEncodedTypeFor env fuel (env.elem t) = .ok valW →
      createEncodedTypeFor env (fuel + 1) t
        = .ok (.map (if isSimplePrimitive (keyW.kind env) then keyW else stringType) valW))
    ∧ (∀ (env : TypeEnv) (fuel : Nat) (t : GoType) (w : WType),
      env.implementsMarshaler t = false → env.kind t = .map →
      createEncodedTypeFor env (fuel + 1) t = .ok w →
      ∃ keyW valW, createEncodedTypeFor env fuel (env.key t) = .ok keyW
        ∧ createEncodedTypeFor env fuel (env.elem t) = .ok valW
        ∧ w = .map (if isSimplePrimitive (keyW.kind env) then keyW else stringType) valW)
    ∧ (∀ (env : TypeEnv) (fuel : Nat) (keyT : GoType) (keyW : WType),
      createEncodedTypeFor env fuel keyT = .ok keyW →
      (isSimplePrimitive (keyW.kind env) = true ↔
        (env.implementsMarshaler keyT = false ∧ isSimplePrimitive (env.kind keyT) = true))
      ∧ (isSimplePrimitive (keyW.kind env) = true → keyW = .prim keyT))
    ∧ createEncodedTypeFor exampleEnv 2 (.map (.basic .string) (.basic .int))
        = .ok (.map (.prim (.basic .string)) (.prim (.basic .int)))
    ∧ createEncodedTypeFor exampleEnv 2 (.map (.named (localName "stringAlias")) (.basic .int))
        = .ok (.map (.prim (.named (localName "stringAlias"))) (.prim (.basic .int)))
    ∧ createEncodedTypeFor exampleEnv 3 (.map pointType (.slice (.basic .int)))
        = .ok (.map stringType (.slice (.prim (.basic .int))))
    ∧ createEncodedTypeFor exampleEnv 3 (.map (.array 2 (.basic .int)) (.basic .string))
        = .ok (.map stringType (.prim (.basic .string)))
    ∧ createEncodedTypeFor exampleEnv 2 (.map (.pointer (.basic .int)) (.basic .string))
        = .ok (.map stringType (.prim (.basic .string)))
    ∧ createEncodedTypeFor exampleEnv 2 (.map (.basic .interface) (.basic .interface))
        = .ok (.map stringType .interfaceValue)
    ∧ createEncodedTypeFor exampleEnv 2 (.map (.basic .complex128) (.basic .complex64))
        = .ok (.map stringType .complexValue)
    ∧ createEncodedTypeFor exampleEnv 2 (.map customJSONType (.pointer pointType))
        = .ok (.map stringType .pointerValue) := by
  refine ⟨?_, ?_, ?_, rfl, rfl, rfl, rfl, rfl, rfl, rfl, rfl⟩
  · intro env fuel t keyW valW hm hk hkey hval
    rw [createEncodedTypeFor_map env fuel t hm hk, hkey, hval]
    cases hp : isSimplePrimitive (keyW.kind env) <;> simp [hp]
  · intro env fuel t w hm hk h
    rw [createEncodedTypeFor_map env fuel t hm hk] at h
    cases hkey : createEncodedTypeFor env fuel (env.key t) with
    | error e => rw [hkey] at h; simp at h
    | ok keyW =>
      cases hval : createEncodedTypeFor env fuel (env.elem t) with
      | error e => rw [hkey, hval] at h; simp at h
      | ok valW =>
        rw [hkey, hval] at h
        simp only [Except.ok.injEq] at h
        refine ⟨keyW, valW, rfl, rfl, ?_⟩
        rw [← h]
        cases hp : isSimplePrimitive (keyW.kind env) <;> simp [hp]
  · intro env fuel keyT keyW h
    exact createEncodedTypeFor_prim_iff env fuel keyT keyW h

/-! ## Theorems: types that refer to themselves -/

theorem tree_mirror_outOfFuel (fuel : Nat) :
    createEncodedTypeFor recursiveEnv fuel treeType = .error .outOfFuel
    ∧ createEncodedTypeFor recursiveEnv fuel (.slice treeType) = .error .outOfFuel := by
  induction fuel with
  | zero => exact ⟨rfl, rfl⟩
  | succ n ih =>
    constructor
    · rw [createEncodedTypeFor_struct recursiveEnv n treeType rfl rfl]
      have hf : recursiveEnv.fields treeType = [({ name := "children" }, .slice treeType)] := rfl
      rw [hf, mirrorStructFields]
      simp [ih.2, Err.wrap, List.lookup, cutComma]
    · rw [createEncodedTypeFor_slice recursiveEnv n (.slice treeType) rfl rfl]
      have he : recursiveEnv.elem (.slice treeType) = treeType := rfl
      rw [he, ih.1]
      rfl

theorem index_mirror_outOfFuel (fuel : Nat) :
    createEncodedTypeFor recursiveEnv fuel indexType = .error .outOfFuel
    ∧ createEncodedTypeFor recursiveEnv fuel (.map (.basic .string) indexType)
        = .error .outOfFuel := by
  induction fuel with
  | zero => exact ⟨rfl, rfl⟩
  | succ n ih =>
    constructor
    · rw [createEncodedTypeFor_struct recursiveEnv n indexType rfl rfl]
      have hf : recursiveEnv.fields indexType
          = [({ name := "byName" }, .map (.basic .string) indexType)] := rfl
      rw [hf, mirrorStructFields]
      simp [ih.2, Err.wrap, List.lookup, cutComma]
    · cases n with
      | zero => rfl
      | succ k =>
        rw [createEncodedTypeFor_map recursiveEnv (k + 1) (.map (.basic .string) indexType) rfl rfl]
        have he : recursiveEnv.elem (.map (.basic .string) indexType) = indexType := rfl
        have hkey : createEncodedTypeFor recursiveEnv (k + 1)
            (recursiveEnv.key (.map (.basic .string) indexType)) = .ok (.prim (.basic .string)) := rfl
        rw [he, ih.1, hkey]
        rfl

theorem nest_mirror_outOfFuel (fuel : Nat) :
    createEncodedTypeFor recursiveEnv fuel nestType = .error .outOfFuel := by
  induction fuel with
  | zero => rfl
  | succ n ih =>
    rw [createEncodedTypeFor_slice recursiveEnv n nestType rfl rfl]
    have he : recursiveEnv.elem nestType = nestType := rfl
    rw [he, ih]
    rfl

/-- The loop over the fields of a struct does not run out of fuel when the
mirror of no field type does. -/
theorem mirrorStructFields_ne_outOfFuel (mirror : GoType → Except Err WType)
    (fields : List (FieldInfo × GoType)) :
    ∀ (i : Nat) (used : List (String × String)),
      (∀ p ∈ fields, isRetained p.1 = true → mirror p.2 ≠ .error .outOfFuel) →
      mirrorStructFields mirror i used fields ≠ .error .outOfFuel := by
  induction fields with
  | nil =>
    intro i used _
    simp [mirrorStructFields]
  | cons p rest ih =>
    intro i used h
    obtain ⟨field, ft⟩ := p
    have hrest : ∀ q ∈ rest, isRetained q.1 = true → mirror q.2 ≠ .error .outOfFuel :=
      fun q hq => h q (List.mem_cons_of_mem _ hq)
    cases hret : isRetained field with
    | false =>
      rw [mirrorStructFields_skip mirror i used field ft rest hret]
      exact ih _ _ hrest
    | true =>
      have hhead : mirror ft ≠ .error .outOfFuel := h (field, ft) (List.mem_cons_self _ _) hret
      rw [mirrorStructFields_keep mirror i used field ft rest hret]
      split
      · simp
      · split
        · rename_i e he
          intro hcontra
          simp only [Except.error.injEq] at hcontra
          rw [Err.wrap_eq_outOfFuel] at hcontra
          rw [hcontra] at he
          exact hhead he
        · split
          · rename_i e he
            intro hcontra
            simp only [Except.error.injEq] at hcontra
            rw [hcontra] at he
            exact ih _ _ hrest he
          · simp

/-- One fuel with which the mirror of no type of a list runs out of fuel. -/
theorem common_fuel_ne_outOfFuel (env : TypeEnv) (fields : List (FieldInfo × GoType))
    (h : ∀ p ∈ fields, isRetained p.1 = true → ∃ fuel, ∀ more,
      createEncodedTypeFor env (fuel + more) p.2 ≠ .error .outOfFuel) :
    ∃ fuel0, ∀ more, ∀ p ∈ fields, isRetained p.1 = true →
      createEncodedTypeFor env (fuel0 + more) p.2 ≠ .error .outOfFuel := by
  induction fields with
  | nil => exact ⟨0, fun _ p hp => absurd hp (List.not_mem_nil _)⟩
  | cons p rest ih =>
    obtain ⟨f2, h2⟩ := ih (fun q hq => h q (List.mem_cons_of_mem _ hq))
    cases hret : isRetained p.1 with
    | false =>
      refine ⟨f2, fun more q hq hq2 => ?_⟩
      rcases List.mem_cons.1 hq with rfl | hq
      · rw [hret] at hq2; cases hq2
      · exact h2 _ q hq hq2
    | true =>
      obtain ⟨f1, h1⟩ := h p (List.mem_cons_self _ _) hret
      refine ⟨f1 + f2, fun more q hq hq2 => ?_⟩
      rcases List.mem_cons.1 hq with rfl | hq
      · rw [Nat.add_assoc]
        exact h1 _
      · rw [show f1 + f2 + more = f2 + (f1 + more) by omega]
        exact h2 _ q hq hq2

/-- The mirror of a type that needs finitely many nested calls returns, with
enough fuel, a wire type or an error. -/
theorem mirrorable_returns (env : TypeEnv) (t : GoType) (h : Mirrorable env t) :
    ∃ fuel, ∀ more, createEncodedTypeFor env (fuel + more) t ≠ .error .outOfFuel := by
  induction h with
  | leaf t hleaf =>
    refine ⟨1, fun more => ?_⟩
    rw [Nat.add_comm 1 more]
    cases hm : env.implementsMarshaler t with
    | true => rw [createEncodedTypeFor_marshaler env more t hm]; simp
    | false =>
      rcases hleaf with hm2 | ⟨h1, h2, h3, h4⟩
      · rw [hm] at hm2; cases hm2
      · rcases Kind.classify (env.kind t) with hk | hk | hk | hk | hk | hk | hk | hk | hk | hk
        · exact absurd hk h1
        · exact absurd hk h2
        · exact absurd hk h3
        · exact absurd hk h4
        · rw [createEncodedTypeFor_interface env more t hm hk]; simp
        · rw [createEncodedTypeFor_pointer env more t hm hk]; simp
        · rw [createEncodedTypeFor_invalid env more t hm hk]; simp
        · rw [createEncodedTypeFor_unsupported env more t hm hk]; simp
        · rw [createEncodedTypeFor_complex env more t hm hk]; simp
        · rw [createEncodedTypeFor_primitive env more t hm hk]; simp
  | slice t hk _ ih =>
    obtain ⟨f, hf⟩ := ih
    refine ⟨f + 1, fun more => ?_⟩
    rw [show f + 1 + more = (f + more) + 1 by omega]
    cases hm : env.implementsMarshaler t with
    | true => rw [createEncodedTypeFor_marshaler env _ t hm]; simp
    | false =>
      rw [createEncodedTypeFor_slice env _ t hm hk]
      have h0 := hf more
      split
      · rename_i e he
        intro hcontra
        simp only [Except.error.injEq] at hcontra
        rw [Err.wrap_eq_outOfFuel] at hcontra
        rw [hcontra] at he
        exact h0 he
      · simp
  | array t hk _ ih =>
    obtain ⟨f, hf⟩ := ih
    refine ⟨f + 1, fun more => ?_⟩
    rw [show f + 1 + more = (f + more) + 1 by omega]
    cases hm : env.implementsMarshaler t with
    | true => rw [createEncodedTypeFor_marshaler env _ t hm]; simp
    | false =>
      rw [createEncodedTypeFor_array env _ t hm hk]
      have h0 := hf more
      split
      · rename_i e he
        intro hcontra
        simp only [Except.error.injEq] at hcontra
        rw [Err.wrap_eq_outOfFuel] at hcontra
        rw [hcontra] at he
        exact h0 he
      · simp
  | map t hk _ _ ihk ihv =>
    obtain ⟨f1, hf1⟩ := ihk
    obtain ⟨f2, hf2⟩ := ihv
    refine ⟨f1 + f2 + 1, fun more => ?_⟩
    rw [show f1 + f2 + 1 + more = (f1 + f2 + more) + 1 by omega]
    cases hm : env.implementsMarshaler t with
    | true => rw [createEncodedTypeFor_marshaler env _ t hm]; simp
    | false =>
      rw [createEncodedTypeFor_map env _ t hm hk]
      have h1 := hf1 (f2 + more)
      have h2 := hf2 (f1 + more)
      rw [← Nat.add_assoc] at h1
      rw [show f2 + (f1 + more) = f1 + f2 + more by omega] at h2
      split
      · rename_i e he
        intro hcontra
        simp only [Except.error.injEq] at hcontra
        rw [Err.wrap_eq_outOfFuel] at hcontra
        rw [hcontra] at he
        exact h1 he
      · split
        · rename_i e he
          intro hcontra
          simp only [Except.error.injEq] at hcontra
          rw [Err.wrap_eq_outOfFuel] at hcontra
          rw [hcontra] at he
          exact h2 he
        · simp
  | struct t hk _ ih =>
    obtain ⟨f, hf⟩ := common_fuel_ne_outOfFuel env (env.fields t) ih
    refine ⟨f + 1, fun more => ?_⟩
    rw [show f + 1 + more = (f + more) + 1 by omega]
    cases hm : env.implementsMarshaler t with
    | true => rw [createEncodedTypeFor_marshaler env _ t hm]; simp
    | false =>
      rw [createEncodedTypeFor_struct env _ t hm hk]
      have h0 := mirrorStructFields_ne_outOfFuel (createEncodedTypeFor env (f + more))
        (env.fields t) 0 [] (hf more)
      split
      · rename_i e he
        intro hcontra
        simp only [Except.error.injEq] at hcontra
        rw [hcontra] at he
        exact h0 he
      · simp

/-! ## Theorems: pointers that share an address -/

theorem holderHeap_acyclic (addr : Nat) : PointerAcyclic (holderHeap addr) := by
  refine ⟨fun obj => if obj = 1 then 1 else 0, ?_⟩
  intro obj v hv p hp
  unfold holderHeap at hv
  split at hv
  · rename_i h1
    simp only [Option.some.injEq] at hv
    subst hv
    subst h1
    simp [pointersIn, pointersInFields, intVal] at hp
    subst hp
    simp
  · split at hv
    · simp only [Option.some.injEq] at hv
      subst hv
      simp [pointersIn, intVal] at hp
    · cases hv

/-- C33, the code at the failing input.  The struct `h` of type
`struct { first int; self *int }` has `h.self = &h.first`; the memory has no
cycle through pointer edges, since the `int` that `self` points to holds no
pointer.  The field `first` has the address of `h`, and the pending set is
keyed by the address alone, so `MarshalJSON(&h)` finds the address of
`h.self` pending and returns "cycle detected".  With the same `int` at
another address the same value encodes.  Whatever the type and the variable of
a pointer, it is answered with the cycle error when its address is pending and
not in the table. -/
theorem cycle_reported_for_pointer_to_first_field :
    PointerAcyclic (holderHeap 100)
    ∧ MarshalJSON testEnv noFloats (holderHeap 100) 8 holderPointer []
        = .error (.msg ("MarshalJSON: encode(): encodeToPointerValue: encode(): copyStruct(): "
            ++ "encodeToPointerValue: cycle detected; structs with cyclic data are not supported"))
    ∧ MarshalJSON testEnv noFloats (holderHeap 200) 8 holderPointer []
        = .ok ("\x7b\"value\":\x7b\"pointer\":2,\"value\":\x7b\"first\":1,"
            ++ "\"self\":\x7b\"pointer\":1,\"value\":1\x7d\x7d\x7d\x7d")
    ∧ (∀ (env : TypeEnv) (ff : FloatFormat) (heap : Heap) (encode : EncodeFn) (s : JSONEncoder)
        (inT : GoType) (p : Pointer),
      env.kind inT = .pointer → p.addr ≠ 0 → s.pointerValues p.addr = none →
      s.pendingPointers p.addr = true →
      encodeToPointerValue env ff heap encode s inT (.ptr (some p))
        = (.error (.msg cycleMessage), s)) := by
  refine ⟨holderHeap_acyclic 100, by decide!, by decide!, ?_⟩
  intro env ff heap encode s inT p hk ha ht hp
  simp [encodeToPointerValue, hk, ha, ht, hp, cycleMessage]

/-- C34, the code at the failing input.  The table of boxes is keyed by the
address alone.  For `s := point{1, 2}` the value
`struct { whole *point; part *int }{&s, &s.x}` has two pointers of different
types at one address; `MarshalJSON` gives `part` the box of `whole`, with the
reference id 1 and the payload `{"x":1,"y":2}`, while the pointee of `part` is
the `int` 1, which is the payload of `&s.x` when it is encoded alone.  The
pointer to the second field, which has an address of its own, gets its own
box.  Whatever the type and the variable of a pointer, it is answered with the
box that the table holds for its address. -/
theorem box_shared_by_address_alone :
    MarshalJSON exampleEnv noFloats pointHeap 8 (wholeAndPart ptrX) []
        = .ok ("\x7b\"value\":\x7b\"whole\":\x7b\"pointer\":1,\"value\":\x7b\"x\":1,\"y\":2\x7d\x7d,"
            ++ "\"part\":\x7b\"pointer\":1,\"value\":\x7b\"x\":1,\"y\":2\x7d\x7d\x7d\x7d")
    ∧ MarshalJSON exampleEnv noFloats pointHeap 8 (some (.pointer (.basic .int), .ptr (some ptrX))) []
        = .ok "\x7b\"value\":\x7b\"pointer\":1,\"value\":1\x7d\x7d"
    ∧ MarshalJSON exampleEnv noFloats pointHeap 8 (wholeAndPart ptrY) []
        = .ok ("\x7b\"value\":\x7b\"whole\":\x7b\"pointer\":1,\"value\":\x7b\"x\":1,\"y\":2\x7d\x7d,"
            ++ "\"part\":\x7b\"pointer\":2,\"value\":2\x7d\x7d\x7d")
    ∧ (∀ (env : TypeEnv) (ff : FloatFormat) (heap : Heap) (encode : EncodeFn) (s : JSONEncoder)
        (inT : GoType) (p : Pointer) (pv : PointerValue),
      env.kind inT = .pointer → p.addr ≠ 0 → s.pointerValues p.addr = some pv →
      encodeToPointerValue env ff heap encode s inT (.ptr (some p)) = (.ok pv, s)) := by
  refine ⟨by decide!, by decide!, by decide!, ?_⟩
  intro env ff heap encode s inT p pv hk ha ht
  simp [encodeToPointerValue, hk, ha, ht]

/-! ## Theorems: the payload `null` of a pointer that is not nil -/

/-- C35, the code at the failing inputs.  For a pointer that is not nil and
points to a nil interface, `encodeToPointerValue` encodes the pointee to the
nil `*interfaceValue`, which `encoding/json` prints as `null`: the box of the
pointer has the payload `null`, as the box of a nil pointer has.
`MarshalJSON` of a pointer to a nil map and of a pointer to a nil interface is
`{"value":{"pointer":1,"value":null}}`.  `decodeFromPointerValue` answers
every box with the payload `null`, for every destination of pointer kind, by
returning without an error and without a change of the decoder or of the
memory, so that a destination that holds the nil pointer still holds it. -/
theorem nil_pointee_gives_null_payload :
    (∀ (env : TypeEnv) (ff : FloatFormat) (heap : Heap) (fuel : Nat) (s : JSONEncoder)
        (inT : GoType) (p : Pointer),
      env.kind inT = .pointer → env.marshaler (env.elem inT) = none →
      env.kind (env.elem inT) = .interface → p.addr ≠ 0 → s.pointerValues p.addr = none →
      s.pendingPointers p.addr = false → heap p.obj = some (.iface none) →
      ∃ s', encodeToPointerValue env ff heap (encode env ff heap (fuel + 1)) s inT (.ptr (some p))
          = (.ok { pointer := s.pointerIndex + 1, value := Json.null }, s'))
    ∧ MarshalJSON testEnv noFloats nilMapHeap 4
          (some (.pointer (.map (.basic .string) (.basic .int)), .ptr (some ptrA))) []
        = .ok "\x7b\"value\":\x7b\"pointer\":1,\"value\":null\x7d\x7d"
    ∧ MarshalJSON testEnv noFloats nilInterfaceHeap 4
          (some (.pointer (.basic .interface), .ptr (some ptrA))) []
        = .ok "\x7b\"value\":\x7b\"pointer\":1,\"value\":null\x7d\x7d"
    ∧ MarshalJSON testEnv noFloats nilInterfaceHeap 4
          (some (.pointer (.basic .interface), .ptr none)) []
        = .ok "\x7b\"value\":\x7b\"pointer\":1,\"value\":null\x7d\x7d"
    ∧ (∀ (env : TypeEnv) (fuel : Nat) (unmarshal : Json → WType → Except String Wire)
        (decodeTo : DecodeToFn) (s : JSONDecoder) (m : Memory) (pv : PointerValue)
        (outT : GoType) (out : Nat),
      env.kind outT = .pointer → pv.value.isNull = true →
      decodeFromPointerValue env fuel unmarshal decodeTo s m (.pointerValue pv) outT out
        = (.ok (), s, m))
    ∧ (decodeFromPointerValue testEnv 4 unmarshalOne decodeToNothing NewJSONDecoder oneNilPointer
        (.pointerValue { pointer := 1, value := Json.null }) (.pointer (.basic .interface)) 0).2.2.slots 0
        = some none := by
  refine ⟨?_, by decide!, by decide!, by decide!, ?_, rfl⟩
  · intro env ff heap fuel s inT p hk hm hki ha ht hp hheap
    have hmirror : encodedTypeFor env (fuel + 1) (env.elem inT) = .ok .interfaceValue :=
      createEncodedTypeFor_interface env fuel _ (by simp [TypeEnv.implementsMarshaler, hm]) hki
    have henc : ∀ s1, encode env ff heap (fuel + 1) s1 (env.elem inT) (.iface none)
        = (.ok (.interfaceValue none), s1) := by
      intro s1
      simp [encode, encodeWith, hmirror, encodeTo, hm, isPointerValueType, isInterfaceValueType,
        encodeToInterfaceValue, hki]
    simp [encodeToPointerValue, hk, ha, ht, hp, hheap, henc, jsonMarshalInternal, jsonMarshal]
  · intro env fuel unmarshal decodeTo s m pv outT out hk hnull
    simp [decodeFromPointerValue, hk, hnull]

/-! ## Theorems: the type of the keys of a wire map -/

/-- The key type of the mirror of a map type, from the mirror of the key
type. -/
theorem createEncodedTypeFor_map_key (env : TypeEnv) (fuel : Nat) (t : GoType)
    (keyW valW : WType) (hm : env.implementsMarshaler t = false) (hk : env.kind t = .map)
    (h : createEncodedTypeFor env fuel t = .ok (.map keyW valW)) :
    (env.implementsMarshaler (env.key t) = false ∧ isSimplePrimitive (env.kind (env.key t)) = true
      ∧ keyW = .prim (env.key t))
    ∨ ((env.implementsMarshaler (env.key t) = true
        ∨ isSimplePrimitive (env.kind (env.key t)) = false) ∧ keyW = stringType) := by
  cases fuel with
  | zero => simp [createEncodedTypeFor] at h
  | succ fuel =>
    rw [createEncodedTypeFor_map env fuel t hm hk] at h
    cases hkey : createEncodedTypeFor env fuel (env.key t) with
    | error e => rw [hkey] at h; simp at h
    | ok keyW0 =>
      cases hval : createEncodedTypeFor env fuel (env.elem t) with
      | error e => rw [hkey, hval] at h; simp at h
      | ok valW0 =>
        rw [hkey, hval] at h
        simp only [Except.ok.injEq, WType.map.injEq] at h
        obtain ⟨hkw, _⟩ := h
        have hiff := createEncodedTypeFor_prim_iff env fuel (env.key t) keyW0 hkey
        cases hp : isSimplePrimitive (keyW0.kind env) with
        | true =>
          rw [hp] at hkw
          simp only [Bool.not_true, Bool.false_eq_true, if_false] at hkw
          obtain ⟨h1, h2⟩ := hiff.1.1 hp
          exact Or.inl ⟨h1, h2, by rw [← hkw]; exact hiff.2 hp⟩
        | false =>
          rw [hp] at hkw
          simp only [Bool.not_false, if_true] at hkw
          refine Or.inr ⟨?_, hkw.symm⟩
          cases hm2 : env.implementsMarshaler (env.key t) with
          | true => exact Or.inl rfl
          | false =>
            refine Or.inr ?_
            cases hk2 : isSimplePrimitive (env.kind (env.key t)) with
            | false => rfl
            | true =>
              have := hiff.1.2 ⟨hm2, hk2⟩
              rw [hp] at this
              cases this

/-- C36, the code at the failing input `type label string` with a method
`MarshalJSON`.  The mirror of `map[label]int` is `map[string]int`, because the
mirror of `label` is `json.RawMessage`; the map branch of `encodeTo` looks at
the kind of the key, which is primitive, and inserts the key as it is, a
`label`, which is not assignable to `string`: `SetMapIndex` panics.  The same
holds for every key type of primitive kind other than `string` that
implements `json.Marshaler`.  For a key type that does not implement
`json.Marshaler`, every key the encoder makes has the key type of the wire
map, which is the key type itself when its kind is primitive and `string`
otherwise. -/
theorem marshaler_key_of_primitive_kind_not_assignable :
    encodedTypeFor labelEnv 2 (.map labelType (.basic .int))
        = .ok (.map stringType (.prim (.basic .int)))
    ∧ MarshalJSON labelEnv noFloats emptyHeap 8 labelMap []
        = .error (.panic "reflect.Value.SetMapIndex: value is not assignable to the key type")
    ∧ MarshalJSON labelEnv noFloats emptyHeap 8 plainMap [] = .ok "\x7b\"value\":\x7b\"a\":1\x7d\x7d"
    ∧ (∀ (env : TypeEnv) (ff : FloatFormat) (encode : EncodeFn) (fuel : Nat) (t : GoType)
        (keyW valW : WType) (s s1 : JSONEncoder) (p : Prim) (v : Val) (w : Wire)
        (rest : List (Val × Val)) (acc : List (Wire × Wire)),
      env.implementsMarshaler t = false → env.kind t = .map →
      createEncodedTypeFor env fuel t = .ok (.map keyW valW) →
      env.implementsMarshaler (env.key t) = true →
      isSimplePrimitive (env.kind (env.key t)) = true → env.key t ≠ .basic .string →
      encode s (env.elem t) v = (.ok w, s1) →
      keyW = stringType
      ∧ encodeMapKey env ff encode s (env.key t) (.prim p) = (.ok (.prim (env.key t) p), s)
      ∧ encodeMapEntries env ff encode (env.key t) (env.elem t) keyW s ((.prim p, v) :: rest) acc
          = (.error (.panic "reflect.Value.SetMapIndex: value is not assignable to the key type"),
              s1))
    ∧ (∀ (env : TypeEnv) (ff : FloatFormat) (encode : EncodeFn) (fuel : Nat) (t : GoType)
        (keyW valW : WType) (s s' : JSONEncoder) (k : Val) (wk : Wire),
      env.implementsMarshaler t = false → env.kind t = .map →
      createEncodedTypeFor env fuel t = .ok (.map keyW valW) →
      env.implementsMarshaler (env.key t) = false →
      encodeMapKey env ff encode s (env.key t) k = (.ok wk, s') →
      ∃ T p, wk = .prim T p ∧ keyW = .prim T
        ∧ T = if isSimplePrimitive (env.kind (env.key t)) then env.key t else .basic .string) := by
  refine ⟨rfl, by decide!, by decide!, ?_, ?_⟩
  · intro env ff encode fuel t keyW valW s s1 p v w rest acc hm hk h hm2 hk2 hne henc
    have hkw : keyW = stringType := by
      rcases createEncodedTypeFor_map_key env fuel t keyW valW hm hk h with ⟨h1, _, _⟩ | ⟨_, h2⟩
      · rw [hm2] at h1; cases h1
      · exact h2
    have hkey : encodeMapKey env ff encode s (env.key t) (.prim p)
        = (.ok (.prim (env.key t) p), s) := by
      simp [encodeMapKey, hk2]
    refine ⟨hkw, hkey, ?_⟩
    rw [encodeMapEntries, hkey]
    simp [henc, hkw, stringType, hne.symm]
  · intro env ff encode fuel t keyW valW s s' k wk hm hk h hm2 henc
    rcases createEncodedTypeFor_map_key env fuel t keyW valW hm hk h with ⟨_, h2, h3⟩ | ⟨h1, h3⟩
    · unfold encodeMapKey at henc
      simp only [h2, Bool.not_true, Bool.false_eq_true, if_false] at henc
      split at henc
      · rename_i p
        simp only [Prod.mk.injEq, Except.ok.injEq] at henc
        exact ⟨_, p, henc.1.symm, h3, by simp [h2]⟩
      · simp at henc
    · have hk2 : isSimplePrimitive (env.kind (env.key t)) = false := by
        rcases h1 with h1 | h1
        · rw [hm2] at h1; cases h1
        · exact h1
      obtain ⟨_, doc, _, _, hkey⟩ := encodeMapKey_nonprimitive env ff encode s s' _ k wk hk2 henc
      exact ⟨_, _, hkey, h3, by simp [hk2]⟩

/-! ## Theorems: the tag `original` of a wire field -/

theorem structTagLookup_space (n : Nat) (tag key : List Char) :
    structTagLookup (n + 1) (' ' :: tag) key = structTagLookup (n + 1) tag key := by
  rw [structTagLookup, structTagLookup]
  simp [List.dropWhile_cons]

/-- What `copyStruct` reads as the tag `original` of a wire field is the
declared name of the field, when the `json` tag the mirror wrote has no double
quote and no backslash and the name has no line break, double quote or
backslash. -/
theorem structTagGet_wireTag_original (field : FieldInfo)
    (h : ∀ c ∈ (wireJsonTagOf field).data, c ≠ dquote ∧ c ≠ backslash)
    (hn : ∀ c ∈ field.name.data, c ≠ '\n' ∧ c ≠ dquote ∧ c ≠ backslash) :
    structTagGet (wireTagOf field) "original" = field.name := by
  have hd : (wireTagOf field).data
      = ('j' :: ['s', 'o', 'n']) ++ ':' :: dquote
        :: ((wireJsonTagOf field).data
          ++ dquote :: (" original:\"".data ++ field.name.data ++ [dquote])) := by
    simp [wireTagOf, dquote]
  have hrest : " original:\"".data ++ field.name.data ++ [dquote]
      = ' ' :: (('o' :: ['r', 'i', 'g', 'i', 'n', 'a', 'l']) ++ ':' :: dquote
          :: (field.name.data ++ dquote :: [])) := by
    simp [dquote]
  have hlen : ∃ k, (wireTagOf field).length = k + 2 := by
    refine ⟨(wireTagOf field).length - 2, ?_⟩
    have hl : (wireTagOf field).length = "json:\"".length + (wireJsonTagOf field).length
        + "\" original:\"".length + field.name.length + "\"".length := by
      simp [wireTagOf, String.length_append]
    have h6 : "json:\"".length = 6 := by decide
    omega
  obtain ⟨k, hk⟩ := hlen
  unfold structTagGet
  rw [hk, hd, structTagLookup_head _ 'j' ['s', 'o', 'n'] _ _ _ (by decide) (by decide) h]
  have hkey : "original".data = ['o', 'r', 'i', 'g', 'i', 'n', 'a', 'l'] := by decide
  rw [hkey, if_neg (by decide), hrest, structTagLookup_space,
    structTagLookup_head _ 'o' ['r', 'i', 'g', 'i', 'n', 'a', 'l'] _ _ _ (by decide) (by decide)
      (fun d hd => ⟨(hn d hd).2.1, (hn d hd).2.2⟩),
    if_pos rfl, unquoteBody_clean _ hn]

/-! ## Theorems: the type of a registered target -/

/-- C38, the code at the failing input.  A fresh encoder gives the first
pointer it encodes the id 1, so the documents of `MarshalJSON(&s)` for a
string `s` and of `MarshalJSON(&i)` for an int `i` both hold a box with the
id 1.  A decoder that has decoded the first into a `*string` has registered
that destination for the id 1; `decodeFromPointerValue` looks the id of the
second box up without looking at the type of the registered destination, and
`Set` of a `*string` to the destination of type `*int` panics.  In general a
box whose id is registered for a destination of a type that is not assignable
to the type of the new destination makes the function panic, whatever
`decodeTo` and `json.Unmarshal` do; the assignment succeeds when the type is
assignable. -/
theorem registered_target_of_other_type_panics :
    MarshalJSON testEnv noFloats stringHeap 4 (some (.pointer (.basic .string), .ptr (some ptrA))) []
        = .ok "\x7b\"value\":\x7b\"pointer\":1,\"value\":\"one\"\x7d\x7d"
    ∧ MarshalJSON testEnv noFloats intHeap 4 (some (.pointer (.basic .int), .ptr (some ptrA))) []
        = .ok "\x7b\"value\":\x7b\"pointer\":1,\"value\":42\x7d\x7d"
    ∧ (decodeSequence testEnv 4 unmarshalRaw decodeToNothing NewJSONDecoder twoNilPointers
        (twoEncoderCalls.take 1)).1 = .ok ()
    ∧ (decodeSequence testEnv 4 unmarshalRaw decodeToNothing NewJSONDecoder twoNilPointers
        (twoEncoderCalls.take 1)).2.1.pointerValues 1 = some (.pointer (.basic .string), 0)
    ∧ (decodeSequence testEnv 4 unmarshalRaw decodeToNothing NewJSONDecoder twoNilPointers
        twoEncoderCalls).1
        = .error (.panic "reflect.Set: value is not assignable to the destination type")
    ∧ (∀ (env : TypeEnv) (fuel : Nat) (unmarshal : Json → WType → Except String Wire)
        (decodeTo : DecodeToFn) (s : JSONDecoder) (m : Memory) (pv : PointerValue)
        (outT valT : GoType) (out val : Nat),
      env.kind outT = .pointer → pv.value.isNull = false →
      s.pointerValues pv.pointer = some (valT, val) → assignableTo env valT outT = false →
      decodeFromPointerValue env fuel unmarshal decodeTo s m (.pointerValue pv) outT out
        = (.error (.panic "reflect.Set: value is not assignable to the destination type"), s, m))
    ∧ (∀ (env : TypeEnv) (fuel : Nat) (unmarshal : Json → WType → Except String Wire)
        (decodeTo : DecodeToFn) (s : JSONDecoder) (m : Memory) (pv : PointerValue)
        (outT valT : GoType) (out val : Nat),
      env.kind outT = .pointer → pv.value.isNull = false →
      s.pointerValues pv.pointer = some (valT, val) → assignableTo env valT outT = true →
      decodeFromPointerValue env fuel unmarshal decodeTo s m (.pointerValue pv) outT out
        = (.ok (), s, { m with slots := Function.update m.slots out (m.slots val) }))
    ∧ (∀ (env : TypeEnv) (fuel : Nat) (unmarshal : Json → WType → Except String Wire)
        (decodeTo : DecodeToFn) (s s' : JSONDecoder) (m m' : Memory) (pv : PointerValue)
        (outT : GoType) (out : Nat),
      pv.value.isNull = false → s.pointerValues pv.pointer = none →
      decodeFromPointerValue env fuel unmarshal decodeTo s m (.pointerValue pv) outT out
        = (.ok (), s', m') →
      s'.pointerValues pv.pointer = some (outT, out)) := by
  refine ⟨by decide!, by decide!, rfl, rfl, rfl, ?_, ?_, ?_⟩
  · intro env fuel unmarshal decodeTo s m pv outT valT out val hk hnull hreg hassign
    simp [decodeFromPointerValue, hk, hnull, hreg, hassign]
  · intro env fuel unmarshal decodeTo s m pv outT valT out val hk hnull hreg hassign
    simp [decodeFromPointerValue, hk, hnull, hreg, hassign]
  · intro env fuel unmarshal decodeTo s s' m m' pv outT out hnull hreg h
    unfold decodeFromPointerValue at h
    dsimp only at h
    repeat' split at h
    all_goals simp only [Prod.mk.injEq, reduceCtorEq, false_and] at h
    all_goals try (rw [hnull] at *; contradiction)
    all_goals try (rw [hreg] at *; contradiction)
    obtain ⟨_, rfl, _⟩ := h
    simp

/-! ## Theorems: slices and maps that contain themselves -/

theorem encodedTypeFor_anySlice (env : TypeEnv) (fuel : Nat)
    (hm1 : env.marshaler anySliceType = none) (hm2 : env.marshaler (.basic .interface) = none) :
    encodedTypeFor env (fuel + 2) anySliceType = .ok (.slice .interfaceValue) := by
  have h1 : createEncodedTypeFor env (fuel + 1) (.basic .interface) = .ok .interfaceValue :=
    createEncodedTypeFor_interface env fuel _ (by simp [TypeEnv.implementsMarshaler, hm2]) rfl
  unfold encodedTypeFor
  rw [createEncodedTypeFor_slice env (fuel + 1) anySliceType
    (by simp [TypeEnv.implementsMarshaler, hm1]) rfl]
  have he : env.elem anySliceType = .basic .interface := rfl
  rw [he, h1]

theorem encodedTypeFor_anySlice_small (env : TypeEnv) (fuel : Nat) (hf : fuel ≤ 1)
    (hm1 : env.marshaler anySliceType = none) :
    encodedTypeFor env fuel anySliceType = .error .outOfFuel := by
  unfold encodedTypeFor
  rcases Nat.le_one_iff_eq_zero_or_eq_one.1 hf with rfl | rfl
  · rfl
  · rw [createEncodedTypeFor_slice env 0 anySliceType
      (by simp [TypeEnv.implementsMarshaler, hm1]) rfl]
    rfl

/-- The traversal of the slice that contains itself reaches every bound on
the depth of the nested calls. -/
theorem encode_selfSlice (env : TypeEnv) (ff : FloatFormat) (heap : Heap) (bottom : Val)
    (hm1 : env.marshaler anySliceType = none) (hm2 : env.marshaler (.basic .interface) = none) :
    ∀ (n fuel : Nat) (s : JSONEncoder), fuel ≤ 2 * n + 1 →
      encode env ff heap fuel s anySliceType (selfSlice bottom n) = (.error .outOfFuel, s) := by
  have hsmall : ∀ (fuel : Nat) (s : JSONEncoder) (v : Val), fuel ≤ 1 →
      encode env ff heap fuel s anySliceType v = (.error .outOfFuel, s) := by
    intro fuel s v hf
    simp [encode, encodeWith, encodedTypeFor_anySlice_small env fuel hf hm1, Err.wrap]
  intro n
  induction n with
  | zero =>
    intro fuel s hf
    exact hsmall fuel s _ (by omega)
  | succ n ih =>
    intro fuel s hf
    rcases Nat.lt_or_ge fuel 2 with hlt | hge
    · exact hsmall fuel s _ (by omega)
    · obtain ⟨f, rfl⟩ : ∃ f, fuel = f + 2 := ⟨fuel - 2, by omega⟩
      have ih0 := ih f s (by omega)
      unfold encode at ih0
      have hk1 : env.kind anySliceType = .slice := rfl
      have hk2 : env.kind (.basic .interface) = .interface := rfl
      have he : env.elem anySliceType = .basic .interface := rfl
      have hinner : encodeTo env ff heap (f + 1) s (.basic .interface)
          (.iface (some (anySliceType, selfSlice bottom n))) .interfaceValue
          = (.error .outOfFuel, s) := by
        rw [encodeTo]
        simp [hm2, isPointerValueType, isInterfaceValueType, encodeToInterfaceValue, hk2, ih0,
          Err.wrap]
      have houter : encodeTo env ff heap (f + 2) s anySliceType (selfSlice bottom (n + 1))
          (.slice .interfaceValue) = (.error .outOfFuel, s) := by
        rw [encodeTo]
        simp [hm1, isPointerValueType, isInterfaceValueType, isComplexValueType, hk1, WType.kind,
          copyCommon, isSimplePrimitive, copyArrayLike, selfSlice, copyItems, he, hinner]
      simp [encode, encodeWith, encodedTypeFor_anySlice env f hm1 hm2, houter, Err.wrap]

theorem encodedTypeFor_anyMap (env : TypeEnv) (fuel : Nat)
    (hm1 : env.marshaler anyMapType = none) (hm2 : env.marshaler (.basic .interface) = none)
    (hm3 : env.marshaler (.basic .string) = none) :
    encodedTypeFor env (fuel + 2) anyMapType
      = .ok (.map (.prim (.basic .string)) .interfaceValue) := by
  have h1 : createEncodedTypeFor env (fuel + 1) (.basic .interface) = .ok .interfaceValue :=
    createEncodedTypeFor_interface env fuel _ (by simp [TypeEnv.implementsMarshaler, hm2]) rfl
  have h2 : createEncodedTypeFor env (fuel + 1) (.basic .string) = .ok (.prim (.basic .string)) :=
    createEncodedTypeFor_primitive env fuel _ (by simp [TypeEnv.implementsMarshaler, hm3]) rfl
  unfold encodedTypeFor
  rw [createEncodedTypeFor_map env (fuel + 1) anyMapType
    (by simp [TypeEnv.implementsMarshaler, hm1]) rfl]
  have he : env.elem anyMapType = .basic .interface := rfl
  have hk : env.key anyMapType = .basic .string := rfl
  rw [he, hk, h1, h2]
  rfl

theorem encodedTypeFor_anyMap_small (env : TypeEnv) (fuel : Nat) (hf : fuel ≤ 1)
    (hm1 : env.marshaler anyMapType = none) :
    encodedTypeFor env fuel anyMapType = .error .outOfFuel := by
  unfold encodedTypeFor
  rcases Nat.le_one_iff_eq_zero_or_eq_one.1 hf with rfl | rfl
  · rfl
  · rw [createEncodedTypeFor_map env 0 anyMapType
      (by simp [TypeEnv.implementsMarshaler, hm1]) rfl]
    rfl

/-- The traversal of the map that contains itself reaches every bound on the
depth of the nested calls. -/
theorem encode_selfMap (env : TypeEnv) (ff : FloatFormat) (heap : Heap) (bottom : Val)
    (hm1 : env.marshaler anyMapType = none) (hm2 : env.marshaler (.basic .interface) = none)
    (hm3 : env.marshaler (.basic .string) = none) :
    ∀ (n fuel : Nat) (s : JSONEncoder), fuel ≤ 2 * n + 1 →
      encode env ff heap fuel s anyMapType (selfMap bottom n) = (.error .outOfFuel, s) := by
  have hsmall : ∀ (fuel : Nat) (s : JSONEncoder) (v : Val), fuel ≤ 1 →
      encode env ff heap fuel s anyMapType v = (.error .outOfFuel, s) := by
    intro fuel s v hf
    simp [encode, encodeWith, encodedTypeFor_anyMap_small env fuel hf hm1, Err.wrap]
  intro n
  induction n with
  | zero =>
    intro fuel s hf
    exact hsmall fuel s _ (by omega)
  | succ n ih =>
    intro fuel s hf
    rcases Nat.lt_or_ge fuel 2 with hlt | hge
    · exact hsmall fuel s _ (by omega)
    · obtain ⟨f, rfl⟩ : ∃ f, fuel = f + 2 := ⟨fuel - 2, by omega⟩
      have ih0 := ih f s (by omega)
      unfold encode at ih0
      have hk1 : env.kind anyMapType = .map := rfl
      have hk2 : env.kind (.basic .interface) = .interface := rfl
      have hk3 : env.kind (.basic .string) = .string := rfl
      have he : env.elem anyMapType = .basic .interface := rfl
      have hkey : env.key anyMapType = .basic .string := rfl
      have hmirror : encodedTypeFor env (f + 1) (.basic .interface) = .ok .interfaceValue :=
        createEncodedTypeFor_interface env f _ (by simp [TypeEnv.implementsMarshaler, hm2]) rfl
      have hinner : encodeTo env ff heap (f + 1) s (.basic .interface)
          (.iface (some (anyMapType, selfMap bottom n))) .interfaceValue
          = (.error .outOfFuel, s) := by
        rw [encodeTo]
        simp [hm2, isPointerValueType, isInterfaceValueType, encodeToInterfaceValue, hk2, ih0,
          Err.wrap]
      have hval : encodeWith env (f + 1) (encodeTo env ff heap (f + 1)) s (.basic .interface)
          (.iface (some (anyMapType, selfMap bottom n))) = (.error .outOfFuel, s) := by
        simp [encodeWith, hmirror, hinner, Err.wrap]
      have houter : encodeTo env ff heap (f + 2) s anyMapType (selfMap bottom (n + 1))
          (.map (.prim (.basic .string)) .interfaceValue) = (.error .outOfFuel, s) := by
        rw [encodeTo]
        simp [hm1, isPointerValueType, isInterfaceValueType, isComplexValueType, hk1, WType.kind,
          selfMap, encodeMapEntries, encodeMapKey, hkey, he, hk3, isSimplePrimitive, hval]
      simp [encode, encodeWith, encodedTypeFor_anyMap env f hm1 hm2 hm3, houter, Err.wrap]

/-- C40, the code at the failing inputs.  The pending set tells cycles through
pointers only.  For `s := make([]any, 1); s[0] = s` the encoding of the slice
asks for the encoding of its element, an interface, which asks for the
encoding of the value it holds, the slice again: no call of
`encodeToPointerValue` is on the way.  A value of the model is a finite tree,
so the slice is given by what it looks like down to any level `n`,
`selfSlice bottom n`: the traversal to the depth `fuel` of a value that agrees
with the slice down to a level `n` with `fuel ≤ 2 * n + 1` reaches the bound
of the depth, whatever stands below that level, so the traversal of the slice
itself reaches every bound.  The same holds for
`m := map[string]any{}; m["self"] = m`.  A slice nested twice encodes, and a
node that points to itself is rejected with the error of a cycle. -/
theorem slice_that_contains_itself_never_finishes :
    (∀ (env : TypeEnv) (ff : FloatFormat) (heap : Heap) (bottom : Val) (n fuel : Nat)
        (s : JSONEncoder),
      env.marshaler anySliceType = none → env.marshaler (.basic .interface) = none →
      fuel ≤ 2 * n + 1 →
      encode env ff heap fuel s anySliceType (selfSlice bottom n) = (.error .outOfFuel, s))
    ∧ (∀ (env : TypeEnv) (ff : FloatFormat) (heap : Heap) (bottom : Val) (n fuel : Nat)
        (s : JSONEncoder),
      env.marshaler anyMapType = none → env.marshaler (.basic .interface) = none →
      env.marshaler (.basic .string) = none → fuel ≤ 2 * n + 1 →
      encode env ff heap fuel s anyMapType (selfMap bottom n) = (.error .outOfFuel, s))
    ∧ (∀ (ff : FloatFormat) (heap : Heap) (bottom : Val) (fuel : Nat)
        (options : List MarshalJSONOption),
      MarshalJSON testEnv ff heap fuel (some (anySliceType, selfSlice bottom fuel)) options
        = .error .outOfFuel)
    ∧ (∀ (ff : FloatFormat) (heap : Heap) (bottom : Val) (fuel : Nat)
        (options : List MarshalJSONOption),
      MarshalJSON testEnv ff heap fuel (some (anyMapType, selfMap bottom fuel)) options
        = .error .outOfFuel)
    ∧ MarshalJSON testEnv noFloats emptyHeap 8 (some (anySliceType, selfSlice (.slice none) 2)) []
        = .ok ("\x7b\"value\":[\x7b\"typeString\":\"[]interface \x7b\x7d\",\"value\":"
            ++ "[\x7b\"typeString\":\"[]interface \x7b\x7d\",\"value\":null\x7d]\x7d]\x7d")
    ∧ MarshalJSON testEnv noFloats selfHeap 8 (some (.pointer nodeType, .ptr (some ptrA))) []
        = .error (.msg ("MarshalJSON: encode(): encodeToPointerValue: encode(): copyStruct(): "
            ++ "encodeToPointerValue: cycle detected; structs with cyclic data are not supported"))
    := by
  refine ⟨?_, ?_, ?_, ?_, by decide!, by decide!⟩
  · intro env ff heap bottom n fuel s hm1 hm2 hf
    exact encode_selfSlice env ff heap bottom hm1 hm2 n fuel s hf
  · intro env ff heap bottom n fuel s hm1 hm2 hm3 hf
    exact encode_selfMap env ff heap bottom hm1 hm2 hm3 n fuel s hf
  · intro ff heap bottom fuel options
    have h := encode_selfSlice testEnv ff heap bottom rfl rfl fuel fuel (NewJSONEncoder options)
      (by omega)
    simp [MarshalJSON, Encode, h, Err.wrap]
  · intro ff heap bottom fuel options
    have h := encode_selfMap testEnv ff heap bottom rfl rfl rfl fuel fuel (NewJSONEncoder options)
      (by omega)
    simp [MarshalJSON, Encode, h, Err.wrap]

/-! ## Theorems: the order in which the entries of a map are visited -/

theorem insertMember_perm (m : String × Json) (l : List (String × Json)) :
    (insertMember m l).Perm (m :: l) := by
  induction l with
  | nil => simp [insertMember]
  | cons x rest ih =>
    rw [insertMember]
    split
    · exact List.Perm.refl _
    · exact (List.Perm.cons x ih).trans (List.Perm.swap m x rest)

theorem insertMember_sorted (m : String × Json) (l : List (String × Json))
    (hs : l.Pairwise (fun a b => a.1 < b.1)) (hne : ∀ x ∈ l, x.1 ≠ m.1) :
    (insertMember m l).Pairwise (fun a b => a.1 < b.1) := by
  induction l with
  | nil => simp [insertMember]
  | cons x rest ih =>
    rw [List.pairwise_cons] at hs
    obtain ⟨hx, hrest⟩ := hs
    rw [insertMember]
    split
    · rename_i hlt
      refine List.Pairwise.cons ?_ (List.Pairwise.cons hx hrest)
      intro y hy
      rcases List.mem_cons.1 hy with rfl | hy
      · exact hlt
      · exact lt_trans hlt (hx y hy)
    · rename_i hnlt
      have hxm : x.1 < m.1 :=
        lt_of_le_of_ne (not_lt.1 hnlt) (hne x (List.mem_cons_self _ _))
      refine List.Pairwise.cons ?_ (ih hrest (fun y hy => hne y (List.mem_cons_of_mem _ hy)))
      intro z hz
      rcases List.mem_cons.1 ((insertMember_perm m rest).mem_iff.1 hz) with rfl | hz
      · exact hxm
      · exact hx z hz

/-- The members of an object, inserted one after the other into a list sorted
by key. -/
theorem foldr_insertMember_spec (l : List (String × Json)) (hnd : (l.map Prod.fst).Nodup) :
    (l.foldr insertMember []).Perm l
      ∧ (l.foldr insertMember []).Pairwise (fun a b => a.1 < b.1) := by
  induction l with
  | nil => simp
  | cons m rest ih =>
    rw [List.map_cons, List.nodup_cons] at hnd
    obtain ⟨hm, hrest⟩ := hnd
    obtain ⟨hp, hs⟩ := ih hrest
    rw [List.foldr_cons]
    refine ⟨(insertMember_perm m _).trans (List.Perm.cons m hp), insertMember_sorted m _ hs ?_⟩
    intro x hx heq
    exact hm (List.mem_map.2 ⟨x, hp.mem_iff.1 hx, heq⟩)

/-- The sorted list of the members does not depend on the order in which they
are inserted, when their keys are different. -/
theorem foldr_insertMember_perm (l l' : List (String × Json)) (hp : l.Perm l')
    (hnd : (l.map Prod.fst).Nodup) :
    l.foldr insertMember [] = l'.foldr insertMember [] := by
  have hnd' : (l'.map Prod.fst).Nodup := (hp.map Prod.fst).nodup_iff.1 hnd
  obtain ⟨hp1, hs1⟩ := foldr_insertMember_spec l hnd
  obtain ⟨hp2, hs2⟩ := foldr_insertMember_spec l' hnd'
  have hperm : (l.foldr insertMember []).Perm (l'.foldr insertMember []) :=
    (hp1.trans hp).trans hp2.symm
  haveI : IsAntisymm (String × Json) (fun a b => a.1 < b.1) :=
    ⟨fun a b hab hba => absurd hab (lt_asymm hba)⟩
  exact List.eq_of_perm_of_sorted hperm hs1 hs2

theorem wireMapSet_fresh (key val : Wire) (acc : List (Wire × Wire))
    (h : ∀ x ∈ acc, wireKeyEq x.1 key = false) :
    wireMapSet key val acc = acc ++ [(key, val)] := by
  induction acc with
  | nil => rfl
  | cons x rest ih =>
    obtain ⟨k, v⟩ := x
    rw [wireMapSet]
    have hk : wireKeyEq k key = false := h (k, v) (List.mem_cons_self _ _)
    simp only [hk, Bool.false_eq_true, if_false, List.cons_append, List.cons.injEq, true_and]
    exact ih (fun y hy => h y (List.mem_cons_of_mem _ hy))

/-- Setting entries with different string keys, one after the other, appends
them to the wire map. -/
theorem wireMapSetAll_stringInt (entries : List (String × Int)) :
    ∀ pre : List (String × Int), ((pre ++ entries).map Prod.fst).Nodup →
      wireMapSetAll (stringIntWires entries) (stringIntWires pre)
        = stringIntWires (pre ++ entries) := by
  induction entries with
  | nil =>
    intro pre _
    simp [wireMapSetAll, stringIntWires]
  | cons e rest ih =>
    intro pre hnd
    have hnd2 : ((pre ++ [e] ++ rest).map Prod.fst).Nodup := by
      simpa [List.append_assoc] using hnd
    have hfresh : ∀ x ∈ stringIntWires pre,
        wireKeyEq x.1 (.prim (.basic .string) (.str e.1)) = false := by
      intro x hx
      simp only [stringIntWires, List.mem_map] at hx
      obtain ⟨y, hy, rfl⟩ := hx
      have hne : y.1 ≠ e.1 := by
        intro heq
        rw [List.map_append, List.nodup_append] at hnd
        exact hnd.2.2 (List.mem_map.2 ⟨y, hy, rfl⟩)
          (List.mem_map.2 ⟨e, List.mem_cons_self _ _, heq.symm⟩)
      simp [wireKeyEq, hne]
    have hstep : wireMapSetAll (stringIntWires (e :: rest)) (stringIntWires pre)
        = wireMapSetAll (stringIntWires rest)
            (wireMapSet (.prim (.basic .string) (.str e.1)) (.prim (.basic .int) (.int e.2))
              (stringIntWires pre)) := rfl
    have happ : stringIntWires (pre ++ [e]) = stringIntWires pre
        ++ [(.prim (.basic .string) (.str e.1), .prim (.basic .int) (.int e.2))] := by
      simp [stringIntWires]
    rw [hstep, wireMapSet_fresh _ _ _ hfresh, ← happ]
    rw [ih (pre ++ [e]) hnd2]
    simp [List.append_assoc]

theorem encode_int (ff : FloatFormat) (heap : Heap) (fuel : Nat) (s : JSONEncoder) (i : Int) :
    encode testEnv ff heap (fuel + 1) s (.basic .int) (intVal i)
      = (.ok (.prim (.basic .int) (.int i)), s) := rfl

/-- The loop of the map branch of `encodeTo` on a `map[string]int`. -/
theorem encodeMapEntries_stringInt (ff : FloatFormat) (heap : Heap) (fuel : Nat)
    (entries : List (String × Int)) :
    ∀ (s : JSONEncoder) (acc : List (Wire × Wire)),
      encodeMapEntries testEnv ff (encode testEnv ff heap (fuel + 1)) (.basic .string)
          (.basic .int) (.prim (.basic .string)) s (stringIntEntries entries) acc
        = (.ok (wireMapSetAll (stringIntWires entries) acc), s) := by
  induction entries with
  | nil =>
    intro s acc
    rfl
  | cons e rest ih =>
    intro s acc
    have hkey : encodeMapKey testEnv ff (encode testEnv ff heap (fuel + 1)) s (.basic .string)
        (.prim (.str e.1)) = (.ok (.prim (.basic .string) (.str e.1)), s) := rfl
    have hstep : stringIntEntries (e :: rest)
        = (.prim (.str e.1), intVal e.2) :: stringIntEntries rest := rfl
    rw [hstep, encodeMapEntries, hkey]
    simp only [encode_int]
    have hall : wireMapSetAll (stringIntWires (e :: rest)) acc
        = wireMapSetAll (stringIntWires rest)
            (wireMapSet (.prim (.basic .string) (.str e.1)) (.prim (.basic .int) (.int e.2)) acc) :=
      rfl
    rw [hall, ← ih]
    simp

/-- What `encoding/json` prints for the wire map of a `map[string]int`: the
members, sorted by key. -/
theorem jsonMarshalEntries_stringInt (ff : FloatFormat) (entries : List (String × Int)) :
    jsonMarshalEntries testEnv ff (stringIntWires entries)
      = .ok ((stringIntMembers entries).foldr insertMember []) := by
  induction entries with
  | nil => rfl
  | cons e rest ih =>
    have hstep : stringIntWires (e :: rest)
        = (.prim (.basic .string) (.str e.1), .prim (.basic .int) (.int e.2))
            :: stringIntWires rest := rfl
    have hkey : jsonMapKey testEnv (.prim (.basic .string) (.str e.1)) = .ok e.1 := rfl
    have hval : jsonMarshal testEnv ff (.prim (.basic .int) (.int e.2))
        = .ok (.num (toString e.2)) := by
      simp [jsonMarshal, jsonPrim]
    rw [hstep, jsonMarshalEntries, hkey, hval, ih]
    rfl

/-- The output of `MarshalJSON` for a `map[string]int` whose keys are
different: the object of the members sorted by key, in the envelope. -/
theorem MarshalJSON_stringIntMap (ff : FloatFormat) (heap : Heap) (fuel : Nat)
    (options : List MarshalJSONOption) (entries : List (String × Int))
    (hnd : (entries.map Prod.fst).Nodup) :
    MarshalJSON testEnv ff heap (fuel + 2) (stringIntMap entries) options
      = .ok (envelopeText (NewJSONEncoder options).config
          (.obj ((stringIntMembers entries).foldr insertMember []))) := by
  have hmirror : encodedTypeFor testEnv (fuel + 2) mapStringInt
      = .ok (.map (.prim (.basic .string)) (.prim (.basic .int))) := rfl
  have hall : wireMapSetAll (stringIntWires entries) [] = stringIntWires entries :=
    wireMapSetAll_stringInt entries [] (by simpa using hnd)
  have hto : ∀ s, encodeTo testEnv ff heap (fuel + 2) s mapStringInt
      (.map (some (stringIntEntries entries))) (.map (.prim (.basic .string)) (.prim (.basic .int)))
      = (.ok (.map (some (stringIntWires entries))), s) := by
    intro s
    rw [encodeTo_map testEnv ff heap (fuel + 1) s mapStringInt _ _ _ rfl rfl]
    have hk : testEnv.key mapStringInt = .basic .string := rfl
    have he : testEnv.elem mapStringInt = .basic .int := rfl
    rw [hk, he, encodeMapEntries_stringInt, hall]
  have hjson : jsonMarshal testEnv ff (.map (some (stringIntWires entries)))
      = .ok (.obj ((stringIntMembers entries).foldr insertMember [])) := by
    rw [jsonMarshal, jsonMarshalEntries_stringInt]
    rfl
  simp only [MarshalJSON, Encode, stringIntMap, encode, encodeWith, hmirror, hto,
    jsonMarshalInternal, hjson, envelopeText]
  split <;> rfl

/-! ## Theorems: the cache of the mirror -/

theorem cacheSound_empty (env : TypeEnv) : CacheSound env emptyCache := by
  intro t w h
  simp [emptyCache] at h

theorem cacheSound_update (env : TypeEnv) (cache : TypeCache) (t : GoType) (w : WType)
    (hc : CacheSound env cache) (h : ∃ fuel, createEncodedTypeFor env fuel t = .ok w) :
    CacheSound env (Function.update cache t (some w)) := by
  intro t' w' h'
  by_cases heq : t' = t
  · subst heq
    simp only [Function.update_same, Option.some.injEq] at h'
    subst h'
    exact h
  · rw [Function.update_noteq heq] at h'
    exact hc t' w' h'

/-- Two results of the mirror for one type that are not the exhaustion of the
fuel are the same. -/
theorem createEncodedTypeFor_det (env : TypeEnv) (f1 f2 : Nat) (t : GoType)
    (r1 r2 : Except Err WType) (h1 : createEncodedTypeFor env f1 t = r1)
    (h2 : createEncodedTypeFor env f2 t = r2) (hr1 : r1 ≠ .error .outOfFuel)
    (hr2 : r2 ≠ .error .outOfFuel) : r1 = r2 := by
  have a := createEncodedTypeFor_mono env f1 t r1 h1 hr1 f2
  have b := createEncodedTypeFor_mono env f2 t r2 h2 hr2 f1
  rw [Nat.add_comm] at b
  rw [← a, ← b]

/-- What a call of `encodedTypeFor` keeps of a property of
`createEncodedTypeFor`. -/
theorem encodedTypeForWith_sound (env : TypeEnv)
    (create : TypeCache → GoType → CacheRes WType)
    (hcreate : ∀ cache t r cache', CacheSound env cache → create cache t = (r, cache') →
      CacheSound env cache' ∧ (r ≠ .error .outOfFuel → ∃ F, createEncodedTypeFor env F t = r))
    (cache : TypeCache) (t : GoType) (r : Except Err WType) (cache' : TypeCache)
    (hc : CacheSound env cache) (h : encodedTypeForWith create cache t = (r, cache')) :
    CacheSound env cache' ∧ (r ≠ .error .outOfFuel → ∃ F, createEncodedTypeFor env F t = r) := by
  unfold encodedTypeForWith at h
  split at h
  · rename_i w hw
    simp only [Prod.mk.injEq] at h
    obtain ⟨rfl, rfl⟩ := h
    exact ⟨hc, fun _ => hc t w hw⟩
  · split at h
    · rename_i e c1 hcr
      simp only [Prod.mk.injEq] at h
      obtain ⟨rfl, rfl⟩ := h
      exact hcreate _ _ _ _ hc hcr
    · rename_i w c1 hcr
      simp only [Prod.mk.injEq] at h
      obtain ⟨rfl, rfl⟩ := h
      obtain ⟨hs, hF⟩ := hcreate _ _ _ _ hc hcr
      have hw := hF (by simp)
      exact ⟨cacheSound_update env c1 t w hs hw, fun _ => hw⟩

theorem createEncodedTypeForCached_marshaler (env : TypeEnv) (fuel : Nat) (cache : TypeCache)
    (t : GoType) (hm : env.implementsMarshaler t = true) :
    createEncodedTypeForCached env (fuel + 1) cache t = (.ok .rawMessage, cache) := by
  rw [createEncodedTypeForCached]
  simp [hm]

/-- A type that is not a slice, an array, a map or a struct is mirrored
without a look at the cache. -/
theorem createEncodedTypeForCached_leaf (env : TypeEnv) (fuel : Nat) (cache : TypeCache)
    (t : GoType) (hm : env.implementsMarshaler t = false)
    (hk : env.kind t ≠ .slice ∧ env.kind t ≠ .array ∧ env.kind t ≠ .map ∧ env.kind t ≠ .struct) :
    createEncodedTypeForCached env (fuel + 1) cache t
      = (createEncodedTypeFor env (fuel + 1) t, cache) := by
  obtain ⟨h1, h2, h3, h4⟩ := hk
  rcases Kind.classify (env.kind t) with hk | hk | hk | hk | hk | hk | hk | hk | hk | hk
  · exact absurd hk h1
  · exact absurd hk h2
  · exact absurd hk h3
  · exact absurd hk h4
  · rw [createEncodedTypeFor_interface env fuel t hm hk, createEncodedTypeForCached]
    simp [hm, hk]
  · rw [createEncodedTypeFor_pointer env fuel t hm hk, createEncodedTypeForCached]
    simp [hm, hk]
  · rw [createEncodedTypeFor_invalid env fuel t hm hk, createEncodedTypeForCached]
    simp [hm, hk, isComplexNumber, isSimplePrimitive]
  · rw [createEncodedTypeFor_unsupported env fuel t hm hk, createEncodedTypeForCached]
    rcases hk with hk | hk | hk <;> simp [hm, hk]
  · rw [createEncodedTypeFor_complex env fuel t hm hk, createEncodedTypeForCached]
    rcases hk with hk | hk <;> simp [hm, hk, isComplexNumber]
  · rw [createEncodedTypeFor_primitive env fuel t hm hk, createEncodedTypeForCached]
    have hne : env.kind t ≠ .chan ∧ env.kind t ≠ .func ∧ env.kind t ≠ .unsafePointer
        ∧ env.kind t ≠ .interface ∧ env.kind t ≠ .pointer ∧ env.kind t ≠ .complex64
        ∧ env.kind t ≠ .complex128 := by
      refine ⟨?_, ?_, ?_, ?_, ?_, ?_, ?_⟩ <;> intro h <;> rw [h] at hk <;> cases hk
    obtain ⟨a, b, c, d, e, f, g⟩ := hne
    simp [hm, hk, h1, h2, h3, a, b, c, d, e, f, g, isComplexNumber]

theorem createEncodedTypeForCached_slice (env : TypeEnv) (fuel : Nat) (cache : TypeCache)
    (t : GoType) (hm : env.implementsMarshaler t = false) (hk : env.kind t = .slice) :
    createEncodedTypeForCached env (fuel + 1) cache t
      = match encodedTypeForCached env fuel cache (env.elem t) with
        | (.error e, cache1) => (.error (e.wrap "createEncodedTypeFor: "), cache1)
        | (.ok elemType, cache1) => (.ok (.slice elemType), cache1) := by
  rw [createEncodedTypeForCached]
  simp [hm, hk, encodedTypeForCached]

theorem createEncodedTypeForCached_array (env : TypeEnv) (fuel : Nat) (cache : TypeCache)
    (t : GoType) (hm : env.implementsMarshaler t = false) (hk : env.kind t = .array) :
    createEncodedTypeForCached env (fuel + 1) cache t
      = match encodedTypeForCached env fuel cache (env.elem t) with
        | (.error e, cache1) => (.error (e.wrap "createEncodedTypeFor: "), cache1)
        | (.ok elemType, cache1) => (.ok (.array (env.len t) elemType), cache1) := by
  rw [createEncodedTypeForCached]
  simp [hm, hk, encodedTypeForCached]

theorem createEncodedTypeForCached_map (env : TypeEnv) (fuel : Nat) (cache : TypeCache)
    (t : GoType) (hm : env.implementsMarshaler t = false) (hk : env.kind t = .map) :
    createEncodedTypeForCached env (fuel + 1) cache t
      = match encodedTypeForCached env fuel cache (env.key t) with
        | (.error e, cache1) => (.error (e.wrap "createEncodedTypeFor: "), cache1)
        | (.ok keyType, cache1) =>
          match encodedTypeForCached env fuel cache1 (env.elem t) with
          | (.error e, cache2) => (.error (e.wrap "createEncodedTypeFor: "), cache2)
          | (.ok valueType, cache2) =>
            (.ok (.map (if !isSimplePrimitive (keyType.kind env) then stringType else keyType)
              valueType), cache2) := by
  rw [createEncodedTypeForCached]
  simp [hm, hk, encodedTypeForCached]

theorem createEncodedTypeForCached_struct (env : TypeEnv) (fuel : Nat) (cache : TypeCache)
    (t : GoType) (hm : env.implementsMarshaler t = false) (hk : env.kind t = .struct) :
    createEncodedTypeForCached env (fuel + 1) cache t
      = match mirrorStructFieldsCached (encodedTypeForCached env fuel) 0 [] (env.fields t)
            cache with
        | (.error e, cache1) => (.error e, cache1)
        | (.ok fields, cache1) => (.ok (.struct fields), cache1) := by
  rw [createEncodedTypeForCached]
  simp [hm, hk, encodedTypeForCached, isComplexNumber, isSimplePrimitive]

theorem mirrorStructFieldsCached_skip (mirror : TypeCache → GoType → CacheRes WType) (i : Nat)
    (used : List (String × String)) (field : FieldInfo) (t : GoType)
    (rest : List (FieldInfo × GoType)) (cache : TypeCache) (h : isRetained field = false) :
    mirrorStructFieldsCached mirror i used ((field, t) :: rest) cache
      = mirrorStructFieldsCached mirror (i + 1) used rest cache := by
  have h1 : effectiveTag field = "-" := by simpa [isRetained] using h
  rw [mirrorStructFieldsCached]
  simp only [sourceTag_eq, h1, if_true]

theorem mirrorStructFieldsCached_keep (mirror : TypeCache → GoType → CacheRes WType) (i : Nat)
    (used : List (String × String)) (field : FieldInfo) (t : GoType)
    (rest : List (FieldInfo × GoType)) (cache : TypeCache) (h : isRetained field = true) :
    mirrorStructFieldsCached mirror i used ((field, t) :: rest) cache
      = match used.lookup (wireNameOf field) with
        | some existingField =>
          (.error (.msg (duplicateMessage (wireNameOf field) existingField field.name)), cache)
        | none =>
          match mirror cache t with
          | (.error e, cache1) => (.error (e.wrap "createEncodedTypeFor: "), cache1)
          | (.ok newType, cache1) =>
            match mirrorStructFieldsCached mirror (i + 1) ((wireNameOf field, field.name) :: used)
                rest cache1 with
            | (.error e, cache2) => (.error e, cache2)
            | (.ok fields, cache2) => (.ok ((wireFieldOf i field, newType) :: fields), cache2) := by
  have h1 : effectiveTag field ≠ "-" := by simpa [isRetained] using h
  rw [mirrorStructFieldsCached]
  simp only [sourceTag_eq, h1, if_false]
  have hname : (if String.mk (cutComma (effectiveTag field).data).1 = "" then field.name
      else String.mk (cutComma (effectiveTag field).data).1) = wireNameOf field := by
    rw [wireNameOf_eq]
    rfl
  simp only [hname]
  have htag : (if (cutComma (effectiveTag field).data).2.2 = true then
        wireNameOf field ++ "," ++ String.mk (cutComma (effectiveTag field).data).2.1
      else wireNameOf field) = wireJsonTagOf field := rfl
  simp only [htag]
  rfl

/-- The loop over the fields with the cache returns what the loop without the
cache returns with enough fuel, and keeps the cache sound. -/
theorem mirrorStructFieldsCached_sound (env : TypeEnv)
    (mirror : TypeCache → GoType → CacheRes WType)
    (hmirror : ∀ cache t r cache', CacheSound env cache → mirror cache t = (r, cache') →
      CacheSound env cache' ∧ (r ≠ .error .outOfFuel → ∃ F, createEncodedTypeFor env F t = r))
    (fields : List (FieldInfo × GoType)) :
    ∀ (i : Nat) (used : List (String × String)) (cache : TypeCache)
      (r : Except Err (List (WFieldInfo × WType))) (cache' : TypeCache),
      CacheSound env cache → mirrorStructFieldsCached mirror i used fields cache = (r, cache') →
      CacheSound env cache' ∧ (r ≠ .error .outOfFuel → ∃ F, ∀ more,
        mirrorStructFields (createEncodedTypeFor env (F + more)) i used fields = r) := by
  induction fields with
  | nil =>
    intro i used cache r cache' hc h
    simp only [mirrorStructFieldsCached, Prod.mk.injEq] at h
    obtain ⟨rfl, rfl⟩ := h
    exact ⟨hc, fun _ => ⟨0, fun _ => rfl⟩⟩
  | cons p rest ih =>
    intro i used cache r cache' hc h
    obtain ⟨field, ft⟩ := p
    cases hret : isRetained field with
    | false =>
      rw [mirrorStructFieldsCached_skip mirror i used field ft rest cache hret] at h
      obtain ⟨hs, hF⟩ := ih _ _ _ _ _ hc h
      refine ⟨hs, fun hr => ?_⟩
      obtain ⟨F, hF⟩ := hF hr
      refine ⟨F, fun more => ?_⟩
      rw [mirrorStructFields_skip _ i used field ft rest hret]
      exact hF more
    | true =>
      rw [mirrorStructFieldsCached_keep mirror i used field ft rest cache hret] at h
      split at h
      · rename_i existing hlook
        simp only [Prod.mk.injEq] at h
        obtain ⟨rfl, rfl⟩ := h
        refine ⟨hc, fun _ => ⟨0, fun more => ?_⟩⟩
        rw [mirrorStructFields_keep _ i used field ft rest hret, hlook]
      · rename_i hlook
        split at h
        · rename_i e c1 hm
          simp only [Prod.mk.injEq] at h
          obtain ⟨rfl, rfl⟩ := h
          obtain ⟨hs, hF⟩ := hmirror _ _ _ _ hc hm
          refine ⟨hs, fun hr => ?_⟩
          have he : Except.error e ≠ (.error .outOfFuel : Except Err WType) := by
            intro hcontra
            simp only [Except.error.injEq] at hcontra
            subst hcontra
            exact hr rfl
          obtain ⟨F, hF⟩ := hF he
          refine ⟨F, fun more => ?_⟩
          rw [mirrorStructFields_keep _ i used field ft rest hret, hlook,
            createEncodedTypeFor_mono env F ft _ hF he more]
        · rename_i w c1 hm
          obtain ⟨hs1, hF1⟩ := hmirror _ _ _ _ hc hm
          obtain ⟨F1, hF1⟩ := hF1 (by simp)
          split at h
          · rename_i e c2 hl
            simp only [Prod.mk.injEq] at h
            obtain ⟨rfl, rfl⟩ := h
            obtain ⟨hs2, hF2⟩ := ih _ _ _ _ _ hs1 hl
            refine ⟨hs2, fun hr => ?_⟩
            obtain ⟨F2, hF2⟩ := hF2 hr
            refine ⟨F1 + F2, fun more => ?_⟩
            rw [mirrorStructFields_keep _ i used field ft rest hret, hlook]
            have h1 := createEncodedTypeFor_mono env F1 ft _ hF1 (by simp) (F2 + more)
            rw [← Nat.add_assoc] at h1
            rw [h1]
            have h2 := hF2 (F1 + more)
            rw [show F2 + (F1 + more) = F1 + F2 + more by omega] at h2
            simp only [h2]
          · rename_i ws c2 hl
            simp only [Prod.mk.injEq] at h
            obtain ⟨rfl, rfl⟩ := h
            obtain ⟨hs2, hF2⟩ := ih _ _ _ _ _ hs1 hl
            refine ⟨hs2, fun _ => ?_⟩
            obtain ⟨F2, hF2⟩ := hF2 (by simp)
            refine ⟨F1 + F2, fun more => ?_⟩
            rw [mirrorStructFields_keep _ i used field ft rest hret, hlook]
            have h1 := createEncodedTypeFor_mono env F1 ft _ hF1 (by simp) (F2 + more)
            rw [← Nat.add_assoc] at h1
            rw [h1]
            have h2 := hF2 (F1 + more)
            rw [show F2 + (F1 + more) = F1 + F2 + more by omega] at h2
            simp only [h2]

/-- A result of the mirror with the cache, on a sound cache, that is not the
exhaustion of the fuel is the result of the mirror without the cache, and the
cache stays sound. -/
theorem createEncodedTypeForCached_sound (env : TypeEnv) :
    ∀ (fuel : Nat) (cache : TypeCache) (t : GoType) (r : Except Err WType) (cache' : TypeCache),
      CacheSound env cache → createEncodedTypeForCached env fuel cache t = (r, cache') →
      CacheSound env cache' ∧ (r ≠ .error .outOfFuel → ∃ F, createEncodedTypeFor env F t = r) := by
  intro fuel
  induction fuel with
  | zero =>
    intro cache t r cache' hc h
    simp only [createEncodedTypeForCached, Prod.mk.injEq] at h
    obtain ⟨rfl, rfl⟩ := h
    exact ⟨hc, fun hr => absurd rfl hr⟩
  | succ fuel ih =>
    intro cache t r cache' hc h
    have hfor : ∀ cache t r cache', CacheSound env cache →
        encodedTypeForCached env fuel cache t = (r, cache') →
        CacheSound env cache' ∧ (r ≠ .error .outOfFuel → ∃ F, createEncodedTypeFor env F t = r) :=
      fun cache t r cache' hc h => encodedTypeForWith_sound env _ ih cache t r cache' hc h
    cases hm : env.implementsMarshaler t with
    | true =>
      rw [createEncodedTypeForCached_marshaler env fuel cache t hm] at h
      simp only [Prod.mk.injEq] at h
      obtain ⟨rfl, rfl⟩ := h
      exact ⟨hc, fun _ => ⟨1, createEncodedTypeFor_marshaler env 0 t hm⟩⟩
    | false =>
      by_cases hslice : env.kind t = .slice
      · rw [createEncodedTypeForCached_slice env fuel cache t hm hslice] at h
        split at h
        · rename_i e c1 h1
          simp only [Prod.mk.injEq] at h
          obtain ⟨rfl, rfl⟩ := h
          obtain ⟨hs, hF⟩ := hfor _ _ _ _ hc h1
          refine ⟨hs, fun hr => ?_⟩
          have he : Except.error e ≠ (.error .outOfFuel : Except Err WType) := by
            intro hcontra
            simp only [Except.error.injEq] at hcontra
            subst hcontra
            exact hr rfl
          obtain ⟨F, hF⟩ := hF he
          exact ⟨F + 1, by rw [createEncodedTypeFor_slice env F t hm hslice, hF]⟩
        · rename_i w c1 h1
          simp only [Prod.mk.injEq] at h
          obtain ⟨rfl, rfl⟩ := h
          obtain ⟨hs, hF⟩ := hfor _ _ _ _ hc h1
          refine ⟨hs, fun _ => ?_⟩
          obtain ⟨F, hF⟩ := hF (by simp)
          exact ⟨F + 1, by rw [createEncodedTypeFor_slice env F t hm hslice, hF]⟩
      · by_cases harray : env.kind t = .array
        · rw [createEncodedTypeForCached_array env fuel cache t hm harray] at h
          split at h
          · rename_i e c1 h1
            simp only [Prod.mk.injEq] at h
            obtain ⟨rfl, rfl⟩ := h
            obtain ⟨hs, hF⟩ := hfor _ _ _ _ hc h1
            refine ⟨hs, fun hr => ?_⟩
            have he : Except.error e ≠ (.error .outOfFuel : Except Err WType) := by
              intro hcontra
              simp only [Except.error.injEq] at hcontra
              subst hcontra
              exact hr rfl
            obtain ⟨F, hF⟩ := hF he
            exact ⟨F + 1, by rw [createEncodedTypeFor_array env F t hm harray, hF]⟩
          · rename_i w c1 h1
            simp only [Prod.mk.injEq] at h
            obtain ⟨rfl, rfl⟩ := h
            obtain ⟨hs, hF⟩ := hfor _ _ _ _ hc h1
            refine ⟨hs, fun _ => ?_⟩
            obtain ⟨F, hF⟩ := hF (by simp)
            exact ⟨F + 1, by rw [createEncodedTypeFor_array env F t hm harray, hF]⟩
        · by_cases hmap : env.kind t = .map
          · rw [createEncodedTypeForCached_map env fuel cache t hm hmap] at h
            split at h
            · rename_i e c1 h1
              simp only [Prod.mk.injEq] at h
              obtain ⟨rfl, rfl⟩ := h
              obtain ⟨hs, hF⟩ := hfor _ _ _ _ hc h1
              refine ⟨hs, fun hr => ?_⟩
              have he : Except.error e ≠ (.error .outOfFuel : Except Err WType) := by
                intro hcontra
                simp only [Except.error.injEq] at hcontra
                subst hcontra
                exact hr rfl
              obtain ⟨F, hF⟩ := hF he
              exact ⟨F + 1, by rw [createEncodedTypeFor_map env F t hm hmap, hF]⟩
            · rename_i kw c1 h1
              obtain ⟨hs1, hF1⟩ := hfor _ _ _ _ hc h1
              obtain ⟨F1, hF1⟩ := hF1 (by simp)
              split at h
              · rename_i e c2 h2
                simp only [Prod.mk.injEq] at h
                obtain ⟨rfl, rfl⟩ := h
                obtain ⟨hs2, hF2⟩ := hfor _ _ _ _ hs1 h2
                refine ⟨hs2, fun hr => ?_⟩
                have he : Except.error e ≠ (.error .outOfFuel : Except Err WType) := by
                  intro hcontra
                  simp only [Except.error.injEq] at hcontra
                  subst hcontra
                  exact hr rfl
                obtain ⟨F2, hF2⟩ := hF2 he
                refine ⟨F1 + F2 + 1, ?_⟩
                have a := createEncodedTypeFor_mono env F1 _ _ hF1 (by simp) F2
                have b := createEncodedTypeFor_mono env F2 _ _ hF2 he F1
                rw [Nat.add_comm F2 F1] at b
                rw [createEncodedTypeFor_map env (F1 + F2) t hm hmap, a, b]
              · rename_i vw c2 h2
                simp only [Prod.mk.injEq] at h
                obtain ⟨rfl, rfl⟩ := h
                obtain ⟨hs2, hF2⟩ := hfor _ _ _ _ hs1 h2
                refine ⟨hs2, fun _ => ?_⟩
                obtain ⟨F2, hF2⟩ := hF2 (by simp)
                refine ⟨F1 + F2 + 1, ?_⟩
                have a := createEncodedTypeFor_mono env F1 _ _ hF1 (by simp) F2
                have b := createEncodedTypeFor_mono env F2 _ _ hF2 (by simp) F1
                rw [Nat.add_comm F2 F1] at b
                rw [createEncodedTypeFor_map env (F1 + F2) t hm hmap, a, b]
          · by_cases hstruct : env.kind t = .struct
            · rw [createEncodedTypeForCached_struct env fuel cache t hm hstruct] at h
              split at h
              · rename_i e c1 h1
                simp only [Prod.mk.injEq] at h
                obtain ⟨rfl, rfl⟩ := h
                obtain ⟨hs, hF⟩ := mirrorStructFieldsCached_sound env _ hfor _ _ _ _ _ _ hc h1
                refine ⟨hs, fun hr => ?_⟩
                have he : Except.error e
                    ≠ (.error .outOfFuel : Except Err (List (WFieldInfo × WType))) := by
                  intro hcontra
                  simp only [Except.error.injEq] at hcontra
                  subst hcontra
                  exact hr rfl
                obtain ⟨F, hF⟩ := hF he
                refine ⟨F + 1, ?_⟩
                have h0 := hF 0
                rw [Nat.add_zero] at h0
                rw [createEncodedTypeFor_struct env F t hm hstruct, h0]
              · rename_i ws c1 h1
                simp only [Prod.mk.injEq] at h
                obtain ⟨rfl, rfl⟩ := h
                obtain ⟨hs, hF⟩ := mirrorStructFieldsCached_sound env _ hfor _ _ _ _ _ _ hc h1
                refine ⟨hs, fun _ => ?_⟩
                obtain ⟨F, hF⟩ := hF (by simp)
                refine ⟨F + 1, ?_⟩
                have h0 := hF 0
                rw [Nat.add_zero] at h0
                rw [createEncodedTypeFor_struct env F t hm hstruct, h0]
            · rw [createEncodedTypeForCached_leaf env fuel cache t hm
                ⟨hslice, harray, hmap, hstruct⟩] at h
              simp only [Prod.mk.injEq] at h
              obtain ⟨rfl, rfl⟩ := h
              exact ⟨hc, fun _ => ⟨fuel + 1, rfl⟩⟩

/-- A call of `encodedTypeFor` on a sound cache returns what
`createEncodedTypeFor` returns without the cache, when the call of
`createEncodedTypeFor` that it makes on a miss does. -/
theorem encodedTypeForWith_complete (env : TypeEnv)
    (create : TypeCache → GoType → CacheRes WType) (fuel : Nat)
    (hcreate : ∀ cache t r, CacheSound env cache → createEncodedTypeFor env fuel t = r →
      r ≠ .error .outOfFuel → (create cache t).1 = r)
    (cache : TypeCache) (t : GoType) (r : Except Err WType) (hc : CacheSound env cache)
    (h : createEncodedTypeFor env fuel t = r) (hr : r ≠ .error .outOfFuel) :
    (encodedTypeForWith create cache t).1 = r := by
  unfold encodedTypeForWith
  split
  · rename_i w hw
    obtain ⟨F, hF⟩ := hc t w hw
    exact createEncodedTypeFor_det env F fuel t _ _ hF h (by simp) hr
  · have h1 := hcreate cache t r hc h hr
    split
    · rename_i e c1 hcr
      rw [hcr] at h1
      exact h1
    · rename_i w c1 hcr
      rw [hcr] at h1
      exact h1

/-- The loop over the fields with the cache returns what the loop without the
cache returns, when that is not the exhaustion of the fuel. -/
theorem mirrorStructFieldsCached_complete (env : TypeEnv)
    (mirror : TypeCache → GoType → CacheRes WType) (fuel : Nat)
    (hsound : ∀ cache t r cache', CacheSound env cache → mirror cache t = (r, cache') →
      CacheSound env cache')
    (hcomplete : ∀ cache t r, CacheSound env cache → createEncodedTypeFor env fuel t = r →
      r ≠ .error .outOfFuel → (mirror cache t).1 = r)
    (fields : List (FieldInfo × GoType)) :
    ∀ (i : Nat) (used : List (String × String)) (cache : TypeCache)
      (r : Except Err (List (WFieldInfo × WType))),
      CacheSound env cache →
      mirrorStructFields (createEncodedTypeFor env fuel) i used fields = r →
      r ≠ .error .outOfFuel →
      (mirrorStructFieldsCached mirror i used fields cache).1 = r := by
  induction fields with
  | nil =>
    intro i used cache r _ h _
    rw [← h]
    rfl
  | cons p rest ih =>
    intro i used cache r hc h hr
    obtain ⟨field, ft⟩ := p
    cases hret : isRetained field with
    | false =>
      rw [mirrorStructFields_skip _ i used field ft rest hret] at h
      rw [mirrorStructFieldsCached_skip mirror i used field ft rest cache hret]
      exact ih _ _ _ _ hc h hr
    | true =>
      rw [mirrorStructFields_keep _ i used field ft rest hret] at h
      rw [mirrorStructFieldsCached_keep mirror i used field ft rest cache hret]
      cases hlook : used.lookup (wireNameOf field) with
      | some existing =>
        rw [hlook] at h
        rw [← h]
      | none =>
        rw [hlook] at h
        dsimp only at h ⊢
        cases h1 : createEncodedTypeFor env fuel ft with
        | error e =>
          rw [h1] at h
          dsimp only at h
          have he : Except.error e ≠ (.error .outOfFuel : Except Err WType) := by
            intro hcontra
            simp only [Except.error.injEq] at hcontra
            subst hcontra
            exact hr h.symm
          have hm := hcomplete cache ft _ hc h1 he
          cases hmc : mirror cache ft with
          | mk r1 c1 =>
            rw [hmc] at hm
            dsimp only at hm
            subst hm
            rw [← h]
        | ok w =>
          rw [h1] at h
          dsimp only at h
          have hm := hcomplete cache ft _ hc h1 (by simp)
          cases hmc : mirror cache ft with
          | mk r1 c1 =>
            rw [hmc] at hm
            dsimp only at hm
            subst hm
            have hs1 := hsound _ _ _ _ hc hmc
            dsimp only
            cases h2 : mirrorStructFields (createEncodedTypeFor env fuel) (i + 1)
                ((wireNameOf field, field.name) :: used) rest with
            | error e =>
              rw [h2] at h
              dsimp only at h
              have he : Except.error e
                  ≠ (.error .outOfFuel : Except Err (List (WFieldInfo × WType))) := by
                rw [h]
                exact hr
              have hl := ih _ _ c1 _ hs1 h2 he
              cases hlc : mirrorStructFieldsCached mirror (i + 1)
                  ((wireNameOf field, field.name) :: used) rest c1 with
              | mk r2 c2 =>
                rw [hlc] at hl
                dsimp only at hl
                subst hl
                rw [← h]
            | ok ws =>
              rw [h2] at h
              dsimp only at h
              have hl := ih _ _ c1 _ hs1 h2 (by simp)
              cases hlc : mirrorStructFieldsCached mirror (i + 1)
                  ((wireNameOf field, field.name) :: used) rest c1 with
              | mk r2 c2 =>
                rw [hlc] at hl
                dsimp only at hl
                subst hl
                rw [← h]

/-- The mirror with the cache, on a sound cache, returns every result of the
mirror without the cache that is not the exhaustion of the fuel. -/
theorem createEncodedTypeForCached_complete (env : TypeEnv) :
    ∀ (fuel : Nat) (cache : TypeCache) (t : GoType) (r : Except Err WType),
      CacheSound env cache → createEncodedTypeFor env fuel t = r → r ≠ .error .outOfFuel →
      (createEncodedTypeForCached env fuel cache t).1 = r := by
  intro fuel
  induction fuel with
  | zero =>
    intro cache t r _ h hr
    rw [createEncodedTypeFor] at h
    exact absurd h.symm hr
  | succ fuel ih =>
    intro cache t r hc h hr
    have hfor : ∀ cache t r, CacheSound env cache → createEncodedTypeFor env fuel t = r →
        r ≠ .error .outOfFuel → (encodedTypeForCached env fuel cache t).1 = r :=
      fun cache t r hc h hr => encodedTypeForWith_complete env _ fuel ih cache t r hc h hr
    have hsound : ∀ cache t r cache', CacheSound env cache →
        encodedTypeForCached env fuel cache t = (r, cache') → CacheSound env cache' :=
      fun cache t r cache' hc h =>
        (encodedTypeForWith_sound env _ (createEncodedTypeForCached_sound env fuel)
          cache t r cache' hc h).1
    have hwrap : ∀ {α : Type} (e : Err) (x : Except Err α),
        x ≠ .error .outOfFuel → x = .error (e.wrap "createEncodedTypeFor: ") →
        (Except.error e : Except Err WType) ≠ .error .outOfFuel := by
      intro α e x hx hxe hcontra
      simp only [Except.error.injEq] at hcontra
      subst hcontra
      exact hx hxe
    cases hm : env.implementsMarshaler t with
    | true =>
      rw [createEncodedTypeForCached_marshaler env fuel cache t hm]
      rw [createEncodedTypeFor_marshaler env fuel t hm] at h
      exact h
    | false =>
      by_cases hslice : env.kind t = .slice
      · rw [createEncodedTypeFor_slice env fuel t hm hslice] at h
        rw [createEncodedTypeForCached_slice env fuel cache t hm hslice]
        cases h1 : createEncodedTypeFor env fuel (env.elem t) with
        | error e =>
          rw [h1] at h
          dsimp only at h
          have he := hwrap e r hr h.symm
          have hc1 := hfor cache _ _ hc h1 he
          cases hcc : encodedTypeForCached env fuel cache (env.elem t) with
          | mk r1 c1 =>
            rw [hcc] at hc1
            dsimp only at hc1
            subst hc1
            exact h
        | ok w =>
          rw [h1] at h
          dsimp only at h
          have hc1 := hfor cache _ _ hc h1 (by simp)
          cases hcc : encodedTypeForCached env fuel cache (env.elem t) with
          | mk r1 c1 =>
            rw [hcc] at hc1
            dsimp only at hc1
            subst hc1
            exact h
      · by_cases harray : env.kind t = .array
        · rw [createEncodedTypeFor_array env fuel t hm harray] at h
          rw [createEncodedTypeForCached_array env fuel cache t hm harray]
          cases h1 : createEncodedTypeFor env fuel (env.elem t) with
          | error e =>
            rw [h1] at h
            dsimp only at h
            have he := hwrap e r hr h.symm
            have hc1 := hfor cache _ _ hc h1 he
            cases hcc : encodedTypeForCached env fuel cache (env.elem t) with
            | mk r1 c1 =>
              rw [hcc] at hc1
              dsimp only at hc1
              subst hc1
              exact h
          | ok w =>
            rw [h1] at h
            dsimp only at h
            have hc1 := hfor cache _ _ hc h1 (by simp)
            cases hcc : encodedTypeForCached env fuel cache (env.elem t) with
            | mk r1 c1 =>
              rw [hcc] at hc1
              dsimp only at hc1
              subst hc1
              exact h
        · by_cases hmap : env.kind t = .map
          · rw [createEncodedTypeFor_map env fuel t hm hmap] at h
            rw [createEncodedTypeForCached_map env fuel cache t hm hmap]
            cases h1 : createEncodedTypeFor env fuel (env.key t) with
            | error e =>
              rw [h1] at h
              dsimp only at h
              have he := hwrap e r hr h.symm
              have hc1 := hfor cache _ _ hc h1 he
              cases hcc : encodedTypeForCached env fuel cache (env.key t) with
              | mk r1 c1 =>
                rw [hcc] at hc1
                dsimp only at hc1
                subst hc1
                exact h
            | ok kw =>
              rw [h1] at h
              dsimp only at h
              have hc1 := hfor cache _ _ hc h1 (by simp)
              cases hcc : encodedTypeForCached env fuel cache (env.key t) with
              | mk r1 c1 =>
                rw [hcc] at hc1
                dsimp only at hc1
                subst hc1
                have hs1 := hsound _ _ _ _ hc hcc
                dsimp only
                cases h2 : createEncodedTypeFor env fuel (env.elem t) with
                | error e =>
                  rw [h2] at h
                  dsimp only at h
                  have he := hwrap e r hr h.symm
                  have hc2 := hfor c1 _ _ hs1 h2 he
                  cases hcc2 : encodedTypeForCached env fuel c1 (env.elem t) with
                  | mk r2 c2 =>
                    rw [hcc2] at hc2
                    dsimp only at hc2
                    subst hc2
                    exact h
                | ok vw =>
                  rw [h2] at h
                  dsimp only at h
                  have hc2 := hfor c1 _ _ hs1 h2 (by simp)
                  cases hcc2 : encodedTypeForCached env fuel c1 (env.elem t) with
                  | mk r2 c2 =>
                    rw [hcc2] at hc2
                    dsimp only at hc2
                    subst hc2
                    exact h
          · by_cases hstruct : env.kind t = .struct
            · rw [createEncodedTypeFor_struct env fuel t hm hstruct] at h
              rw [createEncodedTypeForCached_struct env fuel cache t hm hstruct]
              cases h1 : mirrorStructFields (createEncodedTypeFor env fuel) 0 [] (env.fields t) with
              | error e =>
                rw [h1] at h
                dsimp only at h
                have he : Except.error e
                    ≠ (.error .outOfFuel : Except Err (List (WFieldInfo × WType))) := by
                  intro hcontra
                  simp only [Except.error.injEq] at hcontra
                  subst hcontra
                  exact hr h.symm
                have hl := mirrorStructFieldsCached_complete env _ fuel hsound hfor
                  (env.fields t) 0 [] cache _ hc h1 he
                cases hlc : mirrorStructFieldsCached (encodedTypeForCached env fuel) 0 []
                    (env.fields t) cache with
                | mk r1 c1 =>
                  rw [hlc] at hl
                  dsimp only at hl
                  subst hl
                  exact h
              | ok ws =>
                rw [h1] at h
                dsimp only at h
                have hl := mirrorStructFieldsCached_complete env _ fuel hsound hfor
                  (env.fields t) 0 [] cache _ hc h1 (by simp)
                cases hlc : mirrorStructFieldsCached (encodedTypeForCached env fuel) 0 []
                    (env.fields t) cache with
                | mk r1 c1 =>
                  rw [hlc] at hl
                  dsimp only at hl
                  subst hl
                  exact h
            · rw [createEncodedTypeForCached_leaf env fuel cache t hm
                ⟨hslice, harray, hmap, hstruct⟩]
              exact h

/-- The cache of the mirror is transparent: on a cache that holds only what
`createEncodedTypeFor` has returned, a result of `encodedTypeFor` with the
cache that is not the exhaustion of the fuel is a result of the mirror without
the cache, the cache stays such a cache, and every result of the mirror
without the cache that is not the exhaustion of the fuel is returned with the
cache as well. -/
theorem typeCache_transparent (env : TypeEnv) (fuel : Nat) (cache : TypeCache) (t : GoType)
    (hc : CacheSound env cache) :
    (∀ r cache', encodedTypeForCached env fuel cache t = (r, cache') →
      CacheSound env cache' ∧ (r ≠ .error .outOfFuel → ∃ F, encodedTypeFor env F t = r))
    ∧ (∀ r, encodedTypeFor env fuel t = r → r ≠ .error .outOfFuel →
      (encodedTypeForCached env fuel cache t).1 = r) := by
  constructor
  · intro r cache' h
    exact encodedTypeForWith_sound env _ (createEncodedTypeForCached_sound env fuel)
      cache t r cache' hc h
  · intro r h hr
    exact encodedTypeForWith_complete env _ fuel (createEncodedTypeForCached_complete env fuel)
      cache t r hc h hr

/-- C32, the code at the failing inputs.  A call of `encodedTypeFor` stores
its result in the cache only after `createEncodedTypeFor` has returned, so
the cache never holds a type whose mirror is under construction.  For
`type tree struct { children []tree }` the mirror of `tree` asks for the
mirror of `[]tree`, which asks for the mirror of `tree`, without end: whatever
the bound on the depth of the nested calls, the bound is reached, without the
cache and with any cache that holds only results of `createEncodedTypeFor`,
the empty cache among them.  The same holds for
`type index struct { byName map[string]index }` and for `type nest []nest`,
and `MarshalJSON` of any value of type `tree` never gets past the mirror.  The
mirror does return, a wire type or an error, on every type that needs finitely
many nested calls, such as `node`, which refers to itself through a pointer;
`tree` is not such a type. -/
theorem mirror_of_self_referring_type_never_returns :
    (∀ fuel, encodedTypeFor recursiveEnv fuel treeType = .error .outOfFuel)
    ∧ (∀ fuel, encodedTypeFor recursiveEnv fuel indexType = .error .outOfFuel)
    ∧ (∀ fuel, encodedTypeFor recursiveEnv fuel nestType = .error .outOfFuel)
    ∧ (∀ (fuel : Nat) (cache : TypeCache) (t : GoType), CacheSound recursiveEnv cache →
        t = treeType ∨ t = indexType ∨ t = nestType →
      (encodedTypeForCached recursiveEnv fuel cache t).1 = .error .outOfFuel)
    ∧ (∀ fuel, (encodedTypeForCached recursiveEnv fuel emptyCache treeType).1
        = .error .outOfFuel)
    ∧ (∀ (ff : FloatFormat) (heap : Heap) (fuel : Nat) (v : Val)
        (options : List MarshalJSONOption),
      MarshalJSON recursiveEnv ff heap fuel (some (treeType, v)) options = .error .outOfFuel)
    ∧ (∀ (env : TypeEnv) (t : GoType), Mirrorable env t →
      ∃ fuel, ∀ more, encodedTypeFor env (fuel + more) t ≠ .error .outOfFuel)
    ∧ (∀ (env : TypeEnv) (t : GoType) (cache : TypeCache), Mirrorable env t →
        CacheSound env cache →
      ∃ fuel, ∀ more, (encodedTypeForCached env (fuel + more) cache t).1 ≠ .error .outOfFuel)
    ∧ Mirrorable testEnv nodeType
    ∧ (∀ more, encodedTypeFor testEnv (2 + more) nodeType = .ok nodeWireType)
    ∧ (∀ more, (encodedTypeForCached testEnv (2 + more) emptyCache nodeType).1
        = .ok nodeWireType)
    ∧ ¬ Mirrorable recursiveEnv treeType := by
  have hcached : ∀ (fuel : Nat) (cache : TypeCache) (t : GoType),
      CacheSound recursiveEnv cache →
      (∀ F, encodedTypeFor recursiveEnv F t = .error .outOfFuel) →
      (encodedTypeForCached recursiveEnv fuel cache t).1 = .error .outOfFuel := by
    intro fuel cache t hc hdiv
    by_contra hne
    obtain ⟨_, hF⟩ := (typeCache_transparent recursiveEnv fuel cache t hc).1 _ _ rfl
    obtain ⟨F, hF⟩ := hF hne
    exact hne (hF ▸ hdiv F)
  have hnode : ∀ more, encodedTypeFor testEnv (2 + more) nodeType = .ok nodeWireType := by
    intro more
    rw [Nat.add_comm]
    exact encodedTypeFor_node more
  refine ⟨fun fuel => (tree_mirror_outOfFuel fuel).1, fun fuel => (index_mirror_outOfFuel fuel).1,
    nest_mirror_outOfFuel, ?_, ?_, ?_, fun env t h => mirrorable_returns env t h, ?_, ?_, hnode,
    ?_, ?_⟩
  · intro fuel cache t hc ht
    rcases ht with rfl | rfl | rfl
    · exact hcached fuel cache _ hc (fun F => (tree_mirror_outOfFuel F).1)
    · exact hcached fuel cache _ hc (fun F => (index_mirror_outOfFuel F).1)
    · exact hcached fuel cache _ hc nest_mirror_outOfFuel
  · intro fuel
    exact hcached fuel emptyCache _ (cacheSound_empty _) (fun F => (tree_mirror_outOfFuel F).1)
  · intro ff heap fuel v options
    have h := (tree_mirror_outOfFuel fuel).1
    simp [MarshalJSON, Encode, encode, encodeWith, encodedTypeFor, h, Err.wrap]
  · intro env t cache h hc
    obtain ⟨fuel, hf⟩ := mirrorable_returns env t h
    refine ⟨fuel, fun more => ?_⟩
    rw [(typeCache_transparent env (fuel + more) cache t hc).2 _ rfl (hf more)]
    exact hf more
  · refine Mirrorable.struct _ rfl ?_
    intro p hp _
    have hf : testEnv.fields nodeType = [({ name := "next" }, .pointer nodeType)] := rfl
    rw [hf] at hp
    simp only [List.mem_singleton] at hp
    subst hp
    exact Mirrorable.leaf _ (Or.inr (by decide))
  · intro more
    rw [(typeCache_transparent testEnv (2 + more) emptyCache nodeType (cacheSound_empty _)).2 _
      (hnode more) (by simp)]
  · intro h
    obtain ⟨fuel, hf⟩ := mirrorable_returns _ _ h
    exact hf 0 (tree_mirror_outOfFuel _).1

/-! ## Theorems: the fields that `copyStruct` looks up -/

/-- Every wire field of a mirror of a struct has the tag of a retained field
of the struct. -/
theorem mirrorStructFields_ok_mem (mirror : GoType → Except Err WType)
    (fields : List (FieldInfo × GoType)) :
    ∀ (i : Nat) (used : List (String × String)) (out : List (WFieldInfo × WType)),
      mirrorStructFields mirror i used fields = .ok out →
      ∀ wf ∈ out, ∃ p ∈ fields, isRetained p.1 = true ∧ wf.1.tag = wireTagOf p.1 := by
  induction fields with
  | nil =>
    intro i used out h wf hwf
    simp only [mirrorStructFields, Except.ok.injEq] at h
    subst h
    cases hwf
  | cons p rest ih =>
    intro i used out h wf hwf
    obtain ⟨field, ft⟩ := p
    cases hret : isRetained field with
    | false =>
      rw [mirrorStructFields_skip mirror i used field ft rest hret] at h
      obtain ⟨q, hq, hq2⟩ := ih _ _ _ h wf hwf
      exact ⟨q, List.mem_cons_of_mem _ hq, hq2⟩
    | true =>
      rw [mirrorStructFields_keep mirror i used field ft rest hret] at h
      split at h
      · simp at h
      · split at h
        · simp at h
        · split at h
          · simp at h
          · rename_i ws hrest
            simp only [Except.ok.injEq] at h
            subst h
            rcases List.mem_cons.1 hwf with rfl | hwf
            · exact ⟨(field, ft), List.mem_cons_self _ _, hret, rfl⟩
            · obtain ⟨q, hq, hq2⟩ := ih _ _ _ hrest wf hwf
              exact ⟨q, List.mem_cons_of_mem _ hq, hq2⟩

/-- When the tag `original` of every wire field reads as the name of a field
of the original struct, an error of the loop of `copyStruct` is the error of
the copy of a field, or the panic for a value that does not match its type. -/
theorem copyFields_error_found (env : TypeEnv) (copyFn : CopyFn) (originalT : GoType)
    (originalFields : List (String × Val)) (fields : List (WFieldInfo × WType))
    (hfound : ∀ wf ∈ fields, structTagGet wf.1.tag "original" ≠ ""
      ∧ ∃ f ∈ env.fields originalT, f.1.name = structTagGet wf.1.tag "original") :
    ∀ (s s' : JSONEncoder) (e : Err),
      copyFields env copyFn originalT originalFields s fields = (.error e, s') →
      e = .panic "reflect: value does not match its type"
      ∨ ∃ sa t v e0, ∃ wf ∈ fields, copyFn sa t v wf.2 = (.error e0, s')
          ∧ e = e0.wrap "copyStruct(): " := by
  induction fields with
  | nil =>
    intro s s' e h
    simp [copyFields] at h
  | cons wf rest ih =>
    intro s s' e h
    obtain ⟨info, wt⟩ := wf
    obtain ⟨hne, f, hf, hname⟩ := hfound (info, wt) (List.mem_cons_self _ _)
    have ih' := ih (fun x hx => hfound x (List.mem_cons_of_mem _ hx))
    rw [copyFields] at h
    split at h
    · rename_i hempty
      exact absurd hempty hne
    · split at h
      · rename_i hnone
        rw [List.find?_eq_none] at hnone
        exact absurd (by simpa using hname) (hnone f hf)
      · split at h
        · simp only [Prod.mk.injEq, Except.error.injEq] at h
          exact Or.inl h.1.symm
        · split at h
          · rename_i err s1 hc
            simp only [Prod.mk.injEq, Except.error.injEq] at h
            obtain ⟨rfl, rfl⟩ := h
            exact Or.inr ⟨_, _, _, err, (info, wt), List.mem_cons_self _ _, hc, rfl⟩
          · split at h
            · rename_i err s2 hrest
              simp only [Prod.mk.injEq, Except.error.injEq] at h
              obtain ⟨rfl, rfl⟩ := h
              rcases ih' _ _ _ hrest with he | ⟨sa, t, v, e0, x, hx, hc, he⟩
              · exact Or.inl he
              · exact Or.inr ⟨sa, t, v, e0, x, List.mem_cons_of_mem _ hx, hc, he⟩
            · simp at h

/-- The loop of `copyStruct` finds the original field of every wire field of
the mirror of a struct whose retained fields have names and JSON names
without double quote, backslash and line break. -/
theorem copyFields_of_clean_mirror (env : TypeEnv) (fuel : Nat) (t : GoType)
    (wfields : List (WFieldInfo × WType)) (copyFn : CopyFn) (vals : List (String × Val))
    (hm : env.implementsMarshaler t = false) (hk : env.kind t = .struct)
    (hmirror : createEncodedTypeFor env fuel t = .ok (.struct wfields))
    (hclean : ∀ p ∈ env.fields t, isRetained p.1 = true → p.1.name ≠ ""
      ∧ (∀ c ∈ (wireJsonTagOf p.1).data, c ≠ dquote ∧ c ≠ backslash)
      ∧ (∀ c ∈ p.1.name.data, c ≠ '\n' ∧ c ≠ dquote ∧ c ≠ backslash)) :
    ∀ (s s' : JSONEncoder) (e : Err),
      copyFields env copyFn t vals s wfields = (.error e, s') →
      e = .panic "reflect: value does not match its type"
      ∨ ∃ sa ft v e0, ∃ wf ∈ wfields, copyFn sa ft v wf.2 = (.error e0, s')
          ∧ e = e0.wrap "copyStruct(): " := by
  cases fuel with
  | zero => simp [createEncodedTypeFor] at hmirror
  | succ fuel =>
    rw [createEncodedTypeFor_struct env fuel t hm hk] at hmirror
    cases hloop : mirrorStructFields (createEncodedTypeFor env fuel) 0 [] (env.fields t) with
    | error e0 => rw [hloop] at hmirror; simp at hmirror
    | ok ws =>
      rw [hloop] at hmirror
      simp only [Except.ok.injEq, WType.struct.injEq] at hmirror
      subst hmirror
      refine copyFields_error_found env copyFn t vals ws ?_
      intro wf hwf
      obtain ⟨p, hp, hret, htag⟩ := mirrorStructFields_ok_mem _ _ _ _ _ hloop wf hwf
      obtain ⟨hne, hj, hn⟩ := hclean p hp hret
      have hget : structTagGet wf.1.tag "original" = p.1.name := by
        rw [htag]
        exact structTagGet_wireTag_original p.1 hj hn
      rw [hget]
      exact ⟨hne, p, hp, rfl⟩

/-- C37, the code at the failing inputs.  The mirror writes the JSON name into
the tag of the wire field with `%s`, without quoting it.  For
`struct { X int "json:\"a\\\"b\"" }`, whose JSON name is `a"b`,
`createEncodedTypeFor` succeeds with the tag `json:"a"b" original:"X"`; in it
`reflect.StructTag.Get` finds no key `original`, and `copyStruct` returns
"could not find original field name".  A JSON name that ends in a backslash
does the same, and the JSON name `a" original:"Y` makes the tag `original` read
`Y`, for which `copyStruct` returns "could not find original field Y".  A
space in the JSON name does no harm.  When the `json` tag that the mirror
writes has no double quote and no backslash, the tag `original` reads back as
the declared name of the field; for a struct whose retained fields all have
such tags, the loop of `copyStruct` finds every original field, so that its
only errors are those of the copies of the fields. -/
theorem quote_in_json_name_breaks_original_tag :
    encodedTypeFor testEnv 2 (singleX "a\"b")
        = .ok (.struct [({ name := "F0", tag := "json:\"a\"b\" original:\"X\"" },
            .prim (.basic .int))])
    ∧ structTagGet "json:\"a\"b\" original:\"X\"" "original" = ""
    ∧ MarshalJSON testEnv noFloats emptyHeap 6 (singleXVal "a\"b") []
        = .error (.msg ("MarshalJSON: encode(): copyStruct(): could not find original field "
            ++ "name for field F0"))
    ∧ encodedTypeFor testEnv 2 (singleX "a\\")
        = .ok (.struct [({ name := "F0", tag := "json:\"a\\\" original:\"X\"" },
            .prim (.basic .int))])
    ∧ MarshalJSON testEnv noFloats emptyHeap 6 (singleXVal "a\\") []
        = .error (.msg ("MarshalJSON: encode(): copyStruct(): could not find original field "
            ++ "name for field F0"))
    ∧ MarshalJSON testEnv noFloats emptyHeap 6 (singleXVal "a\" original:\"Y") []
        = .error (.msg ("MarshalJSON: encode(): copyStruct(): could not find original field Y "
            ++ "for field F0"))
    ∧ MarshalJSON testEnv noFloats emptyHeap 6 (singleXVal "a b") []
        = .ok "\x7b\"value\":\x7b\"a b\":1\x7d\x7d"
    ∧ (∀ field : FieldInfo,
      (∀ c ∈ (wireJsonTagOf field).data, c ≠ dquote ∧ c ≠ backslash) →
      (∀ c ∈ field.name.data, c ≠ '\n' ∧ c ≠ dquote ∧ c ≠ backslash) →
      structTagGet (wireTagOf field) "original" = field.name)
    ∧ (∀ (env : TypeEnv) (fuel : Nat) (t : GoType) (wfields : List (WFieldInfo × WType))
        (copyFn : CopyFn) (vals : List (String × Val)) (s s' : JSONEncoder) (e : Err),
      env.implementsMarshaler t = false → env.kind t = .struct →
      createEncodedTypeFor env fuel t = .ok (.struct wfields) →
      (∀ p ∈ env.fields t, isRetained p.1 = true → p.1.name ≠ ""
        ∧ (∀ c ∈ (wireJsonTagOf p.1).data, c ≠ dquote ∧ c ≠ backslash)
        ∧ (∀ c ∈ p.1.name.data, c ≠ '\n' ∧ c ≠ dquote ∧ c ≠ backslash)) →
      copyFields env copyFn t vals s wfields = (.error e, s') →
      e = .panic "reflect: value does not match its type"
      ∨ ∃ sa ft v e0, ∃ wf ∈ wfields, copyFn sa ft v wf.2 = (.error e0, s')
          ∧ e = e0.wrap "copyStruct(): ") := by
  refine ⟨rfl, by decide!, by decide!, rfl, by decide!, by decide!, by decide!,
    structTagGet_wireTag_original, ?_⟩
  intro env fuel t wfields copyFn vals s s' e hm hk hmirror hclean h
  exact copyFields_of_clean_mirror env fuel t wfields copyFn vals hm hk hmirror hclean s s' e h

/-! ## Theorems: the payload of the box of an interface (C19) -/

/-- The loop that strips the pointer layers returns their number and the type
below them, whatever fuel it needed. -/
theorem stripPointers_addPointers_inv (env : TypeEnv) (base : GoType)
    (hb : env.kind base ≠ .pointer) (n : Nat) :
    ∀ (fuel : Nat) (depth d : Int) (R : GoType),
      stripPointers env fuel (addPointers n base) depth = some (d, R) →
      d = depth + n ∧ R = base := by
  induction n with
  | zero =>
    intro fuel depth d R h
    cases fuel with
    | zero => simp [stripPointers] at h
    | succ k =>
      simp [stripPointers, addPointers, hb] at h
      obtain ⟨rfl, rfl⟩ := h
      simp
  | succ m ih =>
    intro fuel depth d R h
    cases fuel with
    | zero => simp [stripPointers] at h
    | succ k =>
      rw [addPointers_succ, stripPointers] at h
      have hk : env.kind (.pointer (addPointers m base)) = .pointer := rfl
      have he : env.elem (.pointer (addPointers m base)) = addPointers m base := rfl
      simp only [hk, if_true, he] at h
      obtain ⟨h1, h2⟩ := ih k (depth + 1) d R h
      refine ⟨?_, h2⟩
      rw [h1]
      push_cast
      ring

/-- The result of `encode` for a value whose type implements
`json.Marshaler` is the output of the method, as a raw message; the encoder
is left as it was. -/
theorem encode_marshaler_raw (env : TypeEnv) (ff : FloatFormat) (heap : Heap) (fuel : Nat)
    (s s' : JSONEncoder) (t : GoType) (v : Val) (w : Wire) (marshal : Val → Except String Json)
    (hm : env.marshaler t = some marshal)
    (h : encode env ff heap fuel s t v = (.ok w, s')) :
    ∃ b, marshal v = .ok b ∧ w = .rawMessage b ∧ s' = s := by
  have hm' : env.implementsMarshaler t = true := by simp [TypeEnv.implementsMarshaler, hm]
  cases fuel with
  | zero => simp [encode, encodeWith, encodedTypeFor, createEncodedTypeFor] at h
  | succ n =>
    unfold encode encodeWith at h
    unfold encodedTypeFor at h
    rw [createEncodedTypeFor_marshaler env n t hm'] at h
    simp only at h
    rw [encodeTo_marshaler env ff heap n s t v _ marshal hm] at h
    cases hmv : marshal v with
    | error e => rw [hmv] at h; simp at h
    | ok b =>
      rw [hmv] at h
      simp only [Prod.mk.injEq, Except.ok.injEq] at h
      exact ⟨b, rfl, h.1.symm, h.2.symm⟩

/-- C19, counterexample: for the interface that holds the pointer to an `int`
variable with the value 42, the box has the pointer depth 1 and its payload
is the box of the pointer, `{"pointer":1,"value":42}`, not the encoding `42`
of the dereferenced value. -/
theorem interface_payload_keeps_pointer_box :
    (encodeToInterfaceValue exampleEnv noFloats 5 (encode exampleEnv noFloats intHeap 5)
        (NewJSONEncoder []) (.basic .interface)
        (.iface (some (.pointer (.basic .int), .ptr (some ptrA))))).1.toOption.map
          (fun r => r.map (fun box => (box.ptrDepth, box.value.compact)))
      = some (some (1, "\x7b\"pointer\":1,\"value\":42\x7d"))
    ∧ ((encode exampleEnv noFloats intHeap 5 (NewJSONEncoder []) (.basic .int) (intVal 42)).1.toOption.bind
          (fun w => (jsonMarshal exampleEnv noFloats w).toOption)).map Json.compact
      = some "42"
    ∧ MarshalJSON exampleEnv noFloats intHeap 6 wrapperPointerVal []
        = .ok ("\x7b\"value\":\x7b\"v\":\x7b\"ptrDepth\":1,\"typeName\":\"int\","
          ++ "\"value\":\x7b\"pointer\":1,\"value\":42\x7d\x7d\x7d\x7d") := by
  refine ⟨by decide!, by decide!, by decide!⟩

/-- C19, as the code has it: the payload of the box of an interface that is
not nil is the document of the encoding of the concrete value as it is, its
pointer layers included.  When the concrete type is of pointer kind and does
not implement `json.Marshaler`, the encoded value is a `pointerValue`, whose
own payload holds the next layer; when the concrete type implements
`json.Marshaler`, be it of pointer kind or not, the payload is the output of
its method for the concrete value, and the encoder is left as it was.  The
pointer depth only records the layers: for a concrete type with `n` pointer
layers over a type that is not a pointer it is `n`, and the package path and
the type name of the box are those of the type below the layers.  The nil
`*stringer` of the tests has the payload `{"pointer":1,"value":null}`; an
`**int` has the pointer depth 2 and a box in a box as payload; a `*stamp`,
which implements `json.Marshaler`, has the pointer depth 1 and the output of
the method as payload. -/
theorem interface_payload_is_encoded_value :
    (∀ (env : TypeEnv) (ff : FloatFormat) (heap : Heap) (fuel : Nat) (s s' : JSONEncoder)
        (inT T : GoType) (v : Val) (r : Option InterfaceValue),
      encodeToInterfaceValue env ff fuel (encode env ff heap fuel) s inT (.iface (some (T, v)))
        = (.ok r, s') →
      ∃ box encodedV, r = some box ∧ encode env ff heap fuel s T v = (.ok encodedV, s')
        ∧ jsonMarshal env ff encodedV = .ok box.value
        ∧ (env.kind T = .pointer → env.marshaler T = none → ∃ pv, encodedV = .pointerValue pv)
        ∧ (∀ marshal, env.marshaler T = some marshal →
            marshal v = .ok box.value ∧ encodedV = .rawMessage box.value ∧ s' = s)
        ∧ (∀ (n : Nat) (base : GoType), T = addPointers n base → env.kind base ≠ .pointer →
            box.ptrDepth = n ∧ box.pkgPath = pkgPathOf base ∧ box.typeName = nameOf base))
    ∧ MarshalJSON exampleEnv noFloats emptyHeap 6 structWithInterfacesVal []
        = .ok ("\x7b\"value\":\x7b\"nilInterface\":null,\"nilStruct\":\x7b\"ptrDepth\":1,"
          ++ "\"pkgPath\":\"github.com/outriggerlabs/unsafely\",\"typeName\":\"stringer\","
          ++ "\"value\":\x7b\"pointer\":1,\"value\":null\x7d\x7d,"
          ++ "\"emptyString\":\x7b\"pkgPath\":\"github.com/outriggerlabs/unsafely\","
          ++ "\"typeName\":\"stringAlias\",\"value\":\"\"\x7d,"
          ++ "\"emptyStruct\":\x7b\"pkgPath\":\"github.com/outriggerlabs/unsafely\","
          ++ "\"typeName\":\"stringer\",\"value\":\x7b\"value\":null\x7d\x7d\x7d\x7d")
    ∧ MarshalJSON exampleEnv noFloats pointerToPointerHeap 8 pointerToPointerInInterface []
        = .ok ("\x7b\"value\":[\x7b\"ptrDepth\":2,\"typeName\":\"int\",\"value\":"
          ++ "\x7b\"pointer\":2,\"value\":\x7b\"pointer\":1,\"value\":42\x7d\x7d\x7d]\x7d")
    ∧ stampEnv.kind (.pointer stampType) = .pointer
    ∧ stampEnv.implementsMarshaler (.pointer stampType) = true
    ∧ MarshalJSON stampEnv noFloats stampHeap 6 stampInInterface []
        = .ok ("\x7b\"value\":[\x7b\"ptrDepth\":1,"
          ++ "\"pkgPath\":\"github.com/outriggerlabs/unsafely\",\"typeName\":\"stamp\","
          ++ "\"value\":\"stamp\"\x7d]\x7d") := by
  refine ⟨?_, by decide!, by decide!, rfl, rfl, by decide!⟩
  intro env ff heap fuel s s' inT T v r h
  obtain ⟨encodedV, doc, depth, R, henc, hdoc, hstrip, rfl⟩ :=
    encodeToInterfaceValue_some env ff fuel _ s s' inT T v r h
  refine ⟨_, encodedV, rfl, henc, hdoc, fun hk hm => ?_, fun marshal hm => ?_,
    fun n base hT hb => ?_⟩
  · exact encode_pointer_kind env ff heap fuel s s' T v encodedV hm hk henc
  · obtain ⟨b, hb, rfl, hs⟩ := encode_marshaler_raw env ff heap fuel s s' T v encodedV marshal hm henc
    simp only [jsonMarshal, Except.ok.injEq] at hdoc
    subst hdoc
    exact ⟨hb, rfl, hs⟩
  · subst hT
    obtain ⟨h1, h2⟩ := stripPointers_addPointers_inv env base hb n fuel 0 depth R hstrip
    subst h2
    refine ⟨?_, rfl, rfl⟩
    simp [h1]

/-! ## Theorems: maps whose entries are encoded without the state of the encoder (C39) -/

theorem forall₂_mem_left {α β : Type} {R : α → β → Prop} {l1 : List α} {l2 : List β}
    (h : List.Forall₂ R l1 l2) : ∀ x ∈ l1, ∃ y ∈ l2, R x y := by
  induction h with
  | nil => intro x hx; cases hx
  | cons hab _ ih =>
    intro x hx
    rcases List.mem_cons.1 hx with rfl | hx
    · exact ⟨_, List.mem_cons_self _ _, hab⟩
    · obtain ⟨y, hy, hr⟩ := ih x hx
      exact ⟨y, List.mem_cons_of_mem _ hy, hr⟩

/-- Two keys of one wire map with different texts are different keys. -/
theorem wireKeyEq_of_text_ne (env : TypeEnv) (ff : FloatFormat) (encodedKeyT : WType)
    (kv : Wire × Wire) (m : String × Json) (t : GoType) (p : Prim) (k : String)
    (hkv : WireMember env ff encodedKeyT kv m) (ht : encodedKeyT = .prim t)
    (hk : jsonMapKey env (.prim t p) = .ok k) (hne : m.1 ≠ k) :
    wireKeyEq kv.1 (.prim t p) = false := by
  obtain ⟨⟨t2, p2, h1, h2⟩, h3, _⟩ := hkv
  rw [h1, wireKeyEq]
  cases hpq : (p2 == p) with
  | false => rfl
  | true =>
    exfalso
    have hp : p2 = p := by simpa using hpq
    have htt : t2 = t := by
      rw [ht] at h2
      simp only [WType.prim.injEq] at h2
      exact h2.symm
    rw [h1, hp, htt, hk] at h3
    simp only [Except.ok.injEq] at h3
    exact hne h3.symm

/-- The loop of the map branch of `encodeTo` over entries that are encoded
without the state of the encoder and whose keys have different texts: every
entry is appended to the wire map, and the state is left as it was. -/
theorem encodeMapEntries_stateless (env : TypeEnv) (ff : FloatFormat) (encode : EncodeFn)
    (keyT valT : GoType) (encodedKeyT : WType) (entries : List (Val × Val))
    (members : List (String × Json))
    (h : List.Forall₂ (StatelessEntry env ff encode keyT valT encodedKeyT) entries members) :
    ∀ (s : JSONEncoder) (acc : List (Wire × Wire)) (pm : List (String × Json)),
      List.Forall₂ (WireMember env ff encodedKeyT) acc pm →
      ((pm ++ members).map Prod.fst).Nodup →
      ∃ out, encodeMapEntries env ff encode keyT valT encodedKeyT s entries acc = (.ok out, s)
        ∧ List.Forall₂ (WireMember env ff encodedKeyT) out (pm ++ members) := by
  induction h with
  | nil =>
    intro s acc pm hacc _
    exact ⟨acc, rfl, by simpa using hacc⟩
  | @cons e m entries members he _ ih =>
    intro s acc pm hacc hnd
    obtain ⟨k, v⟩ := e
    obtain ⟨t, p, w, hkey, ht, htext, hval, hdoc⟩ := he s
    have hfresh : ∀ x ∈ acc, wireKeyEq x.1 (.prim t p) = false := by
      intro x hx
      obtain ⟨y, hy, hxy⟩ := forall₂_mem_left hacc x hx
      refine wireKeyEq_of_text_ne env ff encodedKeyT x y t p m.1 hxy ht htext ?_
      intro heq
      rw [List.map_append, List.nodup_append] at hnd
      exact hnd.2.2 (List.mem_map.2 ⟨y, hy, heq⟩)
        (List.mem_map.2 ⟨m, List.mem_cons_self _ _, rfl⟩)
    have hacc2 : List.Forall₂ (WireMember env ff encodedKeyT) (acc ++ [(.prim t p, w)])
        (pm ++ [m]) :=
      List.rel_append hacc
        (List.Forall₂.cons ⟨⟨t, p, rfl, ht⟩, htext, hdoc⟩ List.Forall₂.nil)
    have hnd2 : (((pm ++ [m]) ++ members).map Prod.fst).Nodup := by
      simpa [List.append_assoc] using hnd
    obtain ⟨out, hout, hrel⟩ := ih s (acc ++ [(.prim t p, w)]) (pm ++ [m]) hacc2 hnd2
    refine ⟨out, ?_, by simpa [List.append_assoc] using hrel⟩
    rw [encodeMapEntries]
    simp only at hkey hval
    rw [hkey]
    simp only [hval, ht, decide_True, if_true]
    rw [wireMapSet_fresh _ _ _ hfresh, ← ht]
    exact hout

/-- What `encoding/json` prints for a wire map whose entries print as members:
the members, sorted by key. -/
theorem jsonMarshalEntries_members (env : TypeEnv) (ff : FloatFormat) (encodedKeyT : WType)
    (out : List (Wire × Wire)) (members : List (String × Json))
    (h : List.Forall₂ (WireMember env ff encodedKeyT) out members) :
    jsonMarshalEntries env ff out = .ok (members.foldr insertMember []) := by
  induction h with
  | nil => rfl
  | @cons kv m out members hkv _ ih =>
    obtain ⟨k, w⟩ := kv
    obtain ⟨_, hk, hw⟩ := hkv
    simp only at hk hw
    rw [jsonMarshalEntries, hk, hw, ih]
    rfl

/-- The map branch of `encode` for a map whose entries are encoded without
the state of the encoder and whose keys have different texts: the wire map
prints as the object of the members sorted by key, and the encoder is left as
it was. -/
theorem encode_map_stateless (env : TypeEnv) (ff : FloatFormat) (heap : Heap) (fuel : Nat)
    (s : JSONEncoder) (t : GoType) (keyW valW : WType) (entries : List (Val × Val))
    (members : List (String × Json))
    (hm : env.marshaler t = none) (hk : env.kind t = .map)
    (hmirror : encodedTypeFor env (fuel + 1) t = .ok (.map keyW valW))
    (hent : List.Forall₂ (StatelessEntry env ff (encode env ff heap fuel) (env.key t) (env.elem t)
      keyW) entries members)
    (hnd : (members.map Prod.fst).Nodup) :
    ∃ out, encode env ff heap (fuel + 1) s t (.map (some entries)) = (.ok (.map (some out)), s)
      ∧ jsonMarshal env ff (.map (some out)) = .ok (.obj (members.foldr insertMember [])) := by
  obtain ⟨out, hout, hrel⟩ := encodeMapEntries_stateless env ff (encode env ff heap fuel)
    (env.key t) (env.elem t) keyW entries members hent s [] [] List.Forall₂.nil
    (by simpa using hnd)
  refine ⟨out, ?_, ?_⟩
  · unfold encode encodeWith
    rw [hmirror]
    simp only
    rw [encodeTo_map env ff heap fuel s t entries keyW valW hm hk]
    have : encodeWith env fuel (encodeTo env ff heap fuel) = encode env ff heap fuel := rfl
    rw [hout]
  · rw [jsonMarshal, jsonMarshalEntries_members env ff keyW out members (by simpa using hrel)]
    rfl

/-- The output of `MarshalJSON` for such a map: the object of the members
sorted by key, in the envelope. -/
theorem MarshalJSON_map_stateless (env : TypeEnv) (ff : FloatFormat) (heap : Heap) (fuel : Nat)
    (options : List MarshalJSONOption) (t : GoType) (keyW valW : WType)
    (entries : List (Val × Val)) (members : List (String × Json))
    (hm : env.marshaler t = none) (hk : env.kind t = .map)
    (hmirror : encodedTypeFor env (fuel + 1) t = .ok (.map keyW valW))
    (hent : List.Forall₂ (StatelessEntry env ff (encode env ff heap fuel) (env.key t) (env.elem t)
      keyW) entries members)
    (hnd : (members.map Prod.fst).Nodup) :
    MarshalJSON env ff heap (fuel + 1) (some (t, .map (some entries))) options
      = .ok (envelopeText (NewJSONEncoder options).config
          (.obj (members.foldr insertMember []))) := by
  obtain ⟨out, hout, hdoc⟩ := encode_map_stateless env ff heap fuel (NewJSONEncoder options) t
    keyW valW entries members hm hk hmirror hent hnd
  simp only [MarshalJSON, Encode, hout, jsonMarshalInternal, hdoc, envelopeText]
  split <;> rfl

/-- An entry with a key and a value of primitive kinds is encoded without the
state of the encoder. -/
theorem statelessEntry_primitive (env : TypeEnv) (ff : FloatFormat) (heap : Heap) (fuel : Nat)
    (keyT valT : GoType) (p q : Prim) (key : String) (doc : Json)
    (hk : isSimplePrimitive (env.kind keyT) = true)
    (hvm : env.marshaler valT = none) (hv : isSimplePrimitive (env.kind valT) = true)
    (hkey : jsonMapKey env (.prim keyT p) = .ok key)
    (hdoc : jsonPrim env ff valT q = .ok doc) :
    StatelessEntry env ff (encode env ff heap (fuel + 1)) keyT valT (.prim keyT)
      (.prim p, .prim q) (key, doc) := by
  intro s
  refine ⟨keyT, p, .prim valT q, ?_, rfl, hkey, ?_, ?_⟩
  · simp [encodeMapKey, hk]
  · have hm' : env.implementsMarshaler valT = false := by
      simp [TypeEnv.implementsMarshaler, hvm]
    have hne1 : env.kind valT ≠ .map := by
      intro h; rw [h] at hv; simp [isSimplePrimitive] at hv
    have hne2 : env.kind valT ≠ .struct := by
      intro h; rw [h] at hv; simp [isSimplePrimitive] at hv
    unfold encode encodeWith
    unfold encodedTypeFor
    rw [createEncodedTypeFor_primitive env fuel valT hm' hv]
    simp only
    rw [encodeTo]
    simp only [hvm, isPointerValueType, isInterfaceValueType, isComplexValueType, WType.kind,
      Bool.false_eq_true, if_false, ne_eq, not_true_eq_false, hne1, hne2]
    simp [copyCommon, hv]
  · simp [jsonMarshal, hdoc]

/-! ## Theorems: a traversal that comes back to a pointer it is encoding (C5) -/

theorem keepsOpenPointers_stateRel : StateRel KeepsOpenPointers where
  refl := fun _ _ _ => ⟨rfl, fun _ _ h => h⟩
  trans := fun _ s1 s2 s3 h1 h2 hb => by
    obtain ⟨p1, t1⟩ := h1 rfl
    obtain ⟨p2, t2⟩ := h2 hb
    refine ⟨by rw [p2, p1], fun a ha hn => ?_⟩
    exact t2 a (by rw [p1]; exact ha) (t1 a ha hn)
  weaken := fun _ _ _ hb => by cases hb

theorem encodeToPointerValue_keepsOpenPointers (env : TypeEnv) (ff : FloatFormat) (heap : Heap)
    (encode : EncodeFn) (henc : EncodeFn.Respects KeepsOpenPointers encode)
    (s : JSONEncoder) (t : GoType) (v : Val) (r : Except Err PointerValue) (s' : JSONEncoder)
    (h : encodeToPointerValue env ff heap encode s t v = (r, s')) :
    KeepsOpenPointers (isOk r) s s' := by
  intro hok
  unfold encodeToPointerValue at h
  dsimp only at h
  repeat' split at h
  all_goals simp only [Prod.mk.injEq] at h
  all_goals obtain ⟨rfl, rfl⟩ := h
  all_goals try (simp only [isOk] at hok; cases hok)
  all_goals try exact ⟨rfl, fun _ _ h => h⟩
  all_goals
    have h0 := henc _ _ _ _ _ ‹encode _ _ _ = _›
    obtain ⟨h1, h2⟩ := h0 rfl
    have hnp := ‹¬ s.pendingPointers _ = true›
    simp only at h1 h2 ⊢
    refine ⟨?_, fun a ha hn => ?_⟩
    · rw [h1]
      funext b
      simp only [Function.update_apply]
      split
      · rename_i hb
        subst hb
        simpa using hnp
      · rfl
    · simp only [Function.update_apply]
      split
      · rename_i hb
        subst hb
        exact absurd ha hnp
      · refine h2 a ?_ hn
        simp only [Function.update_apply]
        split
        · rfl
        · exact ha

theorem encodeTo_keepsOpenPointers (env : TypeEnv) (ff : FloatFormat) (heap : Heap) (fuel : Nat) :
    CopyFn.Respects KeepsOpenPointers (encodeTo env ff heap fuel) :=
  encodeTo_respects keepsOpenPointers_stateRel env ff heap
    (fun enc henc s t v r s' h =>
      encodeToPointerValue_keepsOpenPointers env ff heap enc henc s t v r s' h) fuel

/-- The loop of `copyStruct` returns the error of the first field that fails,
after the fields before it. -/
theorem copyFields_append_error (env : TypeEnv) (copyFn : CopyFn) (originalT : GoType)
    (vals : List (String × Val)) (rest : List (WFieldInfo × WType)) (e : Err) (s2 : JSONEncoder)
    (pre : List (WFieldInfo × WType)) :
    ∀ (s s1 : JSONEncoder) (ws : List (WFieldInfo × Wire)),
      copyFields env copyFn originalT vals s pre = (.ok ws, s1) →
      copyFields env copyFn originalT vals s1 rest = (.error e, s2) →
      copyFields env copyFn originalT vals s (pre ++ rest) = (.error e, s2) := by
  induction pre with
  | nil =>
    intro s s1 ws h hrest
    simp only [copyFields, Prod.mk.injEq] at h
    obtain ⟨_, rfl⟩ := h
    exact hrest
  | cons f pre ih =>
    intro s s1 ws h hrest
    obtain ⟨info, ft⟩ := f
    rw [List.cons_append]
    unfold copyFields at h ⊢
    dsimp only at h ⊢
    split
    · rename_i hname
      rw [if_pos hname] at h
      simp at h
    · rename_i hname
      rw [if_neg hname] at h
      split
      · rename_i hfind
        rw [hfind] at h
        simp at h
      · rename_i fi2 ft2 hfind
        rw [hfind] at h
        dsimp only at h ⊢
        split
        · rename_i hlook
          rw [hlook] at h
          simp at h
        · rename_i fv hlook
          rw [hlook] at h
          dsimp only at h ⊢
          cases hc : copyFn s ft2 fv ft with
          | mk r sa =>
            rw [hc] at h
            cases r with
            | error err => simp at h
            | ok w =>
              dsimp only at h ⊢
              cases hr : copyFields env copyFn originalT vals sa pre with
              | mk r2 sb =>
                rw [hr] at h
                cases r2 with
                | error err => simp at h
                | ok ws2 =>
                  simp only [Prod.mk.injEq, Except.ok.injEq] at h
                  obtain ⟨_, rfl⟩ := h
                  rw [ih sa sb ws2 hr hrest]

/-- A traversal that comes back to a pointer it is encoding ends with the
error for a cycle, wrapped by the functions on the way. -/
theorem reachesOpenPointer_error (env : TypeEnv) (ff : FloatFormat) (heap : Heap)
    (opened : List Nat) (fuel : Nat) (s : JSONEncoder) (t : GoType) (v : Val) (w : WType)
    (h : ReachesOpenPointer env ff heap opened fuel s t v w) :
    (∀ a ∈ opened, a ≠ 0 ∧ s.pendingPointers a = true ∧ s.pointerValues a = none) →
    ∃ e s', encodeTo env ff heap fuel s t v w = (.error e, s') ∧ e.Contains "cycle detected" := by
  induction h with
  | back opened fuel s t p hm hk hmem =>
    intro hopen
    obtain ⟨hp, hpend, htab⟩ := hopen p.addr hmem
    refine ⟨.msg cycleMessage, s, ?_, cycleMessage_contains⟩
    rw [encodeTo_pointerValue env ff heap fuel s t _ hm]
    simp [encodeToPointerValue, hk, hp, htab, hpend, cycleMessage]
  | pointer opened fuel s t p pointee w hm hk hp htab hheap hmirror _ ih =>
    intro hopen
    rw [encodeTo_pointerValue env ff heap fuel s t _ hm]
    cases hpend : s.pendingPointers p.addr with
    | true =>
      refine ⟨.msg cycleMessage, s, ?_, cycleMessage_contains⟩
      simp [encodeToPointerValue, hk, hp, htab, hpend, cycleMessage]
    | false =>
      obtain ⟨e, s', he, hc⟩ := ih (by
        intro a ha
        rcases List.mem_cons.1 ha with rfl | ha
        · exact ⟨hp, by simp, htab⟩
        · obtain ⟨h1, h2, h3⟩ := hopen a ha
          refine ⟨h1, ?_, h3⟩
          simp only [Function.update_apply]
          split
          · rfl
          · exact h2)
      refine ⟨(e.wrap "encode(): ").wrap "encodeToPointerValue: ", s', ?_, (hc.wrap _).wrap _⟩
      simp [encodeToPointerValue, hk, hp, htab, hpend, hheap, encode, encodeWith, hmirror, he]
  | field opened fuel s s1 t vals pre wf wt post ws fi ft fv hm hk hcopy hname hfind hlook _ ih =>
    intro hopen
    obtain ⟨hpend, htab⟩ := copyFields_respects keepsOpenPointers_stateRel env
      (encodeTo env ff heap fuel) (encodeTo_keepsOpenPointers env ff heap fuel) t vals pre
      s _ s1 hcopy rfl
    obtain ⟨e, s', he, hc⟩ := ih (by
      intro a ha
      obtain ⟨h1, h2, h3⟩ := hopen a ha
      exact ⟨h1, by rw [hpend]; exact h2, htab a h2 h3⟩)
    refine ⟨e.wrap "copyStruct(): ", s', ?_, hc.wrap _⟩
    have hstep : copyFields env (encodeTo env ff heap fuel) t vals s1 ((wf, wt) :: post)
        = (.error (e.wrap "copyStruct(): "), s') := by
      rw [copyFields]
      simp only [hname, if_false, hfind, hlook, he]
    have hall := copyFields_append_error env (encodeTo env ff heap fuel) t vals
      ((wf, wt) :: post) _ s' pre s s1 ws hcopy hstep
    rw [encodeTo]
    simp only [hm, hk, isPointerValueType, isInterfaceValueType, isComplexValueType, WType.kind,
      Bool.false_eq_true, if_false, ne_eq, not_true_eq_false, if_true]
    simp [copyStruct, hk, WType.kind, hall]

/-- The result of `Encode` for a value whose traversal comes back to a pointer
it is encoding: the error for a cycle, and so no bytes. -/
theorem Encode_reachesOpenPointer (env : TypeEnv) (ff : FloatFormat) (heap : Heap) (fuel : Nat)
    (s : JSONEncoder) (t : GoType) (v : Val) (w : WType)
    (hmirror : encodedTypeFor env fuel t = .ok w)
    (h : ReachesOpenPointer env ff heap [] fuel s t v w) :
    ∃ e s', Encode env ff heap fuel s (some (t, v)) = (.error e, s')
      ∧ e.Contains "cycle detected" := by
  obtain ⟨e, s', he, hc⟩ := reachesOpenPointer_error env ff heap [] fuel s t v w h
    (fun a ha => by cases ha)
  refine ⟨(e.wrap "encode(): ").wrap "MarshalJSON: ", s', ?_, (hc.wrap _).wrap _⟩
  simp [Encode, encode, encodeWith, hmirror, he]

theorem ring_reaches_open_pointer (fuel : Nat) :
    ReachesOpenPointer testEnv noFloats cycleHeap [] (fuel + 7) (NewJSONEncoder [])
      (.pointer nodeType) (.ptr (some ptrA)) .pointerValue := by
  refine ReachesOpenPointer.pointer _ (fuel + 6) _ _ ptrA (mkNode (some ptrB)) nodeWireType
    rfl rfl (by decide) rfl rfl rfl ?_
  refine ReachesOpenPointer.field _ (fuel + 5) _ _ nodeType [("next", .ptr (some ptrB))] [] _ _ []
    [] { name := "next" } (.pointer nodeType) (.ptr (some ptrB)) rfl rfl rfl (by decide)
    (by decide!) rfl ?_
  refine ReachesOpenPointer.pointer _ (fuel + 4) _ _ ptrB (mkNode (some ptrC)) nodeWireType
    rfl rfl (by decide) rfl rfl rfl ?_
  refine ReachesOpenPointer.field _ (fuel + 3) _ _ nodeType [("next", .ptr (some ptrC))] [] _ _ []
    [] { name := "next" } (.pointer nodeType) (.ptr (some ptrC)) rfl rfl rfl (by decide)
    (by decide!) rfl ?_
  refine ReachesOpenPointer.pointer _ (fuel + 2) _ _ ptrC (mkNode (some ptrA)) nodeWireType
    rfl rfl (by decide) rfl rfl rfl ?_
  refine ReachesOpenPointer.field _ (fuel + 1) _ _ nodeType [("next", .ptr (some ptrA))] [] _ _ []
    [] { name := "next" } (.pointer nodeType) (.ptr (some ptrA)) rfl rfl rfl (by decide)
    (by decide!) rfl ?_
  exact ReachesOpenPointer.back _ fuel _ _ ptrA rfl rfl (by decide)

theorem family_reaches_open_pointer (fuel : Nat) :
    ReachesOpenPointer familyEnv noFloats friendHomeHeap [] (fuel + 10) (NewJSONEncoder [])
      personType (personVal "eve" "nice" (some ptrA) none) personWireType := by
  refine ReachesOpenPointer.field _ (fuel + 9) _ _ personType _
    [(wireFieldOf 0 { name := "name" }, .prim (.basic .string))] _ _
    [(wireFieldOf 2 { name := "friend" }, .pointerValue)] _
    { name := "home" } (.named (localName "address")) _ rfl rfl rfl (by decide) (by decide!) rfl ?_
  refine ReachesOpenPointer.field _ (fuel + 8) _ _ (.named (localName "address")) _
    [(wireFieldOf 0 { name := "city" }, .prim (.basic .string))] _ _ [] _
    { name := "owner" } (.pointer personType) _ rfl rfl rfl (by decide) (by decide!) rfl ?_
  refine ReachesOpenPointer.pointer _ (fuel + 7) _ _ ptrA (personVal "ann" "rome" none (some ptrB))
    personWireType rfl rfl (by decide) rfl rfl rfl ?_
  refine ReachesOpenPointer.field _ (fuel + 6) _ _ personType _
    [(wireFieldOf 0 { name := "name" }, .prim (.basic .string)),
      (wireFieldOf 1 { name := "home" }, addressWireType)] _ _ [] _
    { name := "friend" } (.pointer personType) _ rfl rfl rfl (by decide) (by decide!) rfl ?_
  refine ReachesOpenPointer.pointer _ (fuel + 5) _ _ ptrB (personVal "bob" "oslo" (some ptrA) none)
    personWireType rfl rfl (by decide) rfl rfl rfl ?_
  refine ReachesOpenPointer.field _ (fuel + 4) _ _ personType _
    [(wireFieldOf 0 { name := "name" }, .prim (.basic .string))] _ _
    [(wireFieldOf 2 { name := "friend" }, .pointerValue)] _
    { name := "home" } (.named (localName "address")) _ rfl rfl rfl (by decide) (by decide!) rfl ?_
  refine ReachesOpenPointer.field _ (fuel + 3) _ _ (.named (localName "address")) _
    [(wireFieldOf 0 { name := "city" }, .prim (.basic .string))] _ _ [] _
    { name := "owner" } (.pointer personType) _ rfl rfl rfl (by decide) (by decide!) rfl ?_
  exact ReachesOpenPointer.back _ (fuel + 2) _ _ ptrA rfl rfl (by decide)

/-- C5, counterexample: a node whose field `next` carries the tag `json:"-"`
and points to the node itself is reachable from its own pointee, and
`MarshalJSON` of the pointer to it succeeds.  So does `MarshalJSON` of the
pointer to the `outer` value of `aliasHeap`, which is reachable from its own
pointee through the fields `whole` and `up`, none of them omitted: the pointer
`whole` has the address of the pointer `part` to the first field of its
pointee, and is answered with the box of `part` from the table, so that the
traversal never enters the `inner` value. -/
theorem cycle_through_omitted_field_encodes :
    selfHeap ptrA.obj = some (.struct [("next", .ptr (some ptrA))])
    ∧ MarshalJSON testEnv noFloats selfHeap 4
        (some (.pointer (.named skipNodeName), .ptr (some ptrA))) []
      = .ok "\x7b\"value\":\x7b\"pointer\":1,\"value\":\x7b\x7d\x7d\x7d"
    ∧ aliasHeap ptrA.obj
        = some (.struct [("part", .ptr (some { addr := 200, obj := 3 })),
            ("whole", .ptr (some { addr := 200, obj := 2 }))])
    ∧ aliasHeap 2 = some (.struct [("id", intVal 7), ("up", .ptr (some ptrA))])
    ∧ MarshalJSON aliasEnv noFloats aliasHeap 8
        (some (.pointer (.named (localName "outer")), .ptr (some ptrA))) []
      = .ok ("\x7b\"value\":\x7b\"pointer\":2,\"value\":\x7b\"part\":\x7b\"pointer\":1,"
          ++ "\"value\":7\x7d,\"whole\":\x7b\"pointer\":1,\"value\":7\x7d\x7d\x7d\x7d") :=
  ⟨rfl, by decide!, rfl, rfl, by decide!⟩

/-- C5, as the code has it: `encodeToPointerValue` answers a non-nil pointer
that is not in the table and whose address is pending with the error "cycle
detected", leaving the encoder as it is.  In every type environment and for
every value: when the traversal of `Encode` comes back to a pointer it is
encoding (`ReachesOpenPointer`: it enters the pointers that are not nil and
not in the table, goes into a field of a struct after the fields before it
have been copied without error, and comes to a pointer with the address of a
pointer it has entered on the way), `Encode` returns an error whose message
contains "cycle detected", and so no bytes, whatever the state of the encoder
was, a fresh one included.  For every linked list of `node` values whose last
node points back to a node of the list (the ring a, b, c, a is one),
`MarshalJSON` of the pointer to its head returns such an error for every fuel
from `2 * length + 3` on.  The ring a, b, c, a and the `person` value whose
home is owned by a person whose friend's home is owned by that person are
values with such a traversal. -/
theorem cycle_rejected :
    (∀ (env : TypeEnv) (ff : FloatFormat) (heap : Heap) (encode : EncodeFn) (s : JSONEncoder)
        (inT : GoType) (p : Pointer),
      env.kind inT = .pointer → p.addr ≠ 0 → s.pointerValues p.addr = none →
      s.pendingPointers p.addr = true →
      encodeToPointerValue env ff heap encode s inT (.ptr (some p))
        = (.error (.msg cycleMessage), s))
    ∧ (∀ (env : TypeEnv) (ff : FloatFormat) (heap : Heap) (fuel : Nat) (s : JSONEncoder)
        (t : GoType) (v : Val) (w : WType),
      encodedTypeFor env fuel t = .ok w →
      ReachesOpenPointer env ff heap [] fuel s t v w →
      ∃ e s', Encode env ff heap fuel s (some (t, v)) = (.error e, s')
        ∧ e.Contains "cycle detected")
    ∧ (∀ (env : TypeEnv) (ff : FloatFormat) (heap : Heap) (fuel : Nat)
        (options : List MarshalJSONOption) (t : GoType) (v : Val) (w : WType),
      encodedTypeFor env fuel t = .ok w →
      ReachesOpenPointer env ff heap [] fuel (NewJSONEncoder options) t v w →
      ∃ e, MarshalJSON env ff heap fuel (some (t, v)) options = .error e
        ∧ e.Contains "cycle detected")
    ∧ (∀ (ff : FloatFormat) (heap : Heap) (head : Pointer) (rest : List Pointer) (back : Pointer)
        (fuel : Nat),
      LinkedTo heap (head :: rest) back → back ∈ head :: rest →
      (∀ q ∈ head :: rest, q.addr ≠ 0) → ((head :: rest).map (fun q => q.addr)).Nodup →
      2 * rest.length + 3 ≤ fuel →
      ∃ e, MarshalJSON testEnv ff heap fuel (some (.pointer nodeType, .ptr (some head))) []
          = .error e ∧ e.Contains "cycle detected")
    ∧ (∀ fuel : Nat,
      encodedTypeFor testEnv (fuel + 7) (.pointer nodeType) = .ok .pointerValue
      ∧ ReachesOpenPointer testEnv noFloats cycleHeap [] (fuel + 7) (NewJSONEncoder [])
          (.pointer nodeType) (.ptr (some ptrA)) .pointerValue)
    ∧ (∀ fuel : Nat,
      encodedTypeFor familyEnv (fuel + 10) personType = .ok personWireType
      ∧ ReachesOpenPointer familyEnv noFloats friendHomeHeap [] (fuel + 10) (NewJSONEncoder [])
          personType (personVal "eve" "nice" (some ptrA) none) personWireType)
    ∧ MarshalJSON testEnv noFloats cycleHeap 7 (some (.pointer nodeType, .ptr (some ptrA))) []
        = .error (.msg ("MarshalJSON: encode(): encodeToPointerValue: encode(): copyStruct(): "
          ++ "encodeToPointerValue: encode(): copyStruct(): encodeToPointerValue: encode(): "
          ++ "copyStruct(): encodeToPointerValue: cycle detected; "
          ++ "structs with cyclic data are not supported"))
    ∧ MarshalJSON familyEnv noFloats friendHomeHeap 10
          (some (personType, personVal "eve" "nice" (some ptrA) none)) []
        = .error (.msg ("MarshalJSON: encode(): copyStruct(): copyStruct(): "
          ++ "encodeToPointerValue: encode(): copyStruct(): encodeToPointerValue: encode(): "
          ++ "copyStruct(): copyStruct(): encodeToPointerValue: cycle detected; "
          ++ "structs with cyclic data are not supported"))
    ∧ MarshalJSON familyEnv noFloats ownHomeHeap 8
          (some (.pointer personType, .ptr (some ptrA))) []
        = .error (.msg ("MarshalJSON: encode(): encodeToPointerValue: encode(): copyStruct(): "
          ++ "copyStruct(): encodeToPointerValue: cycle detected; "
          ++ "structs with cyclic data are not supported")) := by
  refine ⟨?_, ?_, ?_, ?_, ?_, ?_, by decide!, by decide!, by decide!⟩
  · intro env ff heap encode s inT p hk hp htab hpend
    simp [encodeToPointerValue, hk, hp, htab, hpend, cycleMessage]
  · intro env ff heap fuel s t v w hmirror h
    exact Encode_reachesOpenPointer env ff heap fuel s t v w hmirror h
  · intro env ff heap fuel options t v w hmirror h
    obtain ⟨e, s', he, hc⟩ :=
      Encode_reachesOpenPointer env ff heap fuel (NewJSONEncoder options) t v w hmirror h
    exact ⟨e, by rw [MarshalJSON, he], hc⟩
  · intro ff heap head rest back fuel hlink hback hnz hnodup hfuel
    obtain ⟨k, rfl⟩ : ∃ k, fuel = 2 * rest.length + 3 + k := ⟨fuel - (2 * rest.length + 3), by omega⟩
    obtain ⟨e, s', henc, hc⟩ := lasso_error ff heap back (hnz back hback) rest head (NewJSONEncoder [])
      k hlink hnz hnodup (fun _ => rfl) (fun _ _ => rfl) (Or.inl hback)
    have hT : encodedTypeFor testEnv (2 * rest.length + 3 + k) (.pointer nodeType)
        = .ok .pointerValue := by
      have : 2 * rest.length + 3 + k = (2 * rest.length + 2 + k) + 1 := by omega
      rw [this]
      exact encodedTypeFor_nodePointer _
    refine ⟨(e.wrap "encode(): ").wrap "MarshalJSON: ", ?_, (hc.wrap _).wrap _⟩
    simp [MarshalJSON, Encode, encode, encodeWith, hT, henc]
  · intro fuel
    exact ⟨rfl, ring_reaches_open_pointer fuel⟩
  · intro fuel
    exact ⟨rfl, family_reaches_open_pointer fuel⟩

/-! ## Theorems: the counter as a machine integer (C26) -/

theorem incrementInt_of_le (bits : Nat) (i : Int) (h0 : 0 ≤ i) (h1 : i + 1 ≤ maxInt bits) :
    incrementInt bits i = i + 1 := by
  unfold incrementInt wrapInt
  unfold maxInt at h1
  have hb : 1 ≤ bits := by
    by_contra hb
    have : bits = 0 := by omega
    subst this
    simp at h1
    omega
  obtain ⟨k, rfl⟩ : ∃ k, bits = k + 1 := ⟨bits - 1, by omega⟩
  simp only [Nat.add_sub_cancel] at h1 ⊢
  have hp : (2 : Int) ^ (k + 1) = 2 * 2 ^ k := by rw [pow_succ]; ring
  have hpos : (0 : Int) < 2 ^ k := by positivity
  rw [hp, Int.emod_eq_of_lt (by omega) (by omega)]
  ring
theorem copyItems_agreesBelow (M : Int) (f g : CopyFn) (hfg : CopyFn.AgreesBelow M f g)
    (hmono : CopyFn.Respects (fun _ s s' => Grows s s') f) (fromElemT : GoType)
    (toElemT : WType) (items : List Val) :
    ∀ s r s', 0 ≤ s.pointerIndex → copyItems f fromElemT toElemT s items = (r, s') →
      s'.pointerIndex ≤ M → copyItems g fromElemT toElemT s items = (r, s') := by
  induction items with
  | nil =>
    intro s r s' _ h _
    simpa [copyItems] using h
  | cons v rest ih =>
    intro s r s' h0 h hM
    rw [copyItems] at h ⊢
    cases hf : f s fromElemT v toElemT with
    | mk r1 s1 =>
      rw [hf] at h
      have g1 := (hmono _ _ _ _ _ _ hf).2.1
      cases r1 with
      | error e =>
        simp only [Prod.mk.injEq] at h
        obtain ⟨rfl, rfl⟩ := h
        rw [hfg _ _ _ _ _ _ h0 hf hM]
      | ok w =>
        dsimp only at h ⊢
        cases hr : copyItems f fromElemT toElemT s1 rest with
        | mk r2 s2 =>
          rw [hr] at h
          have g2 := (copyItems_respects Grows.stateRel f hmono _ _ rest _ _ _ hr).2.1
          have hs : s' = s2 := by
            cases r2 <;> simp only [Prod.mk.injEq] at h <;> exact h.2.symm
          subst hs
          rw [hfg _ _ _ _ _ _ h0 hf (by omega)]
          dsimp only
          rw [ih _ _ _ (by omega) hr hM]
          exact h

theorem copyArrayLike_agreesBelow (M : Int) (env : TypeEnv) (f g : CopyFn)
    (hfg : CopyFn.AgreesBelow M f g)
    (hmono : CopyFn.Respects (fun _ s s' => Grows s s') f)
    (s : JSONEncoder) (fromT : GoType) (fromV : Val) (toT : WType) (r : Except Err Wire)
    (s' : JSONEncoder) (h0 : 0 ≤ s.pointerIndex)
    (h : copyArrayLike env f s fromT fromV toT = (r, s')) (hM : s'.pointerIndex ≤ M) :
    copyArrayLike env g s fromT fromV toT = (r, s') := by
  unfold copyArrayLike at h ⊢
  dsimp only at h ⊢
  split
  · rename_i hc
    rw [if_pos hc] at h
    exact h
  · rename_i hc
    rw [if_neg hc] at h
    split
    · rename_i hc2
      rw [if_pos hc2] at h
      exact h
    · rename_i hc2
      rw [if_neg hc2] at h
      cases toT <;> cases fromV <;> (try dsimp only at h ⊢) <;> try exact h
      · rename_i toElemT o
        cases o with
        | none => exact h
        | some items =>
          try dsimp only at h ⊢
          cases hx : copyItems f (env.elem fromT) toElemT s items with
          | mk r1 s1 =>
            rw [hx] at h
            have hs : s' = s1 := by
              cases r1 <;> simp only [Prod.mk.injEq] at h <;> exact h.2.symm
            subst hs
            rw [copyItems_agreesBelow M f g hfg hmono _ _ _ _ _ _ h0 hx hM]
            exact h
      · rename_i n toElemT items
        split
        · rename_i hc3
          rw [if_pos hc3] at h
          exact h
        · rename_i hc3
          rw [if_neg hc3] at h
          cases hx : copyItems f (env.elem fromT) toElemT s items with
          | mk r1 s1 =>
            rw [hx] at h
            have hs : s' = s1 := by
              cases r1 <;> simp only [Prod.mk.injEq] at h <;> exact h.2.symm
            subst hs
            rw [copyItems_agreesBelow M f g hfg hmono _ _ _ _ _ _ h0 hx hM]
            exact h
theorem copyCommon_agreesBelow (M : Int) (env : TypeEnv) (f g : CopyFn)
    (hfg : CopyFn.AgreesBelow M f g)
    (hmono : CopyFn.Respects (fun _ s s' => Grows s s') f)
    (s : JSONEncoder) (fromT : GoType) (fromV : Val) (toT : WType) (r : Except Err Wire)
    (s' : JSONEncoder) (h0 : 0 ≤ s.pointerIndex)
    (h : copyCommon env f s fromT fromV toT = (r, s')) (hM : s'.pointerIndex ≤ M) :
    copyCommon env g s fromT fromV toT = (r, s') := by
  unfold copyCommon at h ⊢
  dsimp only at h ⊢
  split
  · rename_i hc
    rw [if_pos hc] at h
    exact h
  · rename_i hc
    rw [if_neg hc] at h
    split
    · rename_i hc2
      rw [if_pos hc2] at h
      exact copyArrayLike_agreesBelow M env f g hfg hmono s fromT fromV toT r s' h0 h hM
    · rename_i hc2
      rw [if_neg hc2] at h
      exact h

theorem copyFields_agreesBelow (M : Int) (env : TypeEnv) (f g : CopyFn)
    (hfg : CopyFn.AgreesBelow M f g)
    (hmono : CopyFn.Respects (fun _ s s' => Grows s s') f) (originalT : GoType)
    (vals : List (String × Val)) (fields : List (WFieldInfo × WType)) :
    ∀ s r s', 0 ≤ s.pointerIndex → copyFields env f originalT vals s fields = (r, s') →
      s'.pointerIndex ≤ M → copyFields env g originalT vals s fields = (r, s') := by
  induction fields with
  | nil =>
    intro s r s' _ h _
    simpa [copyFields] using h
  | cons fd rest ih =>
    intro s r s' h0 h hM
    obtain ⟨info, ft⟩ := fd
    unfold copyFields at h ⊢
    dsimp only at h ⊢
    split
    · rename_i hname
      rw [if_pos hname] at h
      exact h
    · rename_i hname
      rw [if_neg hname] at h
      split
      · rename_i hfind
        rw [hfind] at h
        exact h
      · rename_i fi2 ft2 hfind
        rw [hfind] at h
        dsimp only at h ⊢
        split
        · rename_i hlook
          rw [hlook] at h
          exact h
        · rename_i fv hlook
          rw [hlook] at h
          dsimp only at h ⊢
          cases hf : f s ft2 fv ft with
          | mk r1 s1 =>
            rw [hf] at h
            have g1 := (hmono _ _ _ _ _ _ hf).2.1
            cases r1 with
            | error e =>
              simp only [Prod.mk.injEq] at h
              obtain ⟨rfl, rfl⟩ := h
              rw [hfg _ _ _ _ _ _ h0 hf hM]
            | ok w =>
              dsimp only at h ⊢
              cases hr : copyFields env f originalT vals s1 rest with
              | mk r2 s2 =>
                rw [hr] at h
                have g2 := (copyFields_respects Grows.stateRel env f hmono _ _ rest _ _ _ hr).2.1
                have hs : s' = s2 := by
                  cases r2 <;> simp only [Prod.mk.injEq] at h <;> exact h.2.symm
                subst hs
                rw [hfg _ _ _ _ _ _ h0 hf (by omega)]
                dsimp only
                rw [ih _ _ _ (by omega) hr hM]
                exact h

theorem copyStruct_agreesBelow (M : Int) (env : TypeEnv) (f g : CopyFn)
    (hfg : CopyFn.AgreesBelow M f g)
    (hmono : CopyFn.Respects (fun _ s s' => Grows s s') f)
    (s : JSONEncoder) (fromT : GoType) (fromV : Val) (toT : WType) (r : Except Err Wire)
    (s' : JSONEncoder) (h0 : 0 ≤ s.pointerIndex)
    (h : copyStruct env f s fromT fromV toT = (r, s')) (hM : s'.pointerIndex ≤ M) :
    copyStruct env g s fromT fromV toT = (r, s') := by
  unfold copyStruct at h ⊢
  split
  · rename_i hc
    rw [if_pos hc] at h
    exact h
  · rename_i hc
    rw [if_neg hc] at h
    cases toT <;> cases fromV <;> (try dsimp only at h ⊢) <;> try exact h
    rename_i encodedFields originalFields
    cases hx : copyFields env f fromT originalFields s encodedFields with
    | mk r1 s1 =>
      rw [hx] at h
      have hs : s' = s1 := by
        cases r1 <;> simp only [Prod.mk.injEq] at h <;> exact h.2.symm
      subst hs
      rw [copyFields_agreesBelow M env f g hfg hmono _ _ _ _ _ _ h0 hx hM]
      exact h

theorem encodeWith_agreesBelow (M : Int) (env : TypeEnv) (fuel : Nat) (f g : CopyFn)
    (hfg : CopyFn.AgreesBelow M f g) :
    EncodeFn.AgreesBelow M (encodeWith env fuel f) (encodeWith env fuel g) := by
  intro s t v r s' h0 h hM
  unfold encodeWith at h ⊢
  cases hT : encodedTypeFor env fuel t with
  | error e =>
    rw [hT] at h
    exact h
  | ok w =>
    rw [hT] at h
    dsimp only at h ⊢
    cases hx : f s t v w with
    | mk r1 s1 =>
      rw [hx] at h
      have hs : s' = s1 := by
        cases r1 <;> simp only [Prod.mk.injEq] at h <;> exact h.2.symm
      subst hs
      rw [hfg _ _ _ _ _ _ h0 hx hM]
      exact h

theorem encodeMapKey_agreesBelow (M : Int) (env : TypeEnv) (ff : FloatFormat) (f g : EncodeFn)
    (hfg : EncodeFn.AgreesBelow M f g)
    (s : JSONEncoder) (keyT : GoType) (k : Val) (r : Except Err Wire) (s' : JSONEncoder)
    (h0 : 0 ≤ s.pointerIndex)
    (h : encodeMapKey env ff f s keyT k = (r, s')) (hM : s'.pointerIndex ≤ M) :
    encodeMapKey env ff g s keyT k = (r, s') := by
  unfold encodeMapKey at h ⊢
  split
  · rename_i hc
    rw [if_pos hc] at h
    cases hx : f s keyT k with
    | mk r1 s1 =>
      rw [hx] at h
      have hs : s' = s1 := by
        cases r1 with
        | error e => simp only [Prod.mk.injEq] at h; exact h.2.symm
        | ok w =>
          dsimp only at h
          split at h <;> simp only [Prod.mk.injEq] at h <;> exact h.2.symm
      subst hs
      rw [hfg _ _ _ _ _ h0 hx hM]
      exact h
  · rename_i hc
    rw [if_neg hc] at h
    exact h

theorem encodeMapEntries_agreesBelow (M : Int) (env : TypeEnv) (ff : FloatFormat)
    (f g : EncodeFn) (hfg : EncodeFn.AgreesBelow M f g)
    (hmono : EncodeFn.Respects (fun _ s s' => Grows s s') f)
    (keyT valT : GoType) (encodedKeyT : WType) (entries : List (Val × Val)) :
    ∀ s acc r s', 0 ≤ s.pointerIndex →
      encodeMapEntries env ff f keyT valT encodedKeyT s entries acc = (r, s') →
      s'.pointerIndex ≤ M →
      encodeMapEntries env ff g keyT valT encodedKeyT s entries acc = (r, s') := by
  induction entries with
  | nil =>
    intro s acc r s' _ h _
    simpa [encodeMapEntries] using h
  | cons e rest ih =>
    intro s acc r s' h0 h hM
    obtain ⟨k, v⟩ := e
    unfold encodeMapEntries at h ⊢
    dsimp only at h ⊢
    cases hk : encodeMapKey env ff f s keyT k with
    | mk r1 s1 =>
      rw [hk] at h
      have g1 := (encodeMapKey_respects Grows.stateRel env ff f hmono _ _ _ _ _ hk).2.1
      cases r1 with
      | error err =>
        simp only [Prod.mk.injEq] at h
        obtain ⟨rfl, rfl⟩ := h
        rw [encodeMapKey_agreesBelow M env ff f g hfg _ _ _ _ _ h0 hk hM]
      | ok encodedKey =>
        dsimp only at h ⊢
        cases hv : f s1 valT v with
        | mk r2 s2 =>
          rw [hv] at h
          have g2 := (hmono _ _ _ _ _ hv).2.1
          cases r2 with
          | error err =>
            simp only [Prod.mk.injEq] at h
            obtain ⟨rfl, rfl⟩ := h
            rw [encodeMapKey_agreesBelow M env ff f g hfg _ _ _ _ _ h0 hk (by omega)]
            dsimp only
            rw [hfg _ _ _ _ _ (by omega) hv hM]
          | ok encodedVal =>
            dsimp only at h ⊢
            split at h
            · have g3 := (encodeMapEntries_respects Grows.stateRel env ff f hmono _ _ _ rest
                _ _ _ _ h).2.1
              rw [encodeMapKey_agreesBelow M env ff f g hfg _ _ _ _ _ h0 hk (by omega)]
              dsimp only
              rw [hfg _ _ _ _ _ (by omega) hv (by omega)]
              dsimp only
              rw [if_pos ‹_›]
              exact ih _ _ _ _ (by omega) h hM
            · simp only [Prod.mk.injEq] at h
              obtain ⟨rfl, rfl⟩ := h
              rw [encodeMapKey_agreesBelow M env ff f g hfg _ _ _ _ _ h0 hk (by omega)]
              dsimp only
              rw [hfg _ _ _ _ _ (by omega) hv hM]
              dsimp only
              rw [if_neg ‹_›]

theorem encodeToInterfaceValue_agreesBelow (M : Int) (env : TypeEnv) (ff : FloatFormat)
    (fuel : Nat) (f g : EncodeFn) (hfg : EncodeFn.AgreesBelow M f g)
    (s : JSONEncoder) (inT : GoType) (inV : Val) (r : Except Err (Option InterfaceValue))
    (s' : JSONEncoder) (h0 : 0 ≤ s.pointerIndex)
    (h : encodeToInterfaceValue env ff fuel f s inT inV = (r, s')) (hM : s'.pointerIndex ≤ M) :
    encodeToInterfaceValue env ff fuel g s inT inV = (r, s') := by
  unfold encodeToInterfaceValue at h ⊢
  split
  · rename_i hc
    rw [if_pos hc] at h
    exact h
  · rename_i hc
    rw [if_neg hc] at h
    cases inV <;> (try dsimp only at h ⊢) <;> try exact h
    rename_i o
    cases o with
    | none => exact h
    | some tv =>
      obtain ⟨decodedT, decodedV⟩ := tv
      dsimp only at h ⊢
      cases hx : f s decodedT decodedV with
      | mk r1 s1 =>
        rw [hx] at h
        have hs : s' = s1 := by
          cases r1 with
          | error e => simp only [Prod.mk.injEq] at h; exact h.2.symm
          | ok w =>
            dsimp only at h
            repeat' split at h
            all_goals simp only [Prod.mk.injEq] at h
            all_goals exact h.2.symm
        subst hs
        rw [hfg _ _ _ _ _ h0 hx hM]
        exact h
theorem encodeToPointerValue_agreesBelow (bits : Nat) (env : TypeEnv) (ff : FloatFormat)
    (heap : Heap) (f g : EncodeFn) (hfg : EncodeFn.AgreesBelow (maxInt bits) f g)
    (hmono : EncodeFn.Respects (fun _ s s' => Grows s s') f)
    (s : JSONEncoder) (t : GoType) (v : Val) (r : Except Err PointerValue) (s' : JSONEncoder)
    (h0 : 0 ≤ s.pointerIndex)
    (h : encodeToPointerValue env ff heap f s t v = (r, s')) (hM : s'.pointerIndex ≤ maxInt bits) :
    encodeToPointerValueWrapping bits env ff heap g s t v = (r, s') := by
  unfold encodeToPointerValue at h
  unfold encodeToPointerValueWrapping
  split
  · rename_i hc
    rw [if_pos hc] at h
    exact h
  · rename_i hc
    rw [if_neg hc] at h
    cases v <;> (try dsimp only at h ⊢) <;> try exact h
    rename_i o
    cases o with
    | none =>
      dsimp only at h ⊢
      simp only [Prod.mk.injEq] at h
      obtain ⟨rfl, rfl⟩ := h
      simp only at hM
      rw [incrementInt_of_le bits _ h0 hM]
    | some p =>
      dsimp only at h ⊢
      split
      · rename_i hz
        rw [if_pos hz] at h
        exact h
      · rename_i hz
        rw [if_neg hz] at h
        split
        · rename_i val htab
          rw [htab] at h
          exact h
        · rename_i htab
          rw [htab] at h
          dsimp only at h ⊢
          split
          · rename_i hp
            rw [if_pos hp] at h
            exact h
          · rename_i hp
            rw [if_neg hp] at h
            split
            · rename_i hheap
              rw [hheap] at h
              exact h
            · rename_i pointee hheap
              rw [hheap] at h
              dsimp only at h ⊢
              cases hx : f { s with pendingPointers := Function.update s.pendingPointers p.addr true }
                  (env.elem t) pointee with
              | mk r1 s2 =>
                rw [hx] at h
                have g1 := (hmono _ _ _ _ _ hx).2.1
                simp only at g1
                cases r1 with
                | error e =>
                  simp only [Prod.mk.injEq] at h
                  obtain ⟨rfl, rfl⟩ := h
                  rw [hfg _ _ _ _ _ (by exact h0) hx hM]
                | ok outV =>
                  dsimp only at h ⊢
                  cases hj : jsonMarshalInternal env ff
                      { s2 with pendingPointers := Function.update s2.pendingPointers p.addr false }
                      outV with
                  | error e =>
                    rw [hj] at h
                    simp only [Prod.mk.injEq] at h
                    obtain ⟨rfl, rfl⟩ := h
                    rw [hfg _ _ _ _ _ (by exact h0) hx (by exact hM)]
                    dsimp only
                    rw [hj]
                  | ok value =>
                    rw [hj] at h
                    simp only [Prod.mk.injEq] at h
                    obtain ⟨rfl, rfl⟩ := h
                    simp only at hM
                    rw [hfg _ _ _ _ _ (by exact h0) hx (by omega)]
                    dsimp only
                    rw [hj]
                    dsimp only
                    rw [incrementInt_of_le bits _ (by omega) hM]

/-- The encoder with the counter as a machine integer does what the encoder
that counts without bound does, on every call that starts with a counter that
is not negative and ends with a counter of at most `maxInt bits`. -/
theorem encodeTo_agreesBelow (bits : Nat) (env : TypeEnv) (ff : FloatFormat) (heap : Heap)
    (fuel : Nat) :
    CopyFn.AgreesBelow (maxInt bits) (encodeTo env ff heap fuel)
      (encodeToWrapping bits env ff heap fuel) := by
  induction fuel with
  | zero =>
    intro s t v w r s' _ h _
    exact h
  | succ fuel ih =>
    intro s t v w r s' h0 h hM
    have hmono : CopyFn.Respects (fun _ s s' => Grows s s') (encodeTo env ff heap fuel) :=
      encodeTo_respects Grows.stateRel env ff heap
        (fun enc henc s t v r s' h => encodeToPointerValue_grows env ff heap enc henc s t v r s' h)
        fuel
    have hmonoE : EncodeFn.Respects (fun _ s s' => Grows s s')
        (encodeWith env fuel (encodeTo env ff heap fuel)) :=
      encodeWith_respects Grows.stateRel env fuel _ hmono
    have hE := encodeWith_agreesBelow (maxInt bits) env fuel _ _ ih
    unfold encodeTo at h
    unfold encodeToWrapping
    dsimp only at h ⊢
    split
    · rename_i marshal hm
      rw [hm] at h
      exact h
    · rename_i hm
      rw [hm] at h
      dsimp only at h ⊢
      split
      · rename_i hc
        rw [if_pos hc] at h
        cases hx : encodeToPointerValue env ff heap (encodeWith env fuel (encodeTo env ff heap fuel))
            s t v with
        | mk r1 s1 =>
          rw [hx] at h
          have hs : s' = s1 := by
            cases r1 <;> simp only [Prod.mk.injEq] at h <;> exact h.2.symm
          subst hs
          rw [encodeToPointerValue_agreesBelow bits env ff heap _ _ hE hmonoE _ _ _ _ _ h0 hx hM]
          exact h
      · rename_i hc
        rw [if_neg hc] at h
        split
        · rename_i hc2
          rw [if_pos hc2] at h
          cases hx : encodeToInterfaceValue env ff fuel
              (encodeWith env fuel (encodeTo env ff heap fuel)) s t v with
          | mk r1 s1 =>
            rw [hx] at h
            have hs : s' = s1 := by
              cases r1 <;> simp only [Prod.mk.injEq] at h <;> exact h.2.symm
            subst hs
            rw [encodeToInterfaceValue_agreesBelow (maxInt bits) env ff fuel _ _ hE _ _ _ _ _ h0
              hx hM]
            exact h
        · rename_i hc2
          rw [if_neg hc2] at h
          split
          · rename_i hc3
            rw [if_pos hc3] at h
            exact h
          · rename_i hc3
            rw [if_neg hc3] at h
            split
            · rename_i hc4
              rw [if_pos hc4] at h
              exact h
            · rename_i hc4
              rw [if_neg hc4] at h
              split
              · rename_i hc5
                rw [if_pos hc5] at h
                cases w <;> cases v <;> (try dsimp only at h ⊢) <;> try exact h
                rename_i encodedKeyT encodedValT o
                cases o with
                | none => exact h
                | some entries =>
                  dsimp only at h ⊢
                  cases hx : encodeMapEntries env ff
                      (encodeWith env fuel (encodeTo env ff heap fuel)) (env.key t) (env.elem t)
                      encodedKeyT s entries [] with
                  | mk r1 s1 =>
                    rw [hx] at h
                    have hs : s' = s1 := by
                      cases r1 <;> simp only [Prod.mk.injEq] at h <;> exact h.2.symm
                    subst hs
                    rw [encodeMapEntries_agreesBelow (maxInt bits) env ff _ _ hE hmonoE _ _ _ _
                      _ _ _ _ h0 hx hM]
                    exact h
              · rename_i hc5
                rw [if_neg hc5] at h
                split
                · rename_i hc6
                  rw [if_pos hc6] at h
                  exact copyStruct_agreesBelow (maxInt bits) env _ _ ih hmono _ _ _ _ _ _ h0 h hM
                · rename_i hc6
                  rw [if_neg hc6] at h
                  exact copyCommon_agreesBelow (maxInt bits) env _ _ ih hmono _ _ _ _ _ _ h0 h hM

/-- The two models of the counter: a call of `Encode` that starts with
a counter that is not negative and ends with a counter of at most
`maxInt bits` has the same result and leaves the same state when the counter
is a Go `int` of that width. -/
theorem Encode_agreesBelow (bits : Nat) (env : TypeEnv) (ff : FloatFormat) (heap : Heap)
    (fuel : Nat) (s : JSONEncoder) (inp : Option (GoType × Val)) (r : Except Err String)
    (s' : JSONEncoder) (h0 : 0 ≤ s.pointerIndex)
    (h : Encode env ff heap fuel s inp = (r, s')) (hM : s'.pointerIndex ≤ maxInt bits) :
    EncodeWrapping bits env ff heap fuel s inp = (r, s') := by
  unfold Encode at h
  unfold EncodeWrapping
  cases inp with
  | none => exact h
  | some tv =>
    obtain ⟨inT, inV⟩ := tv
    dsimp only at h ⊢
    cases hx : encode env ff heap fuel s inT inV with
    | mk r1 s1 =>
      rw [hx] at h
      have hs : s' = s1 := by
        cases r1 with
        | error e => simp only [Prod.mk.injEq] at h; exact h.2.symm
        | ok w =>
          dsimp only at h
          repeat' split at h
          all_goals simp only [Prod.mk.injEq] at h
          all_goals exact h.2.symm
      subst hs
      have hE := encodeWith_agreesBelow (maxInt bits) env fuel _ _
        (encodeTo_agreesBelow bits env ff heap fuel)
      have hx2 : encodeWrapping bits env ff heap fuel s inT inV = (r1, s') :=
        hE _ _ _ _ _ h0 hx hM
      rw [hx2]
      exact h
theorem incrementInt_wrapInt (bits : Nat) (x : Int) :
    incrementInt bits (wrapInt bits x) = wrapInt bits (x + 1) := by
  unfold incrementInt wrapInt
  have : ((x + 2 ^ (bits - 1)) % 2 ^ bits - 2 ^ (bits - 1) + 1 + 2 ^ (bits - 1) : Int)
      = (x + 2 ^ (bits - 1)) % 2 ^ bits + 1 := by ring
  rw [this, Int.emod_add_emod]
  congr 2
  ring

/-- The encoding of a nil pointer with the counter as a machine integer: the
counter is incremented, and nothing else of the encoder changes. -/
theorem encodeStepWrapping_nil (bits : Nat) (s : JSONEncoder) :
    EncodeStepWrapping bits s { s with pointerIndex := incrementInt bits s.pointerIndex } := by
  refine ⟨testEnv, noFloats, emptyHeap, 2, some (.pointer (.basic .int), .ptr none),
    (EncodeWrapping bits testEnv noFloats emptyHeap 2 s
      (some (.pointer (.basic .int), .ptr none))).1, ?_⟩
  refine Prod.ext rfl ?_
  have hT : encodedTypeFor testEnv 2 (.pointer (.basic .int)) = .ok .pointerValue := rfl
  have hk : testEnv.kind (.pointer (.basic .int)) = .pointer := rfl
  have hm : testEnv.marshaler (.pointer (.basic .int)) = none := rfl
  simp only [EncodeWrapping, encodeWrapping, encodeWith, hT, encodeToWrapping, hm,
    isPointerValueType, if_true, encodeToPointerValueWrapping, hk, ne_eq, not_true_eq_false,
    if_false, jsonMarshalInternal, jsonMarshal]
  split <;> rfl

/-- After `n` encodings of nil pointers the counter has been incremented `n`
times. -/
theorem encodeStepsWrapping_nil (bits : Nat) (n : Nat) :
    ∀ s : JSONEncoder, Relation.ReflTransGen (EncodeStepWrapping bits) s
      { s with pointerIndex := (incrementInt bits)^[n] s.pointerIndex } := by
  induction n with
  | zero =>
    intro s
    exact Relation.ReflTransGen.refl
  | succ n ih =>
    intro s
    refine Relation.ReflTransGen.head (encodeStepWrapping_nil bits s) ?_
    have := ih { s with pointerIndex := incrementInt bits s.pointerIndex }
    simpa [Function.iterate_succ] using this

theorem iterate_incrementInt (bits : Nat) (n : Nat) (x : Int) :
    (incrementInt bits)^[n] (wrapInt bits x) = wrapInt bits (x + n) := by
  induction n generalizing x with
  | zero => simp
  | succ n ih =>
    rw [Function.iterate_succ, Function.comp_apply, incrementInt_wrapInt, ih]
    congr 1
    push_cast
    ring
theorem encodeStepWrapping_of_eq (bits : Nat) (env : TypeEnv) (ff : FloatFormat) (heap : Heap)
    (fuel : Nat) (s : JSONEncoder) (inp : Option (GoType × Val)) :
    EncodeStepWrapping bits s (EncodeWrapping bits env ff heap fuel s inp).2 :=
  ⟨env, ff, heap, fuel, inp, (EncodeWrapping bits env ff heap fuel s inp).1, rfl⟩

theorem reach_encoderAtMaxInt (bits : Nat) (hb : 1 ≤ bits) :
    Relation.ReflTransGen (EncodeStepWrapping bits) (NewJSONEncoder []) (encoderAtMaxInt bits) := by
  have h := encodeStepsWrapping_nil bits (2 ^ (bits - 1) - 1) (NewJSONEncoder [])
  have h0 : (NewJSONEncoder []).pointerIndex = wrapInt bits 0 := by
    obtain ⟨k, rfl⟩ : ∃ k, bits = k + 1 := ⟨bits - 1, by omega⟩
    simp only [NewJSONEncoder, wrapInt, Nat.add_sub_cancel, zero_add]
    have hp : (2 : Int) ^ (k + 1) = 2 * 2 ^ k := by rw [pow_succ]; ring
    have hpos : (0 : Int) < 2 ^ k := by positivity
    rw [hp, Int.emod_eq_of_lt (by omega) (by omega)]
    ring
  rw [h0, iterate_incrementInt] at h
  have h1 : wrapInt bits (0 + ((2 ^ (bits - 1) - 1 : Nat) : Int)) = maxInt bits := by
    obtain ⟨k, rfl⟩ : ∃ k, bits = k + 1 := ⟨bits - 1, by omega⟩
    simp only [wrapInt, maxInt, Nat.add_sub_cancel, zero_add]
    have hp : (2 : Int) ^ (k + 1) = 2 * 2 ^ k := by rw [pow_succ]; ring
    have hpos : (0 : Int) < 2 ^ k := by positivity
    have hc : (((2 ^ k - 1 : Nat)) : Int) = 2 ^ k - 1 := by
      have : 1 ≤ 2 ^ k := Nat.one_le_two_pow
      push_cast [Nat.cast_sub this]
      ring
    rw [hc, hp, Int.emod_eq_of_lt (by omega) (by omega)]
    ring
  rw [h1] at h
  exact h

theorem reach_encoderAfterOverflow (bits : Nat) (hb : 1 ≤ bits) :
    Relation.ReflTransGen (EncodeStepWrapping bits) (NewJSONEncoder [])
      (encoderAfterOverflow bits) :=
  (reach_encoderAtMaxInt bits hb).tail (encodeStepWrapping_of_eq bits _ _ _ _ _ _)
theorem encoderWithOneBox_counter (bits : Nat) :
    (encoderWithOneBox bits).pointerIndex = wrapInt bits 1 := by
  have : (encoderWithOneBox bits).pointerIndex = incrementInt bits 0 := rfl
  rw [this, incrementInt]
  rfl

theorem reach_encoderWithRepeatedId (bits : Nat) (hb : 1 ≤ bits) :
    Relation.ReflTransGen (EncodeStepWrapping bits) (NewJSONEncoder [])
      (encoderWithRepeatedId bits) := by
  have h1 : Relation.ReflTransGen (EncodeStepWrapping bits) (NewJSONEncoder [])
      (encoderWithOneBox bits) :=
    Relation.ReflTransGen.single (encodeStepWrapping_of_eq bits _ _ _ _ _ _)
  have h2 := encodeStepsWrapping_nil bits (2 ^ bits - 1) (encoderWithOneBox bits)
  rw [encoderWithOneBox_counter, iterate_incrementInt] at h2
  have h3 : wrapInt bits (1 + ((2 ^ bits - 1 : Nat) : Int)) = 0 := by
    have hc : (((2 ^ bits - 1 : Nat)) : Int) = 2 ^ bits - 1 := by
      have : 1 ≤ 2 ^ bits := Nat.one_le_two_pow
      push_cast [Nat.cast_sub this]
      ring
    rw [hc]
    obtain ⟨k, rfl⟩ : ∃ k, bits = k + 1 := ⟨bits - 1, by omega⟩
    simp only [wrapInt, Nat.add_sub_cancel]
    have hp : (2 : Int) ^ (k + 1) = 2 * 2 ^ k := by rw [pow_succ]; ring
    have hpos : (0 : Int) < 2 ^ k := by positivity
    have he : (1 + (2 * 2 ^ k - 1) + 2 ^ k : Int) = 2 ^ k + 2 * 2 ^ k := by ring
    rw [hp, he, Int.add_emod_self, Int.emod_eq_of_lt (by omega) (by omega)]
    ring
  rw [h3] at h2
  exact (h1.trans h2).tail (encodeStepWrapping_of_eq bits _ _ _ _ _ _)

theorem encodeSteps_agreeBelow (bits : Nat) (options : List MarshalJSONOption)
    (s' : JSONEncoder)
    (h : Relation.ReflTransGen EncodeStep (NewJSONEncoder options) s') :
    s'.pointerIndex ≤ maxInt bits →
    Relation.ReflTransGen (EncodeStepWrapping bits) (NewJSONEncoder options) s'
      ∧ TableInv s' := by
  have hnew : TableInv (NewJSONEncoder options) := by
    refine ⟨le_refl _, fun a pv h => ?_, fun a b pva pvb h => ?_⟩
    · cases h
    · cases h
  induction h with
  | refl =>
    intro _
    exact ⟨Relation.ReflTransGen.refl, hnew⟩
  | tail _ hstep ih =>
    intro hM
    obtain ⟨env, ff, heap, fuel, inp, r, hr⟩ := hstep
    have g := (Encode_grows env ff heap fuel _ inp r _ hr).2.1
    obtain ⟨hreach, hinv⟩ := ih (by omega)
    exact ⟨hreach.tail ⟨env, ff, heap, fuel, inp, r,
        Encode_agreesBelow bits env ff heap fuel _ inp r _ hinv.1 hr hM⟩,
      (Encode_keepsTable env ff heap fuel _ inp r _ hr).2 hinv⟩

/-- C26, counterexample: the counter `pointerIndex` is a Go `int`, and its
increment wraps around.  With 64 bits, the encoder that a fresh encoder
becomes by `2 ^ 63 - 1` encodings of nil pointers has the counter at its
largest value; the next box, for the pointer to an `int` variable, gets the id
`-9223372036854775808`, which is not between 1 and the counter.  And the
encoder that has given the id 1 to a pointer and has then encoded `2 ^ 64 - 1`
nil pointers has the counter 0 again and gives the id 1 to the pointer to
another variable, so that two addresses have boxes with the same id.  With 32
bits the same holds after `2 ^ 31 - 1` and `2 ^ 32 - 1` encodings of nil
pointers. -/
theorem reference_id_wraps_around :
    Relation.ReflTransGen (EncodeStepWrapping 64) (NewJSONEncoder []) (encoderAfterOverflow 64)
    ∧ (encoderAtMaxInt 64).pointerIndex = 9223372036854775807
    ∧ (encoderAfterOverflow 64).pointerIndex = -9223372036854775808
    ∧ idOf (encoderAfterOverflow 64) ptrA = some (-9223372036854775808)
    ∧ Relation.ReflTransGen (EncodeStepWrapping 64) (NewJSONEncoder []) (encoderWithRepeatedId 64)
    ∧ ptrA.addr ≠ ptrB.addr
    ∧ idOf (encoderWithRepeatedId 64) ptrA = some 1
    ∧ idOf (encoderWithRepeatedId 64) ptrB = some 1
    ∧ Relation.ReflTransGen (EncodeStepWrapping 32) (NewJSONEncoder []) (encoderAfterOverflow 32)
    ∧ (encoderAtMaxInt 32).pointerIndex = 2147483647
    ∧ idOf (encoderAfterOverflow 32) ptrA = some (-2147483648)
    ∧ Relation.ReflTransGen (EncodeStepWrapping 32) (NewJSONEncoder []) (encoderWithRepeatedId 32)
    ∧ idOf (encoderWithRepeatedId 32) ptrA = some 1
    ∧ idOf (encoderWithRepeatedId 32) ptrB = some 1 := by
  refine ⟨reach_encoderAfterOverflow 64 (by decide), by decide!, by decide!, by decide!,
    reach_encoderWithRepeatedId 64 (by decide), by decide, by decide!, by decide!,
    reach_encoderAfterOverflow 32 (by decide), by decide!, by decide!,
    reach_encoderWithRepeatedId 32 (by decide), by decide!, by decide!⟩
/-- C26, as the code has it: a fresh encoder has the counter 0 and an empty
table.  Every box that `encodeToPointerValue` creates, for a nil pointer or
for a pointer that is not in the table, gets the id that the increment of the
counter yields, as the counter stands when the box is made (for a pointer,
after the encoding of its pointee), and the counter becomes that id.  The
counter is a Go `int`: its increment is one more as long as the result is at
most `maxInt bits` (`2 ^ 63 - 1` with 64 bits, `2 ^ 31 - 1` with 32), so the
first id is 1, and it wraps around to `minInt bits` after that.  As long as at
most `maxInt bits` ids have been given (the counter of the encoder that counts
without bound is at most `maxInt bits`), the encoder with the machine counter
does what the encoder that counts without bound does, with the same results
and the same states; and in every state that `Encode` calls reach from a fresh
encoder within that bound, and in every state that `encode` reaches from such
a state within that bound, the table maps different addresses to boxes with
different ids, each between 1 and the counter. -/
theorem reference_id_invariant :
    (∀ options : List MarshalJSONOption,
      (NewJSONEncoder options).pointerIndex = 0 ∧ TableInv (NewJSONEncoder options))
    ∧ (∀ (bits : Nat) (i : Int), 0 ≤ i → i + 1 ≤ maxInt bits → incrementInt bits i = i + 1)
    ∧ incrementInt 64 0 = 1 ∧ incrementInt 32 0 = 1
    ∧ incrementInt 64 (maxInt 64) = minInt 64 ∧ incrementInt 32 (maxInt 32) = minInt 32
    ∧ (∀ (bits : Nat) (env : TypeEnv) (ff : FloatFormat) (heap : Heap) (encode : EncodeFn)
        (s : JSONEncoder) (inT : GoType), env.kind inT = .pointer →
      ∃ pv s', encodeToPointerValueWrapping bits env ff heap encode s inT (.ptr none) = (.ok pv, s')
        ∧ pv.pointer = incrementInt bits s.pointerIndex ∧ s'.pointerIndex = pv.pointer)
    ∧ (∀ (bits : Nat) (env : TypeEnv) (ff : FloatFormat) (heap : Heap) (encode : EncodeFn)
        (s s' : JSONEncoder) (inT : GoType) (p : Pointer) (pv : PointerValue),
      s.pointerValues p.addr = none →
      encodeToPointerValueWrapping bits env ff heap encode s inT (.ptr (some p)) = (.ok pv, s') →
      ∃ pointee outV s2, heap p.obj = some pointee
        ∧ encode { s with pendingPointers := Function.update s.pendingPointers p.addr true }
            (env.elem inT) pointee = (.ok outV, s2)
        ∧ pv.pointer = incrementInt bits s2.pointerIndex ∧ s'.pointerIndex = pv.pointer
        ∧ s'.pointerValues p.addr = some pv)
    ∧ (∀ (bits : Nat) (env : TypeEnv) (ff : FloatFormat) (heap : Heap) (fuel : Nat)
        (s s' : JSONEncoder) (inp : Option (GoType × Val)) (r : Except Err String),
      0 ≤ s.pointerIndex → Encode env ff heap fuel s inp = (r, s') →
      s'.pointerIndex ≤ maxInt bits →
      EncodeWrapping bits env ff heap fuel s inp = (r, s'))
    ∧ (∀ (bits : Nat) (options : List MarshalJSONOption) (s' : JSONEncoder),
      Relation.ReflTransGen EncodeStep (NewJSONEncoder options) s' →
      s'.pointerIndex ≤ maxInt bits →
      Relation.ReflTransGen (EncodeStepWrapping bits) (NewJSONEncoder options) s'
        ∧ TableInv s')
    ∧ (∀ (bits : Nat) (env : TypeEnv) (ff : FloatFormat) (heap : Heap) (fuel : Nat)
        (s s' : JSONEncoder) (t : GoType) (v : Val) (r : Except Err Wire),
      TableInv s → encode env ff heap fuel s t v = (r, s') → s'.pointerIndex ≤ maxInt bits →
      encodeWrapping bits env ff heap fuel s t v = (r, s') ∧ TableInv s')
    ∧ (EncodeWrapping 64 exampleEnv noFloats intHeap 6 (NewJSONEncoder [])
          (some (.pointer (.basic .int), .ptr (some ptrA)))).1
        = .ok "\x7b\"value\":\x7b\"pointer\":1,\"value\":42\x7d\x7d"
    ∧ (EncodeWrapping 64 exampleEnv noFloats intHeap 6 (NewJSONEncoder [])
          (some (.pointer (.basic .int), .ptr none))).1
        = .ok "\x7b\"value\":\x7b\"pointer\":1,\"value\":null\x7d\x7d"
    ∧ (EncodeWrapping 32 exampleEnv noFloats intHeap 6 (NewJSONEncoder [])
          (some (.pointer (.basic .int), .ptr (some ptrA)))).1
        = .ok "\x7b\"value\":\x7b\"pointer\":1,\"value\":42\x7d\x7d" := by
  have hnew : ∀ options : List MarshalJSONOption, TableInv (NewJSONEncoder options) := by
    intro options
    refine ⟨le_refl _, fun a pv h => ?_, fun a b pva pvb h => ?_⟩
    · cases h
    · cases h
  refine ⟨fun options => ⟨rfl, hnew options⟩, incrementInt_of_le, by decide!, by decide!,
    by decide!, by decide!, ?_, ?_, ?_, ?_, ?_, by decide!, by decide!, by decide!⟩
  · intro bits env ff heap encode s inT hk
    refine ⟨{ pointer := incrementInt bits s.pointerIndex, value := Json.null },
      { s with pointerIndex := incrementInt bits s.pointerIndex }, ?_, rfl, rfl⟩
    unfold encodeToPointerValueWrapping
    simp [hk]
  · intro bits env ff heap encode s s' inT p pv hs h
    unfold encodeToPointerValueWrapping at h
    dsimp only at h
    repeat' split at h
    all_goals simp only [Prod.mk.injEq, reduceCtorEq, false_and, Except.ok.injEq] at h
    · rename_i heq
      rw [hs] at heq
      cases heq
    · obtain ⟨rfl, rfl⟩ := h
      exact ⟨_, _, _, ‹heap p.obj = some _›, ‹encode _ _ _ = _›, rfl, rfl, by simp⟩
  · intro bits env ff heap fuel s s' inp r h0 h hM
    exact Encode_agreesBelow bits env ff heap fuel s inp r s' h0 h hM
  · intro bits options s' h hM
    exact encodeSteps_agreeBelow bits options s' h hM
  · intro bits env ff heap fuel s s' t v r hinv h hM
    refine ⟨?_, (encode_keepsTable env ff heap fuel s t v r s' h).2 hinv⟩
    exact encodeWith_agreesBelow (maxInt bits) env fuel _ _
      (encodeTo_agreesBelow bits env ff heap fuel) s t v r s' hinv.1 h hM

/-! ## Theorems: values without pointers are encoded without the state of the encoder -/

theorem copyItems_stateless (f : CopyFn) (fromElemT : GoType) (toElemT : WType)
    (hf : CopyFn.StatelessOn f fromElemT) (items : List Val) :
    ∀ s s0 : JSONEncoder, copyItems f fromElemT toElemT s items
      = ((copyItems f fromElemT toElemT s0 items).1, s) := by
  induction items with
  | nil => intro s s0; rfl
  | cons v rest ih =>
    intro s s0
    simp only [copyItems]
    rw [hf s s0 v toElemT]
    cases h0 : f s0 fromElemT v toElemT with
    | mk r0 s1 =>
      cases r0 with
      | error e => rfl
      | ok w =>
        dsimp only
        rw [ih s s1]
        cases copyItems f fromElemT toElemT s1 rest with
        | mk r2 s2 => cases r2 <;> rfl

theorem copyArrayLike_stateless (env : TypeEnv) (f : CopyFn) (fromT : GoType)
    (hf : CopyFn.StatelessOn f (env.elem fromT)) (s s0 : JSONEncoder) (fromV : Val) (toT : WType) :
    copyArrayLike env f s fromT fromV toT = ((copyArrayLike env f s0 fromT fromV toT).1, s) := by
  unfold copyArrayLike
  dsimp only
  split
  · rfl
  · split
    · rfl
    · cases toT <;> cases fromV
      all_goals try dsimp only
      · rename_i o
        cases o with
        | none => rfl
        | some items =>
          try dsimp only
          rw [copyItems_stateless f _ _ hf items s s0]
          generalize copyItems f _ _ s0 items = x
          obtain ⟨r1, s1⟩ := x
          cases r1 <;> rfl
      · split
        · rfl
        · rw [copyItems_stateless f _ _ hf _ s s0]
          generalize copyItems f _ _ s0 _ = x
          obtain ⟨r1, s1⟩ := x
          cases r1 <;> rfl

theorem copyCommon_stateless (env : TypeEnv) (f : CopyFn) (fromT : GoType)
    (hf : CopyFn.StatelessOn f (env.elem fromT)) (s s0 : JSONEncoder) (fromV : Val) (toT : WType) :
    copyCommon env f s fromT fromV toT = ((copyCommon env f s0 fromT fromV toT).1, s) := by
  unfold copyCommon
  dsimp only
  split
  · cases toT <;> cases fromV
    all_goals try dsimp only
    split
    · rfl
    · rfl
  · split
    · exact copyArrayLike_stateless env f fromT hf s s0 fromV toT
    · rfl

theorem copyFields_stateless (env : TypeEnv) (f : CopyFn) (originalT : GoType)
    (hf : ∀ p ∈ env.fields originalT, CopyFn.StatelessOn f p.2)
    (vals : List (String × Val)) (fields : List (WFieldInfo × WType)) :
    ∀ s s0 : JSONEncoder, copyFields env f originalT vals s fields
      = ((copyFields env f originalT vals s0 fields).1, s) := by
  induction fields with
  | nil => intro s s0; rfl
  | cons fd rest ih =>
    intro s s0
    obtain ⟨info, ft⟩ := fd
    simp only [copyFields]
    split
    · rfl
    · split
      · rfl
      · rename_i fi2 ft2 hfind
        have hmem : (fi2, ft2) ∈ env.fields originalT := List.mem_of_find?_eq_some hfind
        try dsimp only
        split
        · rfl
        · rename_i fv hlook
          try dsimp only
          rw [hf _ hmem s s0 fv ft]
          cases h0 : f s0 ft2 fv ft with
          | mk r0 s1 =>
            cases r0 with
            | error e => rfl
            | ok w =>
              dsimp only
              rw [ih s s1]
              cases copyFields env f originalT vals s1 rest with
              | mk r2 s2 => cases r2 <;> rfl

theorem copyStruct_stateless (env : TypeEnv) (f : CopyFn) (fromT : GoType)
    (hf : ∀ p ∈ env.fields fromT, CopyFn.StatelessOn f p.2)
    (s s0 : JSONEncoder) (fromV : Val) (toT : WType) :
    copyStruct env f s fromT fromV toT = ((copyStruct env f s0 fromT fromV toT).1, s) := by
  unfold copyStruct
  split
  · rfl
  · cases toT <;> cases fromV
    all_goals try dsimp only
    rw [copyFields_stateless env f fromT hf _ _ s s0]
    generalize copyFields env f fromT _ s0 _ = x
    obtain ⟨r1, s1⟩ := x
    cases r1 <;> rfl

theorem encodeWith_stateless (env : TypeEnv) (fuel : Nat) (f : CopyFn) (t : GoType)
    (hf : CopyFn.StatelessOn f t) : EncodeFn.StatelessOn (encodeWith env fuel f) t := by
  intro s s0 v
  unfold encodeWith
  cases encodedTypeFor env fuel t with
  | error e => rfl
  | ok w =>
    dsimp only
    rw [hf s s0 v w]
    cases f s0 t v w with
    | mk r1 s1 => cases r1 <;> rfl

theorem encodeMapKey_stateless (env : TypeEnv) (ff : FloatFormat) (enc : EncodeFn)
    (keyT : GoType) (hf : EncodeFn.StatelessOn enc keyT) (s s0 : JSONEncoder) (k : Val) :
    encodeMapKey env ff enc s keyT k = ((encodeMapKey env ff enc s0 keyT k).1, s) := by
  unfold encodeMapKey
  split
  · rw [hf s s0 k]
    cases enc s0 keyT k with
    | mk r1 s1 =>
      cases r1 with
      | error e => rfl
      | ok w =>
        dsimp only
        cases jsonMarshal env ff w <;> rfl
  · cases k <;> rfl

theorem encodeMapEntries_stateless_on (env : TypeEnv) (ff : FloatFormat) (enc : EncodeFn)
    (keyT valT : GoType) (encodedKeyT : WType) (hk : EncodeFn.StatelessOn enc keyT)
    (hv : EncodeFn.StatelessOn enc valT) (entries : List (Val × Val)) :
    ∀ (s s0 : JSONEncoder) (acc : List (Wire × Wire)),
      encodeMapEntries env ff enc keyT valT encodedKeyT s entries acc
        = ((encodeMapEntries env ff enc keyT valT encodedKeyT s0 entries acc).1, s) := by
  induction entries with
  | nil => intro s s0 acc; rfl
  | cons e rest ih =>
    intro s s0 acc
    obtain ⟨k, v⟩ := e
    simp only [encodeMapEntries]
    rw [encodeMapKey_stateless env ff enc keyT hk s s0 k]
    cases encodeMapKey env ff enc s0 keyT k with
    | mk r1 s1 =>
      cases r1 with
      | error e => rfl
      | ok encodedKey =>
        dsimp only
        rw [hv s s1 v]
        cases enc s1 valT v with
        | mk r2 s2 =>
          cases r2 with
          | error e => rfl
          | ok encodedVal =>
            dsimp only
            split
            · exact ih s s2 _
            · rfl

/-- The values of a type without pointers and interfaces are encoded without
the state of the encoder. -/
theorem encodeTo_stateless (env : TypeEnv) (ff : FloatFormat) (heap : Heap) (fuel : Nat) :
    ∀ t : GoType, PointerFree env t → CopyFn.StatelessOn (encodeTo env ff heap fuel) t := by
  induction fuel with
  | zero =>
    intro t _ s s0 v w
    rfl
  | succ fuel ih =>
    intro t hpf s s0 v w
    have hno : env.marshaler t = none → env.kind t ≠ .pointer ∧ env.kind t ≠ .interface := by
      intro hm
      cases hpf with
      | marshaler _ h => exact absurd hm h
      | leaf _ h1 h2 _ _ _ _ => exact ⟨h1, h2⟩
      | slice _ h _ => rw [h]; exact ⟨by decide, by decide⟩
      | array _ h _ => rw [h]; exact ⟨by decide, by decide⟩
      | map _ h _ _ => rw [h]; exact ⟨by decide, by decide⟩
      | struct _ h _ => rw [h]; exact ⟨by decide, by decide⟩
    unfold encodeTo
    dsimp only
    split
    · rename_i marshal hm
      cases marshal v <;> rfl
    · rename_i hm
      obtain ⟨hnp, hni⟩ := hno hm
      split
      · simp [encodeToPointerValue, hnp]
      · split
        · simp [encodeToInterfaceValue, hni]
        · split
          · cases encodeToComplexValue env t v <;> rfl
          · split
            · rfl
            · split
              · rename_i hmap
                have hke : PointerFree env (env.key t) ∧ PointerFree env (env.elem t) := by
                  cases hpf with
                  | marshaler _ h => exact absurd hm h
                  | leaf _ _ _ _ _ h _ => exact absurd hmap h
                  | slice _ h _ => rw [h] at hmap; cases hmap
                  | array _ h _ => rw [h] at hmap; cases hmap
                  | map _ _ h1 h2 => exact ⟨h1, h2⟩
                  | struct _ h _ => rw [h] at hmap; cases hmap
                cases w <;> cases v
                all_goals try dsimp only
                rename_i o
                cases o with
                | none => rfl
                | some entries =>
                  try dsimp only
                  rw [encodeMapEntries_stateless_on env ff _ _ _ _
                    (encodeWith_stateless env fuel _ _ (ih _ hke.1))
                    (encodeWith_stateless env fuel _ _ (ih _ hke.2)) entries s s0 []]
                  generalize encodeMapEntries env ff _ _ _ _ s0 entries [] = x
                  obtain ⟨r1, s1⟩ := x
                  cases r1 <;> rfl
              · rename_i hmap
                split
                · rename_i hstruct
                  have hfields : ∀ p ∈ env.fields t, PointerFree env p.2 := by
                    cases hpf with
                    | marshaler _ h => exact absurd hm h
                    | leaf _ _ _ _ _ _ h => exact absurd hstruct h
                    | slice _ h _ => rw [h] at hstruct; cases hstruct
                    | array _ h _ => rw [h] at hstruct; cases hstruct
                    | map _ h _ _ => rw [h] at hstruct; cases hstruct
                    | struct _ _ h => exact h
                  exact copyStruct_stateless env _ t (fun p hp => ih _ (hfields p hp)) s s0 v w
                · rename_i hstruct
                  by_cases hsa : env.kind t = .slice ∨ env.kind t = .array
                  · have hel : PointerFree env (env.elem t) := by
                      cases hpf with
                      | marshaler _ h => exact absurd hm h
                      | leaf _ _ _ h1 h2 _ _ =>
                        rcases hsa with h | h
                        · exact absurd h h1
                        · exact absurd h h2
                      | slice _ _ h => exact h
                      | array _ _ h => exact h
                      | map _ h _ _ => exact absurd h hmap
                      | struct _ h _ => exact absurd h hstruct
                    exact copyCommon_stateless env _ t (ih _ hel) s s0 v w
                  · unfold copyCommon
                    dsimp only
                    split
                    · cases w <;> cases v
                      all_goals try dsimp only
                      split <;> rfl
                    · split
                      · rename_i hc
                        exfalso
                        apply hsa
                        simpa using hc
                      · rfl

/-- An entry whose key and value types hold no pointer and no interface, and
which is encoded in one state, is encoded in the same way in every state. -/
theorem statelessEntry_of_pointerFree (env : TypeEnv) (ff : FloatFormat) (heap : Heap)
    (fuel : Nat) (keyT valT : GoType) (encodedKeyT : WType) (s0 : JSONEncoder)
    (entry : Val × Val) (m : String × Json)
    (hk : PointerFree env keyT) (hv : PointerFree env valT)
    (h : EncodesToMember env ff (encode env ff heap fuel) keyT valT encodedKeyT s0 entry m) :
    StatelessEntry env ff (encode env ff heap fuel) keyT valT encodedKeyT entry m := by
  obtain ⟨t, p, w, s1, s2, hkey, ht, htext, hval, hdoc⟩ := h
  intro s
  have hke : EncodeFn.StatelessOn (encode env ff heap fuel) keyT :=
    encodeWith_stateless env fuel _ _ (encodeTo_stateless env ff heap fuel keyT hk)
  have hve : EncodeFn.StatelessOn (encode env ff heap fuel) valT :=
    encodeWith_stateless env fuel _ _ (encodeTo_stateless env ff heap fuel valT hv)
  refine ⟨t, p, w, ?_, ht, htext, ?_, hdoc⟩
  · rw [encodeMapKey_stateless env ff _ keyT hke s s0 entry.1, hkey]
  · rw [hve s s0 entry.2, hval]

/-- The output of `MarshalJSON` for a map whose key and value types hold no
pointer and no interface, whose entries are encoded by a fresh encoder and
whose keys have different texts: the object of the members sorted by key, in
the envelope. -/
theorem MarshalJSON_map_pointerFree (env : TypeEnv) (ff : FloatFormat) (heap : Heap) (fuel : Nat)
    (options : List MarshalJSONOption) (t : GoType) (keyW valW : WType)
    (entries : List (Val × Val)) (members : List (String × Json))
    (hm : env.marshaler t = none) (hk : env.kind t = .map)
    (hmirror : encodedTypeFor env (fuel + 1) t = .ok (.map keyW valW))
    (hpk : PointerFree env (env.key t)) (hpv : PointerFree env (env.elem t))
    (hent : List.Forall₂ (EncodesToMember env ff (encode env ff heap fuel) (env.key t)
      (env.elem t) keyW (NewJSONEncoder options)) entries members)
    (hnd : (members.map Prod.fst).Nodup) :
    MarshalJSON env ff heap (fuel + 1) (some (t, .map (some entries))) options
      = .ok (envelopeText (NewJSONEncoder options).config
          (.obj (members.foldr insertMember []))) :=
  MarshalJSON_map_stateless env ff heap fuel options t keyW valW entries members hm hk hmirror
    (hent.imp (fun entry m h =>
      statelessEntry_of_pointerFree env ff heap fuel _ _ keyW _ entry m hpk hpv h)) hnd

/-- C39, counterexample: the map `map[string]*int{"a": &int1, "b": &int2}`
encodes to different bytes when its entries are visited in the order a, b and
in the order b, a, because the pointer that is visited first gets the id 1;
the same holds for the map `map[*int]string{&int1: "a", &int2: "b"}`, whose
keys are the texts of the boxes.  The map `map[hidden]int{{1}: 10, {2}: 20}`
holds no pointer; its two keys have the same text `{}`, the entry that is
visited last wins, and the bytes differ with the order too. -/
theorem map_visit_order_changes_ids :
    [("a", ptrA), ("b", ptrB)].Perm [("b", ptrB), ("a", ptrA)]
    ∧ MarshalJSON testEnv noFloats intHeap 6 (stringPointerMap [("a", ptrA), ("b", ptrB)]) []
        = .ok ("\x7b\"value\":\x7b\"a\":\x7b\"pointer\":1,\"value\":42\x7d,"
            ++ "\"b\":\x7b\"pointer\":2,\"value\":53\x7d\x7d\x7d")
    ∧ MarshalJSON testEnv noFloats intHeap 6 (stringPointerMap [("b", ptrB), ("a", ptrA)]) []
        = .ok ("\x7b\"value\":\x7b\"a\":\x7b\"pointer\":2,\"value\":42\x7d,"
            ++ "\"b\":\x7b\"pointer\":1,\"value\":53\x7d\x7d\x7d")
    ∧ MarshalJSON testEnv noFloats intHeap 6 (stringPointerMap [("a", ptrA), ("b", ptrB)]) []
        ≠ MarshalJSON testEnv noFloats intHeap 6 (stringPointerMap [("b", ptrB), ("a", ptrA)]) []
    ∧ MarshalJSON testEnv noFloats intHeap 6 (pointerStringMap [(ptrA, "a"), (ptrB, "b")]) []
        = .ok ("\x7b\"value\":\x7b\"\x7b\\\"pointer\\\":1,\\\"value\\\":42\x7d\":\"a\","
            ++ "\"\x7b\\\"pointer\\\":2,\\\"value\\\":53\x7d\":\"b\"\x7d\x7d")
    ∧ MarshalJSON testEnv noFloats intHeap 6 (pointerStringMap [(ptrB, "b"), (ptrA, "a")]) []
        = .ok ("\x7b\"value\":\x7b\"\x7b\\\"pointer\\\":1,\\\"value\\\":53\x7d\":\"b\","
            ++ "\"\x7b\\\"pointer\\\":2,\\\"value\\\":42\x7d\":\"a\"\x7d\x7d")
    ∧ MarshalJSON exampleEnv noFloats emptyHeap 8 hiddenKeyMap []
        = .ok "\x7b\"value\":\x7b\"\x7b\x7d\":20\x7d\x7d"
    ∧ MarshalJSON exampleEnv noFloats emptyHeap 8 hiddenKeyMapSwapped []
        = .ok "\x7b\"value\":\x7b\"\x7b\x7d\":10\x7d\x7d" := by
  refine ⟨List.Perm.swap _ _ _, by decide!, by decide!, by decide!, by decide!, by decide!,
    by decide!, by decide!⟩

/-- C39, as the code has it: `Encode` visits the entries of a map in the order
of `MapRange` and gives the reference ids in the order of the visits, so the
bytes are a function of the value, the options and that order.  The order of
the visits of a map does not matter when every entry of the map is encoded
without the state of the encoder (`StatelessEntry`: in every state the entry
yields a key with the same text and a value with the same document, and the
state is left as it was) and the texts of the keys are different: in every
type environment such a map prints as the object of the members sorted by
key, in the envelope, so that two orders of visiting the same entries give the
same bytes.  The entries of a map whose key type and value type hold no
pointer and no interface (`PointerFree`) are encoded in that way when a fresh
encoder encodes them at all, and so is every entry with a key of string or
integer kind and a value of a primitive kind that `encoding/json` prints, in
a wire map with keys of the key type; so `map[string]int` with any entries
with different keys, and `map[point]int{{1, 2}: 3, {2, 3}: 1}`, give the same
bytes in every order.  The order does matter for pointers met in two entries:
for the map `map[string]*int` with two entries, whatever the keys are, the
pointer `&int1` gets the id 1 when it is visited first and the id 2 when it is
visited second. -/
theorem encode_deterministic_up_to_visit_order :
    (∀ (env : TypeEnv) (ff : FloatFormat) (heap : Heap) (fuel : Nat)
        (options : List MarshalJSONOption) (t : GoType) (keyW valW : WType)
        (entries : List (Val × Val)) (members : List (String × Json)),
      env.marshaler t = none → env.kind t = .map →
      encodedTypeFor env (fuel + 1) t = .ok (.map keyW valW) →
      List.Forall₂ (StatelessEntry env ff (encode env ff heap fuel) (env.key t) (env.elem t)
        keyW) entries members →
      (members.map Prod.fst).Nodup →
      MarshalJSON env ff heap (fuel + 1) (some (t, .map (some entries))) options
        = .ok (envelopeText (NewJSONEncoder options).config
            (.obj (members.foldr insertMember []))))
    ∧ (∀ (env : TypeEnv) (ff : FloatFormat) (heap : Heap) (fuel : Nat)
        (options : List MarshalJSONOption) (t : GoType) (keyW valW : WType)
        (entries entries' : List (Val × Val)) (members : List (String × Json)),
      env.marshaler t = none → env.kind t = .map →
      encodedTypeFor env (fuel + 1) t = .ok (.map keyW valW) →
      List.Forall₂ (StatelessEntry env ff (encode env ff heap fuel) (env.key t) (env.elem t)
        keyW) entries members →
      (members.map Prod.fst).Nodup → entries.Perm entries' →
      MarshalJSON env ff heap (fuel + 1) (some (t, .map (some entries))) options
        = MarshalJSON env ff heap (fuel + 1) (some (t, .map (some entries'))) options)
    ∧ (∀ (env : TypeEnv) (ff : FloatFormat) (heap : Heap) (fuel : Nat)
        (options : List MarshalJSONOption) (t : GoType) (keyW valW : WType)
        (entries entries' : List (Val × Val)) (members : List (String × Json)),
      env.marshaler t = none → env.kind t = .map →
      encodedTypeFor env (fuel + 1) t = .ok (.map keyW valW) →
      PointerFree env (env.key t) → PointerFree env (env.elem t) →
      List.Forall₂ (EncodesToMember env ff (encode env ff heap fuel) (env.key t) (env.elem t)
        keyW (NewJSONEncoder options)) entries members →
      (members.map Prod.fst).Nodup → entries.Perm entries' →
      MarshalJSON env ff heap (fuel + 1) (some (t, .map (some entries))) options
          = .ok (envelopeText (NewJSONEncoder options).config
              (.obj (members.foldr insertMember [])))
        ∧ MarshalJSON env ff heap (fuel + 1) (some (t, .map (some entries'))) options
          = MarshalJSON env ff heap (fuel + 1) (some (t, .map (some entries))) options)
    ∧ PointerFree exampleEnv pointType ∧ PointerFree exampleEnv (.basic .int)
    ∧ (∀ (env : TypeEnv) (ff : FloatFormat) (heap : Heap) (fuel : Nat) (keyT valT : GoType)
        (p q : Prim) (key : String) (doc : Json),
      isSimplePrimitive (env.kind keyT) = true →
      env.marshaler valT = none → isSimplePrimitive (env.kind valT) = true →
      jsonMapKey env (.prim keyT p) = .ok key → jsonPrim env ff valT q = .ok doc →
      StatelessEntry env ff (encode env ff heap (fuel + 1)) keyT valT (.prim keyT)
        (.prim p, .prim q) (key, doc))
    ∧ (∀ (ff : FloatFormat) (heap : Heap) (fuel : Nat) (options : List MarshalJSONOption)
        (entries : List (String × Int)),
      (entries.map Prod.fst).Nodup →
      MarshalJSON testEnv ff heap (fuel + 2) (stringIntMap entries) options
        = .ok (envelopeText (NewJSONEncoder options).config
            (.obj ((stringIntMembers entries).foldr insertMember []))))
    ∧ (∀ (ff : FloatFormat) (heap : Heap) (fuel : Nat) (options : List MarshalJSONOption)
        (entries entries' : List (String × Int)),
      entries.Perm entries' → (entries.map Prod.fst).Nodup →
      MarshalJSON testEnv ff heap (fuel + 2) (stringIntMap entries) options
        = MarshalJSON testEnv ff heap (fuel + 2) (stringIntMap entries') options)
    ∧ MarshalJSON testEnv noFloats emptyHeap 2 (stringIntMap [("b", 2), ("a", 1), ("c", 3)]) []
        = .ok "\x7b\"value\":\x7b\"a\":1,\"b\":2,\"c\":3\x7d\x7d"
    ∧ MarshalJSON exampleEnv noFloats emptyHeap 8 (pointIntMap [((1, 2), 3), ((2, 3), 1)]) []
        = .ok ("\x7b\"value\":\x7b\"\x7b\\\"x\\\":1,\\\"y\\\":2\x7d\":3,"
            ++ "\"\x7b\\\"x\\\":2,\\\"y\\\":3\x7d\":1\x7d\x7d")
    ∧ MarshalJSON exampleEnv noFloats emptyHeap 8 (pointIntMap [((2, 3), 1), ((1, 2), 3)]) []
        = .ok ("\x7b\"value\":\x7b\"\x7b\\\"x\\\":1,\\\"y\\\":2\x7d\":3,"
            ++ "\"\x7b\\\"x\\\":2,\\\"y\\\":3\x7d\":1\x7d\x7d")
    ∧ (∀ k1 k2 : String,
      idOf (encode testEnv noFloats intHeap 5 (NewJSONEncoder [])
          (.map (.basic .string) (.pointer (.basic .int)))
          (.map (some [(.prim (.str k1), .ptr (some ptrA)), (.prim (.str k2), .ptr (some ptrB))]))).2
        ptrA = some 1
      ∧ idOf (encode testEnv noFloats intHeap 5 (NewJSONEncoder [])
          (.map (.basic .string) (.pointer (.basic .int)))
          (.map (some [(.prim (.str k1), .ptr (some ptrB)), (.prim (.str k2), .ptr (some ptrA))]))).2
        ptrA = some 2) := by
  refine ⟨?_, ?_, ?_, ?_, ?_, ?_, MarshalJSON_stringIntMap, ?_, by decide!, by decide!,
    by decide!, ?_⟩
  · intro env ff heap fuel options t keyW valW entries members hm hk hmirror hent hnd
    exact MarshalJSON_map_stateless env ff heap fuel options t keyW valW entries members hm hk
      hmirror hent hnd
  · intro env ff heap fuel options t keyW valW entries entries' members hm hk hmirror hent hnd hp
    obtain ⟨members', hent', hp'⟩ := List.perm_comp_forall₂ hp.symm hent
    have hnd' : (members'.map Prod.fst).Nodup := (hp'.map Prod.fst).nodup_iff.2 hnd
    rw [MarshalJSON_map_stateless env ff heap fuel options t keyW valW entries members hm hk
        hmirror hent hnd,
      MarshalJSON_map_stateless env ff heap fuel options t keyW valW entries' members' hm hk
        hmirror hent' hnd']
    rw [foldr_insertMember_perm _ _ hp' hnd']
  · intro env ff heap fuel options t keyW valW entries entries' members hm hk hmirror hpk hpv
      hent hnd hp
    obtain ⟨members', hent', hp'⟩ := List.perm_comp_forall₂ hp.symm hent
    have hnd' : (members'.map Prod.fst).Nodup := (hp'.map Prod.fst).nodup_iff.2 hnd
    have h1 := MarshalJSON_map_pointerFree env ff heap fuel options t keyW valW entries members
      hm hk hmirror hpk hpv hent hnd
    have h2 := MarshalJSON_map_pointerFree env ff heap fuel options t keyW valW entries' members'
      hm hk hmirror hpk hpv hent' hnd'
    refine ⟨h1, ?_⟩
    rw [h1, h2, foldr_insertMember_perm _ _ hp' hnd']
  · refine PointerFree.struct _ rfl ?_
    intro p hp
    have hf : exampleEnv.fields pointType
        = [({ name := "x" }, .basic .int), ({ name := "y" }, .basic .int)] := rfl
    rw [hf] at hp
    simp only [List.mem_cons, List.mem_singleton, List.not_mem_nil, or_false] at hp
    rcases hp with rfl | rfl <;>
      exact PointerFree.leaf _ (by decide) (by decide) (by decide) (by decide) (by decide)
        (by decide)
  · exact PointerFree.leaf _ (by decide) (by decide) (by decide) (by decide) (by decide)
      (by decide)
  · intro env ff heap fuel keyT valT p q key doc hk hvm hv hkey hdoc
    exact statelessEntry_primitive env ff heap fuel keyT valT p q key doc hk hvm hv hkey hdoc
  · intro ff heap fuel options entries entries' hp hnd
    have hnd' : (entries'.map Prod.fst).Nodup := (hp.map Prod.fst).nodup_iff.1 hnd
    rw [MarshalJSON_stringIntMap ff heap fuel options entries hnd,
      MarshalJSON_stringIntMap ff heap fuel options entries' hnd']
    have hm : (stringIntMembers entries).Perm (stringIntMembers entries') := hp.map _
    have hk : ((stringIntMembers entries).map Prod.fst).Nodup := by
      simpa [stringIntMembers, Function.comp_def] using hnd
    rw [foldr_insertMember_perm _ _ hm hk]
  · intro k1 k2
    exact ⟨rfl, rfl⟩

/-! ## Theorems: unsupported kinds, with the mirror returning (C16) -/

theorem branch_mirror_outOfFuel (fuel : Nat) :
    createEncodedTypeFor branchEnv fuel branchType = .error .outOfFuel
    ∧ createEncodedTypeFor branchEnv fuel (.slice branchType) = .error .outOfFuel := by
  induction fuel with
  | zero => exact ⟨rfl, rfl⟩
  | succ n ih =>
    constructor
    · rw [createEncodedTypeFor_struct branchEnv n branchType rfl rfl]
      have hf : branchEnv.fields branchType
          = [({ name := "kids" }, .slice branchType), ({ name := "c" }, .basic .chan)] := rfl
      rw [hf, mirrorStructFields]
      simp [ih.2, Err.wrap, List.lookup, cutComma]
    · rw [createEncodedTypeFor_slice branchEnv n (.slice branchType) rfl rfl]
      have he : branchEnv.elem (.slice branchType) = branchType := rfl
      rw [he, ih.1]
      rfl

/-- The mirror of a type with an unsupported type inside returns an error
when it needs finitely many nested calls. -/
theorem hasUnsupported_error_returned (env : TypeEnv) (t : GoType)
    (h : HasUnsupported env t) (hm : Mirrorable env t) :
    ∃ fuel0 e, e ≠ Err.outOfFuel
      ∧ ∀ more, createEncodedTypeFor env (fuel0 + more) t = .error e := by
  obtain ⟨fuel0, h0⟩ := mirrorable_returns env t hm
  have h00 := h0 0
  rw [Nat.add_zero] at h00
  cases hr : createEncodedTypeFor env fuel0 t with
  | ok w => exact absurd hr (hasUnsupported_not_ok env t h fuel0 w)
  | error e =>
    have hne : e ≠ Err.outOfFuel := by
      intro he
      rw [hr, he] at h00
      exact h00 rfl
    refine ⟨fuel0, e, hne, fun more => ?_⟩
    exact createEncodedTypeFor_mono env fuel0 t _ hr (by rw [← hr]; exact h00) more

/-- C16, counterexample: the struct with the fields `Field1` and `Field2`,
both named `same`, and then a channel `C` has a channel as a retained field
and does not implement `json.Marshaler`, and its mirror fails with the
duplicate-name error, which does not mention an unsupported kind.  The type
`branch struct { kids []branch; c chan int }` has a channel as a retained
field too, and its mirror returns nothing at all: it runs out of every
fuel, mirroring `branch` for `[]branch` for `branch` without end. -/
theorem unsupported_field_after_duplicate :
    HasUnsupported exampleEnv (.struct (FieldList.ofList duplicateChanFields))
    ∧ (∀ fuel : Nat, ∃ m,
        encodedTypeFor exampleEnv (fuel + 2) (.struct (FieldList.ofList duplicateChanFields))
          = .error (.msg m)
        ∧ ¬ (Err.msg m).Contains "unsupported kind")
    ∧ HasUnsupported branchEnv branchType
    ∧ ∀ fuel : Nat, encodedTypeFor branchEnv fuel branchType = .error .outOfFuel := by
  refine ⟨?_, ?_, ?_, ?_⟩
  · exact HasUnsupported.field _ { name := "C" } (.basic .chan) rfl rfl (by decide) rfl
      (HasUnsupported.direct _ rfl (Or.inl rfl))
  · intro fuel
    refine ⟨"createEncodedTypeFor(): duplicate JSON field name \"same\" "
      ++ "(struct fields \"Field1\" and \"Field2\")", rfl, ?_⟩
    intro h
    have := h.isInfix
    revert this
    decide!
  · exact HasUnsupported.field _ { name := "c" } (.basic .chan) rfl rfl (by decide) rfl
      (HasUnsupported.direct _ rfl (Or.inl rfl))
  · intro fuel
    exact (branch_mirror_outOfFuel fuel).1

/-- C16, as the code has it: for a type that does not implement
`json.Marshaler`, `encodedTypeFor` returns the "unsupported kind" error for
every channel, function and unsafe pointer.  The mirror of a slice, array, map
or struct that has such a type as element, key, value or retained field never
returns a wire type; when the type needs finitely many nested mirror calls
(`Mirrorable`: it does not refer to itself through slices, arrays, maps and
struct fields alone), the mirror returns an error, the same for every fuel
that is enough, and this error is the "unsupported kind" error when nothing
else goes wrong before the mirror meets the unsupported type
(`FirstUnsupported`).  A struct type whose retained fields mirror and have
different wire names is mirrored, whatever the types of its omitted fields
are; `skipFields`, whose function field has the tag `-`, is mirrored and
encoded.  The type `[]map[string]chan int` is a type of all three kinds. -/
theorem unsupported_kind_rejected :
    (∀ (env : TypeEnv) (fuel : Nat) (t : GoType), env.implementsMarshaler t = false →
      (env.kind t = .chan ∨ env.kind t = .func ∨ env.kind t = .unsafePointer) →
      encodedTypeFor env (fuel + 1) t
        = .error (.msg ("createEncodedTypeFor: unsupported kind " ++ (env.kind t).toString
            ++ " for " ++ typeString t)))
    ∧ (∀ (env : TypeEnv) (t : GoType), HasUnsupported env t →
      ∀ (fuel : Nat) (w : WType), encodedTypeFor env fuel t ≠ .ok w)
    ∧ (∀ (env : TypeEnv) (t : GoType), HasUnsupported env t → Mirrorable env t →
      ∃ fuel0 e, e ≠ Err.outOfFuel
        ∧ ∀ more, encodedTypeFor env (fuel0 + more) t = .error e)
    ∧ (∀ (env : TypeEnv) (t : GoType), FirstUnsupported env t →
      ∃ fuel0, ∀ more, ∃ e, encodedTypeFor env (fuel0 + more) t = .error e
        ∧ e.Contains "unsupported kind")
    ∧ (∀ (env : TypeEnv) (fuel : Nat) (t : GoType), env.implementsMarshaler t = false →
      env.kind t = .struct → (retainedNames (env.fields t)).Nodup →
      (∀ p ∈ env.fields t, isRetained p.1 = true → ∃ w, createEncodedTypeFor env fuel p.2 = .ok w) →
      ∃ w, encodedTypeFor env (fuel + 1) t = .ok w)
    ∧ MarshalJSON exampleEnv noFloats emptyHeap 6 (some (.basic .chan, .other)) []
        = .error (.msg "MarshalJSON: encode(): createEncodedTypeFor: unsupported kind chan for chan")
    ∧ MarshalJSON exampleEnv noFloats emptyHeap 6 (some (.basic .func, .other)) []
        = .error (.msg "MarshalJSON: encode(): createEncodedTypeFor: unsupported kind func for func")
    ∧ MarshalJSON exampleEnv noFloats emptyHeap 6 (some (.basic .unsafePointer, .other)) []
        = .error (.msg ("MarshalJSON: encode(): createEncodedTypeFor: unsupported kind "
          ++ "unsafe.Pointer for unsafe.Pointer"))
    ∧ FirstUnsupported exampleEnv (.slice (.map (.basic .string) (.basic .chan)))
    ∧ HasUnsupported exampleEnv (.slice (.map (.basic .string) (.basic .chan)))
    ∧ Mirrorable exampleEnv (.slice (.map (.basic .string) (.basic .chan)))
    ∧ Mirrorable exampleEnv (.struct (FieldList.ofList duplicateChanFields))
    ∧ encodedTypeFor exampleEnv 2 (.named (localName "skipFields"))
        = .ok (.struct [(wireFieldOf 0 { name := "value" }, .prim (.basic .int))])
    ∧ MarshalJSON exampleEnv noFloats emptyHeap 6 skipFieldsVal []
        = .ok "\x7b\"value\":\x7b\"value\":1\x7d\x7d" := by
  refine ⟨?_, ?_, ?_, ?_, ?_, by decide!, by decide!, by decide!, ?_, ?_, ?_, ?_, rfl,
    by decide!⟩
  · intro env fuel t hm hk
    exact createEncodedTypeFor_unsupported env fuel t hm hk
  · intro env t h fuel w
    exact hasUnsupported_not_ok env t h fuel w
  · intro env t h hm
    exact hasUnsupported_error_returned env t h hm
  · intro env t h
    exact firstUnsupported_error env t h
  · intro env fuel t hm hk hnd hok
    unfold encodedTypeFor
    rw [createEncodedTypeFor_struct env fuel t hm hk]
    rcases mirrorStructFields_nodup (createEncodedTypeFor env fuel) (env.fields t) 0 [] hnd
      (fun n _ => rfl) with ⟨out, hout⟩ | ⟨p, hp, hr, e, he, _⟩
    · exact ⟨.struct out, by rw [hout]⟩
    · obtain ⟨w, hw⟩ := hok p hp hr
      rw [hw] at he
      cases he
  · refine FirstUnsupported.slice _ rfl rfl ?_
    refine FirstUnsupported.mapElem _ rfl rfl ⟨1, .prim (.basic .string), rfl⟩ ?_
    exact FirstUnsupported.direct _ rfl (Or.inl rfl)
  · refine HasUnsupported.slice _ rfl rfl ?_
    refine HasUnsupported.mapElem _ rfl rfl ?_
    exact HasUnsupported.direct _ rfl (Or.inl rfl)
  · refine Mirrorable.slice _ rfl ?_
    refine Mirrorable.map _ rfl ?_ ?_
    · exact Mirrorable.leaf _ (Or.inr (by decide))
    · exact Mirrorable.leaf _ (Or.inr (by decide))
  · refine Mirrorable.struct _ rfl ?_
    intro p hp _
    refine Mirrorable.leaf _ (Or.inr ?_)
    have hf : exampleEnv.fields (.struct (FieldList.ofList duplicateChanFields))
        = duplicateChanFields := by rfl
    rw [hf] at hp
    simp [duplicateChanFields, duplicateFields] at hp
    rcases hp with rfl | rfl | rfl <;> decide

end Unsafely
